import Mathlib

/-!
Data structures of `advanced_data_structures.cpp` and `basic_data_structures.cpp`.

A shallow embedding of the two range-sum structures of the repository,
`SegmentTree` (range add, range sum, lazy propagation) and `FenwickTree`
(point add, prefix sum), of its disjoint set, of its AVL tree, of its
linked list with the priority queue built on it, and of its dynamic array,
flat set and deque, followed by theorems about them.

Conventions of the embedding.

* A `std::vector<int>` is a `List R`.  An access outside the vector is
  undefined behaviour in C++; here every read and write is checked and the
  operation stops with `Err.outOfBounds`.
* The element type `int` is a commutative ring `R` with decidable equality.
  `R = Int` is the reading without overflow, `R = ZMod (2 ^ 32)` is
  two's complement wrap-around: every theorem below holds for both.
* Indices (`idx`, `left`, `right`, `l`, `r`, `i`, `n`) are `Int`; `/` on them is
  C++ division (`Int.tdiv`, rounding towards zero) and `i & -i` is taken on the
  32-bit two's complement representation.  The `int` expressions that can
  leave the 32-bit range on an `int` input are reduced to it by `wrap32`:
  the product `4*n` of `SegmentTree(int)`, the sum `size+1` of
  `FenwickTree(int)`, the sum in `i+=(i & -i)` of `FenwickTree::update` and
  the difference `l-1` of `FenwickTree::rangeSum`.  With the wrapped `4*n`,
  the constructor and `build` return only for fewer than `2 ^ 29` elements
  (`fromArray_bound`, `Reachable.small`), and then `idx*2+1`, `left+right`
  and `right-left+1` stay in the range where they are computed (`Ctx.fits`);
  in `prefixSum` the difference `i - (i & -i)` lies between 0 and `i`.
* Recursion and loops carry a `fuel : Nat`; running out of it is
  `Err.outOfFuel`.  Theorems that say an operation returns give a fuel bound
  from which it does.
* A pointer is the null pointer or an address; following the null pointer or
  a dangling one is undefined behaviour in C++ and stops with
  `Err.nullDeref`.
* `Err.underflow`, `Err.overflow` and `Err.outOfRange` are the exceptions
  `std::underflow_error`, `std::overflow_error` and `std::out_of_range`.
* An array `new T[k]` is a `List (Option T)` of `k` slots; a slot that was never
  written holds nothing, and reading it stops with `Err.uninit`.  Counters
  of type `std::size_t` are `Nat`.
-/

namespace DSA

/-- Ways in which an embedded operation can stop without a result. -/
inductive Err where
  | outOfBounds
  | outOfFuel
  | badAlloc
  | nullDeref
  | underflow
  | overflow
  | outOfRange
  | uninit
  deriving DecidableEq, Repr

/-- Reading `a[i]`, for a `std::vector` `a` and an `int` index `i`. -/
def rd {R : Type} (a : List R) (i : Int) : Except Err R :=
  if 0 ≤ i then
    match a[i.toNat]? with
    | some v => .ok v
    | none => .error .outOfBounds
  else .error .outOfBounds

/-- Writing `a[i] = v`, for a `std::vector` `a` and an `int` index `i`. -/
def wr {R : Type} (a : List R) (i : Int) (v : R) : Except Err (List R) :=
  if 0 ≤ i ∧ i.toNat < a.length then .ok (a.set i.toNat v) else .error .outOfBounds

/-- The vectors `v.resize(k, 0)` (from empty) and `std::vector<int>(k, 0)` for an
`int` expression `k`: a negative `k` converts to a huge `size_t` and the
allocation throws. -/
def zeros {R : Type} [Zero R] (k : Int) : Except Err (List R) :=
  if 0 ≤ k then .ok (List.replicate k.toNat 0) else .error .badAlloc

/-- The value of an `int` expression whose mathematical value is `z`: the
reduction of `z` modulo `2 ^ 32` to the signed 32-bit range.  Signed overflow is
undefined behaviour in C++; the wrap-around is what the usual targets do. -/
def wrap32 (z : Int) : Int := (z + 2 ^ 31) % 2 ^ 32 - 2 ^ 31

/-! ## Segment tree -/

/-- The fields of `class SegmentTree`. -/
structure SegmentTree (R : Type) where
  seg : List R
  lazy : List R
  n : Int

namespace SegmentTree

variable {R : Type} [CommRing R] [DecidableEq R]

/-- The constructor `SegmentTree(int size)`; the product `4*n` is an `int`. -/
def ctor (size : Int) : Except Err (SegmentTree R) :=
  match zeros (wrap32 (4 * size)) with
  | .error e => .error e
  | .ok z => .ok { seg := z, lazy := z, n := size }

/-- The private `build(arr, idx, left, right)`. -/
def buildRec (fuel : Nat) (arr : List R) (s : SegmentTree R) (idx left right : Int) :
    Except Err (SegmentTree R) :=
  match fuel with
  | 0 => .error .outOfFuel
  | fuel + 1 =>
    if left = right then
      (rd arr left).bind fun v =>
      (wr s.seg idx v).bind fun seg =>
      .ok { s with seg := seg }
    else
      let mid := Int.tdiv (left + right) 2
      (buildRec fuel arr s (idx * 2) left mid).bind fun s =>
      (buildRec fuel arr s (idx * 2 + 1) (mid + 1) right).bind fun s =>
      (rd s.seg (idx * 2)).bind fun a =>
      (rd s.seg (idx * 2 + 1)).bind fun b =>
      (wr s.seg idx (a + b)).bind fun seg =>
      .ok { s with seg := seg }

/-- The private `propagate(idx, left, right)`; `lazy[idx]` is read again by
every statement that mentions it, as in the source. -/
def propagate (s : SegmentTree R) (idx left right : Int) : Except Err (SegmentTree R) :=
  (rd s.lazy idx).bind fun c =>
  if c ≠ 0 then
    (rd s.lazy idx).bind fun lz =>
    (rd s.seg idx).bind fun sv =>
    (wr s.seg idx (sv + ((right - left + 1 : Int) : R) * lz)).bind fun seg =>
    (if left < right then
        (rd s.lazy idx).bind fun lz1 =>
        (rd s.lazy (idx * 2)).bind fun a =>
        (wr s.lazy (idx * 2) (a + lz1)).bind fun lazy1 =>
        (rd lazy1 idx).bind fun lz2 =>
        (rd lazy1 (idx * 2 + 1)).bind fun b =>
        wr lazy1 (idx * 2 + 1) (b + lz2)
      else .ok s.lazy).bind fun lazy2 =>
    (wr lazy2 idx 0).bind fun lazy3 =>
    .ok { s with seg := seg, lazy := lazy3 }
  else .ok s

/-- The private `rangeQuery(idx, left, right, ql, qr)`: the value returned and
the state left behind.  The two recursive calls are operands of one `+`,
whose evaluation order C++ leaves open; the left call is taken first. -/
def rangeQuery (fuel : Nat) (s : SegmentTree R) (idx left right ql qr : Int) :
    Except Err (R × SegmentTree R) :=
  match fuel with
  | 0 => .error .outOfFuel
  | fuel + 1 =>
    (propagate s idx left right).bind fun s =>
    if right < ql ∨ left > qr then .ok (0, s)
    else if ql ≤ left ∧ right ≤ qr then
      (rd s.seg idx).bind fun v => .ok (v, s)
    else
      let mid := Int.tdiv (left + right) 2
      (rangeQuery fuel s (idx * 2) left mid ql qr).bind fun p =>
      (rangeQuery fuel p.2 (idx * 2 + 1) (mid + 1) right ql qr).bind fun q =>
      .ok (p.1 + q.1, q.2)

/-- The private `updateRange(idx, left, right, ql, qr, val)`. -/
def updateRange (fuel : Nat) (s : SegmentTree R) (idx left right ql qr : Int) (val : R) :
    Except Err (SegmentTree R) :=
  match fuel with
  | 0 => .error .outOfFuel
  | fuel + 1 =>
    (propagate s idx left right).bind fun s =>
    if right < ql ∨ left > qr then .ok s
    else if ql ≤ left ∧ right ≤ qr then
      (rd s.lazy idx).bind fun lz =>
      (wr s.lazy idx (lz + val)).bind fun lazy1 =>
      propagate { s with lazy := lazy1 } idx left right
    else
      let mid := Int.tdiv (left + right) 2
      (updateRange fuel s (idx * 2) left mid ql qr val).bind fun s =>
      (updateRange fuel s (idx * 2 + 1) (mid + 1) right ql qr val).bind fun s =>
      (rd s.seg (idx * 2)).bind fun a =>
      (rd s.seg (idx * 2 + 1)).bind fun b =>
      (wr s.seg idx (a + b)).bind fun seg =>
      .ok { s with seg := seg }

/-- The public `build(arr)`. -/
def build (fuel : Nat) (s : SegmentTree R) (arr : List R) : Except Err (SegmentTree R) :=
  buildRec fuel arr s 1 0 (s.n - 1)

/-- The public `query(l, r)`. -/
def query (fuel : Nat) (s : SegmentTree R) (l r : Int) : Except Err (R × SegmentTree R) :=
  rangeQuery fuel s 1 0 (s.n - 1) l r

/-- The public `update(l, r, val)`. -/
def update (fuel : Nat) (s : SegmentTree R) (l r : Int) (val : R) :
    Except Err (SegmentTree R) :=
  updateRange fuel s 1 0 (s.n - 1) l r val

end SegmentTree

/-! ## Fenwick tree -/

/-- The operator `&` on two `int` values: bitwise and of their 32-bit two's
complement representations, read back as a signed value. -/
def and32 (a b : Int) : Int :=
  let u : Nat := (a % 2 ^ 32).toNat &&& (b % 2 ^ 32).toNat
  if u < 2 ^ 31 then (u : Int) else (u : Int) - 2 ^ 32

/-- The expression `i & -i` of both Fenwick loops. -/
def lowbit (i : Int) : Int := and32 i (-i)

/-- The fields of `class FenwickTree`. -/
structure FenwickTree (R : Type) where
  fenw : List R
  n : Int

namespace FenwickTree

variable {R : Type} [CommRing R]

/-- The constructor `FenwickTree(int size)`; the sum `size+1` is an `int`. -/
def ctor (size : Int) : Except Err (FenwickTree R) :=
  match zeros (wrap32 (size + 1)) with
  | .error e => .error e
  | .ok z => .ok { fenw := z, n := size }

/-- The method `update(i, val)`: one turn of the loop per unit of fuel; the sum
in `i+=(i & -i)` is an `int`. -/
def update (fuel : Nat) (t : FenwickTree R) (i : Int) (val : R) :
    Except Err (FenwickTree R) :=
  match fuel with
  | 0 => .error .outOfFuel
  | fuel + 1 =>
    if i ≤ t.n then
      (rd t.fenw i).bind fun v =>
      (wr t.fenw i (v + val)).bind fun fenw =>
      update fuel { t with fenw := fenw } (wrap32 (i + lowbit i)) val
    else .ok t

/-- The loop of `prefixSum(i)` with its accumulator `res`. -/
def prefixSumLoop (fuel : Nat) (t : FenwickTree R) (i : Int) (res : R) : Except Err R :=
  match fuel with
  | 0 => .error .outOfFuel
  | fuel + 1 =>
    if i > 0 then
      (rd t.fenw i).bind fun v =>
      prefixSumLoop fuel t (i - lowbit i) (res + v)
    else .ok res

/-- The method `prefixSum(i)`. -/
def prefixSum (fuel : Nat) (t : FenwickTree R) (i : Int) : Except Err R :=
  prefixSumLoop fuel t i 0

/-- The method `rangeSum(l, r)`; the difference `l-1` is an `int`. -/
def rangeSum (fuel : Nat) (t : FenwickTree R) (l r : Int) : Except Err R :=
  (prefixSum fuel t r).bind fun a =>
  (prefixSum fuel t (wrap32 (l - 1))).bind fun b =>
  .ok (a - b)

end FenwickTree

/-! ## Disjoint set -/

/-- The fields of `class UnionFind`. -/
structure UnionFind where
  parent : List Int
  rank : List Int

namespace UnionFind

/-- The loop `for(int i=0; i<n; i++) parent[i]=i;` of the constructor, with
the number of turns left. -/
def ctorLoop (parent : List Int) (i : Int) : Nat → Except Err (List Int)
  | 0 => .ok parent
  | k + 1 => (wr parent i i).bind fun p => ctorLoop p (i + 1) k

/-- The constructor `UnionFind(int n)`. -/
def ctor (n : Int) : Except Err UnionFind :=
  (zeros n).bind fun parent =>
  (zeros n).bind fun rank =>
  (ctorLoop parent 0 n.toNat).bind fun p =>
  .ok { parent := p, rank := rank }

/-- The method `find(x)`: the value returned and the state left behind. -/
def find (fuel : Nat) (u : UnionFind) (x : Int) : Except Err (Int × UnionFind) :=
  match fuel with
  | 0 => .error .outOfFuel
  | fuel + 1 =>
    (rd u.parent x).bind fun p =>
    (if p ≠ x then
        (rd u.parent x).bind fun p2 =>
        (find fuel u p2).bind fun q =>
        (wr q.2.parent x q.1).bind fun par =>
        .ok { q.2 with parent := par }
      else .ok u).bind fun u2 =>
    (rd u2.parent x).bind fun res =>
    .ok (res, u2)

/-- The method `unite(a, b)`. -/
def unite (fuel : Nat) (u : UnionFind) (a b : Int) : Except Err UnionFind :=
  (find fuel u a).bind fun fa =>
  (find fuel fa.2 b).bind fun fb =>
  if fa.1 = fb.1 then .ok fb.2
  else
    (rd fb.2.rank fa.1).bind fun ka =>
    (rd fb.2.rank fb.1).bind fun kb =>
    if ka < kb then
      (wr fb.2.parent fa.1 fb.1).bind fun par => .ok { fb.2 with parent := par }
    else if kb < ka then
      (wr fb.2.parent fb.1 fa.1).bind fun par => .ok { fb.2 with parent := par }
    else
      (wr fb.2.parent fb.1 fa.1).bind fun par =>
      (rd fb.2.rank fa.1).bind fun k =>
      (wr fb.2.rank fa.1 (k + 1)).bind fun rk =>
      .ok { parent := par, rank := rk }

/-- The method `sameSet(a, b)`: the value returned and the state left behind.
The two calls of `find` are operands of one `==`, whose evaluation order C++
leaves open; `find(a)` is taken first. -/
def sameSet (fuel : Nat) (u : UnionFind) (a b : Int) : Except Err (Bool × UnionFind) :=
  (find fuel u a).bind fun fa =>
  (find fuel fa.2 b).bind fun fb =>
  .ok (decide (fa.1 = fb.1), fb.2)

end UnionFind

/-! ## AVL tree -/

/-- An `AVLNode*`: the null pointer, or the node it owns with its key, its two
subtrees and its stored height. -/
inductive AVLNode where
  | null
  | node (key : Int) (left right : AVLNode) (height : Int)
  deriving DecidableEq, Repr

/-- The function `avlHeight(n)`. -/
def avlHeight : AVLNode → Int
  | .null => 0
  | .node _ _ _ h => h

/-- The function `avlBalanceFactor(n)`. -/
def avlBalanceFactor : AVLNode → Int
  | .null => 0
  | .node _ l r _ => avlHeight l - avlHeight r

/-- The expression `n->key`. -/
def avlKey : AVLNode → Except Err Int
  | .null => .error .nullDeref
  | .node k _ _ _ => .ok k

/-- The function `avlRightRotate(y)`. -/
def avlRightRotate : AVLNode → Except Err AVLNode
  | .null => .error .nullDeref
  | .node _ .null _ _ => .error .nullDeref
  | .node ky (.node kx xl t2 _) yr _ =>
    let y := AVLNode.node ky t2 yr (max (avlHeight t2) (avlHeight yr) + 1)
    .ok (.node kx xl y (max (avlHeight xl) (avlHeight y) + 1))

/-- The function `avlLeftRotate(x)`. -/
def avlLeftRotate : AVLNode → Except Err AVLNode
  | .null => .error .nullDeref
  | .node _ _ .null _ => .error .nullDeref
  | .node kx xl (.node ky t2 yr _) _ =>
    let x := AVLNode.node kx xl t2 (max (avlHeight xl) (avlHeight t2) + 1)
    .ok (.node ky x yr (max (avlHeight x) (avlHeight yr) + 1))

/-- The statements of `avlInsert` that follow the recursive call, for the node
`root` with key `k` and the subtrees `l` and `r` it has by then: the height is
stored, and the four tests are made in the order of the source, each
`root->left->key` or `root->right->key` being read only when the balance test
before `&&` holds. -/
def avlRebalance (k : Int) (l r : AVLNode) (key : Int) : Except Err AVLNode :=
  let h := 1 + max (avlHeight l) (avlHeight r)
  let balance := avlBalanceFactor (.node k l r h)
  (if balance > 1 then (avlKey l).bind fun lk => .ok (decide (key < lk))
    else .ok false).bind fun c1 =>
  if c1 then avlRightRotate (.node k l r h) else
  (if balance < -1 then (avlKey r).bind fun rk => .ok (decide (key > rk))
    else .ok false).bind fun c2 =>
  if c2 then avlLeftRotate (.node k l r h) else
  (if balance > 1 then (avlKey l).bind fun lk => .ok (decide (key > lk))
    else .ok false).bind fun c3 =>
  if c3 then (avlLeftRotate l).bind fun l2 => avlRightRotate (.node k l2 r h) else
  (if balance < -1 then (avlKey r).bind fun rk => .ok (decide (key < rk))
    else .ok false).bind fun c4 =>
  if c4 then (avlRightRotate r).bind fun r2 => avlLeftRotate (.node k l r2 h) else
  .ok (.node k l r h)

/-- The function `avlInsert(root, key)`. -/
def avlInsert : AVLNode → Int → Except Err AVLNode
  | .null, key => .ok (.node key .null .null 1)
  | .node k l r h, key =>
    if key < k then
      (avlInsert l key).bind fun l2 => avlRebalance k l2 r key
    else if key > k then
      (avlInsert r key).bind fun r2 => avlRebalance k l r2 key
    else .ok (.node k l r h)

/-- The keys that `avlPreOrder(root)` prints, in order. -/
def avlPreOrder : AVLNode → List Int
  | .null => []
  | .node k l r _ => k :: (avlPreOrder l ++ avlPreOrder r)

/-! ## Linked list -/

/-- The class `Node<T>`: a value and the pointer to the next node.  A pointer
is `none` (the null pointer) or the address of a slot of the free store. -/
structure Node (T : Type) where
  val : T
  next : Option Nat

/-- The free store: slot `a` holds the node that lives at the address `a`, or
nothing once that node has been deleted. -/
abbrev Heap (T : Type) := List (Option (Node T))

/-- Following the pointer `p` to its node. -/
def deref {T : Type} (h : Heap T) : Option Nat → Except Err (Node T)
  | none => .error .nullDeref
  | some a =>
    match h[a]? with
    | some (some nd) => .ok nd
    | _ => .error .nullDeref

/-- The call `p->getVal()`. -/
def getVal {T : Type} (h : Heap T) (p : Option Nat) : Except Err T :=
  (deref h p).bind fun nd => .ok nd.val

/-- The call `p->getNext()`. -/
def getNext {T : Type} (h : Heap T) (p : Option Nat) : Except Err (Option Nat) :=
  (deref h p).bind fun nd => .ok nd.next

/-- The call `p->setNext(n)`. -/
def setNext {T : Type} (h : Heap T) (p n : Option Nat) : Except Err (Heap T) :=
  match p with
  | none => .error .nullDeref
  | some a => (deref h (some a)).bind fun nd => .ok (h.set a (some ⟨nd.val, n⟩))

/-- The expression `new Node<T>(val)`: a node with a null `next` at an address
that was never used before. -/
def newNode {T : Type} (h : Heap T) (val : T) : Option Nat × Heap T :=
  (some h.length, h ++ [some ⟨val, none⟩])

/-- The statement `delete p`; deleting the null pointer does nothing. -/
def deleteNode {T : Type} (h : Heap T) : Option Nat → Except Err (Heap T)
  | none => .ok h
  | some a => (deref h (some a)).bind fun _ => .ok (h.set a none)

/-- The class `LinkedList<T>`: the pointers `head` and `tail`, together with
the free store in which its nodes live. -/
structure LinkedList (T : Type) where
  heap : Heap T
  head : Option Nat
  tail : Option Nat

namespace LinkedList

variable {T : Type} [LinearOrder T]

/-- The recursive `mergeLists(left, right)`; it returns the head of the merged
list and the free store after the relinking. -/
def mergeLists : Nat → Heap T → Option Nat → Option Nat → Except Err (Option Nat × Heap T)
  | 0, _, _, _ => .error .outOfFuel
  | fuel + 1, h, left, right =>
    if left = none then .ok (right, h)
    else if right = none then .ok (left, h)
    else
      (getVal h left).bind fun lv =>
      (getVal h right).bind fun rv =>
      if lv ≤ rv then
        (getNext h left).bind fun ln =>
        (mergeLists fuel h ln right).bind fun m =>
        (setNext m.2 left m.1).bind fun h2 => .ok (left, h2)
      else
        (getNext h right).bind fun rn =>
        (mergeLists fuel h left rn).bind fun m =>
        (setNext m.2 right m.1).bind fun h2 => .ok (right, h2)

/-- The loop `while (fast && fast->getNext())` of `mergeSort`; it returns the
final `slow`. -/
def mergeSortLoop : Nat → Heap T → Option Nat → Option Nat → Except Err (Option Nat)
  | 0, _, _, _ => .error .outOfFuel
  | fuel + 1, h, slow, fast =>
    if fast = none then .ok slow
    else
      (getNext h fast).bind fun fn =>
      if fn = none then .ok slow
      else
        (getNext h slow).bind fun slow2 =>
        (getNext h fast).bind fun f1 =>
        (getNext h f1).bind fun fast2 =>
        mergeSortLoop fuel h slow2 fast2

/-- The recursive `mergeSort(start)`; it returns the head of the sorted list and
the free store after the relinking. -/
def mergeSort : Nat → Heap T → Option Nat → Except Err (Option Nat × Heap T)
  | 0, _, _ => .error .outOfFuel
  | fuel + 1, h, start =>
    if start = none then .ok (start, h)
    else
      (getNext h start).bind fun sn =>
      if sn = none then .ok (start, h)
      else
        (mergeSortLoop fuel h start sn).bind fun slow =>
        (getNext h slow).bind fun secondHalf =>
        (setNext h slow none).bind fun h1 =>
        (mergeSort fuel h1 start).bind fun l =>
        (mergeSort fuel l.2 secondHalf).bind fun r =>
        mergeLists fuel r.2 l.1 r.1

/-- The constructor `LinkedList()`, on the free store `h`. -/
def ctor (h : Heap T) : LinkedList T := ⟨h, none, none⟩

/-- The method `empty()`. -/
def empty (s : LinkedList T) : Bool := s.head = none

/-- The method `LinkedList::push(val)`. -/
def push (s : LinkedList T) (val : T) : Except Err (LinkedList T) :=
  if s.head = none then
    .ok ⟨(newNode s.heap val).2, (newNode s.heap val).1, (newNode s.heap val).1⟩
  else
    (setNext (newNode s.heap val).2 s.tail (newNode s.heap val).1).bind fun h1 =>
    (getNext h1 s.tail).bind fun t => .ok ⟨h1, s.head, t⟩

/-- The constructor `LinkedList(init_list)`, on the free store `h`. -/
def fromList (h : Heap T) : List T → Except Err (LinkedList T) :=
  List.foldl (fun s val => s.bind fun s => push s val) (.ok (ctor h))

/-- The loop `while (temp->getNext() != tail)` of `pop`; it returns the final
`temp`. -/
def popLoop : Nat → Heap T → Option Nat → Option Nat → Except Err (Option Nat)
  | 0, _, _, _ => .error .outOfFuel
  | fuel + 1, h, tail, temp =>
    (getNext h temp).bind fun n =>
    if n ≠ tail then (getNext h temp).bind fun t => popLoop fuel h tail t
    else .ok temp

/-- The method `LinkedList::pop()`; `Err.underflow` is the exception
`std::underflow_error`. -/
def pop (fuel : Nat) (s : LinkedList T) : Except Err (T × LinkedList T) :=
  if s.head = none then .error .underflow
  else if s.head = s.tail then
    (getVal s.heap s.head).bind fun returnVal =>
    (deleteNode s.heap s.head).bind fun h => .ok (returnVal, ⟨h, none, none⟩)
  else
    (popLoop fuel s.heap s.tail s.head).bind fun temp =>
    (getVal s.heap s.tail).bind fun returnVal =>
    (deleteNode s.heap s.tail).bind fun h =>
    (setNext h temp none).bind fun h1 => .ok (returnVal, ⟨h1, s.head, temp⟩)

/-- The method `back()`. -/
def back (s : LinkedList T) : Except Err T :=
  if s.tail = none then .error .underflow else getVal s.heap s.tail

/-- The loop `while (temp->getNext())` of `sort`; it returns the final `temp`. -/
def sortLoop : Nat → Heap T → Option Nat → Except Err (Option Nat)
  | 0, _, _ => .error .outOfFuel
  | fuel + 1, h, temp =>
    (getNext h temp).bind fun n =>
    if n ≠ none then (getNext h temp).bind fun t => sortLoop fuel h t
    else .ok temp

/-- The method `sort()`. -/
def sort (fuel : Nat) (s : LinkedList T) : Except Err (LinkedList T) :=
  (mergeSort fuel s.heap s.head).bind fun m =>
  if m.1 = none then .ok ⟨m.2, m.1, none⟩
  else (sortLoop fuel m.2 m.1).bind fun temp => .ok ⟨m.2, m.1, temp⟩

/-- The values that `print()` writes, in order. -/
def print : Nat → Heap T → Option Nat → Except Err (List T)
  | 0, _, _ => .error .outOfFuel
  | fuel + 1, h, temp =>
    if temp = none then .ok []
    else
      (getVal h temp).bind fun v =>
      (getNext h temp).bind fun n =>
      (print fuel h n).bind fun vs => .ok (v :: vs)

end LinkedList

namespace LinkedList

variable {T : Type}

/-- The loop of the protected `nodeAtIndex(n)`, from the counter `i` and the
pointer `temp` on, and its `return temp`; `Err.outOfRange` is the exception
`std::out_of_range("Index out of range")`. -/
def nodeAtIndexLoop : Nat → Heap T → Nat → Nat → Option Nat → Except Err (Option Nat)
  | 0, _, _, _, _ => .error .outOfFuel
  | fuel + 1, h, n, i, temp =>
    if i < n then
      if temp = none then .error .outOfRange
      else (getNext h temp).bind fun t => nodeAtIndexLoop fuel h n (i + 1) t
    else .ok temp

/-- The protected `nodeAtIndex(n)`. -/
def nodeAtIndex (fuel : Nat) (s : LinkedList T) (n : Nat) : Except Err (Option Nat) :=
  nodeAtIndexLoop fuel s.heap n 0 s.head

/-- The method `valAtIndex(n)`. -/
def valAtIndex (fuel : Nat) (s : LinkedList T) (n : Nat) : Except Err T :=
  (nodeAtIndex fuel s n).bind fun temp => getVal s.heap temp

/-- The overloaded `operator[](n)`. -/
def subscript (fuel : Nat) (s : LinkedList T) (n : Nat) : Except Err (Option Nat) :=
  nodeAtIndex fuel s n

end LinkedList

/-- The class `PriorityQueue<T>`, a `LinkedList<T>` with its own `push`. -/
abbrev PriorityQueue (T : Type) := LinkedList T

namespace PriorityQueue

variable {T : Type} [LinearOrder T]

/-- The constructor `PriorityQueue()`, on the free store `h`. -/
def ctor (h : Heap T) : PriorityQueue T := LinkedList.ctor h

/-- The loop `while (temp && temp->getVal() < val)` of `push`; it returns the
final `temp` and `prev`. -/
def pushLoop : Nat → Heap T → T → Option Nat → Option Nat →
    Except Err (Option Nat × Option Nat)
  | 0, _, _, _, _ => .error .outOfFuel
  | fuel + 1, h, val, temp, prev =>
    if temp = none then .ok (temp, prev)
    else
      (getVal h temp).bind fun tv =>
      if tv < val then (getNext h temp).bind fun n => pushLoop fuel h val n temp
      else .ok (temp, prev)

/-- The method `PriorityQueue::push(val)`. -/
def push (fuel : Nat) (s : PriorityQueue T) (val : T) : Except Err (PriorityQueue T) :=
  if LinkedList.empty s then LinkedList.push s val
  else
    (pushLoop fuel s.heap val s.head none).bind fun w =>
    if w.2 = none then
      (setNext (newNode s.heap val).2 (newNode s.heap val).1 s.head).bind fun h1 =>
      .ok ⟨h1, (newNode s.heap val).1, if s.tail = none then (newNode s.heap val).1 else s.tail⟩
    else
      (setNext (newNode s.heap val).2 (newNode s.heap val).1 w.1).bind fun h1 =>
      (setNext h1 w.2 (newNode s.heap val).1).bind fun h2 =>
      .ok ⟨h2, s.head, if w.1 = none then (newNode s.heap val).1 else s.tail⟩

/-- The method `PriorityQueue::pop()`. -/
def pop (fuel : Nat) (s : PriorityQueue T) : Except Err (T × PriorityQueue T) :=
  LinkedList.pop fuel s

/-- The method `top()`. -/
def top (s : PriorityQueue T) : Except Err T := LinkedList.back s

end PriorityQueue

/-! ## Arrays, the dynamic array and the flat set -/

/-- Reading slot `i` of an array `new T[k]`. -/
def readSlot {T : Type} (data : List (Option T)) (i : Nat) : Except Err T :=
  match data[i]? with
  | some (some v) => .ok v
  | some none => .error .uninit
  | none => .error .outOfBounds

/-- Writing `v` to slot `i` of an array `new T[k]`. -/
def writeSlot {T : Type} (data : List (Option T)) (i : Nat) (v : T) :
    Except Err (List (Option T)) :=
  if i < data.length then .ok (data.set i (some v)) else .error .outOfBounds

/-- The fields of `class Vector<T>`. -/
structure Vector (T : Type) where
  data : List (Option T)
  capacity : Nat
  length : Nat

namespace Vector

variable {T : Type}

/-- The constructor `Vector(cap)`; the default `cap` is 4. -/
def ctor (cap : Nat) : Vector T := ⟨List.replicate cap none, cap, 0⟩

/-- The copy loop `for (i = 0; i < length; i++) newData[i] = data[i]` of
`reallocate`, from `i` on. -/
def reallocateLoop : Nat → List (Option T) → List (Option T) → Nat → Nat →
    Except Err (List (Option T))
  | 0, _, _, _, _ => .error .outOfFuel
  | fuel + 1, data, newData, length, i =>
    if i < length then
      (readSlot data i).bind fun x =>
      (writeSlot newData i x).bind fun nd =>
      reallocateLoop fuel data nd length (i + 1)
    else .ok newData

/-- The private `reallocate()`. -/
def reallocate (fuel : Nat) (v : Vector T) : Except Err (Vector T) :=
  (reallocateLoop fuel v.data (List.replicate (v.capacity * 2) none) v.length 0).bind
    fun nd => .ok ⟨nd, v.capacity * 2, v.length⟩

/-- The method `push_back(val)`. -/
def push_back (fuel : Nat) (v : Vector T) (val : T) : Except Err (Vector T) :=
  (if v.length = v.capacity then reallocate fuel v else .ok v).bind fun v1 =>
  (writeSlot v1.data v1.length val).bind fun d =>
  .ok ⟨d, v1.capacity, v1.length + 1⟩

/-- Reading `v[idx]` through `operator[]`. -/
def get (v : Vector T) (idx : Nat) : Except Err T :=
  if idx ≥ v.length then .error .outOfRange else readSlot v.data idx

/-- The assignment `v[idx] = x` through `operator[]`. -/
def assign (v : Vector T) (idx : Nat) (x : T) : Except Err (Vector T) :=
  if idx ≥ v.length then .error .outOfRange
  else (writeSlot v.data idx x).bind fun d => .ok { v with data := d }

/-- The method `size()`. -/
def size (v : Vector T) : Nat := v.length

/-- The values that `print()` writes, from index `i` on. -/
def print : Nat → Vector T → Nat → Except Err (List T)
  | 0, _, _ => .error .outOfFuel
  | fuel + 1, v, i =>
    if i < v.length then
      (readSlot v.data i).bind fun x =>
      (print fuel v (i + 1)).bind fun xs => .ok (x :: xs)
    else .ok []

end Vector

/-- The field of `class FlatSet<T>`. -/
structure FlatSet (T : Type) where
  vec : Vector T

namespace FlatSet

variable {T : Type} [LinearOrder T]

/-- The implicit default constructor: `vec` is a `Vector` of capacity 4. -/
def ctor : FlatSet T := ⟨Vector.ctor 4⟩

/-- The loop `for (j = vec.size() - 1; j > i; j--)` of `insert`, which swaps
`vec[j]` and `vec[j - 1]`. -/
def bubbleLoop : Nat → Vector T → Nat → Nat → Except Err (Vector T)
  | 0, _, _, _ => .error .outOfFuel
  | fuel + 1, v, i, j =>
    if j > i then
      (v.get j).bind fun tmp =>
      (v.get (j - 1)).bind fun x =>
      (v.assign j x).bind fun v1 =>
      (v1.assign (j - 1) tmp).bind fun v2 =>
      bubbleLoop fuel v2 i (j - 1)
    else .ok v

/-- The loop `for (i = 0; i < vec.size(); i++)` of `insert`, from `i` on,
followed by the final `vec.push_back(val)`. -/
def insertLoop : Nat → Vector T → T → Nat → Except Err (Vector T)
  | 0, _, _, _ => .error .outOfFuel
  | fuel + 1, v, val, i =>
    if i < v.size then
      (v.get i).bind fun x =>
      if x = val then .ok v
      else
        (v.get i).bind fun y =>
        if y > val then
          (v.push_back fuel val).bind fun v1 =>
          bubbleLoop fuel v1 i (v1.size - 1)
        else insertLoop fuel v val (i + 1)
    else v.push_back fuel val

/-- The method `insert(val)`. -/
def insert (fuel : Nat) (s : FlatSet T) (val : T) : Except Err (FlatSet T) :=
  (insertLoop fuel s.vec val 0).bind fun v => .ok ⟨v⟩

/-- The loop of `contains`, from `i` on, followed by the final
`return false`. -/
def containsLoop : Nat → Vector T → T → Nat → Except Err Bool
  | 0, _, _, _ => .error .outOfFuel
  | fuel + 1, v, val, i =>
    if i < v.size then
      (v.get i).bind fun x =>
      if x = val then .ok true
      else
        (v.get i).bind fun y =>
        if y > val then .ok false
        else containsLoop fuel v val (i + 1)
    else .ok false

/-- The method `contains(val)`. -/
def contains (fuel : Nat) (s : FlatSet T) (val : T) : Except Err Bool :=
  containsLoop fuel s.vec val 0

end FlatSet

/-! ## Deque -/

/-- The fields of `class Deque<T>`. -/
structure Deque (T : Type) where
  data : List (Option T)
  capacity : Nat
  frontIdx : Nat
  backIdx : Nat
  count : Nat

namespace Deque

variable {T : Type}

/-- The constructor `Deque(cap)`. -/
def ctor (cap : Nat) : Deque T := ⟨List.replicate cap none, cap, 0, 0, 0⟩

/-- The method `empty()`. -/
def empty (d : Deque T) : Bool := d.count = 0

/-- The method `size()`. -/
def size (d : Deque T) : Nat := d.count

/-- The method `push_back(val)`: what it returns or raises, and the state it
leaves. -/
def push_back (d : Deque T) (val : T) : Except Err Unit × Deque T :=
  if d.count = d.capacity then (.error .overflow, d)
  else
    match writeSlot d.data d.backIdx val with
    | .error e => (.error e, d)
    | .ok data =>
      (.ok (), { d with data := data, backIdx := (d.backIdx + 1) % d.capacity,
                        count := d.count + 1 })

/-- The method `push_front(val)`: what it returns or raises, and the state it
leaves. -/
def push_front (d : Deque T) (val : T) : Except Err Unit × Deque T :=
  if d.count = d.capacity then (.error .overflow, d)
  else
    match writeSlot d.data (if d.frontIdx = 0 then d.capacity - 1 else d.frontIdx - 1) val with
    | .error e =>
      (.error e, { d with frontIdx := if d.frontIdx = 0 then d.capacity - 1 else d.frontIdx - 1 })
    | .ok data =>
      (.ok (), { d with data := data,
                        frontIdx := if d.frontIdx = 0 then d.capacity - 1 else d.frontIdx - 1,
                        count := d.count + 1 })

/-- The method `pop_back()`: what it returns or raises, and the state it
leaves. -/
def pop_back (d : Deque T) : Except Err T × Deque T :=
  if d.empty then (.error .underflow, d)
  else
    match readSlot d.data (if d.backIdx = 0 then d.capacity - 1 else d.backIdx - 1) with
    | .error e =>
      (.error e, { d with backIdx := if d.backIdx = 0 then d.capacity - 1 else d.backIdx - 1 })
    | .ok val =>
      (.ok val, { d with backIdx := if d.backIdx = 0 then d.capacity - 1 else d.backIdx - 1,
                         count := d.count - 1 })

/-- The method `pop_front()`: what it returns or raises, and the state it
leaves. -/
def pop_front (d : Deque T) : Except Err T × Deque T :=
  if d.empty then (.error .underflow, d)
  else
    match readSlot d.data d.frontIdx with
    | .error e => (.error e, d)
    | .ok val =>
      (.ok val, { d with frontIdx := (d.frontIdx + 1) % d.capacity, count := d.count - 1 })

/-- The values that `print()` writes, from position `i` on: the slots
`(frontIdx + i) % capacity` for `i < count`. -/
def print : Nat → Deque T → Nat → Except Err (List T)
  | 0, _, _ => .error .outOfFuel
  | fuel + 1, d, i =>
    if i < d.count then
      (readSlot d.data ((d.frontIdx + i) % d.capacity)).bind fun x =>
      (print fuel d (i + 1)).bind fun xs => .ok (x :: xs)
    else .ok []

end Deque

/-! ## Vocabulary of the specification -/

section vocabulary

variable {R : Type} [CommRing R]

/-- The content of slot `i` of a vector, `0` outside it. -/
def cell (a : List R) (i : Int) : R :=
  if 0 ≤ i then a.getD i.toNat 0 else 0

/-- Node `j` of the implicit tree lies in the subtree rooted at node `i`
(children of `i` are `i * 2` and `i * 2 + 1`). -/
inductive Desc : Int → Int → Prop
  | refl (i : Int) : Desc i i
  | left {i j : Int} : Desc (i * 2) j → Desc i j
  | right {i j : Int} : Desc (i * 2 + 1) j → Desc i j

/-- The calls `(idx, left, right)` that occur below the root call
`(1, 0, n - 1)`: the range is a non-empty part of `[0, n - 1]`, and `idx`
sits on a level `P ≤ idx < 2 * P` that is shallow enough for the range. -/
def Ctx (n idx left right : Int) : Prop :=
  0 ≤ left ∧ left ≤ right ∧ right < n ∧
    ∃ P : Int, 1 ≤ P ∧ P ≤ idx ∧ idx < 2 * P ∧ (right - left) * P < n ∧ P ≤ 2 * n

/-- The subtree at node `idx` over `[left, right]`, read from the slot
contents `S` (aggregates) and `L` (pending deltas), stands for the element
values `f`: the aggregate of a node plus its own pending delta on each of
its elements is the sum of `f` over its range, and its children stand for
`f` less the pending delta of the node. -/
inductive Rep (S L : Int → R) : Int → Int → Int → (Int → R) → Prop
  | leaf {idx left : Int} {f : Int → R} :
      S idx + L idx = f left → Rep S L idx left left f
  | node {idx left right : Int} {f : Int → R} :
      left < right →
      S idx + ((right - left + 1 : Int) : R) * L idx = ∑ i in Finset.Icc left right, f i →
      Rep S L (idx * 2) left ((left + right) / 2) (fun i => f i - L idx) →
      Rep S L (idx * 2 + 1) ((left + right) / 2 + 1) right (fun i => f i - L idx) →
      Rep S L idx left right f

/-- The segment tree `s` has `n ≥ 1` elements, vectors of `4 * n` slots, and
stands for the element values `f` on `[0, n - 1]`. -/
structure Inv (s : SegmentTree R) (f : Int → R) : Prop where
  pos : 1 ≤ s.n
  seg_len : (s.seg.length : Int) = 4 * s.n
  lazy_len : (s.lazy.length : Int) = 4 * s.n
  rep : Rep (cell s.seg) (cell s.lazy) 1 0 (s.n - 1) f

/-- The state `t` differs from `s` at most in slots of the subtree at `idx`. -/
def Frame (s t : SegmentTree R) (idx : Int) : Prop :=
  t.n = s.n ∧ t.seg.length = s.seg.length ∧ t.lazy.length = s.lazy.length ∧
    ∀ j, ¬ Desc idx j → cell t.seg j = cell s.seg j ∧ cell t.lazy j = cell s.lazy j

end vocabulary

namespace SegmentTree

variable {R : Type} [CommRing R] [DecidableEq R]

/-- The two statements `SegmentTree st(arr.size()); st.build(arr);` of `main`. -/
def fromArray (fuel : Nat) (arr : List R) : Except Err (SegmentTree R) :=
  (ctor (arr.length : Int)).bind fun s => build fuel s arr

/-- A call of a public operation on an existing tree. -/
inductive Op (R : Type) where
  | update (l r : Int) (val : R)
  | query (l r : Int)

/-- The bounds of the call satisfy `0 ≤ l ≤ r < n`. -/
def Op.valid (n : Int) : Op R → Prop
  | .update l r _ => 0 ≤ l ∧ l ≤ r ∧ r < n
  | .query l r => 0 ≤ l ∧ l ≤ r ∧ r < n

/-- The state after one call; the value of a query is dropped. -/
def step (fuel : Nat) (s : SegmentTree R) : Op R → Except Err (SegmentTree R)
  | .update l r val => update fuel s l r val
  | .query l r => (query fuel s l r).bind fun p => .ok p.2

/-- The state after a sequence of calls, first call first. -/
def run (fuel : Nat) (s : SegmentTree R) : List (Op R) → Except Err (SegmentTree R)
  | [] => .ok s
  | op :: ops => (step fuel s op).bind fun t => run fuel t ops

/-- What a call adds to element `i`. -/
def Op.delta : Op R → Int → R
  | .update l r val, i => if l ≤ i ∧ i ≤ r then val else 0
  | .query _ _, _ => 0

/-- The value of element `i` after the calls `ops` on the initial array `A`:
`A[i]` plus the deltas of the updates whose range contains `i`. -/
def current (A : List R) (ops : List (Op R)) (i : Int) : R :=
  cell A i + (ops.map fun op => op.delta i).sum

/-- The states reached from `build` of an array of at least one element by
updates and queries with `0 ≤ l ≤ r < n`. -/
inductive Reachable : SegmentTree R → Prop
  | build (fuel : Nat) (A : List R) (s : SegmentTree R) :
      1 ≤ A.length → fromArray fuel A = .ok s → Reachable s
  | update (fuel : Nat) (s : SegmentTree R) (l r : Int) (val : R) (t : SegmentTree R) :
      Reachable s → 0 ≤ l → l ≤ r → r < s.n → update fuel s l r val = .ok t → Reachable t
  | query (fuel : Nat) (s : SegmentTree R) (l r : Int) (v : R) (t : SegmentTree R) :
      Reachable s → 0 ≤ l → l ≤ r → r < s.n → query fuel s l r = .ok (v, t) → Reachable t

/-- The same call with its value read in another type. -/
def Op.map {S : Type} (g : R → S) : Op R → Op S
  | .update l r val => .update l r (g val)
  | .query l r => .query l r

/-- The tree of `main` after `st.build(arr)` with `arr = {1, 2, 3, 4, 5}`. -/
def demoTree : SegmentTree Int :=
  { seg := [0, 15, 6, 9, 3, 3, 4, 5, 1, 2, 0, 0, 0, 0, 0, 0, 0, 0, 0, 0]
    lazy := List.replicate 20 0
    n := 5 }

end SegmentTree

/-- The value of the lowest set bit of `k`, and `0` for `k = 0`. -/
def lowbitNat (k : Nat) : Nat :=
  if _h : k = 0 then 0 else if k % 2 = 1 then 1 else 2 * lowbitNat (k / 2)
termination_by k
decreasing_by omega

/-- The index `k` is met by the walk `i → i + lowbit i` that starts at `a`. -/
def Up (a k : Int) : Prop :=
  Relation.ReflTransGen (fun x y : Int => y = x + (lowbitNat x.toNat : Int)) a k

namespace FenwickTree

variable {R : Type} [CommRing R]

/-- The state after a sequence of calls `update(i, val)`, first call first. -/
def runUpdates (fuel : Nat) (t : FenwickTree R) : List (Int × R) → Except Err (FenwickTree R)
  | [] => .ok t
  | u :: us => (update fuel t u.1 u.2).bind fun t2 => runUpdates fuel t2 us

/-- The logical element at position `p` after the updates `ups` of an all-zero
tree: the sum of the deltas of the updates at `p`. -/
def element (ups : List (Int × R)) (p : Int) : R :=
  (ups.map fun u => if u.1 = p then u.2 else 0).sum

/-- The sum of the deltas of the updates `ups` whose position is at most `j`. -/
def deltasUpTo (ups : List (Int × R)) (j : Int) : R :=
  (ups.map fun u => if u.1 ≤ j then u.2 else 0).sum

/-- The Fenwick tree `t` has `0 ≤ n < 2 ^ 31`, a vector of `n + 1` slots, and
slot `k` holds the sum of the elements `a` at the `lowbit k` positions up to
and including `k`. -/
structure Inv (t : FenwickTree R) (a : Int → R) : Prop where
  nonneg : 0 ≤ t.n
  small : t.n < 2 ^ 31
  len : (t.fenw.length : Int) = t.n + 1
  slot : ∀ k : Int, 1 ≤ k → k ≤ t.n →
    cell t.fenw k = ∑ p in Finset.Icc (k - (lowbitNat k.toNat : Int) + 1) k, a p

/-- The calls `update(i + 1, A[i])` that load an array into an all-zero
tree, for the elements of `A` from index `base` on. -/
def loads (base : Int) : List R → List (Int × R)
  | [] => []
  | a :: as => (base + 1, a) :: loads (base + 1) as

end FenwickTree

namespace UnionFind

/-- The state after a sequence of calls `unite(a, b)`, first call first. -/
def runUnites (fuel : Nat) (u : UnionFind) : List (Int × Int) → Except Err UnionFind
  | [] => .ok u
  | p :: ps => (unite fuel u p.1 p.2).bind fun u2 => runUnites fuel u2 ps

/-- Following the parent links `P` from `x` ends at `r`, an element that is
its own parent. -/
inductive Root (P : Int → Int) : Int → Int → Prop
  | base {x : Int} : P x = x → Root P x x
  | step {x r : Int} : P x ≠ x → Root P (P x) r → Root P x r

/-- The state `u` has `n` elements; parents are elements; ranks lie in
`[0, K]` and grow strictly along every parent link. -/
structure Inv (u : UnionFind) (n K : Int) : Prop where
  plen : (u.parent.length : Int) = n
  rlen : (u.rank.length : Int) = n
  range : ∀ x, 0 ≤ x → x < n → 0 ≤ cell u.parent x ∧ cell u.parent x < n
  rank_ge : ∀ x, 0 ≤ x → x < n → 0 ≤ cell u.rank x
  rank_le : ∀ x, 0 ≤ x → x < n → cell u.rank x ≤ K
  up : ∀ x, 0 ≤ x → x < n → cell u.parent x ≠ x →
    cell u.rank x < cell u.rank (cell u.parent x)

/-- In the state `u` two elements have the same root exactly when the
equivalence generated by `Q` relates them. -/
def Conn (u : UnionFind) (n : Int) (Q : Int → Int → Prop) : Prop :=
  ∀ x y, 0 ≤ x → x < n → 0 ≤ y → y < n →
    ((∃ r, Root (cell u.parent) x r ∧ Root (cell u.parent) y r) ↔ Relation.EqvGen Q x y)

end UnionFind

/-- The keys of a tree, left to right. -/
def AVLNode.keys : AVLNode → List Int
  | .null => []
  | .node k l r _ => l.keys ++ k :: r.keys

/-- The number of nodes on the longest path from the root down. -/
def AVLNode.depth : AVLNode → Int
  | .null => 0
  | .node _ l r _ => 1 + max l.depth r.depth

/-- Every stored height is the depth of its node. -/
def AVLNode.HeightsOk : AVLNode → Prop
  | .null => True
  | .node _ l r h => l.HeightsOk ∧ r.HeightsOk ∧ h = 1 + max l.depth r.depth

/-- The balance factor of every node is -1, 0 or 1. -/
def AVLNode.Balanced : AVLNode → Prop
  | .null => True
  | .node k l r h => l.Balanced ∧ r.Balanced ∧
      -1 ≤ avlBalanceFactor (.node k l r h) ∧ avlBalanceFactor (.node k l r h) ≤ 1

/-- The tree is a binary search tree: at every node the keys on the left are
smaller and the keys on the right are larger than its key. -/
def AVLNode.IsBST : AVLNode → Prop
  | .null => True
  | .node k l r _ => l.IsBST ∧ r.IsBST ∧ (∀ x ∈ l.keys, x < k) ∧ (∀ x ∈ r.keys, k < x)

/-- The signed 32-bit value that a residue modulo `2 ^ 32` represents in two's
complement. -/
def toInt32 (x : ZMod (2 ^ 32)) : Int :=
  if x.val < 2 ^ 31 then (x.val : Int) else (x.val : Int) - 2 ^ 32

/-- The nodes met when following `next` from the pointer `p` until the pointer
`q` is reached: `xs` lists their addresses and values, in order. -/
inductive Seg {T : Type} (h : Heap T) : Option Nat → List (Nat × T) → Option Nat → Prop
  | nil (p : Option Nat) : Seg h p [] p
  | cons {a : Nat} {v : T} {nx : Option Nat} {xs : List (Nat × T)} {q : Option Nat} :
      h[a]? = some (some ⟨v, nx⟩) → Seg h nx xs q → Seg h (some a) ((a, v) :: xs) q

/-- The list that starts at the pointer `p` ends with a null `next` and consists
of the nodes `xs` (addresses and values, in order). -/
def Chain {T : Type} (h : Heap T) (p : Option Nat) (xs : List (Nat × T)) : Prop :=
  Seg h p xs none

/-- The state of a well-formed `LinkedList`: `head` starts a null-terminated
list of the nodes `xs`, and `tail` designates the last of them (it is null
when there is none). -/
def LinkedList.Holds {T : Type} (s : LinkedList T) (xs : List (Nat × T)) : Prop :=
  Chain s.heap s.head xs ∧ s.tail = xs.getLast?.map Prod.fst

/-- The states that a `PriorityQueue` goes through: it is constructed empty, and
then `push` and `pop` calls that return are made on it. -/
inductive PriorityQueue.Reachable {T : Type} [LinearOrder T] : PriorityQueue T → Prop
  | ctor (h : Heap T) : PriorityQueue.Reachable (PriorityQueue.ctor h)
  | push {s s2 : PriorityQueue T} (fuel : Nat) (val : T) :
      PriorityQueue.Reachable s → PriorityQueue.push fuel s val = .ok s2 →
      PriorityQueue.Reachable s2
  | pop {s s2 : PriorityQueue T} (fuel : Nat) (val : T) :
      PriorityQueue.Reachable s → PriorityQueue.pop fuel s = .ok (val, s2) →
      PriorityQueue.Reachable s2

/-- The list `LinkedList<int> list{1, 2, 3, 5, 4}` of `main`, built on an empty
free store. -/
def LinkedList.demoList : LinkedList Int :=
  ⟨[some ⟨1, some 1⟩, some ⟨2, some 2⟩, some ⟨3, some 3⟩, some ⟨5, some 4⟩, some ⟨4, none⟩],
    some 0, some 4⟩

/-- The queue of `main` after `push(3)`, `push(5)`, `push(1)` and `push(4)` on an
empty free store. -/
def PriorityQueue.demoQueue : PriorityQueue Int :=
  ⟨[some ⟨3, some 3⟩, some ⟨5, none⟩, some ⟨1, some 0⟩, some ⟨4, some 1⟩], some 2, some 1⟩

/-- The calls `(j, a, b)` made below a call `(idx, left, right)` of a recursion
over the implicit tree that goes on into both halves of a node exactly when
`go idx left right` holds; the call itself is one of them. -/
inductive Calls (go : Int → Int → Int → Prop) : Int → Int → Int → Int → Int → Int → Prop
  | here (idx left right : Int) : Calls go idx left right idx left right
  | left {idx left right j a b : Int} : go idx left right →
      Calls go (idx * 2) left (Int.tdiv (left + right) 2) j a b →
      Calls go idx left right j a b
  | right {idx left right j a b : Int} : go idx left right →
      Calls go (idx * 2 + 1) (Int.tdiv (left + right) 2 + 1) right j a b →
      Calls go idx left right j a b

/-- The private `build` goes on unless `left == right`. -/
def buildGoes (_idx left right : Int) : Prop := left ≠ right

/-- The private `rangeQuery` and `updateRange` go on unless the range of the
node lies outside `[ql, qr]` or inside it. -/
def rangeGoes (ql qr _idx left right : Int) : Prop :=
  ¬ (right < ql ∨ left > qr) ∧ ¬ (ql ≤ left ∧ right ≤ qr)

/-- Node `j` of the implicit tree over `[0, n - 1]` covers `[a, b]`: the root 1
covers `[0, n - 1]`, and a node that covers more than one element has the
children `2 * idx` on `[left, mid]` and `2 * idx + 1` on `[mid + 1, right]`. -/
def InTree (n j a b : Int) : Prop :=
  Calls (fun _ left right => left < right) 1 0 (n - 1) j a b

/-- Node `j` of the implicit tree covers `[a, b]`, and no strict ancestor of it
has a pending delta in `L`. -/
def Settled {R : Type} [Zero R] (L : Int → R) (n j a b : Int) : Prop :=
  Calls (fun idx left right => left < right ∧ L idx = 0) 1 0 (n - 1) j a b

/-- The tree built from `{1, 2}` after `update(0, 1, 5)`: both children of the
root have the pending delta 5. -/
def SegmentTree.pendingTree : SegmentTree Int :=
  { seg := [0, 13, 1, 2, 0, 0, 0, 0]
    lazy := [0, 0, 5, 5, 0, 0, 0, 0]
    n := 2 }

/-- The private `build` with a log: what `buildRec` computes, together with the
calls `(idx, left, right)` that were made, the call itself first, then those
of its first and those of its second recursive call. -/
def SegmentTree.buildRecLog {R : Type} [CommRing R] (fuel : Nat) (arr : List R)
    (s : SegmentTree R) (idx left right : Int) :
    Except Err (SegmentTree R × List (Int × Int × Int)) :=
  match fuel with
  | 0 => .error .outOfFuel
  | fuel + 1 =>
    if left = right then
      (rd arr left).bind fun v =>
      (wr s.seg idx v).bind fun seg =>
      .ok ({ s with seg := seg }, [(idx, left, right)])
    else
      let mid := Int.tdiv (left + right) 2
      (buildRecLog fuel arr s (idx * 2) left mid).bind fun p =>
      (buildRecLog fuel arr p.1 (idx * 2 + 1) (mid + 1) right).bind fun q =>
      (rd q.1.seg (idx * 2)).bind fun a =>
      (rd q.1.seg (idx * 2 + 1)).bind fun b =>
      (wr q.1.seg idx (a + b)).bind fun seg =>
      .ok ({ q.1 with seg := seg }, (idx, left, right) :: (p.2 ++ q.2))

/-- The private `rangeQuery` with a log: what `rangeQuery` computes, together
with the calls `(idx, left, right)` that were made. -/
def SegmentTree.rangeQueryLog {R : Type} [CommRing R] [DecidableEq R] (fuel : Nat)
    (s : SegmentTree R) (idx left right ql qr : Int) :
    Except Err ((R × SegmentTree R) × List (Int × Int × Int)) :=
  match fuel with
  | 0 => .error .outOfFuel
  | fuel + 1 =>
    (propagate s idx left right).bind fun s =>
    if right < ql ∨ left > qr then .ok ((0, s), [(idx, left, right)])
    else if ql ≤ left ∧ right ≤ qr then
      (rd s.seg idx).bind fun v => .ok ((v, s), [(idx, left, right)])
    else
      let mid := Int.tdiv (left + right) 2
      (rangeQueryLog fuel s (idx * 2) left mid ql qr).bind fun p =>
      (rangeQueryLog fuel p.1.2 (idx * 2 + 1) (mid + 1) right ql qr).bind fun q =>
      .ok ((p.1.1 + q.1.1, q.1.2), (idx, left, right) :: (p.2 ++ q.2))

/-- The private `updateRange` with a log: what `updateRange` computes, together
with the calls `(idx, left, right)` that were made. -/
def SegmentTree.updateRangeLog {R : Type} [CommRing R] [DecidableEq R] (fuel : Nat)
    (s : SegmentTree R) (idx left right ql qr : Int) (val : R) :
    Except Err (SegmentTree R × List (Int × Int × Int)) :=
  match fuel with
  | 0 => .error .outOfFuel
  | fuel + 1 =>
    (propagate s idx left right).bind fun s =>
    if right < ql ∨ left > qr then .ok (s, [(idx, left, right)])
    else if ql ≤ left ∧ right ≤ qr then
      (rd s.lazy idx).bind fun lz =>
      (wr s.lazy idx (lz + val)).bind fun lazy1 =>
      (propagate { s with lazy := lazy1 } idx left right).bind fun s =>
      .ok (s, [(idx, left, right)])
    else
      let mid := Int.tdiv (left + right) 2
      (updateRangeLog fuel s (idx * 2) left mid ql qr val).bind fun p =>
      (updateRangeLog fuel p.1 (idx * 2 + 1) (mid + 1) right ql qr val).bind fun q =>
      (rd q.1.seg (idx * 2)).bind fun a =>
      (rd q.1.seg (idx * 2 + 1)).bind fun b =>
      (wr q.1.seg idx (a + b)).bind fun seg =>
      .ok ({ q.1 with seg := seg }, (idx, left, right) :: (p.2 ++ q.2))

/-- The tree that `SegmentTree(1073741825)` constructs: the `int` product `4*n`
is 4. -/
def SegmentTree.shortTree : SegmentTree Int :=
  { seg := [0, 0, 0, 0], lazy := [0, 0, 0, 0], n := 1073741825 }

/-- The vector holds the values `xs`: they fill its first `length` slots, and
its array has `capacity` slots, at least one. -/
def Vector.Holds {T : Type} (v : Vector T) (xs : List T) : Prop :=
  v.data.length = v.capacity ∧ 1 ≤ v.capacity ∧ v.length = xs.length ∧
    xs.length ≤ v.capacity ∧ ∀ i, i < xs.length → v.data[i]? = some xs[i]?

/-- The state after a sequence of calls `insert(val)`, first call first. -/
def FlatSet.runInserts {T : Type} [LinearOrder T] (fuel : Nat) (s : FlatSet T) :
    List T → Except Err (FlatSet T)
  | [] => .ok s
  | val :: vals => (FlatSet.insert fuel s val).bind fun s2 => FlatSet.runInserts fuel s2 vals

/-- A call on a deque. -/
inductive Deque.Op (T : Type) where
  | push_front (val : T)
  | push_back (val : T)
  | pop_front
  | pop_back

/-- One call on a deque: its outcome (the value popped, if any, or what it
raises) and the state it leaves. -/
def Deque.step {T : Type} (d : Deque T) : Deque.Op T → Except Err (Option T) × Deque T
  | .push_front val => ((d.push_front val).1.map fun _ => none, (d.push_front val).2)
  | .push_back val => ((d.push_back val).1.map fun _ => none, (d.push_back val).2)
  | .pop_front => (d.pop_front.1.map some, d.pop_front.2)
  | .pop_back => (d.pop_back.1.map some, d.pop_back.2)

/-- A sequence of calls on a deque, first call first: the outcomes and the final
state.  After a call that raises, the next call is made on the state that
the call left. -/
def Deque.run {T : Type} (d : Deque T) :
    List (Deque.Op T) → List (Except Err (Option T)) × Deque T
  | [] => ([], d)
  | op :: ops => ((d.step op).1 :: ((d.step op).2.run ops).1, ((d.step op).2.run ops).2)

/-- One call on the bounded double-ended sequence of the specification, of
capacity `c`: a push fails with an overflow exactly when the sequence has `c`
elements, a pop fails with an underflow exactly when it is empty, a failed
call leaves the sequence as it is, and a pop returns the element at its
end. -/
def boundedStep {T : Type} (c : Nat) (xs : List T) :
    Deque.Op T → Except Err (Option T) × List T
  | .push_front val => if xs.length = c then (.error .overflow, xs) else (.ok none, val :: xs)
  | .push_back val => if xs.length = c then (.error .overflow, xs) else (.ok none, xs ++ [val])
  | .pop_front =>
    match xs with
    | [] => (.error .underflow, xs)
    | x :: rest => (.ok (some x), rest)
  | .pop_back =>
    match xs.getLast? with
    | none => (.error .underflow, xs)
    | some x => (.ok (some x), xs.dropLast)

/-- A sequence of calls on the bounded double-ended sequence of the
specification: the outcomes and the final sequence. -/
def boundedRun {T : Type} (c : Nat) (xs : List T) :
    List (Deque.Op T) → List (Except Err (Option T)) × List T
  | [] => ([], xs)
  | op :: ops =>
    ((boundedStep c xs op).1 :: (boundedRun c (boundedStep c xs op).2 ops).1,
      (boundedRun c (boundedStep c xs op).2 ops).2)

/-- The ring buffer of capacity `c` holds the sequence `xs`: element `i` is in
slot `(frontIdx + i) % c`, `count` is the number of elements, and `backIdx` is
the slot after the last one. -/
def Deque.Holds {T : Type} (d : Deque T) (c : Nat) (xs : List T) : Prop :=
  d.capacity = c ∧ d.data.length = c ∧ d.frontIdx < c ∧
    d.backIdx = (d.frontIdx + d.count) % c ∧ d.count = xs.length ∧ xs.length ≤ c ∧
    ∀ i, i < xs.length → d.data[(d.frontIdx + i) % c]? = some xs[i]?

/-- The indices at which the loop `for(; i<=n; i+=(i & -i))` of `update` writes
`fenw[i]`, in order, one turn of the loop per unit of fuel. -/
def FenwickTree.updateWalk : Nat → Int → Int → Except Err (List Int)
  | 0, _, _ => .error .outOfFuel
  | fuel + 1, n, i =>
    if i ≤ n then (updateWalk fuel n (wrap32 (i + lowbit i))).bind fun w => .ok (i :: w)
    else .ok []

/-- The indices at which the loop `for(; i>0; i-=(i & -i))` of `prefixSum` reads
`fenw[i]`, in order, one turn of the loop per unit of fuel. -/
def FenwickTree.prefixWalk : Nat → Int → Except Err (List Int)
  | 0, _ => .error .outOfFuel
  | fuel + 1, i =>
    if i > 0 then (prefixWalk fuel (i - lowbit i)).bind fun w => .ok (i :: w)
    else .ok []

/-- A tree of size 5 with arbitrary values in its slots. -/
def FenwickTree.sampleTree : FenwickTree Int := { fenw := [0, 7, -2, 9, 4, 1], n := 5 }

theorem wrap32_id (z : Int) (h0 : -2 ^ 31 ≤ z) (h1 : z < 2 ^ 31) : wrap32 z = z := by
  unfold wrap32
  omega

theorem wrap32_range (z : Int) : -2 ^ 31 ≤ wrap32 z ∧ wrap32 z < 2 ^ 31 := by
  unfold wrap32
  omega

theorem wr_eq_ok {R : Type} {a b : List R} {i : Int} {v : R} (h : wr a i v = .ok b) :
    0 ≤ i ∧ i < a.length ∧ b = a.set i.toNat v := by
  unfold wr at h
  split at h
  · rename_i hc
    injection h with h
    exact ⟨hc.1, by omega, h.symm⟩
  · cases h

section vectors

variable {R : Type} [CommRing R]

theorem bind_ok {α β : Type} (a : α) (f : α → Except Err β) :
    (Except.ok a : Except Err α).bind f = f a := rfl

theorem bind_eq_ok {α β : Type} {x : Except Err α} {f : α → Except Err β} {b : β}
    (h : x.bind f = .ok b) : ∃ a, x = .ok a ∧ f a = .ok b := by
  cases x with
  | error e => cases h
  | ok a => exact ⟨a, rfl, h⟩

theorem rd_ok (a : List R) (i : Int) (h0 : 0 ≤ i) (h1 : i < a.length) :
    rd a i = .ok (cell a i) := by
  have h2 : i.toNat < a.length := by omega
  simp [rd, cell, h0, List.getD_eq_getElem?_getD, List.getElem?_eq_getElem h2]

omit [CommRing R] in
theorem wr_ok (a : List R) (i : Int) (v : R) (h0 : 0 ≤ i) (h1 : i < a.length) :
    wr a i v = .ok (a.set i.toNat v) := by
  have h2 : i.toNat < a.length := by omega
  simp [wr, h0, h2]

theorem cell_set (a : List R) (i j : Int) (v : R) (h0 : 0 ≤ i) (h1 : i < a.length) :
    cell (a.set i.toNat v) j = if j = i then v else cell a j := by
  have h2 : i.toNat < a.length := by omega
  by_cases hj : 0 ≤ j
  · by_cases hji : j = i
    · subst hji
      simp [cell, hj, List.getD_eq_getElem?_getD, List.getElem?_set, h2]
    · have : i.toNat ≠ j.toNat := by omega
      simp [cell, hj, hji, List.getD_eq_getElem?_getD, List.getElem?_set, this]
  · have : j ≠ i := by omega
    simp [cell, hj, this]

theorem cell_replicate (k : Nat) (j : Int) : cell (List.replicate k (0 : R)) j = 0 := by
  unfold cell
  split
  · rw [List.getD_eq_getElem?_getD, List.getElem?_replicate]
    split <;> rfl
  · rfl

end vectors

/-! ## The lowest set bit -/

theorem lowbitNat_pos (k : Nat) (h : 0 < k) : 0 < lowbitNat k ∧ lowbitNat k ≤ k := by
  induction k using Nat.strong_induction_on with
  | _ k ih =>
    rw [lowbitNat]
    split
    · omega
    · split
      · omega
      · have := ih (k / 2) (by omega) (by omega)
        omega

theorem land_double (a b : Nat) : (2 * a) &&& (2 * b) = 2 * (a &&& b) := by
  have := Nat.land_bit false a false b
  simpa [Nat.bit_val] using this

theorem land_double_odd (a b : Nat) : (2 * a) &&& (2 * b + 1) = 2 * (a &&& b) := by
  have := Nat.land_bit false a true b
  simpa [Nat.bit_val] using this

theorem land_odd_double (a b : Nat) : (2 * a + 1) &&& (2 * b) = 2 * (a &&& b) := by
  have := Nat.land_bit true a false b
  simpa [Nat.bit_val] using this

theorem land_odd_odd (a b : Nat) : (2 * a + 1) &&& (2 * b + 1) = 2 * (a &&& b) + 1 := by
  have := Nat.land_bit true a true b
  simpa [Nat.bit_val] using this

theorem land_compl (w : Nat) : ∀ u, u < 2 ^ w → u &&& (2 ^ w - 1 - u) = 0 := by
  induction w with
  | zero => intro u hu; simp at hu; subst hu; simp
  | succ w ih =>
    intro u hu
    have hp : 2 ^ (w + 1) = 2 * 2 ^ w := by ring
    have hpos : 0 < 2 ^ w := Nat.pos_pow_of_pos _ (by norm_num)
    rcases Nat.even_or_odd' u with ⟨a, rfl | rfl⟩
    · have e : 2 ^ (w + 1) - 1 - 2 * a = 2 * (2 ^ w - 1 - a) + 1 := by omega
      rw [e, land_double_odd, ih a (by omega)]
    · have e : 2 ^ (w + 1) - 1 - (2 * a + 1) = 2 * (2 ^ w - 1 - a) := by omega
      rw [e, land_odd_double, ih a (by omega)]

theorem land_neg (w : Nat) : ∀ u, 0 < u → u < 2 ^ w → u &&& (2 ^ w - u) = lowbitNat u := by
  induction w with
  | zero => intro u h0 hu; simp at hu; omega
  | succ w ih =>
    intro u h0 hu
    have hp : 2 ^ (w + 1) = 2 * 2 ^ w := by ring
    have hpos : 0 < 2 ^ w := Nat.pos_pow_of_pos _ (by norm_num)
    rw [lowbitNat]
    rcases Nat.even_or_odd' u with ⟨a, rfl | rfl⟩
    · have e : 2 ^ (w + 1) - 2 * a = 2 * (2 ^ w - a) := by omega
      have h1 : ¬ (2 * a = 0) := by omega
      have h2 : ¬ ((2 * a) % 2 = 1) := by omega
      have h3 : 2 * a / 2 = a := by omega
      rw [e, land_double, ih a (by omega) (by omega), dif_neg h1, if_neg h2, h3]
    · have e : 2 ^ (w + 1) - (2 * a + 1) = 2 * (2 ^ w - 1 - a) + 1 := by omega
      have h1 : ¬ (2 * a + 1 = 0) := by omega
      have h2 : (2 * a + 1) % 2 = 1 := by omega
      rw [e, land_odd_odd, land_compl w a (by omega), dif_neg h1, if_pos h2]

theorem lowbit_eq (i : Int) (h0 : 0 < i) (h1 : i < 2 ^ 31) : lowbit i = (lowbitNat i.toNat : Int) := by
  have e1 : (i % 2 ^ 32).toNat = i.toNat := by
    rw [Int.emod_eq_of_lt (by omega) (by omega)]
  have e2 : ((-i) % 2 ^ 32).toNat = 2 ^ 32 - i.toNat := by
    have : (-i) % 2 ^ 32 = 2 ^ 32 - i := by omega
    rw [this]; omega
  have hl := lowbitNat_pos i.toNat (by omega)
  unfold lowbit and32
  simp only [e1, e2]
  rw [land_neg 32 i.toNat (by omega) (by omega)]
  rw [if_pos (by omega)]

theorem lowbitNat_double (a : Nat) (h : 0 < a) : lowbitNat (2 * a) = 2 * lowbitNat a := by
  rw [lowbitNat]
  have h1 : ¬ (2 * a = 0) := by omega
  have h2 : ¬ ((2 * a) % 2 = 1) := by omega
  have h3 : 2 * a / 2 = a := by omega
  rw [dif_neg h1, if_neg h2, h3]

theorem lowbitNat_odd (a : Nat) : lowbitNat (2 * a + 1) = 1 := by
  rw [lowbitNat]
  have h1 : ¬ (2 * a + 1 = 0) := by omega
  have h2 : (2 * a + 1) % 2 = 1 := by omega
  rw [dif_neg h1, if_pos h2]

theorem lowbitNat_carry (k : Nat) : 0 < k → 2 * lowbitNat k ≤ lowbitNat (k + lowbitNat k) := by
  induction k using Nat.strong_induction_on with
  | _ k ih =>
    intro hk
    rcases Nat.even_or_odd' k with ⟨a, rfl | rfl⟩
    · have ha : 0 < a := by omega
      have := ih a (by omega) ha
      have e : 2 * a + 2 * lowbitNat a = 2 * (a + lowbitNat a) := by ring
      rw [lowbitNat_double a ha, e, lowbitNat_double _ (by omega)]
      omega
    · have e : 2 * a + 1 + 1 = 2 * (a + 1) := by ring
      have := lowbitNat_pos (a + 1) (by omega)
      rw [lowbitNat_odd, e, lowbitNat_double _ (by omega)]
      omega

theorem lowbitNat_step (k : Nat) : ∀ i, k - lowbitNat k < i → i < k → i + lowbitNat i ≤ k := by
  induction k using Nat.strong_induction_on with
  | _ k ih =>
    intro i h1 h2
    rcases Nat.even_or_odd' k with ⟨a, rfl | rfl⟩
    · have ha : 0 < a := by omega
      rw [lowbitNat_double a ha] at h1
      rcases Nat.even_or_odd' i with ⟨b, rfl | rfl⟩
      · have hb : 0 < b := by omega
        have := ih a (by omega) b (by omega) (by omega)
        rw [lowbitNat_double b hb]
        omega
      · rw [lowbitNat_odd]; omega
    · rw [lowbitNat_odd] at h1; omega

/-- The lowest set bit of a positive index, as an integer. -/
theorem lowbitNat_bounds (k : Int) (h : 1 ≤ k) :
    1 ≤ (lowbitNat k.toNat : Int) ∧ (lowbitNat k.toNat : Int) ≤ k := by
  have := lowbitNat_pos k.toNat (by omega)
  omega

theorem Up.ge {a k : Int} (h : Up a k) (ha : 1 ≤ a) : a ≤ k := by
  induction h with
  | refl => exact le_refl a
  | @tail b c _ hbc ih =>
    have := lowbitNat_bounds b (by omega)
    omega

/-- Every index on the walk up from `a` covers `a` with its block. -/
theorem Up.covers {a k : Int} (h : Up a k) (ha : 1 ≤ a) :
    k - (lowbitNat k.toNat : Int) < a ∧ a ≤ k := by
  induction h with
  | refl =>
    have := lowbitNat_bounds a ha
    omega
  | @tail b c hab hbc ih =>
    have hb : 1 ≤ b := by have := Up.ge hab ha; omega
    have l1 := lowbitNat_bounds b hb
    have l2 := lowbitNat_carry b.toNat (by omega)
    have e : c.toNat = b.toNat + lowbitNat b.toNat := by omega
    rw [hbc] at *
    have e2 : (b + (lowbitNat b.toNat : Int)).toNat = b.toNat + lowbitNat b.toNat := by omega
    rw [e2]
    omega

theorem Up.of_covers_aux (m : Nat) :
    ∀ (a k : Int), 1 ≤ a → k - (lowbitNat k.toNat : Int) < a → a ≤ k → (k - a).toNat ≤ m →
      Up a k := by
  induction m with
  | zero =>
    intro a k _ _ h2 h3
    have : a = k := by omega
    rw [this]; exact Relation.ReflTransGen.refl
  | succ m ih =>
    intro a k ha h1 h2 h3
    by_cases e : a = k
    · rw [e]; exact Relation.ReflTransGen.refl
    · have la := lowbitNat_bounds a ha
      have hs := lowbitNat_step k.toNat a.toNat (by omega) (by omega)
      have hstep : a + (lowbitNat a.toNat : Int) ≤ k := by omega
      exact Relation.ReflTransGen.head rfl
        (ih (a + (lowbitNat a.toNat : Int)) k (by omega) (by omega) hstep (by omega))

/-- Every index whose block covers `a` is on the walk up from `a`. -/
theorem Up.of_covers {a k : Int} (ha : 1 ≤ a) (h1 : k - (lowbitNat k.toNat : Int) < a)
    (h2 : a ≤ k) : Up a k :=
  Up.of_covers_aux (k - a).toNat a k ha h1 h2 (le_refl _)

/-- The blocks that cover `a` are the block of `a` and the blocks that cover
the next index of the walk. -/
theorem covers_step (a k : Int) (ha : 1 ≤ a) :
    (k - (lowbitNat k.toNat : Int) < a ∧ a ≤ k) ↔
      (k = a ∨ (k - (lowbitNat k.toNat : Int) < a + (lowbitNat a.toNat : Int) ∧
        a + (lowbitNat a.toNat : Int) ≤ k)) := by
  have la := lowbitNat_bounds a ha
  constructor
  · intro ⟨h1, h2⟩
    rcases (Up.of_covers ha h1 h2).cases_head with e | ⟨c, hc, hup⟩
    · exact Or.inl e.symm
    · rw [hc] at hup
      exact Or.inr (Up.covers hup (by omega))
  · rintro (e | ⟨h1, h2⟩)
    · rw [e]; omega
    · have hup : Up a k := Relation.ReflTransGen.head rfl (Up.of_covers (by omega) h1 h2)
      exact Up.covers hup ha

/-! ## The shape of the implicit tree -/

theorem Ctx.root {n : Int} (h : 1 ≤ n) : Ctx n 1 0 (n - 1) :=
  ⟨le_refl 0, by omega, by omega, 1, le_refl 1, le_refl 1, by omega, by omega, by omega⟩

theorem Ctx.idx_pos {n idx left right : Int} (h : Ctx n idx left right) : 1 ≤ idx := by
  obtain ⟨_, _, _, P, h1, h2, _, _, _⟩ := h
  omega

theorem Ctx.idx_lt {n idx left right : Int} (h : Ctx n idx left right) : idx < 4 * n := by
  obtain ⟨_, _, _, P, h1, h2, h3, _, h5⟩ := h
  omega

theorem Ctx.mid_eq {n idx left right : Int} (h : Ctx n idx left right) :
    Int.tdiv (left + right) 2 = (left + right) / 2 := by
  obtain ⟨h0, h1, _⟩ := h
  exact Int.tdiv_eq_ediv (by omega) (by omega)

theorem Ctx.level {n idx left right : Int} (h : Ctx n idx left right) (hlt : left < right) :
    ∃ P : Int, 1 ≤ P ∧ P ≤ idx ∧ idx < 2 * P ∧ (right - left) * P < n ∧ P < n := by
  obtain ⟨_, _, _, P, h1, h2, h3, h4, _⟩ := h
  refine ⟨P, h1, h2, h3, h4, ?_⟩
  have : 1 * P ≤ (right - left) * P := mul_le_mul_of_nonneg_right (by omega) (by omega)
  omega

theorem Ctx.left_child {n idx left right : Int} (h : Ctx n idx left right)
    (hlt : left < right) : Ctx n (idx * 2) left ((left + right) / 2) := by
  obtain ⟨P, h1, h2, h3, h4, h5⟩ := h.level hlt
  obtain ⟨g0, g1, g2, _⟩ := h
  refine ⟨g0, by omega, by omega, 2 * P, by omega, by omega, by omega, ?_, by omega⟩
  have e : ((left + right) / 2 - left) * (2 * P) = (2 * ((left + right) / 2 - left)) * P := by
    ring
  have : (2 * ((left + right) / 2 - left)) * P ≤ (right - left) * P :=
    mul_le_mul_of_nonneg_right (by omega) (by omega)
  omega

theorem Ctx.right_child {n idx left right : Int} (h : Ctx n idx left right)
    (hlt : left < right) : Ctx n (idx * 2 + 1) ((left + right) / 2 + 1) right := by
  obtain ⟨P, h1, h2, h3, h4, h5⟩ := h.level hlt
  obtain ⟨g0, g1, g2, _⟩ := h
  refine ⟨by omega, by omega, g2, 2 * P, by omega, by omega, by omega, ?_, by omega⟩
  have e : (right - ((left + right) / 2 + 1)) * (2 * P)
      = (2 * (right - ((left + right) / 2 + 1))) * P := by ring
  have : (2 * (right - ((left + right) / 2 + 1))) * P ≤ (right - left) * P :=
    mul_le_mul_of_nonneg_right (by omega) (by omega)
  omega

theorem Ctx.child_lt {n idx left right : Int} (h : Ctx n idx left right)
    (hlt : left < right) : idx * 2 + 1 < 4 * n :=
  (h.right_child hlt).idx_lt

/-- In a call below the root of a tree of fewer than `2 ^ 29` elements, the
index expressions of the recursions are non-negative and below `2 ^ 31`, so
they are `int` values: `idx`, `left+right`, `mid+1` and `right-left+1`, and,
on a range of more than one element, where alone they are computed, `idx*2`
and `idx*2+1`. -/
theorem Ctx.fits {n idx left right : Int} (h : Ctx n idx left right) (hn : n < 2 ^ 29) :
    0 ≤ idx ∧ idx < 2 ^ 31 ∧ 0 ≤ left + right ∧ left + right < 2 ^ 31 ∧
      Int.tdiv (left + right) 2 + 1 < 2 ^ 31 ∧ 0 ≤ right - left + 1 ∧
      right - left + 1 < 2 ^ 31 ∧ (left < right → idx * 2 + 1 < 2 ^ 31) := by
  have h1 := h.idx_pos
  have h2 := h.idx_lt
  have h3 := h.mid_eq
  have h7 : left < right → idx * 2 + 1 < 4 * n := fun hlt => h.child_lt hlt
  obtain ⟨h4, h5, h6, _⟩ := h
  refine ⟨by omega, by omega, by omega, by omega, by omega, by omega, by omega, fun hlt => ?_⟩
  have := h7 hlt
  omega

theorem Desc.le {i j : Int} (h : Desc i j) : 1 ≤ i → i ≤ j := by
  induction h with
  | refl i => intro _; exact le_refl i
  | left _ ih => intro hi; have := ih (by omega); omega
  | right _ ih => intro hi; have := ih (by omega); omega

theorem Desc.parent {i j : Int} (h : Desc i j) : i ≠ j → Desc i (j / 2) := by
  induction h with
  | refl i => intro hne; exact absurd rfl hne
  | @left i j _ ih =>
    intro _
    by_cases e : i * 2 = j
    · have : j / 2 = i := by omega
      rw [this]; exact Desc.refl i
    · exact Desc.left (ih e)
  | @right i j _ ih =>
    intro _
    by_cases e : i * 2 + 1 = j
    · have : j / 2 = i := by omega
      rw [this]; exact Desc.refl i
    · exact Desc.right (ih e)

theorem Desc.disjoint_aux (k : Nat) : ∀ (i j : Int), 1 ≤ i → j.toNat ≤ k →
    Desc (i * 2) j → Desc (i * 2 + 1) j → False := by
  induction k with
  | zero =>
    intro i j hi hj h1 _
    have := h1.le (by omega)
    omega
  | succ k ih =>
    intro i j hi hj h1 h2
    have l1 := h1.le (by omega)
    have l2 := h2.le (by omega)
    by_cases e1 : i * 2 = j
    · omega
    · by_cases e2 : i * 2 + 1 = j
      · have := (h1.parent e1).le (by omega)
        omega
      · exact ih i (j / 2) hi (by omega) (h1.parent e1) (h2.parent e2)

theorem Desc.disjoint {i j : Int} (hi : 1 ≤ i) (h1 : Desc (i * 2) j)
    (h2 : Desc (i * 2 + 1) j) : False :=
  Desc.disjoint_aux j.toNat i j hi (le_refl _) h1 h2

theorem Desc.not_left_self {i : Int} (hi : 1 ≤ i) : ¬ Desc (i * 2) i := by
  intro h
  have := h.le (by omega)
  omega

theorem Desc.not_right_self {i : Int} (hi : 1 ≤ i) : ¬ Desc (i * 2 + 1) i := by
  intro h
  have := h.le (by omega)
  omega

/-! ## Sums over index ranges and the representation relation -/

section rep

variable {R : Type} [CommRing R]

theorem sum_Icc_split (g : Int → R) (l m r : Int) (h1 : l ≤ m + 1) (h2 : m ≤ r) :
    ∑ i in Finset.Icc l r, g i
      = ∑ i in Finset.Icc l m, g i + ∑ i in Finset.Icc (m + 1) r, g i := by
  have hu : Finset.Icc l r = Finset.Icc l m ∪ Finset.Icc (m + 1) r := by
    ext x
    simp only [Finset.mem_Icc, Finset.mem_union]
    omega
  have hd : Disjoint (Finset.Icc l m) (Finset.Icc (m + 1) r) := by
    rw [Finset.disjoint_left]
    intro x hx hy
    simp only [Finset.mem_Icc] at hx hy
    omega
  rw [hu, Finset.sum_union hd]

theorem sum_Icc_const (c : R) (l r : Int) (h : l ≤ r + 1) :
    ∑ _i in Finset.Icc l r, c = ((r - l + 1 : Int) : R) * c := by
  rw [Finset.sum_const, Int.card_Icc, nsmul_eq_mul]
  have : ((r + 1 - l).toNat : Int) = r - l + 1 := by omega
  rw [← this, Int.cast_natCast]

theorem Rep.top {S L : Int → R} {idx left right : Int} {f : Int → R}
    (h : Rep S L idx left right f) :
    S idx + ((right - left + 1 : Int) : R) * L idx = ∑ i in Finset.Icc left right, f i := by
  cases h with
  | leaf h => simpa using h
  | node _ h _ _ => exact h

theorem Rep.left_le_right {S L : Int → R} {idx left right : Int} {f : Int → R}
    (h : Rep S L idx left right f) : left ≤ right := by
  cases h with
  | leaf _ => exact le_refl _
  | node h _ _ _ => exact le_of_lt h

theorem Rep.ext {S L : Int → R} {idx left right : Int} {f : Int → R}
    (h : Rep S L idx left right f) :
    ∀ g : Int → R, (∀ i, left ≤ i → i ≤ right → f i = g i) → Rep S L idx left right g := by
  induction h with
  | leaf h => intro g hg; exact Rep.leaf (by rw [← hg _ (le_refl _) (le_refl _)]; exact h)
  | @node idx left right f hlt htop _ _ ih1 ih2 =>
    intro g hg
    refine Rep.node hlt ?_ (ih1 _ ?_) (ih2 _ ?_)
    · rw [htop]
      exact Finset.sum_congr rfl fun i hi => by
        simp only [Finset.mem_Icc] at hi
        exact hg i hi.1 hi.2
    · intro i h1 h2
      show f i - L idx = g i - L idx
      rw [hg i h1 (by omega)]
    · intro i h1 h2
      show f i - L idx = g i - L idx
      rw [hg i (by omega) h2]

theorem Rep.congr {S L S2 L2 : Int → R} {idx left right : Int} {f : Int → R}
    (h : Rep S L idx left right f) :
    (∀ j, Desc idx j → S2 j = S j ∧ L2 j = L j) → Rep S2 L2 idx left right f := by
  induction h with
  | @leaf idx left f h =>
    intro hc
    obtain ⟨e1, e2⟩ := hc idx (Desc.refl idx)
    exact Rep.leaf (by rw [e1, e2]; exact h)
  | @node idx left right f hlt htop _ _ ih1 ih2 =>
    intro hc
    obtain ⟨e1, e2⟩ := hc idx (Desc.refl idx)
    refine Rep.node hlt (by rw [e1, e2]; exact htop) ?_ ?_
    · rw [e2]; exact ih1 fun j hj => hc j (Desc.left hj)
    · rw [e2]; exact ih2 fun j hj => hc j (Desc.right hj)

/-- Adding `c` to the pending delta of a node, and nothing else in its
subtree, adds `c` to every element the subtree stands for. -/
theorem Rep.shift {S L S2 L2 : Int → R} {idx left right : Int} {f : Int → R} (c : R)
    (hidx : 1 ≤ idx) (h : Rep S L idx left right f)
    (hS : ∀ j, Desc idx j → S2 j = S j) (hL0 : L2 idx = L idx + c)
    (hL : ∀ j, Desc idx j → j ≠ idx → L2 j = L j) :
    Rep S2 L2 idx left right (fun i => f i + c) := by
  cases h with
  | leaf h =>
    refine Rep.leaf ?_
    rw [hS idx (Desc.refl idx), hL0, ← h]
    ring
  | node hlt htop h1 h2 =>
    have hl : ∀ j, Desc (idx * 2) j → S2 j = S j ∧ L2 j = L j := fun j hj =>
      ⟨hS j (Desc.left hj), hL j (Desc.left hj) (by have := hj.le (by omega); omega)⟩
    have hr : ∀ j, Desc (idx * 2 + 1) j → S2 j = S j ∧ L2 j = L j := fun j hj =>
      ⟨hS j (Desc.right hj), hL j (Desc.right hj) (by have := hj.le (by omega); omega)⟩
    refine Rep.node hlt ?_ ((h1.congr hl).ext _ ?_) ((h2.congr hr).ext _ ?_)
    · rw [hS idx (Desc.refl idx), hL0, Finset.sum_add_distrib, ← htop,
        sum_Icc_const c left right (by omega)]
      ring
    · intro i _ _
      show f i - L idx = f i + c - L2 idx
      rw [hL0]; ring
    · intro i _ _
      show f i - L idx = f i + c - L2 idx
      rw [hL0]; ring

end rep

/-! ## The segment tree operations -/

namespace SegmentTree

variable {R : Type} [CommRing R] [DecidableEq R]

/-- What `propagate` does to the slots, whether or not a delta is pending. -/
theorem propagate_spec (s : SegmentTree R) {n idx left right : Int}
    (hc : Ctx n idx left right) (hseg : (s.seg.length : Int) = 4 * n)
    (hlazy : (s.lazy.length : Int) = 4 * n) :
    ∃ t, propagate s idx left right = .ok t ∧ t.n = s.n ∧
      t.seg.length = s.seg.length ∧ t.lazy.length = s.lazy.length ∧
      cell t.seg idx
        = cell s.seg idx + ((right - left + 1 : Int) : R) * cell s.lazy idx ∧
      (∀ j, j ≠ idx → cell t.seg j = cell s.seg j) ∧
      cell t.lazy idx = 0 ∧
      (left < right →
        cell t.lazy (idx * 2) = cell s.lazy (idx * 2) + cell s.lazy idx ∧
        cell t.lazy (idx * 2 + 1) = cell s.lazy (idx * 2 + 1) + cell s.lazy idx) ∧
      (∀ j, j ≠ idx → (left < right → j ≠ idx * 2 ∧ j ≠ idx * 2 + 1) →
        cell t.lazy j = cell s.lazy j) := by
  have h1 := hc.idx_pos
  have h2 := hc.idx_lt
  have i0 : 0 ≤ idx := by omega
  have iS : idx < s.seg.length := by omega
  have iL : idx < s.lazy.length := by omega
  by_cases hz : cell s.lazy idx = 0
  · refine ⟨s, ?_, rfl, rfl, rfl, ?_, fun _ _ => rfl, hz, ?_, fun _ _ _ => rfl⟩
    · simp [propagate, rd_ok _ _ i0 iL, bind_ok, hz]
    · rw [hz]; simp
    · intro _; rw [hz]; simp
  · by_cases hlt : left < right
    · have h3 := hc.child_lt hlt
      have c0 : 0 ≤ idx * 2 := by omega
      have cL : idx * 2 < s.lazy.length := by omega
      have d0 : 0 ≤ idx * 2 + 1 := by omega
      have ne1 : idx ≠ idx * 2 := by omega
      have ne2 : idx * 2 + 1 ≠ idx * 2 := by omega
      have ne3 : idx ≠ idx * 2 + 1 := by omega
      have ne4 : idx * 2 ≠ idx * 2 + 1 := by omega
      have ne5 : idx * 2 ≠ idx := by omega
      have ne6 : idx * 2 + 1 ≠ idx := by omega
      have cL1 : idx < ((s.lazy.set (idx * 2).toNat
          (cell s.lazy (idx * 2) + cell s.lazy idx)).length : Int) := by
        rw [List.length_set]; omega
      have dL1 : idx * 2 + 1 < ((s.lazy.set (idx * 2).toNat
          (cell s.lazy (idx * 2) + cell s.lazy idx)).length : Int) := by
        rw [List.length_set]; omega
      have eL2 : idx < (((s.lazy.set (idx * 2).toNat
          (cell s.lazy (idx * 2) + cell s.lazy idx)).set (idx * 2 + 1).toNat
          (cell s.lazy (idx * 2 + 1) + cell s.lazy idx)).length : Int) := by
        rw [List.length_set, List.length_set]; omega
      refine ⟨{ s with
          seg := s.seg.set idx.toNat
            (cell s.seg idx + ((right - left + 1 : Int) : R) * cell s.lazy idx)
          lazy := ((s.lazy.set (idx * 2).toNat
            (cell s.lazy (idx * 2) + cell s.lazy idx)).set (idx * 2 + 1).toNat
            (cell s.lazy (idx * 2 + 1) + cell s.lazy idx)).set idx.toNat 0 }, ?_, ?_⟩
      · simp only [propagate, rd_ok _ _ i0 iL, rd_ok _ _ i0 iS, wr_ok _ _ _ i0 iS,
          rd_ok _ _ c0 cL, wr_ok _ _ _ c0 cL, rd_ok _ _ i0 cL1, rd_ok _ _ d0 dL1,
          wr_ok _ _ _ d0 dL1, cell_set _ _ _ _ c0 cL, bind_ok, hz, hlt, ne_eq,
          not_false_eq_true, if_true, if_false, ne1, ne2, wr_ok _ _ _ i0 eL2]
      · simp only [List.length_set, cell_set _ _ _ _ i0 iS, cell_set _ _ _ _ i0 eL2,
          cell_set _ _ _ _ d0 dL1, cell_set _ _ _ _ c0 cL, if_true, ne4, ne5, ne6,
          if_false, true_and]
        refine ⟨fun j hj => by simp [hj], fun _ => trivial, ?_⟩
        intro j hj hj2
        obtain ⟨a, b⟩ := hj2 hlt
        simp [hj, a, b]
    · refine ⟨{ s with
          seg := s.seg.set idx.toNat
            (cell s.seg idx + ((right - left + 1 : Int) : R) * cell s.lazy idx)
          lazy := s.lazy.set idx.toNat 0 }, ?_, ?_⟩
      · simp only [propagate, rd_ok _ _ i0 iL, rd_ok _ _ i0 iS, wr_ok _ _ _ i0 iS,
          bind_ok, hz, hlt, ne_eq, not_false_eq_true, if_true, if_false,
          wr_ok _ _ _ i0 iL]
      · simp only [List.length_set, cell_set _ _ _ _ i0 iS, cell_set _ _ _ _ i0 iL,
          if_true, true_and]
        refine ⟨fun j hj => by simp [hj], fun h => absurd h hlt, ?_⟩
        intro j hj _
        simp [hj]

end SegmentTree

section frame

variable {R : Type} [CommRing R]

theorem Frame.refl (s : SegmentTree R) (idx : Int) : Frame s s idx :=
  ⟨rfl, rfl, rfl, fun _ _ => ⟨rfl, rfl⟩⟩

theorem Frame.trans {s t u : SegmentTree R} {idx : Int} (h1 : Frame s t idx)
    (h2 : Frame t u idx) : Frame s u idx := by
  obtain ⟨a1, a2, a3, a4⟩ := h1
  obtain ⟨b1, b2, b3, b4⟩ := h2
  refine ⟨b1.trans a1, b2.trans a2, b3.trans a3, fun j hj => ?_⟩
  exact ⟨(b4 j hj).1.trans (a4 j hj).1, (b4 j hj).2.trans (a4 j hj).2⟩

theorem Frame.of_left {s t : SegmentTree R} {idx : Int} (h : Frame s t (idx * 2)) :
    Frame s t idx := by
  obtain ⟨a1, a2, a3, a4⟩ := h
  exact ⟨a1, a2, a3, fun j hj => a4 j fun hd => hj (Desc.left hd)⟩

theorem Frame.of_right {s t : SegmentTree R} {idx : Int} (h : Frame s t (idx * 2 + 1)) :
    Frame s t idx := by
  obtain ⟨a1, a2, a3, a4⟩ := h
  exact ⟨a1, a2, a3, fun j hj => a4 j fun hd => hj (Desc.right hd)⟩

theorem Rep.children {S L : Int → R} {idx left right : Int} {f : Int → R}
    (h : Rep S L idx left right f) (hlt : left < right) :
    Rep S L (idx * 2) left ((left + right) / 2) (fun i => f i - L idx) ∧
      Rep S L (idx * 2 + 1) ((left + right) / 2 + 1) right (fun i => f i - L idx) := by
  cases h with
  | leaf _ => exact absurd hlt (lt_irrefl _)
  | node _ _ h1 h2 => exact ⟨h1, h2⟩

/-- A change confined to the left subtree leaves the right subtree as it was. -/
theorem Rep.frame_left {s t : SegmentTree R} {idx left right : Int} {f : Int → R}
    (hidx : 1 ≤ idx) (hf : Frame s t (idx * 2))
    (h : Rep (cell s.seg) (cell s.lazy) (idx * 2 + 1) left right f) :
    Rep (cell t.seg) (cell t.lazy) (idx * 2 + 1) left right f :=
  h.congr fun j hj => hf.2.2.2 j fun hd => Desc.disjoint hidx hd hj

/-- A change confined to the right subtree leaves the left subtree as it was. -/
theorem Rep.frame_right {s t : SegmentTree R} {idx left right : Int} {f : Int → R}
    (hidx : 1 ≤ idx) (hf : Frame s t (idx * 2 + 1))
    (h : Rep (cell s.seg) (cell s.lazy) (idx * 2) left right f) :
    Rep (cell t.seg) (cell t.lazy) (idx * 2) left right f :=
  h.congr fun j hj => hf.2.2.2 j fun hd => Desc.disjoint hidx hj hd

end frame

namespace SegmentTree

variable {R : Type} [CommRing R] [DecidableEq R]

/-- The call `propagate(idx, left, right)` returns, keeps what the subtree
stands for, clears the pending delta of the node and touches no slot outside
the subtree. -/
theorem propagate_rep (s : SegmentTree R) {n idx left right : Int} {f : Int → R}
    (hc : Ctx n idx left right) (hseg : (s.seg.length : Int) = 4 * n)
    (hlazy : (s.lazy.length : Int) = 4 * n)
    (h : Rep (cell s.seg) (cell s.lazy) idx left right f) :
    ∃ t, propagate s idx left right = .ok t ∧ Frame s t idx ∧ cell t.lazy idx = 0 ∧
      Rep (cell t.seg) (cell t.lazy) idx left right f := by
  obtain ⟨t, e, hn, hls, hll, hS0, hS, hL0, hLc, hL⟩ := propagate_spec s hc hseg hlazy
  have hidx := hc.idx_pos
  refine ⟨t, e, ⟨hn, hls, hll, fun j hj => ?_⟩, hL0, ?_⟩
  · have n1 : j ≠ idx := fun e => hj (e ▸ Desc.refl idx)
    have n2 : j ≠ idx * 2 := fun e => hj (e ▸ Desc.left (Desc.refl _))
    have n3 : j ≠ idx * 2 + 1 := fun e => hj (e ▸ Desc.right (Desc.refl _))
    exact ⟨hS j n1, hL j n1 fun _ => ⟨n2, n3⟩⟩
  · by_cases hlt : left < right
    · obtain ⟨c1, c2⟩ := h.children hlt
      obtain ⟨hL1, hL2⟩ := hLc hlt
      refine Rep.node hlt ?_ ?_ ?_
      · rw [hS0, hL0, h.top]; simp
      · refine (Rep.shift (cell s.lazy idx) (by omega) c1 ?_ hL1 ?_).ext _ ?_
        · intro j hj
          have := hj.le (by omega)
          exact hS j (by omega)
        · intro j hj hne
          have := hj.le (by omega)
          refine hL j (by omega) fun _ => ⟨hne, fun e => ?_⟩
          exact Desc.disjoint hidx hj (e ▸ Desc.refl _)
        · intro i _ _
          show f i - cell s.lazy idx + cell s.lazy idx = f i - cell t.lazy idx
          rw [hL0]; ring
      · refine (Rep.shift (cell s.lazy idx) (by omega) c2 ?_ hL2 ?_).ext _ ?_
        · intro j hj
          have := hj.le (by omega)
          exact hS j (by omega)
        · intro j hj hne
          have := hj.le (by omega)
          refine hL j (by omega) fun _ => ⟨fun e => ?_, hne⟩
          exact Desc.disjoint hidx (e ▸ Desc.refl _) hj
        · intro i _ _
          show f i - cell s.lazy idx + cell s.lazy idx = f i - cell t.lazy idx
          rw [hL0]; ring
    · have e : left = right := le_antisymm h.left_le_right (not_lt.mp hlt)
      subst e
      refine Rep.leaf ?_
      have := h.top
      rw [Finset.Icc_self, Finset.sum_singleton] at this
      rw [hS0, hL0, this]; simp

/-- The call `rangeQuery(idx, left, right, ql, qr)` returns the sum of the
elements of the node that lie in `[ql, qr]`, with fuel from the length of the
range on; it keeps what the subtree stands for and touches nothing else. -/
theorem rangeQuery_spec (ql qr : Int) {n : Int} :
    ∀ (fuel : Nat) (s : SegmentTree R) (idx left right : Int) (f : Int → R),
      Ctx n idx left right → (s.seg.length : Int) = 4 * n →
      (s.lazy.length : Int) = 4 * n →
      Rep (cell s.seg) (cell s.lazy) idx left right f →
      right - left + 1 ≤ fuel →
      ∃ t, rangeQuery fuel s idx left right ql qr
          = .ok (∑ i in Finset.Icc left right, if ql ≤ i ∧ i ≤ qr then f i else 0, t) ∧
        Frame s t idx ∧ cell t.lazy idx = 0 ∧
        Rep (cell t.seg) (cell t.lazy) idx left right f := by
  intro fuel
  induction fuel with
  | zero =>
    intro s idx left right f hc _ _ _ hfuel
    obtain ⟨_, h1, _⟩ := hc
    omega
  | succ fuel ih =>
    intro s idx left right f hc hseg hlazy hrep hfuel
    obtain ⟨t0, e0, fr0, z0, rep0⟩ := propagate_rep s hc hseg hlazy hrep
    have hidx := hc.idx_pos
    have hseg0 : (t0.seg.length : Int) = 4 * n := by rw [fr0.2.1]; exact hseg
    have hlazy0 : (t0.lazy.length : Int) = 4 * n := by rw [fr0.2.2.1]; exact hlazy
    by_cases hout : right < ql ∨ left > qr
    · refine ⟨t0, ?_, fr0, z0, rep0⟩
      simp only [rangeQuery, e0, bind_ok, hout, if_true]
      congr 2
      symm
      refine Finset.sum_eq_zero fun i hi => ?_
      simp only [Finset.mem_Icc] at hi
      have : ¬ (ql ≤ i ∧ i ≤ qr) := by omega
      simp [this]
    · by_cases hin : ql ≤ left ∧ right ≤ qr
      · refine ⟨t0, ?_, fr0, z0, rep0⟩
        have hi := hc.idx_lt
        simp only [rangeQuery, e0, bind_ok, hout, hin, if_true, if_false, and_self,
          rd_ok t0.seg idx (by omega) (by omega)]
        congr 2
        have top := rep0.top
        rw [z0, mul_zero, add_zero] at top
        rw [top]
        refine Finset.sum_congr rfl fun i hi => ?_
        simp only [Finset.mem_Icc] at hi
        have : ql ≤ i ∧ i ≤ qr := by omega
        simp [this]
      · have hlt : left < right := by
          obtain ⟨_, h1, _⟩ := hc
          omega
        obtain ⟨c1, c2⟩ := rep0.children hlt
        have c1r : Rep (cell t0.seg) (cell t0.lazy) (idx * 2) left ((left + right) / 2) f :=
          c1.ext _ fun i _ _ => by show f i - cell t0.lazy idx = f i; rw [z0]; ring
        have c2r : Rep (cell t0.seg) (cell t0.lazy) (idx * 2 + 1)
            ((left + right) / 2 + 1) right f :=
          c2.ext _ fun i _ _ => by show f i - cell t0.lazy idx = f i; rw [z0]; ring
        obtain ⟨t1, e1, fr1, _, rep1⟩ := ih t0 (idx * 2) left ((left + right) / 2) f
          (hc.left_child hlt) hseg0 hlazy0 c1r (by omega)
        have hseg1 : (t1.seg.length : Int) = 4 * n := by rw [fr1.2.1]; exact hseg0
        have hlazy1 : (t1.lazy.length : Int) = 4 * n := by rw [fr1.2.2.1]; exact hlazy0
        obtain ⟨t2, e2, fr2, _, rep2⟩ := ih t1 (idx * 2 + 1) ((left + right) / 2 + 1) right f
          (hc.right_child hlt) hseg1 hlazy1 (c2r.frame_left hidx fr1) (by omega)
        have s1 := fr1.2.2.2 idx (Desc.not_left_self hidx)
        have s2 := fr2.2.2.2 idx (Desc.not_right_self hidx)
        have z2 : cell t2.lazy idx = 0 := by rw [s2.2, s1.2]; exact z0
        refine ⟨t2, ?_, fr0.trans (fr1.of_left.trans fr2.of_right), z2, ?_⟩
        · simp only [rangeQuery, e0, bind_ok, hout, hin, if_false, hc.mid_eq, e1, e2]
          congr 2
          exact (sum_Icc_split _ left ((left + right) / 2) right (by omega) (by omega)).symm
        · refine Rep.node hlt ?_ ?_ ?_
          · rw [s2.1, s1.1, s2.2, s1.2]; exact rep0.top
          · exact (rep1.frame_right hidx fr2).ext _ fun i _ _ => by
              show f i = f i - cell t2.lazy idx
              rw [z2]; ring
          · exact rep2.ext _ fun i _ _ => by
              show f i = f i - cell t2.lazy idx
              rw [z2]; ring

/-- The call `updateRange(idx, left, right, ql, qr, val)` returns, with fuel
from the length of the range on; afterwards the subtree stands for the old
values with `val` added on `[ql, qr]`, the node has no pending delta, and
nothing outside the subtree is touched. -/
theorem updateRange_spec (ql qr : Int) (val : R) {n : Int} :
    ∀ (fuel : Nat) (s : SegmentTree R) (idx left right : Int) (f : Int → R),
      Ctx n idx left right → (s.seg.length : Int) = 4 * n →
      (s.lazy.length : Int) = 4 * n →
      Rep (cell s.seg) (cell s.lazy) idx left right f →
      right - left + 1 ≤ fuel →
      ∃ t, updateRange fuel s idx left right ql qr val = .ok t ∧
        Frame s t idx ∧ cell t.lazy idx = 0 ∧
        Rep (cell t.seg) (cell t.lazy) idx left right
          (fun i => f i + if ql ≤ i ∧ i ≤ qr then val else 0) := by
  intro fuel
  induction fuel with
  | zero =>
    intro s idx left right f hc _ _ _ hfuel
    obtain ⟨_, h1, _⟩ := hc
    omega
  | succ fuel ih =>
    intro s idx left right f hc hseg hlazy hrep hfuel
    obtain ⟨t0, e0, fr0, z0, rep0⟩ := propagate_rep s hc hseg hlazy hrep
    have hidx := hc.idx_pos
    have hi := hc.idx_lt
    have hseg0 : (t0.seg.length : Int) = 4 * n := by rw [fr0.2.1]; exact hseg
    have hlazy0 : (t0.lazy.length : Int) = 4 * n := by rw [fr0.2.2.1]; exact hlazy
    by_cases hout : right < ql ∨ left > qr
    · refine ⟨t0, ?_, fr0, z0, rep0.ext _ fun i h1 h2 => ?_⟩
      · simp only [updateRange, e0, bind_ok, hout, if_true]
      · have : ¬ (ql ≤ i ∧ i ≤ qr) := by omega
        simp [this]
    · by_cases hin : ql ≤ left ∧ right ≤ qr
      · have i0 : 0 ≤ idx := by omega
        have iL : idx < t0.lazy.length := by omega
        have repA : Rep (cell t0.seg) (cell (t0.lazy.set idx.toNat (cell t0.lazy idx + val)))
            idx left right (fun i => f i + val) := by
          refine Rep.shift val hidx rep0 (fun _ _ => rfl) ?_ ?_
          · rw [cell_set _ _ _ _ i0 iL, if_pos rfl]
          · intro j _ hne
            rw [cell_set _ _ _ _ i0 iL, if_neg hne]
        have frA : Frame t0
            { t0 with lazy := t0.lazy.set idx.toNat (cell t0.lazy idx + val) } idx := by
          refine ⟨rfl, rfl, List.length_set _ _ _, fun j hj => ⟨rfl, ?_⟩⟩
          have hne : j ≠ idx := fun e => hj (e ▸ Desc.refl idx)
          show cell (t0.lazy.set idx.toNat (cell t0.lazy idx + val)) j = cell t0.lazy j
          rw [cell_set _ _ _ _ i0 iL, if_neg hne]
        obtain ⟨t1, e1, fr1, z1, rep1⟩ := propagate_rep
          { t0 with lazy := t0.lazy.set idx.toNat (cell t0.lazy idx + val) } hc hseg0
          (by show ((t0.lazy.set idx.toNat _).length : Int) = 4 * n
              rw [List.length_set]; exact hlazy0) repA
        refine ⟨t1, ?_, fr0.trans (frA.trans fr1), z1, rep1.ext _ fun i h1 h2 => ?_⟩
        · simp only [updateRange, e0, bind_ok, hout, hin, if_true, if_false, and_self,
            rd_ok t0.lazy idx i0 iL, wr_ok t0.lazy idx _ i0 iL, e1]
        · have : ql ≤ i ∧ i ≤ qr := by omega
          simp [this]
      · have hlt : left < right := by
          obtain ⟨_, h1, _⟩ := hc
          omega
        obtain ⟨c1, c2⟩ := rep0.children hlt
        have c1r : Rep (cell t0.seg) (cell t0.lazy) (idx * 2) left ((left + right) / 2) f :=
          c1.ext _ fun i _ _ => by show f i - cell t0.lazy idx = f i; rw [z0]; ring
        have c2r : Rep (cell t0.seg) (cell t0.lazy) (idx * 2 + 1)
            ((left + right) / 2 + 1) right f :=
          c2.ext _ fun i _ _ => by show f i - cell t0.lazy idx = f i; rw [z0]; ring
        obtain ⟨t1, e1, fr1, z1, rep1⟩ := ih t0 (idx * 2) left ((left + right) / 2) f
          (hc.left_child hlt) hseg0 hlazy0 c1r (by omega)
        have hseg1 : (t1.seg.length : Int) = 4 * n := by rw [fr1.2.1]; exact hseg0
        have hlazy1 : (t1.lazy.length : Int) = 4 * n := by rw [fr1.2.2.1]; exact hlazy0
        obtain ⟨t2, e2, fr2, z2, rep2⟩ := ih t1 (idx * 2 + 1) ((left + right) / 2 + 1)
          right f (hc.right_child hlt) hseg1 hlazy1 (c2r.frame_left hidx fr1) (by omega)
        have hseg2 : (t2.seg.length : Int) = 4 * n := by rw [fr2.2.1]; exact hseg1
        have rep1b := rep1.frame_right hidx fr2
        have s1 := fr1.2.2.2 idx (Desc.not_left_self hidx)
        have s2 := fr2.2.2.2 idx (Desc.not_right_self hidx)
        have zi : cell t2.lazy idx = 0 := by rw [s2.2, s1.2]; exact z0
        have zl : cell t2.lazy (idx * 2) = 0 := by
          rw [(fr2.2.2.2 (idx * 2) fun hd => Desc.disjoint hidx (Desc.refl _) hd).2]
          exact z1
        have hch := hc.child_lt hlt
        have i0 : 0 ≤ idx := by omega
        have iS : idx < t2.seg.length := by omega
        have frB : Frame t2 { t2 with seg := (t2.seg.set idx.toNat
            (cell t2.seg (idx * 2) + cell t2.seg (idx * 2 + 1))) } idx := by
          refine ⟨rfl, List.length_set _ _ _, rfl, fun j hj => ⟨?_, rfl⟩⟩
          have hne : j ≠ idx := fun e => hj (e ▸ Desc.refl idx)
          show cell (t2.seg.set idx.toNat _) j = cell t2.seg j
          rw [cell_set _ _ _ _ i0 iS, if_neg hne]
        refine ⟨{ t2 with seg := (t2.seg.set idx.toNat
            (cell t2.seg (idx * 2) + cell t2.seg (idx * 2 + 1))) }, ?_,
          fr0.trans (fr1.of_left.trans (fr2.of_right.trans frB)), zi, ?_⟩
        · simp only [updateRange, e0, bind_ok, hout, hin, if_false, hc.mid_eq, e1, e2,
            rd_ok t2.seg (idx * 2) (by omega) (by omega),
            rd_ok t2.seg (idx * 2 + 1) (by omega) (by omega),
            wr_ok t2.seg idx _ i0 iS]
        · have keep : ∀ c : Int, c ≠ idx → ∀ j, Desc c j → 1 ≤ c → idx < c →
              cell (t2.seg.set idx.toNat
                (cell t2.seg (idx * 2) + cell t2.seg (idx * 2 + 1))) j = cell t2.seg j ∧
              cell t2.lazy j = cell t2.lazy j := by
            intro c _ j hj hc1 hlt2
            have := hj.le hc1
            refine ⟨?_, rfl⟩
            rw [cell_set _ _ _ _ i0 iS, if_neg (by omega)]
          refine Rep.node hlt ?_ ?_ ?_
          · show cell (t2.seg.set idx.toNat _) idx + _ * cell t2.lazy idx = _
            have top1 := rep1b.top
            have top2 := rep2.top
            rw [zl, mul_zero, add_zero] at top1
            rw [z2, mul_zero, add_zero] at top2
            rw [cell_set _ _ _ _ i0 iS, if_pos rfl, zi, mul_zero, add_zero, top1, top2]
            exact (sum_Icc_split _ left ((left + right) / 2) right (by omega)
              (by omega)).symm
          · refine (rep1b.congr fun j hj => keep (idx * 2) (by omega) j hj (by omega)
              (by omega)).ext _ fun i _ _ => ?_
            show _ = _ - cell t2.lazy idx
            rw [zi]; ring
          · refine (rep2.congr fun j hj => keep (idx * 2 + 1) (by omega) j hj (by omega)
              (by omega)).ext _ fun i _ _ => ?_
            show _ = _ - cell t2.lazy idx
            rw [zi]; ring

omit [DecidableEq R] in
/-- The call `build(arr, idx, left, right)` on a tree without pending deltas
returns, with fuel from the length of the range on; afterwards the subtree
stands for the slice of `arr`, and only aggregates of the subtree changed. -/
theorem buildRec_spec (arr : List R) {n : Int} (harr : (arr.length : Int) = n) :
    ∀ (fuel : Nat) (s : SegmentTree R) (idx left right : Int),
      Ctx n idx left right → (s.seg.length : Int) = 4 * n →
      (∀ j, cell s.lazy j = 0) →
      right - left + 1 ≤ fuel →
      ∃ t, buildRec fuel arr s idx left right = .ok t ∧
        Frame s t idx ∧ t.lazy = s.lazy ∧
        Rep (cell t.seg) (cell t.lazy) idx left right (cell arr) := by
  intro fuel
  induction fuel with
  | zero =>
    intro s idx left right hc _ _ hfuel
    obtain ⟨_, h1, _⟩ := hc
    omega
  | succ fuel ih =>
    intro s idx left right hc hseg hz hfuel
    have hidx := hc.idx_pos
    have hi := hc.idx_lt
    have i0 : 0 ≤ idx := by omega
    by_cases heq : left = right
    · subst heq
      have iS : idx < s.seg.length := by omega
      obtain ⟨l0, _, l1, _⟩ := hc
      refine ⟨{ s with seg := s.seg.set idx.toNat (cell arr left) }, ?_,
        ⟨rfl, List.length_set _ _ _, rfl, fun j hj => ⟨?_, rfl⟩⟩, rfl, Rep.leaf ?_⟩
      · simp only [buildRec, if_true, rd_ok arr left l0 (by omega), bind_ok,
          wr_ok s.seg idx _ i0 iS]
      · have hne : j ≠ idx := fun e => hj (e ▸ Desc.refl idx)
        show cell (s.seg.set idx.toNat _) j = cell s.seg j
        rw [cell_set _ _ _ _ i0 iS, if_neg hne]
      · show cell (s.seg.set idx.toNat _) idx + cell s.lazy idx = _
        rw [cell_set _ _ _ _ i0 iS, if_pos rfl, hz, add_zero]
    · have hlt : left < right := by
        obtain ⟨_, h1, _⟩ := hc
        omega
      obtain ⟨t1, e1, fr1, lz1, rep1⟩ := ih s (idx * 2) left ((left + right) / 2)
        (hc.left_child hlt) hseg hz (by omega)
      have hseg1 : (t1.seg.length : Int) = 4 * n := by rw [fr1.2.1]; exact hseg
      obtain ⟨t2, e2, fr2, lz2, rep2⟩ := ih t1 (idx * 2 + 1) ((left + right) / 2 + 1) right
        (hc.right_child hlt) hseg1 (by rw [lz1]; exact hz) (by omega)
      have hseg2 : (t2.seg.length : Int) = 4 * n := by rw [fr2.2.1]; exact hseg1
      have hz2 : ∀ j, cell t2.lazy j = 0 := by rw [lz2, lz1]; exact hz
      have rep1b := rep1.frame_right hidx fr2
      have hch := hc.child_lt hlt
      have iS : idx < t2.seg.length := by omega
      have frB : Frame t2 { t2 with seg := (t2.seg.set idx.toNat
          (cell t2.seg (idx * 2) + cell t2.seg (idx * 2 + 1))) } idx := by
        refine ⟨rfl, List.length_set _ _ _, rfl, fun j hj => ⟨?_, rfl⟩⟩
        have hne : j ≠ idx := fun e => hj (e ▸ Desc.refl idx)
        show cell (t2.seg.set idx.toNat _) j = cell t2.seg j
        rw [cell_set _ _ _ _ i0 iS, if_neg hne]
      refine ⟨{ t2 with seg := (t2.seg.set idx.toNat
          (cell t2.seg (idx * 2) + cell t2.seg (idx * 2 + 1))) }, ?_,
        fr1.of_left.trans (fr2.of_right.trans frB), lz2.trans lz1, ?_⟩
      · simp only [buildRec, heq, if_false, hc.mid_eq, e1, e2, bind_ok,
          rd_ok t2.seg (idx * 2) (by omega) (by omega),
          rd_ok t2.seg (idx * 2 + 1) (by omega) (by omega),
          wr_ok t2.seg idx _ i0 iS]
      · have keep : ∀ c : Int, ∀ j, Desc c j → 1 ≤ c → idx < c →
            cell (t2.seg.set idx.toNat
              (cell t2.seg (idx * 2) + cell t2.seg (idx * 2 + 1))) j = cell t2.seg j ∧
            cell t2.lazy j = cell t2.lazy j := by
          intro c j hj hc1 hlt2
          have := hj.le hc1
          refine ⟨?_, rfl⟩
          rw [cell_set _ _ _ _ i0 iS, if_neg (by omega)]
        refine Rep.node hlt ?_ ?_ ?_
        · show cell (t2.seg.set idx.toNat _) idx + _ * cell t2.lazy idx = _
          have top1 := rep1b.top
          have top2 := rep2.top
          rw [hz2, mul_zero, add_zero] at top1 top2
          rw [cell_set _ _ _ _ i0 iS, if_pos rfl, hz2, mul_zero, add_zero, top1, top2]
          exact (sum_Icc_split _ left ((left + right) / 2) right (by omega) (by omega)).symm
        · refine (rep1b.congr fun j hj => keep (idx * 2) j hj (by omega)
            (by omega)).ext _ fun i _ _ => ?_
          show _ = _ - cell t2.lazy idx
          rw [hz2]; ring
        · refine (rep2.congr fun j hj => keep (idx * 2 + 1) j hj (by omega)
            (by omega)).ext _ fun i _ _ => ?_
          show _ = _ - cell t2.lazy idx
          rw [hz2]; ring

/-- More fuel does not change a result of `rangeQuery`. -/
theorem rangeQuery_mono (ql qr : Int) :
    ∀ (fuel fuel2 : Nat) (s : SegmentTree R) (idx left right : Int) (x : R × SegmentTree R),
      fuel ≤ fuel2 → rangeQuery fuel s idx left right ql qr = .ok x →
      rangeQuery fuel2 s idx left right ql qr = .ok x := by
  intro fuel
  induction fuel with
  | zero => intro fuel2 s idx left right x _ h; cases h
  | succ fuel ih =>
    intro fuel2 s idx left right x hle h
    obtain ⟨k, rfl⟩ : ∃ k, fuel2 = k + 1 := ⟨fuel2 - 1, by omega⟩
    simp only [rangeQuery] at h ⊢
    obtain ⟨t0, e0, h⟩ := bind_eq_ok h
    rw [e0, bind_ok]
    split
    · rename_i hc; rw [if_pos hc] at h; exact h
    · rename_i hc
      rw [if_neg hc] at h
      split
      · rename_i hd; rw [if_pos hd] at h; exact h
      · rename_i hd
        rw [if_neg hd] at h
        obtain ⟨p, e1, h⟩ := bind_eq_ok h
        obtain ⟨q, e2, h⟩ := bind_eq_ok h
        rw [ih k _ _ _ _ _ (by omega) e1, bind_ok, ih k _ _ _ _ _ (by omega) e2, bind_ok]
        exact h

/-- More fuel does not change a result of `updateRange`. -/
theorem updateRange_mono (ql qr : Int) (val : R) :
    ∀ (fuel fuel2 : Nat) (s : SegmentTree R) (idx left right : Int) (x : SegmentTree R),
      fuel ≤ fuel2 → updateRange fuel s idx left right ql qr val = .ok x →
      updateRange fuel2 s idx left right ql qr val = .ok x := by
  intro fuel
  induction fuel with
  | zero => intro fuel2 s idx left right x _ h; cases h
  | succ fuel ih =>
    intro fuel2 s idx left right x hle h
    obtain ⟨k, rfl⟩ : ∃ k, fuel2 = k + 1 := ⟨fuel2 - 1, by omega⟩
    simp only [updateRange] at h ⊢
    obtain ⟨t0, e0, h⟩ := bind_eq_ok h
    rw [e0, bind_ok]
    split
    · rename_i hc; rw [if_pos hc] at h; exact h
    · rename_i hc
      rw [if_neg hc] at h
      split
      · rename_i hd; rw [if_pos hd] at h; exact h
      · rename_i hd
        rw [if_neg hd] at h
        obtain ⟨p, e1, h⟩ := bind_eq_ok h
        obtain ⟨q, e2, h⟩ := bind_eq_ok h
        rw [ih k _ _ _ _ _ (by omega) e1, bind_ok, ih k _ _ _ _ _ (by omega) e2, bind_ok]
        exact h

omit [DecidableEq R] in
/-- More fuel does not change a result of the recursive `build`. -/
theorem buildRec_mono (arr : List R) :
    ∀ (fuel fuel2 : Nat) (s : SegmentTree R) (idx left right : Int) (x : SegmentTree R),
      fuel ≤ fuel2 → buildRec fuel arr s idx left right = .ok x →
      buildRec fuel2 arr s idx left right = .ok x := by
  intro fuel
  induction fuel with
  | zero => intro fuel2 s idx left right x _ h; cases h
  | succ fuel ih =>
    intro fuel2 s idx left right x hle h
    obtain ⟨k, rfl⟩ : ∃ k, fuel2 = k + 1 := ⟨fuel2 - 1, by omega⟩
    simp only [buildRec] at h ⊢
    split
    · rename_i hc; rw [if_pos hc] at h; exact h
    · rename_i hc
      rw [if_neg hc] at h
      obtain ⟨p, e1, h⟩ := bind_eq_ok h
      obtain ⟨q, e2, h⟩ := bind_eq_ok h
      rw [ih k _ _ _ _ _ (by omega) e1, bind_ok, ih k _ _ _ _ _ (by omega) e2, bind_ok]
      exact h

omit [DecidableEq R] in
theorem sum_clip (f : Int → R) (n ql qr : Int) (h0 : 0 ≤ ql) (h1 : qr < n) :
    (∑ i in Finset.Icc 0 (n - 1), if ql ≤ i ∧ i ≤ qr then f i else 0)
      = ∑ i in Finset.Icc ql qr, f i := by
  rw [← Finset.sum_filter]
  refine Finset.sum_congr ?_ fun _ _ => rfl
  ext x
  simp only [Finset.mem_filter, Finset.mem_Icc]
  omega

omit [DecidableEq R] in
/-- The constructor returns vectors of `4 * size` zeros when `4 * size` is an
`int`. -/
theorem ctor_ok (size : Int) (h0 : 0 ≤ size) (h1 : size < 2 ^ 29) :
    (ctor size : Except Err (SegmentTree R)) = .ok
      { seg := List.replicate (4 * size).toNat 0, lazy := List.replicate (4 * size).toNat 0,
        n := size } := by
  have hw : wrap32 (4 * size) = 4 * size := wrap32_id _ (by omega) (by omega)
  have hz : (0 : Int) ≤ 4 * size := by omega
  simp only [ctor, zeros, hw, hz, if_true]

omit [DecidableEq R] in
/-- What the constructor returns has vectors of fewer than `2 ^ 31` slots. -/
theorem ctor_eq_ok {size : Int} {s : SegmentTree R} (h : ctor size = .ok s) :
    s.n = size ∧ (s.seg.length : Int) = wrap32 (4 * size) ∧ 0 ≤ wrap32 (4 * size) ∧
      s.lazy = s.seg ∧ s.seg = List.replicate (wrap32 (4 * size)).toNat 0 := by
  unfold ctor zeros at h
  by_cases hz : 0 ≤ wrap32 (4 * size)
  · rw [if_pos hz] at h
    injection h with h
    subst h
    refine ⟨rfl, ?_, hz, rfl, rfl⟩
    show ((List.replicate (wrap32 (4 * size)).toNat (0 : R)).length : Int) = _
    rw [List.length_replicate]
    omega
  · rw [if_neg hz] at h
    cases h

omit [DecidableEq R] in
/-- A call `build(arr, idx, left, right)` that returns has written the slot
of the last leaf of its range: a range of at least `2 ^ k` elements needs
`(idx + 1) * 2 ^ k` slots. -/
theorem buildRec_needs (arr : List R) :
    ∀ (fuel : Nat) (s t : SegmentTree R) (idx left right : Int) (k : Nat),
      0 ≤ idx → 0 ≤ left → left ≤ right → (2 : Int) ^ k ≤ right - left + 1 →
      buildRec fuel arr s idx left right = .ok t →
      t.seg.length = s.seg.length ∧ (idx + 1) * 2 ^ k ≤ (s.seg.length : Int) := by
  intro fuel
  induction fuel with
  | zero => intro s t idx left right k _ _ _ _ e; cases e
  | succ fuel ih =>
    intro s t idx left right k hidx hl hlr hk e
    simp only [buildRec] at e
    by_cases hc : left = right
    · rw [if_pos hc] at e
      obtain ⟨v, _, e⟩ := bind_eq_ok e
      obtain ⟨seg, ew, e⟩ := bind_eq_ok e
      injection e with e
      subst e
      obtain ⟨_, hlt, hset⟩ := wr_eq_ok ew
      have hk0 : k = 0 := by
        cases k with
        | zero => rfl
        | succ k =>
          have hp : (0 : Int) < 2 ^ k := by positivity
          rw [pow_succ] at hk
          omega
      subst hk0
      refine ⟨by show seg.length = _; rw [hset, List.length_set], ?_⟩
      rw [pow_zero, mul_one]
      omega
    · rw [if_neg hc] at e
      obtain ⟨s1, e1, e⟩ := bind_eq_ok e
      obtain ⟨s2, e2, e⟩ := bind_eq_ok e
      obtain ⟨a, _, e⟩ := bind_eq_ok e
      obtain ⟨b, _, e⟩ := bind_eq_ok e
      obtain ⟨seg, ew, e⟩ := bind_eq_ok e
      injection e with e
      subst e
      obtain ⟨_, _, hset⟩ := wr_eq_ok ew
      have hmid : Int.tdiv (left + right) 2 = (left + right) / 2 :=
        Int.tdiv_eq_ediv (by omega) (by omega)
      rw [hmid] at e1 e2
      obtain ⟨l1, _⟩ := ih s s1 (idx * 2) left ((left + right) / 2) 0 (by omega) hl
        (by omega) (by rw [pow_zero]; omega) e1
      cases k with
      | zero =>
        obtain ⟨l2, b2⟩ := ih s1 s2 (idx * 2 + 1) ((left + right) / 2 + 1) right 0 (by omega)
          (by omega) (by omega) (by rw [pow_zero]; omega) e2
        refine ⟨by show seg.length = _; rw [hset, List.length_set, l2, l1], ?_⟩
        rw [pow_zero, mul_one] at b2 ⊢
        rw [l1] at b2
        omega
      | succ k =>
        have hp : (0 : Int) < 2 ^ k := by positivity
        rw [pow_succ] at hk
        obtain ⟨l2, b2⟩ := ih s1 s2 (idx * 2 + 1) ((left + right) / 2 + 1) right k (by omega)
          (by omega) (by omega) (by omega) e2
        refine ⟨by show seg.length = _; rw [hset, List.length_set, l2, l1], ?_⟩
        rw [l1] at b2
        have e3 : (idx + 1) * 2 ^ (k + 1) = (idx * 2 + 1 + 1) * 2 ^ k := by
          rw [pow_succ]; ring
        rw [e3]
        exact b2

omit [DecidableEq R] in
/-- The constructor and `build` return only on arrays of fewer than `2 ^ 29`
elements: from there on `4*n` is not an `int`, and the vectors are refused or
too short for `build`. -/
theorem fromArray_bound {fuel : Nat} {A : List R} {s : SegmentTree R}
    (e : fromArray fuel A = .ok s) : A.length < 2 ^ 29 := by
  simp only [fromArray] at e
  obtain ⟨a, ea, e⟩ := bind_eq_ok e
  obtain ⟨hn, hlen, h0, _, _⟩ := ctor_eq_ok ea
  have hr := wrap32_range (4 * (A.length : Int))
  by_contra hbig
  have hbig2 : (2 : Int) ^ 29 ≤ (A.length : Int) := by
    have : 2 ^ 29 ≤ A.length := by omega
    exact_mod_cast this
  by_cases h30 : (2 : Int) ^ 30 ≤ (A.length : Int)
  · rw [build, hn] at e
    obtain ⟨_, b⟩ := buildRec_needs A fuel a s 1 0 ((A.length : Int) - 1) 30 (by omega)
      (le_refl 0) (by omega) (by omega) e
    rw [hlen] at b
    omega
  · unfold wrap32 at h0
    omega

omit [DecidableEq R] in
/-- A fresh tree followed by `build(arr)` stands for `arr`. -/
theorem fromArray_inv (fuel : Nat) (A : List R) (h1 : 1 ≤ A.length) (h2 : A.length < 2 ^ 29)
    (hf : A.length ≤ fuel) :
    ∃ s, fromArray fuel A = .ok s ∧ Inv s (cell A) ∧ s.n = A.length := by
  have hn : (1 : Int) ≤ (A.length : Int) := by omega
  have hn2 : (A.length : Int) < 2 ^ 29 := by exact_mod_cast h2
  obtain ⟨t, e, fr, _, rep⟩ := buildRec_spec A rfl fuel
    { seg := List.replicate (4 * (A.length : Int)).toNat (0 : R)
      lazy := List.replicate (4 * (A.length : Int)).toNat (0 : R)
      n := (A.length : Int) } 1 0 ((A.length : Int) - 1) (Ctx.root hn)
    (by simp only [List.length_replicate]; omega)
    (fun j => cell_replicate _ j) (by omega)
  refine ⟨t, ?_, ⟨?_, ?_, ?_, ?_⟩, fr.1⟩
  · simp only [fromArray, ctor_ok _ (by omega) hn2, bind_ok, build]
    exact e
  · rw [fr.1]; exact hn
  · rw [fr.1, fr.2.1]; simp only [List.length_replicate]; omega
  · rw [fr.1, fr.2.2.1]; simp only [List.length_replicate]; omega
  · rw [fr.1]; exact rep

/-- With fuel from `n` on, `query(ql, qr)` returns the sum of the elements
with index in `[ql, qr]`, for any integers `ql` and `qr`, and the tree stands
for the same values afterwards. -/
theorem query_inv {s : SegmentTree R} {f : Int → R} (h : Inv s f) (fuel : Nat)
    (hf : s.n ≤ fuel) (ql qr : Int) :
    ∃ t, query fuel s ql qr
        = .ok (∑ i in Finset.Icc 0 (s.n - 1), if ql ≤ i ∧ i ≤ qr then f i else 0, t) ∧
      Inv t f ∧ t.n = s.n := by
  obtain ⟨t, e, fr, _, rep⟩ := rangeQuery_spec ql qr fuel s 1 0 (s.n - 1) f
    (Ctx.root h.pos) h.seg_len h.lazy_len h.rep (by omega)
  refine ⟨t, e, ⟨?_, ?_, ?_, ?_⟩, fr.1⟩
  · rw [fr.1]; exact h.pos
  · rw [fr.1, fr.2.1]; exact h.seg_len
  · rw [fr.1, fr.2.2.1]; exact h.lazy_len
  · rw [fr.1]; exact rep

/-- With fuel from `n` on, `update(l, r, val)` returns, for any integers `l`
and `r`, and the tree then stands for the old values with `val` added on
`[l, r]`. -/
theorem update_inv {s : SegmentTree R} {f : Int → R} (h : Inv s f) (fuel : Nat)
    (hf : s.n ≤ fuel) (l r : Int) (val : R) :
    ∃ t, update fuel s l r val = .ok t ∧
      Inv t (fun i => f i + if l ≤ i ∧ i ≤ r then val else 0) ∧ t.n = s.n := by
  obtain ⟨t, e, fr, _, rep⟩ := updateRange_spec l r val fuel s 1 0 (s.n - 1) f
    (Ctx.root h.pos) h.seg_len h.lazy_len h.rep (by omega)
  refine ⟨t, e, ⟨?_, ?_, ?_, ?_⟩, fr.1⟩
  · rw [fr.1]; exact h.pos
  · rw [fr.1, fr.2.1]; exact h.seg_len
  · rw [fr.1, fr.2.2.1]; exact h.lazy_len
  · rw [fr.1]; exact rep

/-- Whatever the fuel, a result of `query` is the one of `query_inv`. -/
theorem query_result {s : SegmentTree R} {f : Int → R} (h : Inv s f) {fuel : Nat}
    {ql qr : Int} {v : R} {t : SegmentTree R} (e : query fuel s ql qr = .ok (v, t)) :
    v = (∑ i in Finset.Icc 0 (s.n - 1), if ql ≤ i ∧ i ≤ qr then f i else 0) ∧
      Inv t f ∧ t.n = s.n := by
  obtain ⟨t2, e2, inv2, n2⟩ := query_inv h (max fuel s.n.toNat) (by omega) ql qr
  have e3 := rangeQuery_mono ql qr fuel (max fuel s.n.toNat) s 1 0 (s.n - 1) (v, t)
    (le_max_left _ _) e
  rw [query, e3] at e2
  injection e2 with e2
  injection e2 with e4 e5
  subst e5
  exact ⟨e4, inv2, n2⟩

/-- Whatever the fuel, a result of `update` is the one of `update_inv`. -/
theorem update_result {s : SegmentTree R} {f : Int → R} (h : Inv s f) {fuel : Nat}
    {l r : Int} {val : R} {t : SegmentTree R} (e : update fuel s l r val = .ok t) :
    Inv t (fun i => f i + if l ≤ i ∧ i ≤ r then val else 0) ∧ t.n = s.n := by
  obtain ⟨t2, e2, inv2, n2⟩ := update_inv h (max fuel s.n.toNat) (by omega) l r val
  have e3 := updateRange_mono l r val fuel (max fuel s.n.toNat) s 1 0 (s.n - 1) t
    (le_max_left _ _) e
  rw [update, e3] at e2
  injection e2 with e2
  subst e2
  exact ⟨inv2, n2⟩

omit [DecidableEq R] in
/-- Whatever the fuel, a result of `build` after the constructor stands for
the array. -/
theorem fromArray_result {fuel : Nat} {A : List R} (h1 : 1 ≤ A.length) {s : SegmentTree R}
    (e : fromArray fuel A = .ok s) : Inv s (cell A) ∧ s.n = A.length := by
  obtain ⟨t2, e2, inv2, n2⟩ := fromArray_inv (max fuel A.length) A h1 (fromArray_bound e)
    (le_max_right _ _)
  simp only [fromArray] at e e2
  obtain ⟨a, ea, e⟩ := bind_eq_ok e
  rw [ea, bind_ok] at e2
  have e3 := buildRec_mono A fuel (max fuel A.length) a 1 0 (a.n - 1) s (le_max_left _ _) e
  rw [build, e3] at e2
  injection e2 with e2
  subst e2
  exact ⟨inv2, n2⟩

/-- Every reachable state stands for some element values. -/
theorem Reachable.inv {s : SegmentTree R} (h : Reachable s) : ∃ f, Inv s f := by
  induction h with
  | build fuel A s h1 e => exact ⟨cell A, (fromArray_result h1 e).1⟩
  | update fuel s l r val t _ _ _ _ e ih =>
    obtain ⟨f, hf⟩ := ih
    exact ⟨_, (update_result hf e).1⟩
  | query fuel s l r v t _ _ _ _ e ih =>
    obtain ⟨f, hf⟩ := ih
    exact ⟨f, (query_result hf e).2.1⟩

/-- Every reachable tree has fewer than `2 ^ 29` elements, so that the index
expressions of its recursions are `int` values (`Ctx.fits`). -/
theorem Reachable.small {s : SegmentTree R} (h : Reachable s) : s.n < 2 ^ 29 := by
  induction h with
  | build fuel A s h1 e =>
    have h2 : (A.length : Int) < 2 ^ 29 := by exact_mod_cast fromArray_bound e
    rw [(fromArray_result h1 e).2]
    exact h2
  | update fuel s l r val t hs _ _ _ e ih =>
    obtain ⟨f, hf⟩ := hs.inv
    rw [(update_result hf e).2]
    exact ih
  | query fuel s l r v t hs _ _ _ e ih =>
    obtain ⟨f, hf⟩ := hs.inv
    rw [(query_result hf e).2.2]
    exact ih

omit [DecidableEq R] in
theorem inv_ext {s : SegmentTree R} {f g : Int → R} (h : Inv s f) (e : ∀ i, f i = g i) :
    Inv s g := by
  have : f = g := funext e
  rw [← this]; exact h

/-- With fuel from `n` on, a sequence of calls returns, and the tree then
stands for the old values plus the deltas of the calls. -/
theorem run_inv (fuel : Nat) :
    ∀ (ops : List (Op R)) (s : SegmentTree R) (f : Int → R), Inv s f → s.n ≤ fuel →
      ∃ t, run fuel s ops = .ok t ∧
        Inv t (fun i => f i + (ops.map fun op => op.delta i).sum) ∧ t.n = s.n := by
  intro ops
  induction ops with
  | nil =>
    intro s f h _
    exact ⟨s, rfl, inv_ext h fun i => by simp, rfl⟩
  | cons op ops ih =>
    intro s f h hf
    cases op with
    | update l r val =>
      obtain ⟨t, e, inv, hn⟩ := update_inv h fuel hf l r val
      obtain ⟨u, e2, inv2, hn2⟩ := ih t _ inv (by rw [hn]; exact hf)
      refine ⟨u, ?_, inv_ext inv2 fun i => ?_, hn2.trans hn⟩
      · simp only [run, step, e, bind_ok]; exact e2
      · simp only [List.map_cons, List.sum_cons, Op.delta]; ring
    | query l r =>
      obtain ⟨t, e, inv, hn⟩ := query_inv h fuel hf l r
      obtain ⟨u, e2, inv2, hn2⟩ := ih t _ inv (by rw [hn]; exact hf)
      refine ⟨u, ?_, inv_ext inv2 fun i => ?_, hn2.trans hn⟩
      · simp only [run, step, e, bind_ok]; exact e2
      · simp only [List.map_cons, List.sum_cons, Op.delta]; ring

/-- Whatever the fuel, a result of a sequence of calls stands for the old
values plus the deltas of the calls. -/
theorem run_result {k : Nat} :
    ∀ (ops : List (Op R)) (s t : SegmentTree R) (f : Int → R), Inv s f →
      run k s ops = .ok t →
      Inv t (fun i => f i + (ops.map fun op => op.delta i).sum) ∧ t.n = s.n := by
  intro ops
  induction ops with
  | nil =>
    intro s t f h e
    injection e with e
    subst e
    exact ⟨inv_ext h fun i => by simp, rfl⟩
  | cons op ops ih =>
    intro s t f h e
    simp only [run] at e
    obtain ⟨u, eu, e2⟩ := bind_eq_ok e
    cases op with
    | update l r val =>
      obtain ⟨inv, hn⟩ := update_result h (show update k s l r val = .ok u from eu)
      obtain ⟨inv2, hn2⟩ := ih u t _ inv e2
      refine ⟨inv_ext inv2 fun i => ?_, hn2.trans hn⟩
      simp only [List.map_cons, List.sum_cons, Op.delta]; ring
    | query l r =>
      simp only [step] at eu
      obtain ⟨p, ep, eu⟩ := bind_eq_ok eu
      injection eu with eu
      subst eu
      obtain ⟨_, inv, hn⟩ := query_result h (show query k s l r = .ok (p.1, p.2) from ep)
      obtain ⟨inv2, hn2⟩ := ih p.2 t _ inv e2
      refine ⟨inv_ext inv2 fun i => ?_, hn2.trans hn⟩
      simp only [List.map_cons, List.sum_cons, Op.delta]; ring

/-- A tree that the constructor, `build(A)` and a sequence of calls have
returned, whatever the fuel, has fewer than `2 ^ 29` elements and stands for
the current values. -/
theorem built_inv {k : Nat} {A : List R} {ops : List (Op R)} {s : SegmentTree R}
    (h1 : 1 ≤ A.length) (e : ((fromArray k A).bind fun s0 => run k s0 ops) = .ok s) :
    Inv s (current A ops) ∧ s.n = (A.length : Int) ∧ A.length < 2 ^ 29 := by
  obtain ⟨s0, e0, e1⟩ := bind_eq_ok e
  obtain ⟨inv0, n0⟩ := fromArray_result h1 e0
  obtain ⟨inv1, n1⟩ := run_result ops s0 s _ inv0 e1
  exact ⟨inv1, n1.trans n0, fromArray_bound e0⟩

/-- On an array of `1 ≤ N < 2 ^ 29` elements, with fuel from `N` on, the
constructor, `build(A)` and a sequence of calls return. -/
theorem built_returns (A : List R) (ops : List (Op R)) (fuel : Nat) (h1 : 1 ≤ A.length)
    (h2 : A.length < 2 ^ 29) (hf : A.length ≤ fuel) :
    ∃ s, ((fromArray fuel A).bind fun s0 => run fuel s0 ops) = .ok s := by
  obtain ⟨s0, e0, inv0, n0⟩ := fromArray_inv fuel A h1 h2 hf
  obtain ⟨s, e1, _, _⟩ := run_inv fuel ops s0 _ inv0 (by rw [n0]; omega)
  exact ⟨s, by rw [e0, bind_ok]; exact e1⟩

/-- More fuel does not change a result of a sequence of calls. -/
theorem run_mono {k k2 : Nat} (hle : k ≤ k2) :
    ∀ (ops : List (Op R)) (s t : SegmentTree R), run k s ops = .ok t →
      run k2 s ops = .ok t := by
  intro ops
  induction ops with
  | nil => intro s t e; exact e
  | cons op ops ih =>
    intro s t e
    simp only [run] at e ⊢
    obtain ⟨u, eu, e2⟩ := bind_eq_ok e
    have eu2 : step k2 s op = .ok u := by
      cases op with
      | update l r val =>
        exact updateRange_mono l r val k k2 s 1 0 (s.n - 1) u hle eu
      | query l r =>
        simp only [step] at eu ⊢
        obtain ⟨p, ep, eu⟩ := bind_eq_ok eu
        have ep2 : query k2 s l r = .ok p :=
          rangeQuery_mono l r k k2 s 1 0 (s.n - 1) p hle ep
        rw [ep2, bind_ok]
        exact eu
    rw [eu2, bind_ok]
    exact ih u t e2

/-- More fuel does not change a result of the constructor, `build(A)` and a
sequence of calls. -/
theorem built_mono {k k2 : Nat} (hle : k ≤ k2) {A : List R} {ops : List (Op R)}
    {s : SegmentTree R} (e : ((fromArray k A).bind fun s0 => run k s0 ops) = .ok s) :
    ((fromArray k2 A).bind fun s0 => run k2 s0 ops) = .ok s := by
  obtain ⟨s0, e0, e1⟩ := bind_eq_ok e
  simp only [fromArray] at e0 ⊢
  obtain ⟨a, ea, eb⟩ := bind_eq_ok e0
  have eb2 : build k2 a A = .ok s0 := buildRec_mono A k k2 a 1 0 (a.n - 1) s0 hle eb
  rw [ea, bind_ok, eb2, bind_ok]
  exact run_mono hle ops s0 s e1

omit [DecidableEq R] in
theorem sum_cell (A : List R) :
    ∑ i in Finset.Icc (0 : Int) ((A.length : Int) - 1), cell A i = A.sum := by
  induction A using List.reverseRecOn with
  | nil => simp
  | append_singleton A a ih =>
    have hlen : (((A ++ [a]).length : Nat) : Int) - 1 = (A.length : Int) := by
      simp
    rw [hlen, sum_Icc_split _ 0 ((A.length : Int) - 1) (A.length : Int) (by omega) (by omega)]
    have e1 : ∑ i in Finset.Icc (0 : Int) ((A.length : Int) - 1), cell (A ++ [a]) i
        = ∑ i in Finset.Icc (0 : Int) ((A.length : Int) - 1), cell A i := by
      refine Finset.sum_congr rfl fun i hi => ?_
      simp only [Finset.mem_Icc] at hi
      have h2 : i.toNat < A.length := by omega
      simp only [cell, hi.1, if_true, List.getD_eq_getElem?_getD]
      rw [List.getElem?_append_left h2]
    have e2 : (A.length : Int) - 1 + 1 = (A.length : Int) := by omega
    rw [e1, ih, e2, Finset.Icc_self, Finset.sum_singleton]
    simp [cell, List.getD_eq_getElem?_getD]

end SegmentTree

/-! ## Claims about the segment tree -/

namespace SegmentTree

variable {R : Type} [CommRing R] [DecidableEq R]

/-- The tree `demoTree` is what `main` has after `st.build(arr)`. -/
theorem demoTree_built : fromArray 5 [1, 2, 3, 4, 5] = .ok demoTree := by rfl

/-- The segment tree part of `main` prints 15 and 18; a further
`query(1, 3)` gives 12. -/
theorem demo_main :
    ((fromArray 5 [1, 2, 3, 4, (5 : Int)]).bind fun s0 =>
      (query 5 s0 0 4).bind fun p =>
      (update 5 p.2 1 3 1).bind fun s1 =>
      (query 5 s1 0 4).bind fun q =>
      (query 5 q.2 1 3).bind fun r => .ok (p.1, q.1, r.1)) = .ok (15, 18, 12) := by rfl

theorem demoTree_reachable : Reachable demoTree :=
  Reachable.build 5 [1, 2, 3, 4, 5] demoTree (by decide) demoTree_built

/-- A single-element query on a tree that stands for `f`. -/
theorem query_point {s : SegmentTree R} {f : Int → R} (h : Inv s f) (fuel : Nat)
    (hf : s.n ≤ fuel) (i : Int) (h0 : 0 ≤ i) (h1 : i < s.n) :
    ∃ t, query fuel s i i = .ok (f i, t) ∧ Inv t f ∧ t.n = s.n := by
  obtain ⟨t, e, inv, hn⟩ := query_inv h fuel hf i i
  rw [sum_clip _ s.n i i h0 h1, Finset.Icc_self, Finset.sum_singleton] at e
  exact ⟨t, e, inv, hn⟩

/-- A query with valid bounds on a tree that stands for `f`. -/
theorem query_range {s : SegmentTree R} {f : Int → R} (h : Inv s f) (fuel : Nat)
    (hf : s.n ≤ fuel) (ql qr : Int) (h0 : 0 ≤ ql) (h1 : qr < s.n) :
    ∃ t, query fuel s ql qr = .ok (∑ i in Finset.Icc ql qr, f i, t) ∧ Inv t f ∧
      t.n = s.n := by
  obtain ⟨t, e, inv, hn⟩ := query_inv h fuel hf ql qr
  rw [sum_clip _ s.n ql qr h0 h1] at e
  exact ⟨t, e, inv, hn⟩

/-- C1. Query correctness: for an array `A` of `N ≥ 1` elements, after
`SegmentTree(N)`, `build(A)` and any sequence of updates and queries with
`0 ≤ l ≤ r < N` have returned, the call `query(ql, qr)` with
`0 ≤ ql ≤ qr < N` returns the sum over `i` in `ql..qr` of `A[i]` plus the
deltas of all updates so far whose range contains `i`.  Fuel `N` is enough for
every call, and the constructor, `build` and the calls return when
`N < 2 ^ 29`, that is when `4*n` is an `int`. -/
theorem query_correct (A : List R) (ops : List (Op R)) (fuel : Nat) (ql qr : Int)
    (hN : 1 ≤ A.length) (_hops : ∀ op ∈ ops, op.valid (A.length : Int))
    (hfuel : A.length ≤ fuel) (hq : 0 ≤ ql ∧ ql ≤ qr ∧ qr < (A.length : Int)) :
    (A.length < 2 ^ 29 →
      ∃ s, ((fromArray fuel A).bind fun s0 => run fuel s0 ops) = .ok s) ∧
    ∀ (k : Nat) (s : SegmentTree R),
      ((fromArray k A).bind fun s0 => run k s0 ops) = .ok s →
      ∃ t, query fuel s ql qr = .ok (∑ i in Finset.Icc ql qr, current A ops i, t) := by
  refine ⟨fun h2 => built_returns A ops fuel hN h2 hfuel, fun k s e => ?_⟩
  obtain ⟨inv, hn, _⟩ := built_inv hN e
  obtain ⟨t, e2, _, _⟩ := query_range inv fuel (by rw [hn]; omega) ql qr hq.1
    (by rw [hn]; exact hq.2.2)
  exact ⟨t, e2⟩

/-- C1 at the demonstration of `main`: `{1, 2, 3, 4, 5}`, a query, then
`update(1, 3, 1)`, then `query(0, 4)`. -/
theorem query_correct_witness :
    (([1, 2, 3, 4, 5] : List Int).length < 2 ^ 29 →
      ∃ s, ((fromArray 5 [1, 2, 3, 4, 5]).bind fun s0 =>
        run 5 s0 [Op.query 0 4, Op.update 1 3 (1 : Int)]) = .ok s) ∧
    ∀ (k : Nat) (s : SegmentTree Int),
      ((fromArray k [1, 2, 3, 4, 5]).bind fun s0 =>
        run k s0 [Op.query 0 4, Op.update 1 3 (1 : Int)]) = .ok s →
      ∃ t, query 5 s 0 4 = .ok (∑ i in Finset.Icc 0 4,
        current [1, 2, 3, 4, 5] [Op.query 0 4, Op.update 1 3 (1 : Int)] i, t) :=
  query_correct [1, 2, 3, 4, 5] [Op.query 0 4, Op.update 1 3 (1 : Int)] 5 0 4 (by decide)
    (by intro op h
        simp only [List.mem_cons, List.mem_singleton, List.not_mem_nil, or_false] at h
        rcases h with rfl | rfl <;> simp [Op.valid])
    (by decide) (by decide)

/-- C2. Range-update additivity: on a reachable tree, for `0 ≤ l ≤ r < N`
and `0 ≤ i < N`, a query `query(i, i)`, then `update(l, r, d)`, then
`query(i, i)` again: the second value is the first plus `d` when `i` lies in
`[l, r]`, and equal to the first otherwise.  The same holds when the update
is made on the state as it was before the first query. -/
theorem update_additive (s : SegmentTree R) (hs : Reachable s) (fuel : Nat)
    (hfuel : s.n ≤ fuel) (l r : Int) (d : R) (hl : 0 ≤ l) (hlr : l ≤ r) (hr : r < s.n)
    (i : Int) (hi0 : 0 ≤ i) (hi1 : i < s.n) :
    ∃ v s1 s2 s3 s4 s5, query fuel s i i = .ok (v, s1) ∧ update fuel s1 l r d = .ok s2 ∧
      query fuel s2 i i = .ok (v + (if l ≤ i ∧ i ≤ r then d else 0), s3) ∧
      update fuel s l r d = .ok s4 ∧
      query fuel s4 i i = .ok (v + (if l ≤ i ∧ i ≤ r then d else 0), s5) := by
  have _ := hl; have _ := hlr; have _ := hr
  obtain ⟨f, inv⟩ := hs.inv
  obtain ⟨s1, e1, inv1, n1⟩ := query_point inv fuel hfuel i hi0 hi1
  obtain ⟨s2, e2, inv2, n2⟩ := update_inv inv1 fuel (by rw [n1]; exact hfuel) l r d
  obtain ⟨s3, e3, _, _⟩ := query_point inv2 fuel (by rw [n2, n1]; exact hfuel) i hi0
    (by rw [n2, n1]; exact hi1)
  obtain ⟨s4, e4, inv4, n4⟩ := update_inv inv fuel hfuel l r d
  obtain ⟨s5, e5, _, _⟩ := query_point inv4 fuel (by rw [n4]; exact hfuel) i hi0
    (by rw [n4]; exact hi1)
  exact ⟨f i, s1, s2, s3, s4, s5, e1, e2, e3, e4, e5⟩

/-- C2 on the tree of `main`: `update(1, 3, 1)` seen at element 2. -/
theorem update_additive_witness :
    ∃ v s1 s2 s3 s4 s5, query 5 demoTree 2 2 = .ok (v, s1) ∧ update 5 s1 1 3 1 = .ok s2 ∧
      query 5 s2 2 2 = .ok (v + (if (1 : Int) ≤ 2 ∧ (2 : Int) ≤ 3 then 1 else 0), s3) ∧
      update 5 demoTree 1 3 1 = .ok s4 ∧
      query 5 s4 2 2 = .ok (v + (if (1 : Int) ≤ 2 ∧ (2 : Int) ≤ 3 then 1 else 0), s5) :=
  update_additive demoTree demoTree_reachable 5 (by decide) 1 3 1 (by decide) (by decide)
    (by decide) 2 (by decide) (by decide)

/-- C6. Build correctness: for an array `A` of `N ≥ 1` elements, once
`SegmentTree(N)` and `build(A)` have returned, `query(0, N - 1)` returns the
sum of all elements of `A`.  Fuel `N` is enough, and the constructor and
`build` return when `N < 2 ^ 29`, that is when `4*n` is an `int`. -/
theorem build_correct (A : List R) (fuel : Nat) (hN : 1 ≤ A.length)
    (hfuel : A.length ≤ fuel) :
    (A.length < 2 ^ 29 → ∃ s, fromArray fuel A = .ok s) ∧
    ∀ (k : Nat) (s : SegmentTree R), fromArray k A = .ok s →
      ∃ t, query fuel s 0 ((A.length : Int) - 1) = .ok (A.sum, t) := by
  refine ⟨fun h2 => ?_, fun k s e => ?_⟩
  · obtain ⟨s, e0, _, _⟩ := fromArray_inv fuel A hN h2 hfuel
    exact ⟨s, e0⟩
  · obtain ⟨inv0, n0⟩ := fromArray_result hN e
    obtain ⟨t, e1, _, _⟩ := query_range inv0 fuel (by rw [n0]; omega) 0
      ((A.length : Int) - 1) (le_refl 0) (by rw [n0]; omega)
    rw [sum_cell] at e1
    exact ⟨t, e1⟩

/-- C6 on the array of `main`. -/
theorem build_correct_witness :
    (([1, 2, 3, 4, (5 : Int)] : List Int).length < 2 ^ 29 →
      ∃ s, fromArray 5 [1, 2, 3, 4, (5 : Int)] = .ok s) ∧
    ∀ (k : Nat) (s : SegmentTree Int), fromArray k [1, 2, 3, 4, (5 : Int)] = .ok s →
      ∃ t, query 5 s 0 ((([1, 2, 3, 4, (5 : Int)] : List Int).length : Int) - 1)
        = .ok (([1, 2, 3, 4, (5 : Int)] : List Int).sum, t) :=
  build_correct [1, 2, 3, 4, (5 : Int)] 5 (by decide) (by decide)

/-- C7. Composability: on a reachable tree, for `0 ≤ l ≤ m < r < N`, the three
calls `query(l, m)`, `query(m + 1, r)`, `query(l, r)` made one after another
on the same tree return values with `query(l, m) + query(m + 1, r)
= query(l, r)`. -/
theorem query_compose (s : SegmentTree R) (hs : Reachable s) (fuel : Nat)
    (hfuel : s.n ≤ fuel) (l m r : Int) (hl : 0 ≤ l) (hlm : l ≤ m) (hmr : m < r)
    (hr : r < s.n) :
    ∃ v1 s1 v2 s2 v3 s3, query fuel s l m = .ok (v1, s1) ∧
      query fuel s1 (m + 1) r = .ok (v2, s2) ∧ query fuel s2 l r = .ok (v3, s3) ∧
      v1 + v2 = v3 := by
  obtain ⟨f, inv⟩ := hs.inv
  obtain ⟨s1, e1, inv1, n1⟩ := query_range inv fuel hfuel l m hl (by omega)
  obtain ⟨s2, e2, inv2, n2⟩ := query_range inv1 fuel (by rw [n1]; exact hfuel) (m + 1) r
    (by omega) (by rw [n1]; exact hr)
  obtain ⟨s3, e3, _, _⟩ := query_range inv2 fuel (by rw [n2, n1]; exact hfuel) l r hl
    (by rw [n2, n1]; exact hr)
  exact ⟨_, s1, _, s2, _, s3, e1, e2, e3,
    (sum_Icc_split f l m r (by omega) (by omega)).symm⟩

/-- C7 on the tree of `main`, split at `m = 1`. -/
theorem query_compose_witness :
    ∃ v1 s1 v2 s2 v3 s3, query 5 demoTree 0 1 = .ok (v1, s1) ∧
      query 5 s1 (1 + 1) 4 = .ok (v2, s2) ∧ query 5 s2 0 4 = .ok (v3, s3) ∧
      v1 + v2 = v3 :=
  query_compose demoTree demoTree_reachable 5 (by decide) 0 1 4 (by decide) (by decide)
    (by decide) (by decide)

/-- C8. Idempotent read: on a reachable tree, for `0 ≤ l ≤ r < N`, two calls
`query(l, r)` in a row return the same value, the second one on the state the
first one left. -/
theorem query_twice (s : SegmentTree R) (hs : Reachable s) (fuel : Nat)
    (hfuel : s.n ≤ fuel) (l r : Int) (hl : 0 ≤ l) (hlr : l ≤ r) (hr : r < s.n) :
    ∃ v s1 s2, query fuel s l r = .ok (v, s1) ∧ query fuel s1 l r = .ok (v, s2) := by
  have _ := hlr
  obtain ⟨f, inv⟩ := hs.inv
  obtain ⟨s1, e1, inv1, n1⟩ := query_range inv fuel hfuel l r hl hr
  obtain ⟨s2, e2, _, _⟩ := query_range inv1 fuel (by rw [n1]; exact hfuel) l r hl
    (by rw [n1]; exact hr)
  exact ⟨_, s1, s2, e1, e2⟩

/-- C8 on the tree of `main`. -/
theorem query_twice_witness :
    ∃ v s1 s2, query 5 demoTree 1 3 = .ok (v, s1) ∧ query 5 s1 1 3 = .ok (v, s2) :=
  query_twice demoTree demoTree_reachable 5 (by decide) 1 3 (by decide) (by decide)
    (by decide)

/-- C9. Range-add commutativity: on a reachable tree, for two updates
`(l1, r1, d1)` and `(l2, r2, d2)` with valid bounds, overlapping or not, and
every `0 ≤ ql ≤ qr < N`, `query(ql, qr)` returns the same value after the
first then the second as after the second then the first. -/
theorem update_comm (s : SegmentTree R) (hs : Reachable s) (fuel : Nat)
    (hfuel : s.n ≤ fuel) (l1 r1 : Int) (d1 : R) (l2 r2 : Int) (d2 : R)
    (hA : 0 ≤ l1 ∧ l1 ≤ r1 ∧ r1 < s.n) (hB : 0 ≤ l2 ∧ l2 ≤ r2 ∧ r2 < s.n)
    (ql qr : Int) (hq : 0 ≤ ql ∧ ql ≤ qr ∧ qr < s.n) :
    ∃ sa sab sb sba v t1 t2, update fuel s l1 r1 d1 = .ok sa ∧
      update fuel sa l2 r2 d2 = .ok sab ∧ update fuel s l2 r2 d2 = .ok sb ∧
      update fuel sb l1 r1 d1 = .ok sba ∧ query fuel sab ql qr = .ok (v, t1) ∧
      query fuel sba ql qr = .ok (v, t2) := by
  have _ := hA; have _ := hB
  obtain ⟨f, inv⟩ := hs.inv
  obtain ⟨sa, ea, inva, na⟩ := update_inv inv fuel hfuel l1 r1 d1
  obtain ⟨sab, eab, invab, nab⟩ := update_inv inva fuel (by rw [na]; exact hfuel) l2 r2 d2
  obtain ⟨sb, eb, invb, nb⟩ := update_inv inv fuel hfuel l2 r2 d2
  obtain ⟨sba, eba, invba, nba⟩ := update_inv invb fuel (by rw [nb]; exact hfuel) l1 r1 d1
  have invba2 := inv_ext invba (g := fun i =>
    (f i + if l1 ≤ i ∧ i ≤ r1 then d1 else 0) + if l2 ≤ i ∧ i ≤ r2 then d2 else 0)
    fun i => by ring
  obtain ⟨t1, q1, _, _⟩ := query_range invab fuel (by rw [nab, na]; exact hfuel) ql qr
    hq.1 (by rw [nab, na]; exact hq.2.2)
  obtain ⟨t2, q2, _, _⟩ := query_range invba2 fuel (by rw [nba, nb]; exact hfuel) ql qr
    hq.1 (by rw [nba, nb]; exact hq.2.2)
  exact ⟨sa, sab, sb, sba, _, t1, t2, ea, eab, eb, eba, q1, q2⟩

/-- C9 on the tree of `main`, with the overlapping updates `(0, 2, 7)` and
`(1, 4, -3)`. -/
theorem update_comm_witness :
    ∃ sa sab sb sba v t1 t2, update 5 demoTree 0 2 7 = .ok sa ∧
      update 5 sa 1 4 (-3) = .ok sab ∧ update 5 demoTree 1 4 (-3) = .ok sb ∧
      update 5 sb 0 2 7 = .ok sba ∧ query 5 sab 1 2 = .ok (v, t1) ∧
      query 5 sba 1 2 = .ok (v, t2) :=
  update_comm demoTree demoTree_reachable 5 (by decide) 0 2 7 1 4 (-3) (by decide)
    (by decide) 1 2 (by decide)

/-- C10, as stated, fails: on the tree of `main` (`N = 5`) the call
`update(-1, 5, 1)` raises no error, and `query(0, 4)` returns 20 after it
where it returned 15 before. -/
theorem update_out_of_range_counterexample :
    fromArray 5 [1, 2, 3, 4, 5] = .ok demoTree ∧
      (∀ e, update 5 demoTree (-1) 5 1 ≠ .error e) ∧
      ((query 5 demoTree 0 4).bind fun p => .ok p.1) = .ok 15 ∧
      ((update 5 demoTree (-1) 5 1).bind fun t =>
        (query 5 t 0 4).bind fun p => .ok p.1) = .ok 20 := by
  refine ⟨by rfl, ?_, by rfl, by rfl⟩
  intro e h
  have h2 : update 5 demoTree (-1) 5 1
      = .ok { demoTree with seg := demoTree.seg.set 1 20, lazy := (demoTree.lazy.set 2 1).set 3 1 } := by
    rfl
  rw [h2] at h
  cases h

/-- C10, amended: on a reachable tree, `update(l, r, d)` with `l < 0` or
`r ≥ N` raises no error; it returns, and afterwards `query(ql, qr)` with
`0 ≤ ql ≤ qr < N` returns what it returned before plus `d` for every index of
`[ql, qr]` that lies in `[l, r]`.  This holds with the update made after the
first query and with the update made on the state as it was before it. -/
theorem update_out_of_range (s : SegmentTree R) (hs : Reachable s) (fuel : Nat)
    (hfuel : s.n ≤ fuel) (l r : Int) (d : R) (hbad : l < 0 ∨ s.n ≤ r)
    (ql qr : Int) (hq : 0 ≤ ql ∧ ql ≤ qr ∧ qr < s.n) :
    ∃ v s1 s2 s3 s4 s5, query fuel s ql qr = .ok (v, s1) ∧
      update fuel s1 l r d = .ok s2 ∧
      query fuel s2 ql qr
        = .ok (v + ∑ i in Finset.Icc ql qr, if l ≤ i ∧ i ≤ r then d else 0, s3) ∧
      update fuel s l r d = .ok s4 ∧
      query fuel s4 ql qr
        = .ok (v + ∑ i in Finset.Icc ql qr, if l ≤ i ∧ i ≤ r then d else 0, s5) := by
  have _ := hbad
  obtain ⟨f, inv⟩ := hs.inv
  obtain ⟨s1, e1, inv1, n1⟩ := query_range inv fuel hfuel ql qr hq.1 hq.2.2
  obtain ⟨s2, e2, inv2, n2⟩ := update_inv inv1 fuel (by rw [n1]; exact hfuel) l r d
  obtain ⟨s3, e3, _, _⟩ := query_range inv2 fuel (by rw [n2, n1]; exact hfuel) ql qr hq.1
    (by rw [n2, n1]; exact hq.2.2)
  obtain ⟨s4, e4, inv4, n4⟩ := update_inv inv fuel hfuel l r d
  obtain ⟨s5, e5, _, _⟩ := query_range inv4 fuel (by rw [n4]; exact hfuel) ql qr hq.1
    (by rw [n4]; exact hq.2.2)
  rw [Finset.sum_add_distrib] at e3 e5
  exact ⟨_, s1, s2, s3, s4, s5, e1, e2, e3, e4, e5⟩

/-- C10, amended, on the tree of `main` with `update(-1, 5, 1)`. -/
theorem update_out_of_range_witness :
    ∃ v s1 s2 s3 s4 s5, query 5 demoTree 0 4 = .ok (v, s1) ∧
      update 5 s1 (-1) 5 1 = .ok s2 ∧
      query 5 s2 0 4
        = .ok (v + ∑ i in Finset.Icc (0 : Int) 4,
            if (-1 : Int) ≤ i ∧ i ≤ 5 then (1 : Int) else 0, s3) ∧
      update 5 demoTree (-1) 5 1 = .ok s4 ∧
      query 5 s4 0 4
        = .ok (v + ∑ i in Finset.Icc (0 : Int) 4,
            if (-1 : Int) ≤ i ∧ i ≤ 5 then (1 : Int) else 0, s5) :=
  update_out_of_range demoTree demoTree_reachable 5 (by decide) (-1) 5 1 (by decide) 0 4
    (by decide)

end SegmentTree

/-! ## The Fenwick tree operations -/

namespace FenwickTree

variable {R : Type} [CommRing R]

/-- A turn of the loop of `update` at a negative index reads outside the
vector. -/
theorem update_neg (val : R) (fuel : Nat) (t : FenwickTree R) (j : Int) (hj : j < 0)
    (hn : 0 ≤ t.n) (t2 : FenwickTree R) : update fuel t j val ≠ .ok t2 := by
  intro e
  cases fuel with
  | zero => cases e
  | succ fuel =>
    have hin : j ≤ t.n := by omega
    have hr : rd t.fenw j = .error .outOfBounds := by
      simp [rd, show ¬ (0 ≤ j) by omega]
    simp only [update, hin, if_true, hr] at e
    cases e

/-- Whatever the fuel, a call `update(i, val)` that returns has added `val` to
the slots whose block covers `i`. -/
theorem update_cells_of_ok (val : R) :
    ∀ (fuel : Nat) (t t2 : FenwickTree R) (i : Int),
      1 ≤ i → t.n < 2 ^ 31 → (t.fenw.length : Int) = t.n + 1 →
      update fuel t i val = .ok t2 →
      t2.n = t.n ∧ t2.fenw.length = t.fenw.length ∧
        ∀ k : Int, 1 ≤ k → k ≤ t.n →
          cell t2.fenw k = cell t.fenw k +
            if k - (lowbitNat k.toNat : Int) < i ∧ i ≤ k then val else 0 := by
  intro fuel
  induction fuel with
  | zero => intro t t2 i _ _ _ e; cases e
  | succ fuel ih =>
    intro t t2 i hi hsmall hlen e
    by_cases hin : i ≤ t.n
    · have i0 : 0 ≤ i := by omega
      have iL : i < t.fenw.length := by omega
      have hlow : lowbit i = (lowbitNat i.toNat : Int) := lowbit_eq i (by omega) (by omega)
      have lb := lowbitNat_bounds i hi
      simp only [update, hin, if_true, rd_ok t.fenw i i0 iL, bind_ok,
        wr_ok t.fenw i _ i0 iL, hlow] at e
      by_cases hw : i + (lowbitNat i.toNat : Int) < 2 ^ 31
      · rw [wrap32_id _ (by omega) hw] at e
        obtain ⟨n2, len2, cells⟩ := ih
          { t with fenw := t.fenw.set i.toNat (cell t.fenw i + val) } t2
          (i + (lowbitNat i.toNat : Int)) (by omega) hsmall
          (by show ((t.fenw.set i.toNat _).length : Int) = t.n + 1
              rw [List.length_set]; exact hlen) e
        refine ⟨n2, by rw [len2]; exact List.length_set _ _ _, ?_⟩
        intro k hk1 hk2
        have c := cells k hk1 hk2
        have hset : cell (t.fenw.set i.toNat (cell t.fenw i + val)) k
            = if k = i then cell t.fenw i + val else cell t.fenw k :=
          cell_set _ _ _ _ i0 iL
        rw [show cell ({ t with fenw := t.fenw.set i.toNat (cell t.fenw i + val) } :
          FenwickTree R).fenw k = cell (t.fenw.set i.toNat (cell t.fenw i + val)) k from rfl,
          hset] at c
        rw [c]
        have step := covers_step i k hi
        by_cases hki : k = i
        · subst hki
          have h1 : k - (lowbitNat k.toNat : Int) < k ∧ k ≤ k := by omega
          have h2 : ¬ (k - (lowbitNat k.toNat : Int) < k + (lowbitNat k.toNat : Int) ∧
              k + (lowbitNat k.toNat : Int) ≤ k) := by omega
          rw [if_pos rfl, if_pos h1, if_neg h2, add_zero]
        · rw [if_neg hki]
          by_cases hc : k - (lowbitNat k.toNat : Int) < i + (lowbitNat i.toNat : Int) ∧
              i + (lowbitNat i.toNat : Int) ≤ k
          · rw [if_pos hc, if_pos (step.mpr (Or.inr hc))]
          · have : ¬ (k - (lowbitNat k.toNat : Int) < i ∧ i ≤ k) := fun h =>
              (step.mp h).elim hki hc
            rw [if_neg hc, if_neg this]
      · exfalso
        have hneg : wrap32 (i + (lowbitNat i.toNat : Int)) < 0 := by
          unfold wrap32; omega
        exact update_neg val fuel { t with fenw := t.fenw.set i.toNat (cell t.fenw i + val) } _
          hneg (show 0 ≤ t.n by omega) t2 e
    · simp only [update, hin, if_false] at e
      injection e with e
      subst e
      refine ⟨rfl, rfl, fun k _ hk2 => ?_⟩
      have : ¬ (k - (lowbitNat k.toNat : Int) < i ∧ i ≤ k) := by omega
      rw [if_neg this, add_zero]

/-- On a tree of size below `2 ^ 30`, where the sum in `i+=(i & -i)` is an `int`,
with fuel for the slots from `i` to `n` and one more turn, `update(i, val)`
returns. -/
theorem update_returns (val : R) :
    ∀ (fuel : Nat) (t : FenwickTree R) (i : Int),
      1 ≤ i → t.n < 2 ^ 30 → (t.fenw.length : Int) = t.n + 1 →
      1 ≤ fuel → t.n - i + 2 ≤ fuel →
      ∃ t2, update fuel t i val = .ok t2 := by
  intro fuel
  induction fuel with
  | zero => intro t i _ _ _ h; omega
  | succ fuel ih =>
    intro t i hi hsmall hlen _ hfuel
    by_cases hin : i ≤ t.n
    · have i0 : 0 ≤ i := by omega
      have iL : i < t.fenw.length := by omega
      have hlow : lowbit i = (lowbitNat i.toNat : Int) := lowbit_eq i (by omega) (by omega)
      have lb := lowbitNat_bounds i hi
      obtain ⟨t2, e2⟩ := ih
        { t with fenw := t.fenw.set i.toNat (cell t.fenw i + val) }
        (i + (lowbitNat i.toNat : Int)) (by omega) hsmall
        (by show ((t.fenw.set i.toNat _).length : Int) = t.n + 1
            rw [List.length_set]; exact hlen)
        (by omega) (by show t.n - (i + (lowbitNat i.toNat : Int)) + 2 ≤ (fuel : Int); omega)
      refine ⟨t2, ?_⟩
      simp only [update, hin, if_true, rd_ok t.fenw i i0 iL, bind_ok,
        wr_ok t.fenw i _ i0 iL, hlow, wrap32_id _ (show -2 ^ 31 ≤ i + (lowbitNat i.toNat : Int)
          by omega) (show i + (lowbitNat i.toNat : Int) < 2 ^ 31 by omega)]
      exact e2
    · exact ⟨t, by simp only [update, hin, if_false]⟩

/-- On a tree of size below `2 ^ 30`, with fuel for the slots from `i` to `n`
and one more turn, `update(i, val)` returns and has added `val` to the slots
whose block covers `i`. -/
theorem update_cells (val : R) (fuel : Nat) (t : FenwickTree R) (i : Int)
    (hi : 1 ≤ i) (hsmall : t.n < 2 ^ 30) (hlen : (t.fenw.length : Int) = t.n + 1)
    (h1 : 1 ≤ fuel) (hfuel : t.n - i + 2 ≤ fuel) :
    ∃ t2, update fuel t i val = .ok t2 ∧ t2.n = t.n ∧
      t2.fenw.length = t.fenw.length ∧
      ∀ k : Int, 1 ≤ k → k ≤ t.n →
        cell t2.fenw k = cell t.fenw k +
          if k - (lowbitNat k.toNat : Int) < i ∧ i ≤ k then val else 0 := by
  obtain ⟨t2, e⟩ := update_returns val fuel t i hi hsmall hlen h1 hfuel
  exact ⟨t2, e, update_cells_of_ok val fuel t t2 i hi (by omega) hlen e⟩

/-- On a tree that stands for `a`, with fuel above `j`, the loop of
`prefixSum(j)` adds the elements `1..j` to its accumulator. -/
theorem prefixSumLoop_spec {t : FenwickTree R} {a : Int → R} (h : Inv t a) :
    ∀ (fuel : Nat) (j : Int) (res : R), 0 ≤ j → j ≤ t.n → j < fuel →
      prefixSumLoop fuel t j res = .ok (res + ∑ p in Finset.Icc 1 j, a p) := by
  intro fuel
  induction fuel with
  | zero => intro j res h0 _ hf; omega
  | succ fuel ih =>
    intro j res h0 h1 hf
    by_cases hj : j > 0
    · have lb := lowbitNat_bounds j (by omega)
      have hlow : lowbit j = (lowbitNat j.toNat : Int) :=
        lowbit_eq j (by omega) (by have := h.small; omega)
      have jL : j < t.fenw.length := by have := h.len; omega
      simp only [prefixSumLoop, hj, if_true, rd_ok t.fenw j h0 jL, bind_ok, hlow]
      rw [ih (j - (lowbitNat j.toNat : Int)) _ (by omega) (by omega) (by omega),
        h.slot j (by omega) h1,
        sum_Icc_split a 1 (j - (lowbitNat j.toNat : Int)) j (by omega) (by omega)]
      congr 1
      ring
    · have e : j = 0 := by omega
      subst e
      simp [prefixSumLoop]

/-- On a tree that stands for `a`, with fuel above `n`, `prefixSum(j)` returns
the sum of the elements `1..j`. -/
theorem prefixSum_spec {t : FenwickTree R} {a : Int → R} (h : Inv t a) (fuel : Nat)
    (hf : t.n < fuel) (j : Int) (h0 : 0 ≤ j) (h1 : j ≤ t.n) :
    prefixSum fuel t j = .ok (∑ p in Finset.Icc 1 j, a p) := by
  rw [prefixSum, prefixSumLoop_spec h fuel j 0 h0 h1 (by omega), zero_add]

/-- Adding `val` to the slots whose block covers `i` makes the tree stand for
the elements with `val` added at `i`. -/
theorem inv_of_cells {t t2 : FenwickTree R} {a : Int → R} (h : Inv t a) {i : Int} {val : R}
    (n2 : t2.n = t.n) (len2 : t2.fenw.length = t.fenw.length)
    (cells : ∀ k : Int, 1 ≤ k → k ≤ t.n →
      cell t2.fenw k = cell t.fenw k +
        if k - (lowbitNat k.toNat : Int) < i ∧ i ≤ k then val else 0) :
    Inv t2 (fun p => a p + if p = i then val else 0) := by
  refine ⟨by rw [n2]; exact h.nonneg, by rw [n2]; exact h.small,
    by rw [n2, len2]; exact h.len, ?_⟩
  intro k hk1 hk2
  rw [n2] at hk2
  rw [cells k hk1 hk2, h.slot k hk1 hk2, Finset.sum_add_distrib, Finset.sum_ite_eq']
  congr 1
  have lb := lowbitNat_bounds k hk1
  by_cases hc : k - (lowbitNat k.toNat : Int) < i ∧ i ≤ k
  · have : i ∈ Finset.Icc (k - (lowbitNat k.toNat : Int) + 1) k := by
      rw [Finset.mem_Icc]; omega
    rw [if_pos hc, if_pos this]
  · have : i ∉ Finset.Icc (k - (lowbitNat k.toNat : Int) + 1) k := by
      rw [Finset.mem_Icc]; omega
    rw [if_neg hc, if_neg this]

/-- On a tree of size below `2 ^ 30` that stands for `a`, with fuel above `n`,
`update(i, val)` with `1 ≤ i ≤ n` returns a tree that stands for `a` with `val`
added at `i`. -/
theorem fenwick_update_inv {t : FenwickTree R} {a : Int → R} (h : Inv t a)
    (hs : t.n < 2 ^ 30) (fuel : Nat)
    (hf : t.n < fuel) (i : Int) (val : R) (h0 : 1 ≤ i) (h1 : i ≤ t.n) :
    ∃ t2, update fuel t i val = .ok t2 ∧
      Inv t2 (fun p => a p + if p = i then val else 0) ∧ t2.n = t.n := by
  have _ := h1
  obtain ⟨t2, e, n2, len2, cells⟩ := update_cells val fuel t i h0 hs h.len
    (by omega) (by omega)
  exact ⟨t2, e, inv_of_cells h n2 len2 cells, n2⟩

/-- Whatever the fuel and the size, a call `update(i, val)` with `1 ≤ i` that
returns on a tree that stands for `a` returns a tree that stands for `a` with
`val` added at `i`. -/
theorem fenwick_update_result {t : FenwickTree R} {a : Int → R} (h : Inv t a) {fuel : Nat}
    {i : Int} {val : R} {t2 : FenwickTree R} (h0 : 1 ≤ i)
    (e : update fuel t i val = .ok t2) :
    Inv t2 (fun p => a p + if p = i then val else 0) ∧ t2.n = t.n := by
  obtain ⟨n2, len2, cells⟩ := update_cells_of_ok val fuel t t2 i h0 h.small h.len e
  exact ⟨inv_of_cells h n2 len2 cells, n2⟩

/-- The constructor returns an all-zero tree when `size+1` is an `int`. -/
theorem ctor_inv (N : Int) (h0 : 0 ≤ N) (h1 : N + 1 < 2 ^ 31) :
    ∃ t : FenwickTree R, ctor N = .ok t ∧ Inv t (fun _ => 0) ∧ t.n = N := by
  have hz : 0 ≤ N + 1 := by omega
  have hw : wrap32 (N + 1) = N + 1 := wrap32_id _ (by omega) h1
  refine ⟨{ fenw := List.replicate (N + 1).toNat 0, n := N }, ?_,
    ⟨h0, by show N < 2 ^ 31; omega, ?_, ?_⟩, rfl⟩
  · simp only [ctor, zeros, hw, hz, if_true]
  · show ((List.replicate (N + 1).toNat (0 : R)).length : Int) = N + 1
    rw [List.length_replicate]; omega
  · intro k _ _
    show cell (List.replicate (N + 1).toNat (0 : R)) k = _
    rw [cell_replicate, Finset.sum_const_zero]

/-- A tree that the constructor returns for an `int` `N ≥ 0` is all-zero and
has `N` below `2 ^ 31 - 1`. -/
theorem ctor_result {N : Int} {t : FenwickTree R} (e : ctor N = .ok t) (h0 : 0 ≤ N)
    (h1 : N < 2 ^ 31) : Inv t (fun _ => 0) ∧ t.n = N ∧ N + 1 < 2 ^ 31 := by
  by_cases hN : N + 1 < 2 ^ 31
  · obtain ⟨t2, e2, inv, hn⟩ := ctor_inv (R := R) N h0 hN
    rw [e] at e2
    injection e2 with e2
    subst e2
    exact ⟨inv, hn, hN⟩
  · exfalso
    have hneg : ¬ (0 ≤ wrap32 (N + 1)) := by unfold wrap32; omega
    simp only [ctor, zeros, hneg, if_false] at e
    cases e

theorem fenwick_inv_ext {t : FenwickTree R} {a b : Int → R} (h : Inv t a)
    (e : ∀ p, a p = b p) : Inv t b := by
  have : a = b := funext e
  rw [← this]; exact h

/-- On a tree of size below `2 ^ 30`, with fuel above `n`, a sequence of updates
at positions in `[1, n]` returns, and the tree then stands for the old
elements plus the deltas. -/
theorem runUpdates_inv (fuel : Nat) :
    ∀ (ups : List (Int × R)) (t : FenwickTree R) (a : Int → R), Inv t a → t.n < 2 ^ 30 →
      t.n < fuel → (∀ u ∈ ups, 1 ≤ u.1 ∧ u.1 ≤ t.n) →
      ∃ t2, runUpdates fuel t ups = .ok t2 ∧
        Inv t2 (fun p => a p + element ups p) ∧ t2.n = t.n := by
  intro ups
  induction ups with
  | nil =>
    intro t a h _ _ _
    exact ⟨t, rfl, fenwick_inv_ext h fun p => by simp [element], rfl⟩
  | cons u us ih =>
    intro t a h hs hf hu
    obtain ⟨h0, h1⟩ := hu u (List.mem_cons_self _ _)
    obtain ⟨t1, e1, inv1, n1⟩ := fenwick_update_inv h hs fuel hf u.1 u.2 h0 h1
    obtain ⟨t2, e2, inv2, n2⟩ := ih t1 _ inv1 (by rw [n1]; exact hs) (by rw [n1]; exact hf)
      (fun v hv => by rw [n1]; exact hu v (List.mem_cons_of_mem _ hv))
    refine ⟨t2, ?_, fenwick_inv_ext inv2 fun p => ?_, n2.trans n1⟩
    · simp only [runUpdates, e1, bind_ok]; exact e2
    · simp only [element, List.map_cons, List.sum_cons]
      by_cases hp : u.1 = p
      · rw [if_pos hp, if_pos hp.symm]; ring
      · rw [if_neg hp, if_neg (Ne.symm hp)]; ring

/-- Whatever the fuel and the size, a sequence of updates at positions from 1
on that returns leaves a tree that stands for the old elements plus the
deltas. -/
theorem runUpdates_result {k : Nat} :
    ∀ (ups : List (Int × R)) (t t2 : FenwickTree R) (a : Int → R), Inv t a →
      (∀ u ∈ ups, 1 ≤ u.1) → runUpdates k t ups = .ok t2 →
      Inv t2 (fun p => a p + element ups p) ∧ t2.n = t.n := by
  intro ups
  induction ups with
  | nil =>
    intro t t2 a h _ e
    injection e with e
    subst e
    exact ⟨fenwick_inv_ext h fun p => by simp [element], rfl⟩
  | cons u us ih =>
    intro t t2 a h hu e
    simp only [runUpdates] at e
    obtain ⟨t1, e1, e2⟩ := bind_eq_ok e
    obtain ⟨inv1, n1⟩ := fenwick_update_result h (hu u (List.mem_cons_self _ _)) e1
    obtain ⟨inv2, n2⟩ := ih t1 t2 _ inv1 (fun v hv => hu v (List.mem_cons_of_mem _ hv)) e2
    refine ⟨fenwick_inv_ext inv2 fun p => ?_, n2.trans n1⟩
    simp only [element, List.map_cons, List.sum_cons]
    by_cases hp : u.1 = p
    · rw [if_pos hp, if_pos hp.symm]; ring
    · rw [if_neg hp, if_neg (Ne.symm hp)]; ring

/-- A tree that `FenwickTree(N)` and a sequence of updates at positions from 1
on have returned, whatever the fuel, stands for the logical elements. -/
theorem loaded_inv {N : Int} {k : Nat} {ups : List (Int × R)} {t : FenwickTree R}
    (h0 : 0 ≤ N) (h1 : N < 2 ^ 31) (hups : ∀ u ∈ ups, 1 ≤ u.1)
    (e : ((ctor N).bind fun t0 => runUpdates k t0 ups) = .ok t) :
    Inv t (element ups) ∧ t.n = N ∧ N + 1 < 2 ^ 31 := by
  obtain ⟨t0, e0, e1⟩ := bind_eq_ok e
  obtain ⟨inv0, n0, hN⟩ := ctor_result e0 h0 h1
  obtain ⟨inv1, n1⟩ := runUpdates_result ups t0 t _ inv0 hups e1
  exact ⟨fenwick_inv_ext inv1 fun p => zero_add _, n1.trans n0, hN⟩

/-- For `0 ≤ N < 2 ^ 30`, with fuel above `N`, `FenwickTree(N)` and a sequence of
updates at positions in `[1, N]` return. -/
theorem loaded_returns (N : Int) (ups : List (Int × R)) (fuel : Nat) (h0 : 0 ≤ N)
    (h1 : N < 2 ^ 30) (hups : ∀ u ∈ ups, 1 ≤ u.1 ∧ u.1 ≤ N) (hf : N < fuel) :
    ∃ t, ((ctor N).bind fun t0 => runUpdates fuel t0 ups) = .ok t := by
  obtain ⟨t0, e0, inv0, n0⟩ := ctor_inv (R := R) N h0 (by omega)
  obtain ⟨t, e1, _, _⟩ := runUpdates_inv fuel ups t0 _ inv0 (by rw [n0]; exact h1)
    (by rw [n0]; exact hf) (by rw [n0]; exact hups)
  exact ⟨t, by rw [e0, bind_ok]; exact e1⟩

/-- The elements `1..j` of the updates add up to the deltas at positions up
to `j`. -/
theorem sum_element (ups : List (Int × R)) (j : Int) (h : ∀ u ∈ ups, 1 ≤ u.1) :
    ∑ p in Finset.Icc 1 j, element ups p = deltasUpTo ups j := by
  induction ups with
  | nil => simp [element, deltasUpTo]
  | cons u us ih =>
    have h1 := h u (List.mem_cons_self _ _)
    simp only [element, deltasUpTo, List.map_cons, List.sum_cons] at ih ⊢
    rw [Finset.sum_add_distrib, ih fun v hv => h v (List.mem_cons_of_mem _ hv),
      Finset.sum_ite_eq]
    congr 1
    by_cases hc : u.1 ≤ j
    · rw [if_pos hc, if_pos (by rw [Finset.mem_Icc]; exact ⟨h1, hc⟩)]
    · rw [if_neg hc, if_neg (by rw [Finset.mem_Icc]; omega)]

theorem cell_cons (a : R) (A : List R) (q : Int) :
    cell (a :: A) q = if q = 0 then a else cell A (q - 1) := by
  by_cases h0 : q = 0
  · subst h0; simp [cell]
  · by_cases h1 : 0 ≤ q
    · have h2 : 0 ≤ q - 1 := by omega
      obtain ⟨m, hm⟩ : ∃ m : Nat, q.toNat = m + 1 := ⟨q.toNat - 1, by omega⟩
      have hm2 : (q - 1).toNat = m := by omega
      simp only [cell, h1, h2, h0, if_true, if_false, hm, hm2, List.getD_eq_getElem?_getD,
        List.getElem?_cons_succ]
    · have h2 : ¬ (0 ≤ q - 1) := by omega
      simp [cell, h0, h1, h2]

/-- The loading updates put `A[i]` at position `base + i + 1`. -/
theorem element_loads (A : List R) :
    ∀ (base p : Int), element (loads base A) p = cell A (p - base - 1) := by
  induction A with
  | nil => intro base p; simp [loads, element, cell]
  | cons a A ih =>
    intro base p
    have e := ih (base + 1) p
    simp only [element, loads, List.map_cons, List.sum_cons] at e ⊢
    rw [e, cell_cons]
    by_cases hp : base + 1 = p
    · have : p - base - 1 = 0 := by omega
      have h2 : ¬ (0 ≤ p - (base + 1) - 1) := by omega
      rw [if_pos hp, if_pos this]
      simp [cell, h2]
    · have : ¬ (p - base - 1 = 0) := by omega
      have e2 : p - (base + 1) - 1 = p - base - 1 - 1 := by ring
      rw [if_neg hp, if_neg this, e2, zero_add]

omit [CommRing R] in
theorem loads_valid (A : List R) :
    ∀ (base : Int), ∀ u ∈ loads base A, base + 1 ≤ u.1 ∧ u.1 ≤ base + A.length := by
  induction A with
  | nil => intro base u hu; simp [loads] at hu
  | cons a A ih =>
    intro base u hu
    simp only [loads, List.mem_cons] at hu
    rcases hu with rfl | hu
    · simp only [List.length_cons, Nat.cast_add, Nat.cast_one]; omega
    · have := ih (base + 1) u hu
      simp only [List.length_cons, Nat.cast_add, Nat.cast_one]; omega

theorem sum_Icc_shift (g : Int → R) (l r : Int) :
    ∑ p in Finset.Icc (l + 1) (r + 1), g p = ∑ i in Finset.Icc l r, g (i + 1) := by
  rw [← Finset.map_add_right_Icc, Finset.sum_map]
  rfl

end FenwickTree

/-! ## Claims about the Fenwick tree -/

namespace FenwickTree

variable {R : Type} [CommRing R]

/-- The Fenwick part of `main`: `rangeSum(1, 3)` prints 6, and `prefixSum(2)`
is 3. -/
theorem fenwick_demo :
    ((ctor (R := Int) 5).bind fun t0 =>
      (runUpdates 6 t0 [(1, 1), (2, 2), (3, 3)]).bind fun t =>
      (rangeSum 6 t 1 3).bind fun a =>
      (prefixSum 6 t 2).bind fun b => .ok (a, b)) = .ok (6, 3) := by rfl

/-- C3. Fenwick prefix sums: for an `int` `N ≥ 0`, after `FenwickTree(N)` and
any sequence of calls `update(i, delta)` with `1 ≤ i ≤ N` have returned,
`prefixSum(j)` for `0 ≤ j ≤ N` returns the sum of the deltas of the updates at
positions up to `j`, and `prefixSum(0)` returns 0.  Fuel above `N` is enough
for every call, and the constructor and the updates return when `N < 2 ^ 30`,
that is when the sum in `i+=(i & -i)` is an `int`. -/
theorem prefixSum_correct (N : Int) (ups : List (Int × R)) (fuel : Nat) (j : Int)
    (hN0 : 0 ≤ N) (hN1 : N < 2 ^ 31) (hups : ∀ u ∈ ups, 1 ≤ u.1 ∧ u.1 ≤ N)
    (hfuel : N < fuel) (hj0 : 0 ≤ j) (hj1 : j ≤ N) :
    (N < 2 ^ 30 → ∃ t, ((ctor N).bind fun t0 => runUpdates fuel t0 ups) = .ok t) ∧
    ∀ (k : Nat) (t : FenwickTree R),
      ((ctor N).bind fun t0 => runUpdates k t0 ups) = .ok t →
      prefixSum fuel t j = .ok (deltasUpTo ups j) ∧ prefixSum fuel t 0 = .ok 0 := by
  refine ⟨fun h30 => loaded_returns N ups fuel hN0 h30 hups hfuel, fun k t e => ?_⟩
  obtain ⟨inv, hn, -⟩ := loaded_inv hN0 hN1 (fun u hu => (hups u hu).1) e
  have hf : t.n < fuel := by rw [hn]; exact hfuel
  constructor
  · rw [prefixSum_spec inv fuel hf j hj0 (by rw [hn]; exact hj1), ← sum_element ups j
      fun u hu => (hups u hu).1]
  · rw [prefixSum_spec inv fuel hf 0 (le_refl 0) (by rw [hn]; exact hN0)]
    simp

/-- C3 on the updates of `main`, read at `j = 2`. -/
theorem prefixSum_correct_witness :
    ((5 : Int) < 2 ^ 30 →
      ∃ t, ((ctor 5).bind fun t0 => runUpdates 6 t0 [(1, 1), (2, 2), (3, (3 : Int))]) = .ok t) ∧
    ∀ (k : Nat) (t : FenwickTree Int),
      ((ctor 5).bind fun t0 => runUpdates k t0 [(1, 1), (2, 2), (3, (3 : Int))]) = .ok t →
      prefixSum 6 t 2 = .ok (deltasUpTo [(1, 1), (2, 2), (3, (3 : Int))] 2) ∧
        prefixSum 6 t 0 = .ok 0 :=
  prefixSum_correct 5 [(1, 1), (2, 2), (3, (3 : Int))] 6 2 (by decide) (by decide)
    (by intro u hu
        simp only [List.mem_cons, List.mem_singleton, List.not_mem_nil, or_false] at hu
        rcases hu with rfl | rfl | rfl <;> decide)
    (by decide) (by decide) (by decide)

/-- C4. Fenwick range sums: in a state that `FenwickTree(N)` and updates at
positions in `[1, N]` have returned, for `1 ≤ l ≤ r ≤ N`, `rangeSum(l, r)`
returns `prefixSum(r) - prefixSum(l - 1)`, and that is the sum of the logical
elements at positions `l..r`.  Fuel above `N` is enough, and the constructor
and the updates return when `N < 2 ^ 30`. -/
theorem rangeSum_correct (N : Int) (ups : List (Int × R)) (fuel : Nat) (l r : Int)
    (hN0 : 0 ≤ N) (hN1 : N < 2 ^ 31) (hups : ∀ u ∈ ups, 1 ≤ u.1 ∧ u.1 ≤ N)
    (hfuel : N < fuel) (hl : 1 ≤ l) (hlr : l ≤ r) (hr : r ≤ N) :
    (N < 2 ^ 30 → ∃ t, ((ctor N).bind fun t0 => runUpdates fuel t0 ups) = .ok t) ∧
    ∀ (k : Nat) (t : FenwickTree R),
      ((ctor N).bind fun t0 => runUpdates k t0 ups) = .ok t →
      ∃ a b, prefixSum fuel t r = .ok a ∧ prefixSum fuel t (l - 1) = .ok b ∧
        rangeSum fuel t l r = .ok (a - b) ∧
        a - b = ∑ p in Finset.Icc l r, element ups p := by
  refine ⟨fun h30 => loaded_returns N ups fuel hN0 h30 hups hfuel, fun k t e => ?_⟩
  obtain ⟨inv, hn, -⟩ := loaded_inv hN0 hN1 (fun u hu => (hups u hu).1) e
  have hf : t.n < fuel := by rw [hn]; exact hfuel
  have ea := prefixSum_spec inv fuel hf r (by omega) (by rw [hn]; exact hr)
  have eb := prefixSum_spec inv fuel hf (l - 1) (by omega) (by rw [hn]; omega)
  refine ⟨_, _, ea, eb, ?_, ?_⟩
  · simp only [rangeSum, wrap32_id (l - 1) (by omega) (by omega), ea, eb, bind_ok]
  · rw [sum_Icc_split _ 1 (l - 1) r (by omega) (by omega)]
    have e : l - 1 + 1 = l := by omega
    rw [e, add_sub_cancel_left]

/-- C4 on the updates of `main`, with `rangeSum(1, 3)`. -/
theorem rangeSum_correct_witness :
    ((5 : Int) < 2 ^ 30 →
      ∃ t, ((ctor 5).bind fun t0 => runUpdates 6 t0 [(1, 1), (2, 2), (3, (3 : Int))]) = .ok t) ∧
    ∀ (k : Nat) (t : FenwickTree Int),
      ((ctor 5).bind fun t0 => runUpdates k t0 [(1, 1), (2, 2), (3, (3 : Int))]) = .ok t →
      ∃ a b, prefixSum 6 t 3 = .ok a ∧ prefixSum 6 t (1 - 1) = .ok b ∧
        rangeSum 6 t 1 3 = .ok (a - b) ∧
        a - b = ∑ p in Finset.Icc 1 3, element [(1, 1), (2, 2), (3, (3 : Int))] p :=
  rangeSum_correct 5 [(1, 1), (2, 2), (3, (3 : Int))] 6 1 3 (by decide) (by decide)
    (by intro u hu
        simp only [List.mem_cons, List.mem_singleton, List.not_mem_nil, or_false] at hu
        rcases hu with rfl | rfl | rfl <;> decide)
    (by decide) (by decide) (by decide) (by decide)

/-- C5. The two backends agree: for an array `A` of `N ≥ 1` elements (`N` an
`int`), loaded by `build(A)` into the segment tree and by `update(i + 1, A[i])`
for each `i` into a fresh `FenwickTree(N)`, and any sequence of point updates
`(p, d)` with `0 ≤ p < N` applied as `update(p, p, d)` and `update(p + 1, d)`,
once these calls have returned on both sides, `query(l, r)` and
`rangeSum(l + 1, r + 1)` return the same value for `0 ≤ l ≤ r < N`.  Fuel
above `N` is enough, and the calls return on both sides when `N < 2 ^ 29`,
that is when `4*n` is an `int`. -/
theorem backends_agree [DecidableEq R] (A : List R) (pts : List (Int × R)) (fuel : Nat)
    (l r : Int) (hN : 1 ≤ A.length) (hN1 : (A.length : Int) < 2 ^ 31)
    (hpts : ∀ u ∈ pts, 0 ≤ u.1 ∧ u.1 < (A.length : Int)) (hfuel : A.length < fuel)
    (hl : 0 ≤ l) (hlr : l ≤ r) (hr : r < (A.length : Int)) :
    (A.length < 2 ^ 29 → ∃ s t,
      ((SegmentTree.fromArray fuel A).bind fun s0 =>
        SegmentTree.run fuel s0 (pts.map fun u => SegmentTree.Op.update u.1 u.1 u.2))
          = .ok s ∧
      ((ctor (A.length : Int)).bind fun t0 =>
        (runUpdates fuel t0 (loads 0 A)).bind fun t1 =>
        runUpdates fuel t1 (pts.map fun u => (u.1 + 1, u.2))) = .ok t) ∧
    ∀ (k : Nat) (s : SegmentTree R) (t : FenwickTree R),
      ((SegmentTree.fromArray k A).bind fun s0 =>
        SegmentTree.run k s0 (pts.map fun u => SegmentTree.Op.update u.1 u.1 u.2))
          = .ok s →
      ((ctor (A.length : Int)).bind fun t0 =>
        (runUpdates k t0 (loads 0 A)).bind fun t1 =>
        runUpdates k t1 (pts.map fun u => (u.1 + 1, u.2))) = .ok t →
      ∃ v s2, SegmentTree.query fuel s l r = .ok (v, s2) ∧
        rangeSum fuel t (l + 1) (r + 1) = .ok v := by
  have _ := hlr
  have hloads : ∀ u ∈ loads 0 A, 1 ≤ u.1 ∧ u.1 ≤ (A.length : Int) := fun u hu => by
    have := loads_valid A 0 u hu; omega
  have hpts2 : ∀ u ∈ pts.map (fun u : Int × R => (u.1 + 1, u.2)),
      1 ≤ u.1 ∧ u.1 ≤ (A.length : Int) := fun u hu => by
    rw [List.mem_map] at hu
    obtain ⟨w, hw, rfl⟩ := hu
    have := hpts w hw
    show 1 ≤ w.1 + 1 ∧ w.1 + 1 ≤ (A.length : Int)
    omega
  refine ⟨fun h29 => ?_, fun k s t es et => ?_⟩
  · have h29i : (A.length : Int) < 2 ^ 29 := by exact_mod_cast h29
    obtain ⟨s, es⟩ := SegmentTree.built_returns A
      (pts.map fun u => SegmentTree.Op.update u.1 u.1 u.2) fuel hN h29 (by omega)
    obtain ⟨t0, e0, inv0, n0⟩ := ctor_inv (R := R) (A.length : Int) (by omega) (by omega)
    obtain ⟨t1, e1, inv1, n1⟩ := runUpdates_inv fuel (loads 0 A) t0 _ inv0
      (by rw [n0]; omega) (by rw [n0]; omega) (by rw [n0]; exact hloads)
    obtain ⟨t, e2, _, _⟩ := runUpdates_inv fuel (pts.map fun u => (u.1 + 1, u.2)) t1 _ inv1
      (by rw [n1, n0]; omega) (by rw [n1, n0]; omega) (by rw [n1, n0]; exact hpts2)
    exact ⟨s, t, es, by rw [e0, bind_ok, e1, bind_ok]; exact e2⟩
  · obtain ⟨sinv, sn, -⟩ := SegmentTree.built_inv hN es
    obtain ⟨s2, f2, _, _⟩ := SegmentTree.query_range sinv fuel (by rw [sn]; omega) l r
      hl (by rw [sn]; exact hr)
    obtain ⟨t0, e0, et⟩ := bind_eq_ok et
    obtain ⟨t1, e1, e2⟩ := bind_eq_ok et
    obtain ⟨inv0, n0, -⟩ := ctor_result e0 (by omega) hN1
    obtain ⟨inv1, n1⟩ := runUpdates_result (loads 0 A) t0 t1 _ inv0
      (fun u hu => (hloads u hu).1) e1
    obtain ⟨inv2, n2⟩ := runUpdates_result (pts.map fun u => (u.1 + 1, u.2)) t1 t _ inv1
      (fun u hu => (hpts2 u hu).1) e2
    have hf : t.n < fuel := by rw [n2, n1, n0]; omega
    have ea := prefixSum_spec inv2 fuel hf (r + 1) (by omega) (by rw [n2, n1, n0]; omega)
    have eb := prefixSum_spec inv2 fuel hf (l + 1 - 1) (by omega) (by rw [n2, n1, n0]; omega)
    refine ⟨_, s2, f2, ?_⟩
    have hw : wrap32 (l + 1 - 1) = l + 1 - 1 := wrap32_id _ (by omega) (by omega)
    rw [rangeSum, hw, ea, bind_ok, eb, bind_ok]
    refine congrArg Except.ok ?_
    rw [sum_Icc_split _ 1 (l + 1 - 1) (r + 1) (by omega) (by omega), add_sub_cancel_left]
    have e : l + 1 - 1 + 1 = l + 1 := by omega
    rw [e, sum_Icc_shift]
    refine Finset.sum_congr rfl fun i _ => ?_
    show 0 + element (loads 0 A) (i + 1)
        + element (pts.map fun u => (u.1 + 1, u.2)) (i + 1)
      = cell A i + ((pts.map fun u => SegmentTree.Op.update u.1 u.1 u.2).map
          fun op => op.delta i).sum
    rw [element_loads, zero_add]
    have e3 : i + 1 - 0 - 1 = i := by omega
    rw [e3]
    refine congrArg (cell A i + ·) ?_
    simp only [element, List.map_map]
    refine congrArg List.sum ?_
    refine List.map_congr_left fun u _ => ?_
    show (if u.1 + 1 = i + 1 then u.2 else 0) = if u.1 ≤ i ∧ i ≤ u.1 then u.2 else 0
    by_cases hc : u.1 = i
    · rw [if_pos (by omega), if_pos (by omega)]
    · rw [if_neg (by omega), if_neg (by omega)]

/-- C5 on the array of `main` with the point updates `(1, 4)` and `(3, -2)`,
read on `[1, 3]`. -/
theorem backends_agree_witness :
    (([1, 2, 3, 4, (5 : Int)] : List Int).length < 2 ^ 29 → ∃ s t,
      ((SegmentTree.fromArray 6 [1, 2, 3, 4, (5 : Int)]).bind fun s0 =>
        SegmentTree.run 6 s0 (([(1, 4), (3, -2)] : List (Int × Int)).map
          fun u => SegmentTree.Op.update u.1 u.1 u.2)) = .ok s ∧
      ((ctor ((([1, 2, 3, 4, (5 : Int)] : List Int).length : Nat) : Int)).bind fun t0 =>
        (runUpdates 6 t0 (loads 0 [1, 2, 3, 4, (5 : Int)])).bind fun t1 =>
        runUpdates 6 t1 (([(1, 4), (3, -2)] : List (Int × Int)).map
          fun u => (u.1 + 1, u.2))) = .ok t) ∧
    ∀ (k : Nat) (s : SegmentTree Int) (t : FenwickTree Int),
      ((SegmentTree.fromArray k [1, 2, 3, 4, (5 : Int)]).bind fun s0 =>
        SegmentTree.run k s0 (([(1, 4), (3, -2)] : List (Int × Int)).map
          fun u => SegmentTree.Op.update u.1 u.1 u.2)) = .ok s →
      ((ctor ((([1, 2, 3, 4, (5 : Int)] : List Int).length : Nat) : Int)).bind fun t0 =>
        (runUpdates k t0 (loads 0 [1, 2, 3, 4, (5 : Int)])).bind fun t1 =>
        runUpdates k t1 (([(1, 4), (3, -2)] : List (Int × Int)).map
          fun u => (u.1 + 1, u.2))) = .ok t →
      ∃ v s2, SegmentTree.query 6 s 1 3 = .ok (v, s2) ∧
        rangeSum 6 t (1 + 1) (3 + 1) = .ok v :=
  backends_agree [1, 2, 3, 4, (5 : Int)] [(1, 4), (3, -2)] 6 1 3 (by decide) (by decide)
    (by intro u hu
        simp only [List.mem_cons, List.mem_singleton, List.not_mem_nil, or_false] at hu
        rcases hu with rfl | rfl <;> decide)
    (by decide) (by decide) (by decide) (by decide)

end FenwickTree

/-! ## Claims about bounds that are not checked -/

namespace SegmentTree

variable {R : Type} [CommRing R] [DecidableEq R]

omit [DecidableEq R] in
/-- The part of a sum over `[0, n - 1]` that lies in `[ql, qr]` is the sum over
the clipped range. -/
theorem sum_clip_any (f : Int → R) (n ql qr : Int) :
    (∑ i in Finset.Icc 0 (n - 1), if ql ≤ i ∧ i ≤ qr then f i else 0)
      = ∑ i in Finset.Icc (max ql 0) (min qr (n - 1)), f i := by
  rw [← Finset.sum_filter]
  refine Finset.sum_congr ?_ fun _ _ => rfl
  ext x
  simp only [Finset.mem_filter, Finset.mem_Icc]
  omega

/-- C11, as stated, fails: on the tree of `main` (`N = 5`) the call
`query(-1, 5)` raises no error and returns 15. -/
theorem query_out_of_range_counterexample :
    fromArray 5 [1, 2, 3, 4, 5] = .ok demoTree ∧
      (∀ e, query 5 demoTree (-1) 5 ≠ .error e) ∧
      ((query 5 demoTree (-1) 5).bind fun p => .ok p.1) = .ok 15 := by
  refine ⟨by rfl, ?_, by rfl⟩
  intro e h
  have h2 : query 5 demoTree (-1) 5 = .ok (15, demoTree) := by rfl
  rw [h2] at h
  cases h

/-- C11, amended: on a reachable tree, `query(l, r)` with `l < 0` or `r ≥ N`
raises no error; it returns the sum of the elements whose index lies in both
`[l, r]` and `[0, N - 1]` (0 when there is none), an element being what
`query(i, i)` returns. -/
theorem query_out_of_range (s : SegmentTree R) (hs : Reachable s) (fuel : Nat)
    (hfuel : s.n ≤ fuel) (l r : Int) (hbad : l < 0 ∨ s.n ≤ r) :
    ∃ (g : Int → R) (t : SegmentTree R),
      (∀ i, 0 ≤ i → i < s.n → ∃ u, query fuel s i i = .ok (g i, u)) ∧
      query fuel s l r = .ok (∑ i in Finset.Icc (max l 0) (min r (s.n - 1)), g i, t) := by
  have _ := hbad
  obtain ⟨f, inv⟩ := hs.inv
  obtain ⟨t, e, _, _⟩ := query_inv inv fuel hfuel l r
  rw [sum_clip_any] at e
  refine ⟨f, t, fun i h0 h1 => ?_, e⟩
  obtain ⟨u, eu, _, _⟩ := query_point inv fuel hfuel i h0 h1
  exact ⟨u, eu⟩

/-- C11, amended, on the tree of `main` with `query(-1, 5)`. -/
theorem query_out_of_range_witness :
    ∃ (g : Int → Int) (t : SegmentTree Int),
      (∀ i, 0 ≤ i → i < demoTree.n → ∃ u, query 5 demoTree i i = .ok (g i, u)) ∧
      query 5 demoTree (-1) 5
        = .ok (∑ i in Finset.Icc (max (-1) 0) (min 5 (demoTree.n - 1)), g i, t) :=
  query_out_of_range demoTree demoTree_reachable 5 (by decide) (-1) 5 (by decide)

/-- C12, as stated, fails: on the tree of `main`, with `l = 3 > r = 1`,
`query(3, 1)` raises no error and returns 0 (where `query(1, 3)` returns 9),
and `update(3, 1, 7)` raises no error and leaves `query(0, 4)` at 15. -/
theorem reversed_range_counterexample :
    fromArray 5 [1, 2, 3, 4, 5] = .ok demoTree ∧
      (∀ e, query 5 demoTree 3 1 ≠ .error e) ∧
      ((query 5 demoTree 3 1).bind fun p => .ok p.1) = .ok 0 ∧
      ((query 5 demoTree 1 3).bind fun p => .ok p.1) = .ok 9 ∧
      (∀ e, update 5 demoTree 3 1 7 ≠ .error e) ∧
      ((update 5 demoTree 3 1 7).bind fun t =>
        (query 5 t 0 4).bind fun p => .ok p.1) = .ok 15 := by
  refine ⟨by rfl, ?_, by rfl, by rfl, ?_, by rfl⟩
  · intro e h
    have h2 : query 5 demoTree 3 1 = .ok (0, demoTree) := by rfl
    rw [h2] at h
    cases h
  · intro e h
    have h2 : update 5 demoTree 3 1 7 = .ok demoTree := by rfl
    rw [h2] at h
    cases h

/-- C12, amended: on a reachable tree, for `l > r`, neither `query(l, r)` nor
`update(l, r, delta)` reports an error; the range is taken as empty and is not
swapped: `query(l, r)` returns 0, and `update(l, r, delta)` returns and leaves
every element as it was, so that every `query(ql, qr)` with
`0 ≤ ql ≤ qr < N` returns after it what it returns before it. -/
theorem reversed_range (s : SegmentTree R) (hs : Reachable s) (fuel : Nat)
    (hfuel : s.n ≤ fuel) (l r : Int) (d : R) (hlr : r < l) :
    (∃ t, query fuel s l r = .ok (0, t)) ∧
      ∃ t2, update fuel s l r d = .ok t2 ∧
        ∀ ql qr, 0 ≤ ql → ql ≤ qr → qr < s.n →
          ∃ v u1 u2, query fuel s ql qr = .ok (v, u1) ∧ query fuel t2 ql qr = .ok (v, u2) := by
  obtain ⟨f, inv⟩ := hs.inv
  constructor
  · obtain ⟨t, e, _, _⟩ := query_inv inv fuel hfuel l r
    refine ⟨t, ?_⟩
    rw [e]
    congr 2
    refine Finset.sum_eq_zero fun i _ => ?_
    have : ¬ (l ≤ i ∧ i ≤ r) := by omega
    rw [if_neg this]
  · obtain ⟨t2, e2, inv2, n2⟩ := update_inv inv fuel hfuel l r d
    have inv3 : Inv t2 f := inv_ext inv2 fun i => by
      have : ¬ (l ≤ i ∧ i ≤ r) := by omega
      rw [if_neg this, add_zero]
    refine ⟨t2, e2, fun ql qr h0 _ h1 => ?_⟩
    obtain ⟨u1, q1, _, _⟩ := query_range inv fuel hfuel ql qr h0 h1
    obtain ⟨u2, q2, _, _⟩ := query_range inv3 fuel (by rw [n2]; exact hfuel) ql qr h0
      (by rw [n2]; exact h1)
    exact ⟨_, u1, u2, q1, q2⟩

/-- C12, amended, on the tree of `main` with `l = 3`, `r = 1`. -/
theorem reversed_range_witness :
    (∃ t, query 5 demoTree 3 1 = .ok (0, t)) ∧
      ∃ t2, update 5 demoTree 3 1 7 = .ok t2 ∧
        ∀ ql qr, 0 ≤ ql → ql ≤ qr → qr < demoTree.n →
          ∃ v u1 u2, query 5 demoTree ql qr = .ok (v, u1) ∧
            query 5 t2 ql qr = .ok (v, u2) :=
  reversed_range demoTree demoTree_reachable 5 (by decide) 3 1 7 (by decide)

end SegmentTree

namespace FenwickTree

variable {R : Type} [CommRing R]

/-- The loop of `prefixSum` does not run for an index that is not positive: no
slot is read, whatever the vector. -/
theorem prefixSum_nonpos (t : FenwickTree R) (fuel : Nat) (j : Int) (h : j ≤ 0) :
    prefixSum (fuel + 1) t j = .ok 0 := by
  have : ¬ (j > 0) := by omega
  simp only [prefixSum, prefixSumLoop, this, if_false]

/-- The first turn of `prefixSum` at an index beyond the vector reads outside
it. -/
theorem prefixSum_beyond (t : FenwickTree R) (fuel : Nat) (j : Int) (h0 : 0 < j)
    (h : (t.fenw.length : Int) ≤ j) : prefixSum (fuel + 1) t j = .error .outOfBounds := by
  have hg : j > 0 := h0
  have hn : t.fenw[j.toNat]? = none := List.getElem?_eq_none (by omega)
  simp only [prefixSum, prefixSumLoop, hg, if_true, rd, hn, show (0 : Int) ≤ j by omega]
  rfl

/-- On a tree that stands for `a`, with fuel above `n`, `prefixSum(j)` returns
the sum of the elements `1..j` for every `j ≤ n`, also a negative one. -/
theorem prefixSum_any {t : FenwickTree R} {a : Int → R} (h : Inv t a) (fuel : Nat)
    (hf : t.n < fuel) (j : Int) (h1 : j ≤ t.n) :
    prefixSum fuel t j = .ok (∑ p in Finset.Icc 1 j, a p) := by
  by_cases h0 : 0 ≤ j
  · exact prefixSum_spec h fuel hf j h0 h1
  · obtain ⟨k, rfl⟩ : ∃ k, fuel = k + 1 := ⟨fuel - 1, by have := h.nonneg; omega⟩
    rw [prefixSum_nonpos t k j (by omega), Finset.Icc_eq_empty (by omega),
      Finset.sum_empty]

/-- Whatever the slots hold, with fuel above `n`, the loop of `prefixSum(j)`
returns for `0 ≤ j ≤ n`. -/
theorem prefixSumLoop_returns (t : FenwickTree R) (hsmall : t.n < 2 ^ 31)
    (hlen : (t.fenw.length : Int) = t.n + 1) :
    ∀ (fuel : Nat) (j : Int) (res : R), 0 ≤ j → j ≤ t.n → j < fuel →
      ∃ v, prefixSumLoop fuel t j res = .ok v := by
  intro fuel
  induction fuel with
  | zero => intro j res h0 _ hf; omega
  | succ fuel ih =>
    intro j res h0 h1 hf
    by_cases hj : j > 0
    · have lb := lowbitNat_bounds j (by omega)
      have hlow : lowbit j = (lowbitNat j.toNat : Int) := lowbit_eq j (by omega) (by omega)
      have jL : j < t.fenw.length := by omega
      simp only [prefixSumLoop, hj, if_true, rd_ok t.fenw j h0 jL, bind_ok, hlow]
      exact ih _ _ (by omega) (by omega) (by omega)
    · exact ⟨res, by simp only [prefixSumLoop, hj, if_false]⟩

/-- C13, as stated, fails: on `FenwickTree(5)` after `update(1, 1)`,
`update(2, 2)`, `update(3, 3)`, the calls `rangeSum(3, 1)` (`l > r`),
`rangeSum(2, 0)` (`r < 1`), `rangeSum(6, 5)` (`l > N`) and `rangeSum(-2, 2)`
(`l < 0`) raise no error and return -2, -1, 0 and 3. -/
theorem rangeSum_unchecked_counterexample :
    ((ctor (R := Int) 5).bind fun t0 =>
      (runUpdates 6 t0 [(1, 1), (2, 2), (3, 3)]).bind fun t =>
      (rangeSum 6 t 3 1).bind fun a =>
      (rangeSum 6 t 2 0).bind fun b =>
      (rangeSum 6 t 6 5).bind fun c =>
      (rangeSum 6 t (-2) 2).bind fun d => .ok (a, b, c, d)) = .ok (-2, -1, 0, 3) := by
  rfl

/-- C13, amended: in a state that `FenwickTree(N)` and updates at positions in
`[1, N]` have returned, `rangeSum(l, r)` reports no out-of-range error.  For
`r ≤ N` and `-2 ^ 31 < l ≤ N + 1`, whatever their order and sign, it returns
`prefixSum(r) - prefixSum(l - 1)`, the sum of the elements `1..r` less the sum
of the elements `1..l-1`, a sum up to an index below 1 being 0.  For `r > N` or
`l > N + 1` it reads `fenw` beyond its end, and so it does for `l = -2 ^ 31`,
where `l-1` is `2 ^ 31 - 1`.  The constructor and the updates return when
`N < 2 ^ 30`. -/
theorem rangeSum_unchecked (N : Int) (ups : List (Int × R)) (fuel : Nat) (l r : Int)
    (hN0 : 0 ≤ N) (hN1 : N < 2 ^ 31) (hups : ∀ u ∈ ups, 1 ≤ u.1 ∧ u.1 ≤ N)
    (hfuel : N < fuel) (hl0 : -2 ^ 31 ≤ l) (hl1 : l < 2 ^ 31) :
    (N < 2 ^ 30 → ∃ t, ((ctor N).bind fun t0 => runUpdates fuel t0 ups) = .ok t) ∧
    ∀ (k : Nat) (t : FenwickTree R),
      ((ctor N).bind fun t0 => runUpdates k t0 ups) = .ok t →
      (r ≤ N → -2 ^ 31 < l → l ≤ N + 1 → rangeSum fuel t l r
        = .ok (∑ p in Finset.Icc 1 r, element ups p
            - ∑ p in Finset.Icc 1 (l - 1), element ups p)) ∧
      (N < r ∨ N + 1 < l ∨ l = -2 ^ 31 → rangeSum fuel t l r = .error .outOfBounds) := by
  refine ⟨fun h30 => loaded_returns N ups fuel hN0 h30 hups hfuel, fun k t e => ?_⟩
  obtain ⟨inv2, hn, hN2⟩ := loaded_inv hN0 hN1 (fun u hu => (hups u hu).1) e
  have hf : t.n < fuel := by rw [hn]; exact hfuel
  have hlen := inv2.len
  obtain ⟨m, hm⟩ : ∃ m, fuel = m + 1 := ⟨fuel - 1, by omega⟩
  refine ⟨fun hr hl2 hl => ?_, fun hbad => ?_⟩
  · have hw : wrap32 (l - 1) = l - 1 := wrap32_id _ (by omega) (by omega)
    rw [rangeSum, hw, prefixSum_any inv2 fuel hf r (by rw [hn]; exact hr), bind_ok,
      prefixSum_any inv2 fuel hf (l - 1) (by rw [hn]; omega), bind_ok]
  · by_cases hr : N < r
    · rw [rangeSum, hm, prefixSum_beyond t m r (by omega) (by omega)]
      rfl
    · rw [rangeSum, prefixSum_any inv2 fuel hf r (by rw [hn]; omega), bind_ok]
      by_cases hl : N + 1 < l
      · have hw : wrap32 (l - 1) = l - 1 := wrap32_id _ (by omega) (by omega)
        rw [hw, hm, prefixSum_beyond t m (l - 1) (by omega) (by omega)]
        rfl
      · have hl3 : l = -2 ^ 31 := by omega
        have hw : wrap32 (l - 1) = 2 ^ 31 - 1 := by rw [hl3]; decide
        rw [hw, hm, prefixSum_beyond t m (2 ^ 31 - 1) (by omega) (by omega)]
        rfl

/-- C13, amended, on the updates of `main` with `rangeSum(3, 1)`. -/
theorem rangeSum_unchecked_witness :
    ((5 : Int) < 2 ^ 30 →
      ∃ t, ((ctor 5).bind fun t0 => runUpdates 6 t0 [(1, 1), (2, 2), (3, (3 : Int))]) = .ok t) ∧
    ∀ (k : Nat) (t : FenwickTree Int),
      ((ctor 5).bind fun t0 => runUpdates k t0 [(1, 1), (2, 2), (3, (3 : Int))]) = .ok t →
      ((1 : Int) ≤ 5 → -2 ^ 31 < (3 : Int) → (3 : Int) ≤ 5 + 1 → rangeSum 6 t 3 1
        = .ok (∑ p in Finset.Icc 1 1, element [(1, 1), (2, 2), (3, (3 : Int))] p
            - ∑ p in Finset.Icc 1 (3 - 1), element [(1, 1), (2, 2), (3, (3 : Int))] p)) ∧
      ((5 : Int) < 1 ∨ (5 : Int) + 1 < 3 ∨ (3 : Int) = -2 ^ 31 →
        rangeSum 6 t 3 1 = .error .outOfBounds) :=
  rangeSum_unchecked 5 [(1, 1), (2, 2), (3, (3 : Int))] 6 3 1 (by decide) (by decide)
    (by intro u hu
        simp only [List.mem_cons, List.mem_singleton, List.not_mem_nil, or_false] at hu
        rcases hu with rfl | rfl | rfl <;> decide)
    (by decide) (by decide) (by decide)

/-- C14. From the start: for every content of a `FenwickTree(N)` (`N` an
`int`) and `1 ≤ r ≤ N`, with fuel above `N`, `rangeSum(0, r)` returns what
`prefixSum(r)` returns; `prefixSum(-1)` returns 0 and reads no slot, as it
does so on every tree, also one with an empty vector. -/
theorem rangeSum_from_start (t : FenwickTree R) (fuel : Nat) (r : Int)
    (hsmall : t.n < 2 ^ 31) (hlen : (t.fenw.length : Int) = t.n + 1) (hfuel : t.n < fuel)
    (h0 : 1 ≤ r) (h1 : r ≤ t.n) :
    ∃ v, prefixSum fuel t r = .ok v ∧ rangeSum fuel t 0 r = .ok v ∧
      ∀ t2 : FenwickTree R, prefixSum fuel t2 (0 - 1) = .ok 0 := by
  obtain ⟨v, e⟩ := prefixSumLoop_returns t hsmall hlen fuel r 0 (by omega) h1 (by omega)
  obtain ⟨k, hk⟩ : ∃ k, fuel = k + 1 := ⟨fuel - 1, by omega⟩
  have hz : ∀ t2 : FenwickTree R, prefixSum fuel t2 (0 - 1) = .ok 0 := fun t2 => by
    rw [hk]; exact prefixSum_nonpos t2 k _ (by omega)
  refine ⟨v, e, ?_, hz⟩
  have e2 : prefixSum fuel t r = .ok v := e
  have hw : wrap32 (0 - 1) = 0 - 1 := by decide
  rw [rangeSum, hw, e2, bind_ok, hz t, bind_ok, sub_zero]

/-- C14 on a tree of five slots with arbitrary content. -/
theorem rangeSum_from_start_witness :
    ∃ v, prefixSum 6 ({ fenw := [0, 7, -2, 9, 4, 1], n := 5 } : FenwickTree Int) 3 = .ok v ∧
      rangeSum 6 ({ fenw := [0, 7, -2, 9, 4, 1], n := 5 } : FenwickTree Int) 0 3 = .ok v ∧
      ∀ t2 : FenwickTree Int, prefixSum 6 t2 (0 - 1) = .ok 0 :=
  rangeSum_from_start ({ fenw := [0, 7, -2, 9, 4, 1], n := 5 } : FenwickTree Int) 6 3
    (by decide) (by decide) (by decide) (by decide) (by decide)

end FenwickTree

namespace SegmentTree

variable {R : Type} [CommRing R] [DecidableEq R]

/-- C15 fails on the code, at `N = 0` with the empty array.  `SegmentTree(0)` is
constructed, with empty vectors.  Then `build` of the empty array does not
complete, whatever the fuel: the call `build(arr, 1, 0, -1)` is not taken as a
leaf, its midpoint is 0, and the call `build(arr, 2, 0, 0)` it makes reads
`arr[0]` of the empty array.  And on the constructed tree no `query(l, r)` and
no `update(l, r, delta)` reports an out-of-range error: each starts with
`propagate(1, 0, -1)`, whose read of `lazy[1]` is outside the empty vector. -/
theorem empty_index :
    (ctor 0 : Except Err (SegmentTree Int)) = .ok { seg := [], lazy := [], n := 0 } ∧
      (∀ fuel : Nat, ∀ t : SegmentTree Int,
        build fuel ({ seg := [], lazy := [], n := 0 } : SegmentTree Int) [] ≠ .ok t) ∧
      (∀ fuel : Nat, build (fuel + 2) ({ seg := [], lazy := [], n := 0 } : SegmentTree Int) []
        = .error .outOfBounds) ∧
      propagate ({ seg := [], lazy := [], n := 0 } : SegmentTree Int) 1 0 (0 - 1)
        = .error .outOfBounds ∧
      ∀ (fuel : Nat) (l r d : Int),
        query (fuel + 1) ({ seg := [], lazy := [], n := 0 } : SegmentTree Int) l r
          = .error .outOfBounds ∧
        update (fuel + 1) ({ seg := [], lazy := [], n := 0 } : SegmentTree Int) l r d
          = .error .outOfBounds := by
  refine ⟨by rfl, ?_, fun fuel => by rfl, by rfl, fun fuel l r d => ⟨by rfl, by rfl⟩⟩
  intro fuel t h
  match fuel, h with
  | 0, h => cases h
  | 1, h => cases h
  | k + 2, h =>
    have e : build (k + 2) ({ seg := [], lazy := [], n := 0 } : SegmentTree Int) []
        = .error .outOfBounds := by rfl
    rw [e] at h
    cases h

end SegmentTree

/-! ## Overflow -/

section overflow

variable {R : Type} [CommRing R]

theorem toInt32_cast (z : Int) : toInt32 (z : ZMod (2 ^ 32)) = wrap32 z := by
  unfold toInt32 wrap32
  have h := ZMod.val_intCast (n := 2 ^ 32) z
  have h2 : (((z : ZMod (2 ^ 32)).val : Nat) : Int) = z % 2 ^ 32 := by
    rw [h]; norm_num
  split
  · omega
  · omega

theorem cell_cast (A : List Int) (i : Int) :
    cell (A.map fun a : Int => (a : R)) i = ((cell A i : Int) : R) := by
  unfold cell
  split
  · have := List.getD_map A 0 (n := i.toNat) (fun a : Int => (a : R))
    simp only [Int.cast_zero] at this
    exact this
  · simp

theorem delta_cast (op : SegmentTree.Op Int) (i : Int) :
    (op.map fun a : Int => (a : R)).delta i = ((op.delta i : Int) : R) := by
  cases op with
  | update l r val =>
    simp only [SegmentTree.Op.map, SegmentTree.Op.delta]
    split <;> simp
  | query l r => simp [SegmentTree.Op.map, SegmentTree.Op.delta]

theorem current_cast (A : List Int) (ops : List (SegmentTree.Op Int)) (i : Int) :
    SegmentTree.current (A.map fun a : Int => (a : R))
        (ops.map (SegmentTree.Op.map fun a : Int => (a : R))) i
      = ((SegmentTree.current A ops i : Int) : R) := by
  simp only [SegmentTree.current, cell_cast, Int.cast_add, Int.cast_list_sum, List.map_map]
  congr 2
  refine List.map_congr_left fun op _ => ?_
  exact delta_cast op i

theorem deltasUpTo_cast (ups : List (Int × Int)) (j : Int) :
    FenwickTree.deltasUpTo (ups.map fun u : Int × Int => (u.1, (u.2 : R))) j
      = ((FenwickTree.deltasUpTo ups j : Int) : R) := by
  simp only [FenwickTree.deltasUpTo, Int.cast_list_sum, List.map_map]
  congr 1
  refine List.map_congr_left fun u _ => ?_
  show (if u.1 ≤ j then (u.2 : R) else 0) = ((if u.1 ≤ j then u.2 else 0 : Int) : R)
  split <;> simp

/-- C16. Overflow is wrap-around: with `int` values taken as the residues modulo
`2 ^ 32` (every `+` and `*` of the code modulo `2 ^ 32`, the product
`(right - left + 1) * lazy[idx]` of `propagate` included), once `build(A)`
and valid updates and queries have returned, `query(ql, qr)` returns the
residue whose signed 32-bit value is the mathematical sum of the current
elements reduced modulo `2 ^ 32` to the signed range; and once the updates of
a fresh `FenwickTree(N)` have returned, `prefixSum(j)` returns the residue
whose signed value is the mathematical sum of the deltas at positions up to
`j`, reduced in the same way.  The calls return when the array has fewer than
`2 ^ 29` elements and when `N < 2 ^ 30`. -/
theorem overflow_wraps (A : List Int) (ops : List (SegmentTree.Op Int))
    (ups : List (Int × Int)) (N : Int) (fuel : Nat) (ql qr j : Int)
    (hA : 1 ≤ A.length) (hops : ∀ op ∈ ops, op.valid (A.length : Int))
    (hq : 0 ≤ ql ∧ ql ≤ qr ∧ qr < (A.length : Int)) (hfuel : A.length ≤ fuel)
    (hN0 : 0 ≤ N) (hN1 : N < 2 ^ 31) (hups : ∀ u ∈ ups, 1 ≤ u.1 ∧ u.1 ≤ N)
    (hfuel2 : N < fuel) (hj : 0 ≤ j ∧ j ≤ N) :
    (A.length < 2 ^ 29 → ∃ s,
      ((SegmentTree.fromArray fuel (A.map fun a : Int => (a : ZMod (2 ^ 32)))).bind fun s0 =>
        SegmentTree.run fuel s0
          (ops.map (SegmentTree.Op.map fun a : Int => (a : ZMod (2 ^ 32))))) = .ok s) ∧
    (∀ (k : Nat) (s : SegmentTree (ZMod (2 ^ 32))),
      ((SegmentTree.fromArray k (A.map fun a : Int => (a : ZMod (2 ^ 32)))).bind fun s0 =>
        SegmentTree.run k s0
          (ops.map (SegmentTree.Op.map fun a : Int => (a : ZMod (2 ^ 32))))) = .ok s →
      ∃ t v, SegmentTree.query fuel s ql qr = .ok (v, t) ∧
        toInt32 v = wrap32 (∑ i in Finset.Icc ql qr, SegmentTree.current A ops i)) ∧
    (N < 2 ^ 30 → ∃ t,
      ((FenwickTree.ctor N).bind fun t0 =>
        FenwickTree.runUpdates fuel t0
          (ups.map fun u : Int × Int => (u.1, (u.2 : ZMod (2 ^ 32))))) = .ok t) ∧
    ∀ (k : Nat) (t : FenwickTree (ZMod (2 ^ 32))),
      ((FenwickTree.ctor N).bind fun t0 =>
        FenwickTree.runUpdates k t0
          (ups.map fun u : Int × Int => (u.1, (u.2 : ZMod (2 ^ 32))))) = .ok t →
      ∃ v, FenwickTree.prefixSum fuel t j = .ok v ∧
        toInt32 v = wrap32 (FenwickTree.deltasUpTo ups j) := by
  have _ := hops
  have hlen : (A.map fun a : Int => (a : ZMod (2 ^ 32))).length = A.length := List.length_map _ _
  have hups2 : ∀ u ∈ ups.map (fun u : Int × Int => (u.1, (u.2 : ZMod (2 ^ 32)))),
      1 ≤ u.1 ∧ u.1 ≤ N := by
    intro u hu
    rw [List.mem_map] at hu
    obtain ⟨w, hw, rfl⟩ := hu
    exact hups w hw
  refine ⟨fun h29 => ?_, fun k s e => ?_, fun h30 => ?_, fun k t e => ?_⟩
  · exact SegmentTree.built_returns _ _ fuel (by rw [hlen]; exact hA) (by rw [hlen]; exact h29)
      (by rw [hlen]; exact hfuel)
  · obtain ⟨inv1, n1, -⟩ := SegmentTree.built_inv (by rw [hlen]; exact hA) e
    rw [hlen] at n1
    obtain ⟨t, e2, _, _⟩ := SegmentTree.query_range inv1 fuel (by rw [n1]; omega) ql qr
      hq.1 (by rw [n1]; exact hq.2.2)
    refine ⟨t, _, e2, ?_⟩
    rw [← toInt32_cast, Int.cast_sum]
    refine congrArg toInt32 ?_
    exact Finset.sum_congr rfl fun i _ => current_cast A ops i
  · exact FenwickTree.loaded_returns N _ fuel hN0 h30 hups2 hfuel2
  · obtain ⟨inv1, n1, -⟩ := FenwickTree.loaded_inv hN0 hN1 (fun u hu => (hups2 u hu).1) e
    have hf : t.n < fuel := by rw [n1]; exact hfuel2
    refine ⟨_, FenwickTree.prefixSum_spec inv1 fuel hf j hj.1 (by rw [n1]; exact hj.2), ?_⟩
    rw [← toInt32_cast, ← deltasUpTo_cast, ← FenwickTree.sum_element _ j
      fun u hu => (hups2 u hu).1]

/-- C16 where the sum overflows: the array `{2147483647, 1}`, whose sum
`2 ^ 31` wraps to `-2 ^ 31`, and the deltas `2147483647` and `5`. -/
theorem overflow_wraps_witness :
    (([2147483647, 1] : List Int).length < 2 ^ 29 → ∃ s,
      ((SegmentTree.fromArray 6 (([2147483647, 1] : List Int).map
          fun a : Int => (a : ZMod (2 ^ 32)))).bind fun s0 =>
        SegmentTree.run 6 s0 (([] : List (SegmentTree.Op Int)).map
          (SegmentTree.Op.map fun a : Int => (a : ZMod (2 ^ 32))))) = .ok s) ∧
    (∀ (k : Nat) (s : SegmentTree (ZMod (2 ^ 32))),
      ((SegmentTree.fromArray k (([2147483647, 1] : List Int).map
          fun a : Int => (a : ZMod (2 ^ 32)))).bind fun s0 =>
        SegmentTree.run k s0 (([] : List (SegmentTree.Op Int)).map
          (SegmentTree.Op.map fun a : Int => (a : ZMod (2 ^ 32))))) = .ok s →
      ∃ t v, SegmentTree.query 6 s 0 1 = .ok (v, t) ∧
        toInt32 v = wrap32 (∑ i in Finset.Icc 0 1,
          SegmentTree.current [2147483647, 1] [] i)) ∧
    ((5 : Int) < 2 ^ 30 → ∃ t,
      ((FenwickTree.ctor 5).bind fun t0 =>
        FenwickTree.runUpdates 6 t0 (([(1, 2147483647), (2, 5)] : List (Int × Int)).map
          fun u : Int × Int => (u.1, (u.2 : ZMod (2 ^ 32))))) = .ok t) ∧
    ∀ (k : Nat) (t : FenwickTree (ZMod (2 ^ 32))),
      ((FenwickTree.ctor 5).bind fun t0 =>
        FenwickTree.runUpdates k t0 (([(1, 2147483647), (2, 5)] : List (Int × Int)).map
          fun u : Int × Int => (u.1, (u.2 : ZMod (2 ^ 32))))) = .ok t →
      ∃ v, FenwickTree.prefixSum 6 t 2 = .ok v ∧
        toInt32 v = wrap32 (FenwickTree.deltasUpTo [(1, 2147483647), (2, 5)] 2) :=
  overflow_wraps [2147483647, 1] [] [(1, 2147483647), (2, 5)] 5 6 0 1 2 (by decide)
    (by intro op h; cases h) (by decide) (by decide) (by decide) (by decide)
    (by intro u hu
        simp only [List.mem_cons, List.mem_singleton, List.not_mem_nil, or_false] at hu
        rcases hu with rfl | rfl <;> decide)
    (by decide) (by decide)

/-- The overflowing sum of C16 evaluated: `query(0, 1)` on
`{2147483647, 1}` has the signed value `-2147483648`. -/
theorem overflow_demo :
    ((SegmentTree.fromArray 6 [(2147483647 : ZMod (2 ^ 32)), 1]).bind fun s0 =>
      (SegmentTree.query 6 s0 0 1).bind fun p => .ok (toInt32 p.1)) = .ok (-2147483648) := by
  rfl

end overflow

/-! ## The AVL tree -/

theorem AVLNode.depth_nonneg (t : AVLNode) : 0 ≤ t.depth := by
  cases t with
  | null => simp [AVLNode.depth]
  | node k l r h =>
    have := l.depth_nonneg
    simp only [AVLNode.depth]
    omega

theorem avlHeight_eq_depth (t : AVLNode) (h : t.HeightsOk) : avlHeight t = t.depth := by
  cases t with
  | null => rfl
  | node k l r hh =>
    simp only [AVLNode.HeightsOk] at h
    simp only [avlHeight, AVLNode.depth]
    exact h.2.2

/-- A tree is a search tree exactly when its keys, left to right, increase
strictly. -/
theorem AVLNode.isBST_iff (t : AVLNode) : t.IsBST ↔ t.keys.Pairwise (· < ·) := by
  induction t with
  | null => simp [AVLNode.IsBST, AVLNode.keys]
  | node k l r h ihl ihr =>
    simp only [AVLNode.IsBST, AVLNode.keys, List.pairwise_append, List.pairwise_cons,
      List.mem_cons, ihl, ihr]
    constructor
    · rintro ⟨h1, h2, h3, h4⟩
      refine ⟨h1, ⟨h4, h2⟩, ?_⟩
      intro a ha b hb
      rcases hb with rfl | hb
      · exact h3 a ha
      · exact lt_trans (h3 a ha) (h4 b hb)
    · rintro ⟨h1, ⟨h4, h2⟩, h5⟩
      exact ⟨h1, h2, fun a ha => h5 a ha k (Or.inl rfl), h4⟩

theorem avlHeight_node (k : Int) (l r : AVLNode) (h : Int) : avlHeight (.node k l r h) = h := rfl

theorem avlBalanceFactor_node (k : Int) (l r : AVLNode) (h : Int) :
    avlBalanceFactor (.node k l r h) = avlHeight l - avlHeight r := rfl

theorem avlKey_node (k : Int) (l r : AVLNode) (h : Int) : avlKey (.node k l r h) = .ok k := rfl

theorem avlRightRotate_node (ky kx : Int) (xl t2 yr : AVLNode) (hx hy : Int) :
    avlRightRotate (.node ky (.node kx xl t2 hx) yr hy)
      = .ok (.node kx xl (.node ky t2 yr (max (avlHeight t2) (avlHeight yr) + 1))
          (max (avlHeight xl) (max (avlHeight t2) (avlHeight yr) + 1) + 1)) := rfl

theorem avlLeftRotate_node (ky kx : Int) (xl t2 yr : AVLNode) (hx hy : Int) :
    avlLeftRotate (.node kx xl (.node ky t2 yr hy) hx)
      = .ok (.node ky (.node kx xl t2 (max (avlHeight xl) (avlHeight t2) + 1)) yr
          (max (max (avlHeight xl) (avlHeight t2) + 1) (avlHeight yr) + 1)) := rfl

theorem avlRebalance_left (k : Int) (l r : AVLNode) (key : Int)
    (hl : l.HeightsOk) (hr : r.HeightsOk) (bl : l.Balanced) (br : r.Balanced)
    (hd1 : -1 ≤ l.depth - r.depth) (hd2 : l.depth - r.depth ≤ 2)
    (hg : l.depth - r.depth = 2 → ∃ k2 ll lr h2, l = .node k2 ll lr h2 ∧
      ((key < k2 ∧ ll.depth = lr.depth + 1) ∨ (key > k2 ∧ lr.depth = ll.depth + 1))) :
    ∃ t, avlRebalance k l r key = .ok t ∧ t.HeightsOk ∧ t.Balanced ∧
      t.keys = l.keys ++ k :: r.keys ∧
      (l.depth - r.depth ≤ 1 → t = .node k l r (1 + max l.depth r.depth)) ∧
      (l.depth - r.depth = 2 → t.depth = l.depth) := by
  have el := avlHeight_eq_depth l hl
  have er := avlHeight_eq_depth r hr
  by_cases hle : l.depth - r.depth ≤ 1
  · have hb1 : ¬ (l.depth - r.depth > 1) := by omega
    have hb2 : ¬ (l.depth - r.depth < -1) := by omega
    refine ⟨.node k l r (1 + max l.depth r.depth), ?_, ⟨hl, hr, rfl⟩, ⟨bl, br, ?_, ?_⟩, rfl,
      fun _ => rfl, fun h => by omega⟩
    · simp only [avlRebalance, avlBalanceFactor_node, el, er, hb1, hb2, if_false, bind_ok,
        Bool.false_eq_true]
    · simp only [avlBalanceFactor_node, el, er]; omega
    · simp only [avlBalanceFactor_node, el, er]; omega
  · have h2 : l.depth - r.depth = 2 := by omega
    obtain ⟨k2, ll, lr, hh, rfl, hdir⟩ := hg h2
    simp only [AVLNode.HeightsOk] at hl
    obtain ⟨hll, hlr, rfl⟩ := hl
    simp only [AVLNode.Balanced, avlBalanceFactor_node] at bl
    obtain ⟨bll, blr, bl1, bl2⟩ := bl
    have ell := avlHeight_eq_depth ll hll
    have elr := avlHeight_eq_depth lr hlr
    rw [ell, elr] at bl1 bl2
    simp only [AVLNode.depth] at h2
    have hb1 : 1 + max ll.depth lr.depth - r.depth > 1 := by omega
    have hb2 : ¬ (1 + max ll.depth lr.depth - r.depth < -1) := by omega
    rcases hdir with ⟨hk, hd⟩ | ⟨hk, hd⟩
    · refine ⟨.node k2 ll (.node k lr r (max lr.depth r.depth + 1))
        (max ll.depth (max lr.depth r.depth + 1) + 1), ?_, ?_, ?_, ?_, fun h => by
          simp only [AVLNode.depth] at h; omega, ?_⟩
      · simp only [avlRebalance, avlBalanceFactor_node, avlHeight_node, er, hb1, if_true,
          avlKey_node, bind_ok, hk, decide_True, avlRightRotate_node, ell, elr]
      · simp only [AVLNode.HeightsOk, AVLNode.depth]
        exact ⟨hll, ⟨hlr, hr, by omega⟩, by omega⟩
      · simp only [AVLNode.Balanced, avlBalanceFactor_node, avlHeight_node, ell, elr, er]
        exact ⟨bll, ⟨blr, br, by omega, by omega⟩, by omega, by omega⟩
      · simp [AVLNode.keys]
      · intro _; simp only [AVLNode.depth]; omega
    · have hk1 : ¬ (key < k2) := by omega
      cases lr with
      | null =>
        have := ll.depth_nonneg
        simp only [AVLNode.depth] at hd
        omega
      | node k3 a b h3 =>
        simp only [AVLNode.HeightsOk] at hlr
        obtain ⟨ha, hb, rfl⟩ := hlr
        simp only [AVLNode.Balanced, avlBalanceFactor_node] at blr
        obtain ⟨ba, bb, blr1, blr2⟩ := blr
        have ea := avlHeight_eq_depth a ha
        have eb := avlHeight_eq_depth b hb
        rw [ea, eb] at blr1 blr2
        simp only [AVLNode.depth] at hd h2 hb1 hb2 bl1 bl2
        refine ⟨.node k3 (.node k2 ll a (max ll.depth a.depth + 1))
          (.node k b r (max b.depth r.depth + 1))
          (max (max ll.depth a.depth + 1) (max b.depth r.depth + 1) + 1),
          ?_, ?_, ?_, ?_, fun h => by simp only [AVLNode.depth] at h; omega, ?_⟩
        · simp only [avlRebalance, avlBalanceFactor_node, avlHeight_node, er, hb1, if_true,
            avlKey_node, bind_ok, hk, hk1, decide_True, decide_False, avlRightRotate_node,
            avlLeftRotate_node, ell, ea, eb, hb2, if_false, Bool.false_eq_true,
            AVLNode.depth, ite_self]
        · simp only [AVLNode.HeightsOk, AVLNode.depth]
          exact ⟨⟨hll, ha, by omega⟩, ⟨hb, hr, by omega⟩, by omega⟩
        · simp only [AVLNode.Balanced, avlBalanceFactor_node, avlHeight_node, ell, ea, eb, er]
          exact ⟨⟨bll, ba, by omega, by omega⟩, ⟨bb, br, by omega, by omega⟩, by omega,
            by omega⟩
        · simp [AVLNode.keys]
        · intro _; simp only [AVLNode.depth]; omega

theorem avlRebalance_right (k : Int) (l r : AVLNode) (key : Int)
    (hl : l.HeightsOk) (hr : r.HeightsOk) (bl : l.Balanced) (br : r.Balanced)
    (hd1 : -1 ≤ r.depth - l.depth) (hd2 : r.depth - l.depth ≤ 2)
    (hg : r.depth - l.depth = 2 → ∃ k2 rl rr h2, r = .node k2 rl rr h2 ∧
      ((key > k2 ∧ rr.depth = rl.depth + 1) ∨ (key < k2 ∧ rl.depth = rr.depth + 1))) :
    ∃ t, avlRebalance k l r key = .ok t ∧ t.HeightsOk ∧ t.Balanced ∧
      t.keys = l.keys ++ k :: r.keys ∧
      (r.depth - l.depth ≤ 1 → t = .node k l r (1 + max l.depth r.depth)) ∧
      (r.depth - l.depth = 2 → t.depth = r.depth) := by
  have el := avlHeight_eq_depth l hl
  have er := avlHeight_eq_depth r hr
  by_cases hle : r.depth - l.depth ≤ 1
  · have hb1 : ¬ (l.depth - r.depth > 1) := by omega
    have hb2 : ¬ (l.depth - r.depth < -1) := by omega
    refine ⟨.node k l r (1 + max l.depth r.depth), ?_, ⟨hl, hr, rfl⟩, ⟨bl, br, ?_, ?_⟩, rfl,
      fun _ => rfl, fun h => by omega⟩
    · simp only [avlRebalance, avlBalanceFactor_node, el, er, hb1, hb2, if_false, bind_ok,
        Bool.false_eq_true]
    · simp only [avlBalanceFactor_node, el, er]; omega
    · simp only [avlBalanceFactor_node, el, er]; omega
  · have h2 : r.depth - l.depth = 2 := by omega
    obtain ⟨k2, rl, rr, hh, rfl, hdir⟩ := hg h2
    simp only [AVLNode.HeightsOk] at hr
    obtain ⟨hrl, hrr, rfl⟩ := hr
    simp only [AVLNode.Balanced, avlBalanceFactor_node] at br
    obtain ⟨brl, brr, br1, br2⟩ := br
    have erl := avlHeight_eq_depth rl hrl
    have err := avlHeight_eq_depth rr hrr
    rw [erl, err] at br1 br2
    simp only [AVLNode.depth] at h2
    have hb1 : ¬ (l.depth - (1 + max rl.depth rr.depth) > 1) := by omega
    have hb2 : l.depth - (1 + max rl.depth rr.depth) < -1 := by omega
    rcases hdir with ⟨hk, hd⟩ | ⟨hk, hd⟩
    · refine ⟨.node k2 (.node k l rl (max l.depth rl.depth + 1)) rr
        (max (max l.depth rl.depth + 1) rr.depth + 1), ?_, ?_, ?_, ?_, fun h => by
          simp only [AVLNode.depth] at h; omega, ?_⟩
      · simp only [avlRebalance, avlBalanceFactor_node, avlHeight_node, el, hb1, hb2, if_true,
          if_false, avlKey_node, bind_ok, hk, decide_True, avlLeftRotate_node, erl, err,
          Bool.false_eq_true]
      · simp only [AVLNode.HeightsOk, AVLNode.depth]
        exact ⟨⟨hl, hrl, by omega⟩, hrr, by omega⟩
      · simp only [AVLNode.Balanced, avlBalanceFactor_node, avlHeight_node, erl, err, el]
        exact ⟨⟨bl, brl, by omega, by omega⟩, brr, by omega, by omega⟩
      · simp [AVLNode.keys]
      · intro _; simp only [AVLNode.depth]; omega
    · have hk1 : ¬ (key > k2) := by omega
      cases rl with
      | null =>
        have := rr.depth_nonneg
        simp only [AVLNode.depth] at hd
        omega
      | node k3 a b h3 =>
        simp only [AVLNode.HeightsOk] at hrl
        obtain ⟨ha, hb, rfl⟩ := hrl
        simp only [AVLNode.Balanced, avlBalanceFactor_node] at brl
        obtain ⟨ba, bb, brl1, brl2⟩ := brl
        have ea := avlHeight_eq_depth a ha
        have eb := avlHeight_eq_depth b hb
        rw [ea, eb] at brl1 brl2
        simp only [AVLNode.depth] at hd h2 hb1 hb2 br1 br2
        refine ⟨.node k3 (.node k l a (max l.depth a.depth + 1))
          (.node k2 b rr (max b.depth rr.depth + 1))
          (max (max l.depth a.depth + 1) (max b.depth rr.depth + 1) + 1),
          ?_, ?_, ?_, ?_, fun h => by simp only [AVLNode.depth] at h; omega, ?_⟩
        · simp only [avlRebalance, avlBalanceFactor_node, avlHeight_node, el, hb1, hb2,
            if_true, if_false, avlKey_node, bind_ok, hk, hk1, decide_True, decide_False,
            avlRightRotate_node, avlLeftRotate_node, err, ea, eb, Bool.false_eq_true,
            AVLNode.depth, ite_self]
        · simp only [AVLNode.HeightsOk, AVLNode.depth]
          exact ⟨⟨hl, ha, by omega⟩, ⟨hb, hrr, by omega⟩, by omega⟩
        · simp only [AVLNode.Balanced, avlBalanceFactor_node, avlHeight_node, err, ea, eb, el]
          exact ⟨⟨bl, ba, by omega, by omega⟩, ⟨bb, brr, by omega, by omega⟩, by omega,
            by omega⟩
        · simp [AVLNode.keys]
        · intro _; simp only [AVLNode.depth]; omega

/-- Insertion into a balanced search tree with correct heights: the result,
its keys, and how its depth compares with the depth before. -/
theorem avlInsert_spec (key : Int) :
    ∀ t : AVLNode, t.IsBST → t.HeightsOk → t.Balanced →
      ∃ t2, avlInsert t key = .ok t2 ∧ t2.IsBST ∧ t2.HeightsOk ∧ t2.Balanced ∧
        (∀ x, x ∈ t2.keys ↔ x ∈ t.keys ∨ x = key) ∧ (key ∈ t.keys → t2 = t) ∧
        (t2.depth = t.depth ∨ (t2.depth = t.depth + 1 ∧ (t = .null ∨
          ∃ k2 l2 r2 h2, t2 = .node k2 l2 r2 h2 ∧
            ((key < k2 ∧ l2.depth = r2.depth + 1) ∨
              (key > k2 ∧ r2.depth = l2.depth + 1))))) := by
  intro t
  induction t with
  | null =>
    intro _ _ _
    refine ⟨.node key .null .null 1, rfl, ?_, ?_, ?_, ?_, ?_, ?_⟩
    · simp [AVLNode.IsBST, AVLNode.keys]
    · simp [AVLNode.HeightsOk, AVLNode.depth]
    · simp [AVLNode.Balanced, avlBalanceFactor, avlHeight]
    · intro x; simp [AVLNode.keys]
    · intro h; simp [AVLNode.keys] at h
    · right; exact ⟨by simp [AVLNode.depth], Or.inl rfl⟩
  | node k l r h ihl ihr =>
    intro hbst hh hbal
    simp only [AVLNode.IsBST] at hbst
    obtain ⟨sl, sr, ltk, gtk⟩ := hbst
    simp only [AVLNode.HeightsOk] at hh
    obtain ⟨hl, hr, rfl⟩ := hh
    simp only [AVLNode.Balanced, avlBalanceFactor_node] at hbal
    obtain ⟨bl, br, b1, b2⟩ := hbal
    rw [avlHeight_eq_depth l hl, avlHeight_eq_depth r hr] at b1 b2
    have dl := l.depth_nonneg
    have dr := r.depth_nonneg
    by_cases hlt : key < k
    · obtain ⟨l2, e, sl2, hl2, bl2, kl2, same, grow⟩ := ihl sl hl bl
      obtain ⟨t2, e2, ht2, bt2, kt2, small, big⟩ := avlRebalance_left k l2 r key hl2 hr bl2 br
        (by omega) (by omega) (fun h2 => by
          rcases grow with g | ⟨g, g2⟩
          · omega
          · rcases g2 with rfl | g2
            · simp only [AVLNode.depth] at g b1 b2 h2; omega
            · exact g2)
      have ltk2 : ∀ x ∈ l2.keys, x < k := fun x hx => by
        rcases (kl2 x).mp hx with h1 | rfl
        · exact ltk x h1
        · exact hlt
      refine ⟨t2, ?_, ?_, ht2, bt2, ?_, ?_, ?_⟩
      · simp only [avlInsert, hlt, if_true, e, bind_ok]; exact e2
      · rw [AVLNode.isBST_iff, kt2]
        exact (AVLNode.isBST_iff (.node k l2 r 0)).mp ⟨sl2, sr, ltk2, gtk⟩
      · intro x
        rw [kt2]
        simp only [AVLNode.keys, List.mem_append, List.mem_cons, kl2 x]
        constructor
        · rintro ((h1 | h1) | h1 | h1)
          · exact Or.inl (Or.inl h1)
          · exact Or.inr h1
          · exact Or.inl (Or.inr (Or.inl h1))
          · exact Or.inl (Or.inr (Or.inr h1))
        · rintro ((h1 | h1 | h1) | h1)
          · exact Or.inl (Or.inl h1)
          · exact Or.inr (Or.inl h1)
          · exact Or.inr (Or.inr h1)
          · exact Or.inl (Or.inr h1)
      · intro hin
        simp only [AVLNode.keys, List.mem_append, List.mem_cons] at hin
        have hinl : key ∈ l.keys := by
          rcases hin with h1 | rfl | h1
          · exact h1
          · exact absurd hlt (lt_irrefl _)
          · exact absurd (gtk key h1) (by omega)
        have := same hinl
        subst this
        exact small (by omega)
      · by_cases hD : l2.depth - r.depth ≤ 1
        · have := small hD
          subst this
          simp only [AVLNode.depth]
          rcases grow with g | ⟨g, _⟩
          · left; omega
          · by_cases hd0 : l.depth = r.depth
            · right
              refine ⟨by omega, Or.inr ⟨k, l2, r, _, rfl, Or.inl ⟨hlt, by omega⟩⟩⟩
            · left; omega
        · have := big (by rcases grow with g | ⟨g, _⟩ <;> omega)
          left
          simp only [AVLNode.depth]
          rcases grow with g | ⟨g, _⟩ <;> omega
    · by_cases hgt : key > k
      · obtain ⟨r2, e, sr2, hr2, br2, kr2, same, grow⟩ := ihr sr hr br
        obtain ⟨t2, e2, ht2, bt2, kt2, small, big⟩ := avlRebalance_right k l r2 key hl hr2 bl
          br2 (by omega) (by omega) (fun h2 => by
            rcases grow with g | ⟨g, g2⟩
            · omega
            · rcases g2 with rfl | g2
              · simp only [AVLNode.depth] at g b1 b2 h2; omega
              · obtain ⟨k2, a, b, h3, rfl, hdir⟩ := g2
                exact ⟨k2, a, b, h3, rfl, hdir.symm⟩)
        have gtk2 : ∀ x ∈ r2.keys, k < x := fun x hx => by
          rcases (kr2 x).mp hx with h1 | rfl
          · exact gtk x h1
          · exact hgt
        refine ⟨t2, ?_, ?_, ht2, bt2, ?_, ?_, ?_⟩
        · simp only [avlInsert, hlt, hgt, if_true, if_false, e, bind_ok]; exact e2
        · rw [AVLNode.isBST_iff, kt2]
          exact (AVLNode.isBST_iff (.node k l r2 0)).mp ⟨sl, sr2, ltk, gtk2⟩
        · intro x
          rw [kt2]
          simp only [AVLNode.keys, List.mem_append, List.mem_cons, kr2 x]
          constructor
          · rintro (h1 | h1 | h1 | h1)
            · exact Or.inl (Or.inl h1)
            · exact Or.inl (Or.inr (Or.inl h1))
            · exact Or.inl (Or.inr (Or.inr h1))
            · exact Or.inr h1
          · rintro ((h1 | h1 | h1) | h1)
            · exact Or.inl h1
            · exact Or.inr (Or.inl h1)
            · exact Or.inr (Or.inr (Or.inl h1))
            · exact Or.inr (Or.inr (Or.inr h1))
        · intro hin
          simp only [AVLNode.keys, List.mem_append, List.mem_cons] at hin
          have hinr : key ∈ r.keys := by
            rcases hin with h1 | rfl | h1
            · exact absurd (ltk key h1) (by omega)
            · exact absurd hgt (lt_irrefl _)
            · exact h1
          have := same hinr
          subst this
          exact small (by omega)
        · by_cases hD : r2.depth - l.depth ≤ 1
          · have := small hD
            subst this
            simp only [AVLNode.depth]
            rcases grow with g | ⟨g, _⟩
            · left; omega
            · by_cases hd0 : l.depth = r.depth
              · right
                refine ⟨by omega, Or.inr ⟨k, l, r2, _, rfl, Or.inr ⟨hgt, by omega⟩⟩⟩
              · left; omega
          · have := big (by rcases grow with g | ⟨g, _⟩ <;> omega)
            left
            simp only [AVLNode.depth]
            rcases grow with g | ⟨g, _⟩ <;> omega
      · refine ⟨.node k l r (1 + max l.depth r.depth), ?_, ⟨sl, sr, ltk, gtk⟩, ⟨hl, hr, rfl⟩,
          ⟨bl, br, ?_, ?_⟩, ?_, fun _ => rfl, Or.inl rfl⟩
        · simp only [avlInsert, hlt, hgt, if_false]
        · rw [avlBalanceFactor_node, avlHeight_eq_depth l hl, avlHeight_eq_depth r hr]; exact b1
        · rw [avlBalanceFactor_node, avlHeight_eq_depth l hl, avlHeight_eq_depth r hr]; exact b2
        · intro x
          have : key = k := by omega
          subst this
          simp only [AVLNode.keys, List.mem_append, List.mem_cons]
          constructor
          · intro h1; exact Or.inl h1
          · rintro (h1 | h1)
            · exact h1
            · exact Or.inr (Or.inl h1)

/-! ## Claims about the AVL tree -/

/-- The AVL part of `main`: inserting 10, 20, 5 prints the preorder
`10 5 20`. -/
theorem avl_demo :
    ((avlInsert .null 10).bind fun t1 => (avlInsert t1 20).bind fun t2 =>
      (avlInsert t2 5).bind fun t3 => .ok (avlPreOrder t3)) = .ok [10, 5, 20] := by rfl

/-- C19. AVL insertion keeps the tree balanced: for a binary search tree `t`
with correct stored heights and every balance factor in `{-1, 0, 1}`, and a
key `k`, `avlInsert(t, k)` returns such a tree again, its keys are the keys of
`t` and `k`, and when `k` is already a key of `t` the tree returned is `t`. -/
theorem avlInsert_balanced (t : AVLNode) (k : Int) (hbst : t.IsBST) (hh : t.HeightsOk)
    (hbal : t.Balanced) :
    ∃ t2, avlInsert t k = .ok t2 ∧ t2.IsBST ∧ t2.HeightsOk ∧ t2.Balanced ∧
      (∀ x, x ∈ t2.keys ↔ x ∈ t.keys ∨ x = k) ∧ (k ∈ t.keys → t2 = t) := by
  obtain ⟨t2, e, h1, h2, h3, h4, h5, _⟩ := avlInsert_spec k t hbst hh hbal
  exact ⟨t2, e, h1, h2, h3, h4, h5⟩

/-- C19 on the tree with the keys 10 and 20 of `main`, inserting 5. -/
theorem avlInsert_balanced_witness :
    ∃ t2, avlInsert (.node 10 .null (.node 20 .null .null 1) 2) 5 = .ok t2 ∧ t2.IsBST ∧
      t2.HeightsOk ∧ t2.Balanced ∧
      (∀ x, x ∈ t2.keys ↔ x ∈ (AVLNode.node 10 .null (.node 20 .null .null 1) 2).keys ∨ x = 5) ∧
      (5 ∈ (AVLNode.node 10 .null (.node 20 .null .null 1) 2).keys →
        t2 = .node 10 .null (.node 20 .null .null 1) 2) :=
  avlInsert_balanced (.node 10 .null (.node 20 .null .null 1) 2) 5
    (by simp [AVLNode.IsBST, AVLNode.keys])
    (by simp [AVLNode.HeightsOk, AVLNode.depth])
    (by simp [AVLNode.Balanced, avlBalanceFactor, avlHeight])

/-! ## The disjoint set operations -/

namespace UnionFind

theorem Root.fixed {P : Int → Int} {x r : Int} (h : Root P x r) : P r = r := by
  induction h with
  | base h => exact h
  | step _ _ ih => exact ih

theorem Root.unique {P : Int → Int} {x r : Int} (h : Root P x r) :
    ∀ r2, Root P x r2 → r2 = r := by
  induction h with
  | base h =>
    intro r2 h2
    cases h2 with
    | base _ => rfl
    | step hne _ => exact absurd h hne
  | step hne _ ih =>
    intro r2 h2
    cases h2 with
    | base h => exact absurd h hne
    | step _ h3 => exact ih r2 h3

/-- Redirecting `x` to its own root keeps every root. -/
theorem Root.compress {P P2 : Int → Int} {x r : Int} (hx : Root P x r)
    (hP : ∀ z, P2 z = if z = x then r else P z) {z rz : Int} (h : Root P z rz) :
    Root P2 z rz := by
  induction h with
  | @base z hz =>
    refine Root.base ?_
    rw [hP]
    by_cases e : z = x
    · subst e
      rw [if_pos rfl]
      exact (hx.unique z (Root.base hz)).symm
    · rw [if_neg e]; exact hz
  | @step z rz hne hz ih =>
    by_cases e : z = x
    · subst e
      have er : rz = r := hx.unique rz (Root.step hne hz)
      subst er
      have hfix := hx.fixed
      have hrz : rz ≠ z := fun e2 => hne (e2 ▸ hfix)
      have e1 : P2 z = rz := by rw [hP, if_pos rfl]
      have e2 : P2 rz = rz := by rw [hP, if_neg hrz]; exact hfix
      exact Root.step (by rw [e1]; exact hrz) (by rw [e1]; exact Root.base e2)
    · have e1 : P2 z = P z := by rw [hP, if_neg e]
      exact Root.step (by rw [e1]; exact hne) (by rw [e1]; exact ih)

/-- Hanging the root `c` below another root `q` sends the elements below `c`
to `q` and keeps every other root. -/
theorem Root.relink {P P2 : Int → Int} {c q : Int} (hc : P c = c) (hq : P q = q) (hcq : c ≠ q)
    (hP : ∀ z, P2 z = if z = c then q else P z) {z rz : Int} (h : Root P z rz) :
    Root P2 z (if rz = c then q else rz) := by
  have eq2 : P2 q = q := by rw [hP, if_neg (Ne.symm hcq)]; exact hq
  induction h with
  | @base z hz =>
    by_cases e : z = c
    · subst e
      rw [if_pos rfl]
      have e1 : P2 z = q := by rw [hP, if_pos rfl]
      exact Root.step (by rw [e1]; exact Ne.symm hcq) (by rw [e1]; exact Root.base eq2)
    · rw [if_neg e]
      exact Root.base (by rw [hP, if_neg e]; exact hz)
  | @step z rz hne _ ih =>
    have e : z ≠ c := fun e => hne (e ▸ hc)
    have e1 : P2 z = P z := by rw [hP, if_neg e]
    exact Root.step (by rw [e1]; exact hne) (by rw [e1]; exact ih)

theorem Inv.has_root_aux {u : UnionFind} {n K : Int} (h : Inv u n K) (m : Nat) :
    ∀ x, 0 ≤ x → x < n → (K - cell u.rank x).toNat ≤ m →
      ∃ r, Root (cell u.parent) x r ∧ 0 ≤ r ∧ r < n ∧ cell u.rank x ≤ cell u.rank r ∧
        (x ≠ r → cell u.rank x < cell u.rank r) := by
  induction m with
  | zero =>
    intro x h0 h1 hm
    by_cases e : cell u.parent x = x
    · exact ⟨x, Root.base e, h0, h1, le_refl _, fun hne => absurd rfl hne⟩
    · have := h.up x h0 h1 e
      have r := h.range x h0 h1
      have := h.rank_le _ r.1 r.2
      have := h.rank_le x h0 h1
      omega
  | succ m ih =>
    intro x h0 h1 hm
    by_cases e : cell u.parent x = x
    · exact ⟨x, Root.base e, h0, h1, le_refl _, fun hne => absurd rfl hne⟩
    · have hup := h.up x h0 h1 e
      have r := h.range x h0 h1
      obtain ⟨rt, hr, r0, r1, rk, _⟩ := ih (cell u.parent x) r.1 r.2 (by omega)
      exact ⟨rt, Root.step e hr, r0, r1, by omega, fun _ => by omega⟩

/-- Every element has a root, which is an element of rank at least its own. -/
theorem Inv.has_root {u : UnionFind} {n K : Int} (h : Inv u n K) (x : Int) (h0 : 0 ≤ x)
    (h1 : x < n) :
    ∃ r, Root (cell u.parent) x r ∧ 0 ≤ r ∧ r < n ∧ cell u.rank x ≤ cell u.rank r ∧
      (x ≠ r → cell u.rank x < cell u.rank r) :=
  h.has_root_aux (K - cell u.rank x).toNat x h0 h1 (le_refl _)

/-- With fuel above `K` less the rank of `x`, `find(x)` returns the root of
`x`; it keeps the ranks and the root of every element. -/
theorem find_spec {n K : Int} :
    ∀ (fuel : Nat) (u : UnionFind) (x : Int), Inv u n K → 0 ≤ x → x < n →
      K - cell u.rank x + 1 ≤ fuel →
      ∃ r u2, find fuel u x = .ok (r, u2) ∧ Root (cell u.parent) x r ∧ Inv u2 n K ∧
        u2.rank = u.rank ∧
        ∀ z rz, Root (cell u.parent) z rz → Root (cell u2.parent) z rz := by
  intro fuel
  induction fuel with
  | zero =>
    intro u x h h0 h1 hf
    have := h.rank_le x h0 h1
    omega
  | succ fuel ih =>
    intro u x h h0 h1 hf
    have xL : x < u.parent.length := by rw [h.plen]; exact h1
    by_cases e : cell u.parent x = x
    · refine ⟨x, u, ?_, Root.base e, h, rfl, fun _ _ hz => hz⟩
      simp only [find, rd_ok u.parent x h0 xL, bind_ok, e, ne_eq, not_true_eq_false,
        if_false]
    · have hr := h.range x h0 h1
      have hup := h.up x h0 h1 e
      obtain ⟨r, u1, e1, root1, inv1, rk1, keep1⟩ := ih u (cell u.parent x) h hr.1 hr.2
        (by omega)
      have xL1 : x < u1.parent.length := by rw [inv1.plen]; exact h1
      have rootx : Root (cell u.parent) x r := Root.step e root1
      have rootx1 : Root (cell u1.parent) x r := keep1 x r rootx
      obtain ⟨r2, hr2, r20, r21, _, rlt⟩ := inv1.has_root x h0 h1
      have er : r2 = r := rootx1.unique r2 hr2
      subst er
      have hP : ∀ z, cell (u1.parent.set x.toNat r2) z
          = if z = x then r2 else cell u1.parent z := fun z => cell_set _ _ _ _ h0 xL1
      refine ⟨r2, { u1 with parent := u1.parent.set x.toNat r2 }, ?_, rootx, ?_, rk1, ?_⟩
      · simp only [find, rd_ok u.parent x h0 xL, bind_ok, e, ne_eq, not_false_eq_true,
          if_true, e1, wr_ok u1.parent x _ h0 xL1]
        rw [rd_ok _ x h0 (by rw [List.length_set]; exact xL1), bind_ok, hP, if_pos rfl]
      · refine ⟨by rw [List.length_set]; exact inv1.plen, inv1.rlen, ?_, inv1.rank_ge,
          inv1.rank_le, ?_⟩
        · intro z z0 z1
          show 0 ≤ cell (u1.parent.set x.toNat r2) z ∧ cell (u1.parent.set x.toNat r2) z < n
          rw [hP]
          by_cases ez : z = x
          · rw [if_pos ez]; exact ⟨r20, r21⟩
          · rw [if_neg ez]; exact inv1.range z z0 z1
        · intro z z0 z1
          show cell (u1.parent.set x.toNat r2) z ≠ z →
            cell u1.rank z < cell u1.rank (cell (u1.parent.set x.toNat r2) z)
          rw [hP]
          by_cases ez : z = x
          · subst ez
            rw [if_pos rfl]
            intro hne
            exact rlt (Ne.symm hne)
          · rw [if_neg ez]; exact inv1.up z z0 z1
      · intro z rz hz
        exact Root.compress rootx1 hP (keep1 z rz hz)

theorem same_iff {P : Int → Int} {x y rx ry : Int} (hx : Root P x rx) (hy : Root P y ry) :
    (∃ r, Root P x r ∧ Root P y r) ↔ rx = ry := by
  constructor
  · rintro ⟨r, h1, h2⟩
    rw [← hx.unique r h1, ← hy.unique r h2]
  · intro e
    exact ⟨rx, hx, e ▸ hy⟩

/-- How the classes change when every root `r` becomes `g r`, for a `g` that
merges the roots of `a` and `b` and nothing else. -/
theorem conn_step {u u3 : UnionFind} {n K a b ra rb : Int} (h : Inv u n K)
    (ha0 : 0 ≤ a) (ha1 : a < n) (hb0 : 0 ≤ b) (hb1 : b < n)
    (hra : Root (cell u.parent) a ra) (hrb : Root (cell u.parent) b rb) (g : Int → Int)
    (hg : ∀ z rz, Root (cell u.parent) z rz → Root (cell u3.parent) z (g rz))
    (hgs : ∀ r1 r2, g r1 = g r2 ↔ r1 = r2 ∨ (r1 = ra ∧ r2 = rb) ∨ (r1 = rb ∧ r2 = ra)) :
    ∀ x y, 0 ≤ x → x < n → 0 ≤ y → y < n →
      ((∃ r, Root (cell u3.parent) x r ∧ Root (cell u3.parent) y r) ↔
        ((∃ r, Root (cell u.parent) x r ∧ Root (cell u.parent) y r) ∨
          ((∃ r, Root (cell u.parent) x r ∧ Root (cell u.parent) a r) ∧
            (∃ r, Root (cell u.parent) b r ∧ Root (cell u.parent) y r)) ∨
          ((∃ r, Root (cell u.parent) x r ∧ Root (cell u.parent) b r) ∧
            (∃ r, Root (cell u.parent) a r ∧ Root (cell u.parent) y r)))) := by
  intro x y x0 x1 y0 y1
  have _ := ha0; have _ := ha1; have _ := hb0; have _ := hb1
  obtain ⟨rx, hx, _⟩ := h.has_root x x0 x1
  obtain ⟨ry, hy, _⟩ := h.has_root y y0 y1
  rw [same_iff (hg x rx hx) (hg y ry hy), same_iff hx hy, same_iff hx hra, same_iff hrb hy,
    same_iff hx hrb, same_iff hra hy, hgs]
  constructor
  · rintro (e | ⟨e1, e2⟩ | ⟨e1, e2⟩)
    · exact Or.inl e
    · exact Or.inr (Or.inl ⟨e1, e2.symm⟩)
    · exact Or.inr (Or.inr ⟨e1, e2.symm⟩)
  · rintro (e | ⟨e1, e2⟩ | ⟨e1, e2⟩)
    · exact Or.inl e
    · exact Or.inr (Or.inl ⟨e1, e2.symm⟩)
    · exact Or.inr (Or.inr ⟨e1, e2.symm⟩)

theorem link_merges (c q ra rb : Int) (_hcq : c ≠ q)
    (hc : (c = ra ∧ q = rb) ∨ (c = rb ∧ q = ra)) (r1 r2 : Int) :
    ((if r1 = c then q else r1) = (if r2 = c then q else r2)) ↔
      r1 = r2 ∨ (r1 = ra ∧ r2 = rb) ∨ (r1 = rb ∧ r2 = ra) := by
  split <;> split <;> omega

/-- The state after hanging the root `c` below the root `q`, the rank of `q`
being larger, or made larger by one when the two ranks were the same. -/
theorem Inv.after_link {u : UnionFind} {n K : Int} (h : Inv u n K) (c q : Int) (par rk : List Int)
    (c0 : 0 ≤ c) (c1 : c < n) (q0 : 0 ≤ q) (q1 : q < n)
    (hq : cell u.parent q = q) (hcq : c ≠ q)
    (hpar : par = u.parent.set c.toNat q)
    (hrk : (rk = u.rank ∧ cell u.rank c < cell u.rank q) ∨
      (rk = u.rank.set q.toNat (cell u.rank q + 1) ∧ cell u.rank c = cell u.rank q)) :
    Inv { parent := par, rank := rk } n (K + 1) := by
  have cL : c < u.parent.length := by rw [h.plen]; exact c1
  have qL : q < u.rank.length := by rw [h.rlen]; exact q1
  have hP : ∀ z, cell par z = if z = c then q else cell u.parent z := fun z => by
    rw [hpar]; exact cell_set _ _ _ _ c0 cL
  have hR : ∀ z, cell u.rank z ≤ cell rk z ∧ cell rk z ≤ cell u.rank z + 1 ∧
      (z ≠ q → cell rk z = cell u.rank z) := by
    intro z
    rcases hrk with ⟨e, _⟩ | ⟨e, _⟩
    · rw [e]; exact ⟨le_refl _, by omega, fun _ => rfl⟩
    · rw [e, cell_set _ _ _ _ q0 qL]
      by_cases ez : z = q
      · subst ez; rw [if_pos rfl]; exact ⟨by omega, le_refl _, fun hne => absurd rfl hne⟩
      · rw [if_neg ez]; exact ⟨le_refl _, by omega, fun _ => rfl⟩
  have hRq : cell u.rank c < cell rk q := by
    rcases hrk with ⟨e, hlt⟩ | ⟨e, heq⟩
    · rw [e]; exact hlt
    · rw [e, cell_set _ _ _ _ q0 qL, if_pos rfl]; omega
  refine ⟨?_, ?_, ?_, ?_, ?_, ?_⟩
  · show ((par.length : Nat) : Int) = n
    rw [hpar, List.length_set]; exact h.plen
  · show ((rk.length : Nat) : Int) = n
    rcases hrk with ⟨e, _⟩ | ⟨e, _⟩
    · rw [e]; exact h.rlen
    · rw [e, List.length_set]; exact h.rlen
  · intro z z0 z1
    show 0 ≤ cell par z ∧ cell par z < n
    rw [hP]
    by_cases ez : z = c
    · rw [if_pos ez]; exact ⟨q0, q1⟩
    · rw [if_neg ez]; exact h.range z z0 z1
  · intro z z0 z1
    show 0 ≤ cell rk z
    have := h.rank_ge z z0 z1
    have := (hR z).1
    omega
  · intro z z0 z1
    show cell rk z ≤ K + 1
    have := h.rank_le z z0 z1
    have := (hR z).2.1
    omega
  · intro z z0 z1
    show cell par z ≠ z → cell rk z < cell rk (cell par z)
    rw [hP]
    by_cases ez : z = c
    · subst ez
      rw [if_pos rfl]
      intro _
      rw [(hR z).2.2 hcq]
      exact hRq
    · rw [if_neg ez]
      intro hne
      have hzq : z ≠ q := fun e => hne (e ▸ hq)
      have := h.up z z0 z1 hne
      have := (hR (cell u.parent z)).1
      rw [(hR z).2.2 hzq]
      omega

theorem Inv.weaken {u : UnionFind} {n K : Int} (h : Inv u n K) : Inv u n (K + 1) :=
  ⟨h.plen, h.rlen, h.range, h.rank_ge, fun x x0 x1 => by have := h.rank_le x x0 x1; omega,
    h.up⟩

/-- With fuel above `K`, `unite(a, b)` returns; afterwards two elements have
the same root exactly when they had before or the call joined their classes. -/
theorem unite_spec {n K : Int} (fuel : Nat) (u : UnionFind) (a b : Int) (h : Inv u n K)
    (ha0 : 0 ≤ a) (ha1 : a < n) (hb0 : 0 ≤ b) (hb1 : b < n) (hf : K + 1 ≤ fuel) :
    ∃ u3, unite fuel u a b = .ok u3 ∧ Inv u3 n (K + 1) ∧
      ∀ x y, 0 ≤ x → x < n → 0 ≤ y → y < n →
        ((∃ r, Root (cell u3.parent) x r ∧ Root (cell u3.parent) y r) ↔
          ((∃ r, Root (cell u.parent) x r ∧ Root (cell u.parent) y r) ∨
            ((∃ r, Root (cell u.parent) x r ∧ Root (cell u.parent) a r) ∧
              (∃ r, Root (cell u.parent) b r ∧ Root (cell u.parent) y r)) ∨
            ((∃ r, Root (cell u.parent) x r ∧ Root (cell u.parent) b r) ∧
              (∃ r, Root (cell u.parent) a r ∧ Root (cell u.parent) y r)))) := by
  obtain ⟨ra, u1, e1, roota, inv1, rk1, keep1⟩ := find_spec fuel u a h ha0 ha1
    (by have := h.rank_ge a ha0 ha1; omega)
  obtain ⟨rb, u2, e2, rootb1, inv2, rk2, keep2⟩ := find_spec fuel u1 b inv1 hb0 hb1
    (by have := inv1.rank_ge b hb0 hb1; omega)
  have keep : ∀ z rz, Root (cell u.parent) z rz → Root (cell u2.parent) z rz :=
    fun z rz hz => keep2 z rz (keep1 z rz hz)
  obtain ⟨rb2, hrb2, _⟩ := h.has_root b hb0 hb1
  have erb : rb2 = rb := (keep1 b rb2 hrb2).unique rb rootb1 ▸ rfl
  subst erb
  obtain ⟨ra2, hra2, ra0, ra1, _⟩ := inv2.has_root a ha0 ha1
  have era : ra2 = ra := (keep a ra roota).unique ra2 hra2
  subst era
  obtain ⟨rb3, hrb3, rb0, rb1, _⟩ := inv2.has_root b hb0 hb1
  have erb : rb3 = rb2 := (keep b rb2 hrb2).unique rb3 hrb3
  subst erb
  have fixa : cell u2.parent ra2 = ra2 := hra2.fixed
  have fixb : cell u2.parent rb3 = rb3 := hrb3.fixed
  have raL : ra2 < u2.rank.length := by rw [inv2.rlen]; exact ra1
  have rbL : rb3 < u2.rank.length := by rw [inv2.rlen]; exact rb1
  have raP : ra2 < u2.parent.length := by rw [inv2.plen]; exact ra1
  have rbP : rb3 < u2.parent.length := by rw [inv2.plen]; exact rb1
  by_cases heq : ra2 = rb3
  · refine ⟨u2, ?_, inv2.weaken, conn_step h ha0 ha1 hb0 hb1 roota hrb2 id keep ?_⟩
    · simp only [unite, e1, e2, bind_ok, heq, if_true]
    · intro r1 r2
      simp only [id]
      omega
  · by_cases hlt : cell u2.rank ra2 < cell u2.rank rb3
    · refine ⟨{ u2 with parent := u2.parent.set ra2.toNat rb3 }, ?_,
        inv2.after_link ra2 rb3 _ _ ra0 ra1 rb0 rb1 fixb heq rfl (Or.inl ⟨rfl, hlt⟩),
        conn_step h ha0 ha1 hb0 hb1 roota hrb2 (fun r => if r = ra2 then rb3 else r)
          (fun z rz hz => Root.relink fixa fixb heq (fun w => cell_set _ _ _ _ ra0 raP)
            (keep z rz hz))
          (link_merges ra2 rb3 ra2 rb3 heq (Or.inl ⟨rfl, rfl⟩))⟩
      simp only [unite, e1, e2, bind_ok, heq, if_false, rd_ok u2.rank ra2 ra0 raL,
        rd_ok u2.rank rb3 rb0 rbL, hlt, if_true, wr_ok u2.parent ra2 _ ra0 raP]
    · by_cases hgt : cell u2.rank rb3 < cell u2.rank ra2
      · refine ⟨{ u2 with parent := u2.parent.set rb3.toNat ra2 }, ?_,
          inv2.after_link rb3 ra2 _ _ rb0 rb1 ra0 ra1 fixa (Ne.symm heq) rfl (Or.inl ⟨rfl, hgt⟩),
          conn_step h ha0 ha1 hb0 hb1 roota hrb2 (fun r => if r = rb3 then ra2 else r)
            (fun z rz hz => Root.relink fixb fixa (Ne.symm heq)
              (fun w => cell_set _ _ _ _ rb0 rbP) (keep z rz hz))
            (link_merges rb3 ra2 ra2 rb3 (Ne.symm heq) (Or.inr ⟨rfl, rfl⟩))⟩
        simp only [unite, e1, e2, bind_ok, heq, if_false, rd_ok u2.rank ra2 ra0 raL,
          rd_ok u2.rank rb3 rb0 rbL, hlt, hgt, if_true, wr_ok u2.parent rb3 _ rb0 rbP]
      · refine ⟨{ parent := u2.parent.set rb3.toNat ra2,
                  rank := u2.rank.set ra2.toNat (cell u2.rank ra2 + 1) }, ?_,
          inv2.after_link rb3 ra2 _ _ rb0 rb1 ra0 ra1 fixa (Ne.symm heq) rfl
            (Or.inr ⟨rfl, by omega⟩),
          conn_step h ha0 ha1 hb0 hb1 roota hrb2 (fun r => if r = rb3 then ra2 else r)
            (fun z rz hz => Root.relink fixb fixa (Ne.symm heq)
              (fun w => cell_set _ _ _ _ rb0 rbP) (keep z rz hz))
            (link_merges rb3 ra2 ra2 rb3 (Ne.symm heq) (Or.inr ⟨rfl, rfl⟩))⟩
        simp only [unite, e1, e2, bind_ok, heq, if_false, rd_ok u2.rank ra2 ra0 raL,
          rd_ok u2.rank rb3 rb0 rbL, hlt, hgt, wr_ok u2.parent rb3 _ rb0 rbP,
          wr_ok u2.rank ra2 _ ra0 raL]

/-- With fuel above `K`, `sameSet(x, y)` returns whether `x` and `y` have the
same root. -/
theorem sameSet_spec {n K : Int} (fuel : Nat) (u : UnionFind) (x y : Int) (h : Inv u n K)
    (x0 : 0 ≤ x) (x1 : x < n) (y0 : 0 ≤ y) (y1 : y < n) (hf : K + 1 ≤ fuel) :
    ∃ b u2, sameSet fuel u x y = .ok (b, u2) ∧
      (b = true ↔ ∃ r, Root (cell u.parent) x r ∧ Root (cell u.parent) y r) := by
  obtain ⟨rx, u1, e1, rootx, inv1, _, keep1⟩ := find_spec fuel u x h x0 x1
    (by have := h.rank_ge x x0 x1; omega)
  obtain ⟨ry, u2, e2, rooty1, _, _, _⟩ := find_spec fuel u1 y inv1 y0 y1
    (by have := inv1.rank_ge y y0 y1; omega)
  obtain ⟨ry2, hry2, _⟩ := h.has_root y y0 y1
  have e : ry2 = ry := (keep1 y ry2 hry2).unique ry rooty1 ▸ rfl
  subst e
  refine ⟨decide (rx = ry2), u2, ?_, ?_⟩
  · simp only [sameSet, e1, e2, bind_ok]
  · rw [same_iff rootx hry2, decide_eq_true_eq]

theorem ctorLoop_spec :
    ∀ (k : Nat) (parent : List Int) (i : Int), 0 ≤ i → i + k ≤ parent.length →
      ∃ p, ctorLoop parent i k = .ok p ∧ p.length = parent.length ∧
        ∀ j, cell p j = if i ≤ j ∧ j < i + k then j else cell parent j := by
  intro k
  induction k with
  | zero =>
    intro parent i _ _
    refine ⟨parent, rfl, rfl, fun j => ?_⟩
    have : ¬ (i ≤ j ∧ j < i + ((0 : Nat) : Int)) := by omega
    rw [if_neg this]
  | succ k ih =>
    intro parent i h0 h1
    have iL : i < parent.length := by omega
    obtain ⟨p, e, len, cells⟩ := ih (parent.set i.toNat i) (i + 1) (by omega)
      (by rw [List.length_set]; omega)
    refine ⟨p, ?_, by rw [len, List.length_set], fun j => ?_⟩
    · simp only [ctorLoop, wr_ok parent i i h0 iL, bind_ok]; exact e
    · rw [cells, cell_set _ _ _ _ h0 iL]
      by_cases ej : j = i
      · subst ej
        have h2 : ¬ (j + 1 ≤ j ∧ j < j + 1 + (k : Int)) := by omega
        have h3 : j ≤ j ∧ j < j + ((k + 1 : Nat) : Int) := by omega
        rw [if_neg h2, if_pos rfl, if_pos h3]
      · rw [if_neg ej]
        by_cases hc : i + 1 ≤ j ∧ j < i + 1 + (k : Int)
        · rw [if_pos hc, if_pos (by omega)]
        · rw [if_neg hc, if_neg (by omega)]

/-- The constructor returns the state in which every element is its own
parent and has rank 0. -/
theorem unionFind_ctor (n : Int) (hn : 0 ≤ n) :
    ∃ u, ctor n = .ok u ∧ Inv u n 0 ∧ ∀ x, 0 ≤ x → x < n → cell u.parent x = x := by
  obtain ⟨p, e, len, cells⟩ := ctorLoop_spec n.toNat (List.replicate n.toNat 0) 0 (le_refl 0)
    (by rw [List.length_replicate]; omega)
  have hself : ∀ x, 0 ≤ x → x < n → cell p x = x := fun x x0 x1 => by
    rw [cells, if_pos (by omega)]
  refine ⟨{ parent := p, rank := List.replicate n.toNat 0 }, ?_, ⟨?_, ?_, ?_, ?_, ?_, ?_⟩,
    hself⟩
  · simp only [ctor, zeros, hn, if_true, bind_ok, e]
  · show ((p.length : Nat) : Int) = n
    rw [len, List.length_replicate]; omega
  · show (((List.replicate n.toNat (0 : Int)).length : Nat) : Int) = n
    rw [List.length_replicate]; omega
  · intro x x0 x1
    show 0 ≤ cell p x ∧ cell p x < n
    rw [hself x x0 x1]; exact ⟨x0, x1⟩
  · intro x _ _
    show 0 ≤ cell (List.replicate n.toNat (0 : Int)) x
    rw [cell_replicate]
  · intro x _ _
    show cell (List.replicate n.toNat (0 : Int)) x ≤ 0
    rw [cell_replicate]
  · intro x x0 x1 hne
    exact absurd (hself x x0 x1) hne

theorem eqvGen_empty (x y : Int) :
    Relation.EqvGen (fun _ _ : Int => False) x y ↔ x = y := by
  constructor
  · intro h
    induction h with
    | rel _ _ h => exact h.elim
    | refl _ => rfl
    | symm _ _ _ ih => exact ih.symm
    | trans _ _ _ _ _ ih1 ih2 => exact ih1.trans ih2
  · rintro rfl
    exact Relation.EqvGen.refl x

/-- The equivalence generated by a relation and one more pair `(a, b)`. -/
theorem eqvGen_insert (Q : Int → Int → Prop) (a b x y : Int) :
    Relation.EqvGen (fun p q => Q p q ∨ (p = a ∧ q = b)) x y ↔
      (Relation.EqvGen Q x y ∨ (Relation.EqvGen Q x a ∧ Relation.EqvGen Q b y) ∨
        (Relation.EqvGen Q x b ∧ Relation.EqvGen Q a y)) := by
  constructor
  · intro h
    induction h with
    | rel p q h =>
      rcases h with h | ⟨rfl, rfl⟩
      · exact Or.inl (Relation.EqvGen.rel _ _ h)
      · exact Or.inr (Or.inl ⟨Relation.EqvGen.refl _, Relation.EqvGen.refl _⟩)
    | refl p => exact Or.inl (Relation.EqvGen.refl p)
    | symm p q _ ih =>
      rcases ih with h | ⟨h1, h2⟩ | ⟨h1, h2⟩
      · exact Or.inl (Relation.EqvGen.symm _ _ h)
      · exact Or.inr (Or.inr ⟨Relation.EqvGen.symm _ _ h2, Relation.EqvGen.symm _ _ h1⟩)
      · exact Or.inr (Or.inl ⟨Relation.EqvGen.symm _ _ h2, Relation.EqvGen.symm _ _ h1⟩)
    | trans p q r _ _ ih1 ih2 =>
      rcases ih1 with h | ⟨h1, h2⟩ | ⟨h1, h2⟩
      · rcases ih2 with g | ⟨g1, g2⟩ | ⟨g1, g2⟩
        · exact Or.inl (Relation.EqvGen.trans _ _ _ h g)
        · exact Or.inr (Or.inl ⟨Relation.EqvGen.trans _ _ _ h g1, g2⟩)
        · exact Or.inr (Or.inr ⟨Relation.EqvGen.trans _ _ _ h g1, g2⟩)
      · rcases ih2 with g | ⟨g1, g2⟩ | ⟨g1, g2⟩
        · exact Or.inr (Or.inl ⟨h1, Relation.EqvGen.trans _ _ _ h2 g⟩)
        · exact Or.inr (Or.inl ⟨h1, g2⟩)
        · exact Or.inl (Relation.EqvGen.trans _ _ _ h1 g2)
      · rcases ih2 with g | ⟨g1, g2⟩ | ⟨g1, g2⟩
        · exact Or.inr (Or.inr ⟨h1, Relation.EqvGen.trans _ _ _ h2 g⟩)
        · exact Or.inl (Relation.EqvGen.trans _ _ _ h1 g2)
        · exact Or.inr (Or.inr ⟨h1, g2⟩)
  · have mono : ∀ p q, Relation.EqvGen Q p q →
        Relation.EqvGen (fun p q => Q p q ∨ (p = a ∧ q = b)) p q := fun p q h =>
      Relation.EqvGen.mono (fun _ _ hq => Or.inl hq) h
    have hab : Relation.EqvGen (fun p q => Q p q ∨ (p = a ∧ q = b)) a b :=
      Relation.EqvGen.rel _ _ (Or.inr ⟨rfl, rfl⟩)
    rintro (h | ⟨h1, h2⟩ | ⟨h1, h2⟩)
    · exact mono _ _ h
    · exact Relation.EqvGen.trans _ _ _ (mono _ _ h1)
        (Relation.EqvGen.trans _ _ _ hab (mono _ _ h2))
    · exact Relation.EqvGen.trans _ _ _ (mono _ _ h1)
        (Relation.EqvGen.trans _ _ _ (Relation.EqvGen.symm _ _ hab) (mono _ _ h2))

/-- With fuel above `K` and the number of calls, a sequence of `unite` calls
on elements returns, and the classes are then those generated by the old ones
and the united pairs. -/
theorem runUnites_spec {n : Int} (fuel : Nat) :
    ∀ (pairs : List (Int × Int)) (u : UnionFind) (K : Int) (Q : Int → Int → Prop),
      Inv u n K → Conn u n Q →
      (∀ p ∈ pairs, (0 ≤ p.1 ∧ p.1 < n) ∧ (0 ≤ p.2 ∧ p.2 < n)) →
      K + pairs.length + 1 ≤ fuel →
      ∃ u2, runUnites fuel u pairs = .ok u2 ∧ Inv u2 n (K + pairs.length) ∧
        Conn u2 n (fun p q => Q p q ∨ (p, q) ∈ pairs) := by
  intro pairs
  induction pairs with
  | nil =>
    intro u K Q h hc _ _
    refine ⟨u, rfl, by simpa using h, ?_⟩
    have : (fun p q => Q p q ∨ (p, q) ∈ ([] : List (Int × Int))) = Q := by
      funext p q; simp
    rw [this]; exact hc
  | cons pr ps ih =>
    intro u K Q h hc hin hf
    obtain ⟨⟨a0, a1⟩, ⟨b0, b1⟩⟩ := hin pr (List.mem_cons_self _ _)
    simp only [List.length_cons, Nat.cast_add, Nat.cast_one] at hf ⊢
    obtain ⟨u1, e1, inv1, conn1⟩ := unite_spec fuel u pr.1 pr.2 h a0 a1 b0 b1 (by omega)
    have hc1 : Conn u1 n (fun p q => Q p q ∨ (p = pr.1 ∧ q = pr.2)) := by
      intro x y x0 x1 y0 y1
      rw [conn1 x y x0 x1 y0 y1, eqvGen_insert, hc x y x0 x1 y0 y1, hc x pr.1 x0 x1 a0 a1,
        hc pr.2 y b0 b1 y0 y1, hc x pr.2 x0 x1 b0 b1, hc pr.1 y a0 a1 y0 y1]
    obtain ⟨u2, e2, inv2, conn2⟩ := ih u1 (K + 1) _ inv1 hc1
      (fun p hp => hin p (List.mem_cons_of_mem _ hp)) (by omega)
    refine ⟨u2, ?_, ?_, ?_⟩
    · simp only [runUnites, e1, bind_ok]; exact e2
    · have e : K + ((ps.length : Int) + 1) = K + 1 + (ps.length : Int) := by ring
      rw [e]; exact inv2
    · have : (fun p q => Q p q ∨ (p, q) ∈ pr :: ps)
          = (fun p q => (Q p q ∨ (p = pr.1 ∧ q = pr.2)) ∨ (p, q) ∈ ps) := by
        funext p q
        apply propext
        simp only [List.mem_cons, Prod.ext_iff]
        constructor
        · rintro (h1 | h1 | h1)
          · exact Or.inl (Or.inl h1)
          · exact Or.inl (Or.inr h1)
          · exact Or.inr h1
        · rintro ((h1 | h1) | h1)
          · exact Or.inl h1
          · exact Or.inr (Or.inl h1)
          · exact Or.inr (Or.inr h1)
      rw [this]; exact conn2

end UnionFind

/-! ## Claims about the disjoint set -/

namespace UnionFind

/-- The disjoint set part of `main`: after `unite(0, 1)` and `unite(3, 4)` on
five elements, `sameSet(0, 1)` is true and `sameSet(2, 4)` is false. -/
theorem unionFind_demo :
    ((ctor 5).bind fun u0 =>
      (runUnites 3 u0 [(0, 1), (3, 4)]).bind fun u =>
      (sameSet 3 u 0 1).bind fun p =>
      (sameSet 3 p.2 2 4).bind fun q => .ok (p.1, q.1)) = .ok (true, false) := by rfl

/-- C18. Connectivity: for `n` elements and any sequence of calls
`unite(a, b)` with `0 ≤ a, b < n` on `UnionFind(n)`, with fuel above the number
of calls every call returns, and then `sameSet(x, y)` with `0 ≤ x, y < n`
returns true exactly when the reflexive, symmetric and transitive closure of
the united pairs relates `x` and `y`; in the state reached every element
reaches a root along the parent links, so the links form a forest without
cycles. -/
theorem sameSet_correct (n : Int) (pairs : List (Int × Int)) (fuel : Nat) (x y : Int)
    (hpairs : ∀ p ∈ pairs, (0 ≤ p.1 ∧ p.1 < n) ∧ (0 ≤ p.2 ∧ p.2 < n))
    (hfuel : pairs.length < fuel) (hx : 0 ≤ x ∧ x < n) (hy : 0 ≤ y ∧ y < n) :
    ∃ u b u2, ((ctor n).bind fun u0 => runUnites fuel u0 pairs) = .ok u ∧
      sameSet fuel u x y = .ok (b, u2) ∧
      (b = true ↔ Relation.EqvGen (fun p q => (p, q) ∈ pairs) x y) ∧
      (∀ z, 0 ≤ z → z < n → ∃ r, Root (cell u.parent) z r) ∧
      (∀ z, 0 ≤ z → z < n → ∃ r, Root (cell u2.parent) z r) := by
  obtain ⟨u0, e0, inv0, self0⟩ := unionFind_ctor n (by omega)
  have conn0 : Conn u0 n (fun _ _ => False) := by
    intro p q p0 p1 q0 q1
    rw [same_iff (Root.base (self0 p p0 p1)) (Root.base (self0 q q0 q1)), eqvGen_empty]
  obtain ⟨u, e1, inv1, conn1⟩ := runUnites_spec fuel pairs u0 0 _ inv0 conn0 hpairs
    (by omega)
  have hQ : (fun p q => False ∨ (p, q) ∈ pairs) = (fun p q => (p, q) ∈ pairs) := by
    funext p q; simp
  rw [hQ] at conn1
  obtain ⟨rx, u1, f1, rootx, invu1, _, keep1⟩ := find_spec fuel u x inv1 hx.1 hx.2
    (by have := inv1.rank_ge x hx.1 hx.2; omega)
  obtain ⟨ry, u2, f2, rooty1, invu2, _, _⟩ := find_spec fuel u1 y invu1 hy.1 hy.2
    (by have := invu1.rank_ge y hy.1 hy.2; omega)
  obtain ⟨ry2, hry2, _⟩ := inv1.has_root y hy.1 hy.2
  have e : ry2 = ry := (keep1 y ry2 hry2).unique ry rooty1 ▸ rfl
  subst e
  refine ⟨u, decide (rx = ry2), u2, by rw [e0, bind_ok]; exact e1, ?_, ?_,
    fun z z0 z1 => ?_, fun z z0 z1 => ?_⟩
  · simp only [sameSet, f1, f2, bind_ok]
  · rw [decide_eq_true_eq, ← same_iff rootx hry2]
    exact conn1 x y hx.1 hx.2 hy.1 hy.2
  · obtain ⟨r, hr, _⟩ := inv1.has_root z z0 z1
    exact ⟨r, hr⟩
  · obtain ⟨r, hr, _⟩ := invu2.has_root z z0 z1
    exact ⟨r, hr⟩

/-- C18 on the calls of `main`, asking for 2 and 4. -/
theorem sameSet_correct_witness :
    ∃ u b u2, ((ctor 5).bind fun u0 => runUnites 3 u0 [(0, 1), (3, 4)]) = .ok u ∧
      sameSet 3 u 2 4 = .ok (b, u2) ∧
      (b = true ↔ Relation.EqvGen (fun p q => (p, q) ∈ [((0 : Int), (1 : Int)), (3, 4)]) 2 4) ∧
      (∀ z, 0 ≤ z → z < 5 → ∃ r, Root (cell u.parent) z r) ∧
      (∀ z, 0 ≤ z → z < 5 → ∃ r, Root (cell u2.parent) z r) :=
  sameSet_correct 5 [(0, 1), (3, 4)] 3 2 4
    (by intro p hp
        simp only [List.mem_cons, List.mem_singleton, List.not_mem_nil, or_false] at hp
        rcases hp with rfl | rfl <;> decide)
    (by decide) (by decide) (by decide)

end UnionFind

/-! ## The linked list -/

section linked

variable {T : Type}

theorem deref_node {h : Heap T} {a : Nat} {v : T} {nx : Option Nat}
    (ha : h[a]? = some (some ⟨v, nx⟩)) : deref h (some a) = .ok ⟨v, nx⟩ := by
  simp [deref, ha]

theorem getVal_node {h : Heap T} {a : Nat} {v : T} {nx : Option Nat}
    (ha : h[a]? = some (some ⟨v, nx⟩)) : getVal h (some a) = .ok v := by
  simp [getVal, deref_node ha, bind_ok]

theorem getNext_node {h : Heap T} {a : Nat} {v : T} {nx : Option Nat}
    (ha : h[a]? = some (some ⟨v, nx⟩)) : getNext h (some a) = .ok nx := by
  simp [getNext, deref_node ha, bind_ok]

theorem setNext_node {h : Heap T} {a : Nat} {v : T} {nx : Option Nat}
    (ha : h[a]? = some (some ⟨v, nx⟩)) (n : Option Nat) :
    setNext h (some a) n = .ok (h.set a (some ⟨v, n⟩)) := by
  simp [setNext, deref_node ha, bind_ok]

theorem deleteNode_node {h : Heap T} {a : Nat} {v : T} {nx : Option Nat}
    (ha : h[a]? = some (some ⟨v, nx⟩)) : deleteNode h (some a) = .ok (h.set a none) := by
  simp [deleteNode, deref_node ha, bind_ok]

theorem slot_lt {h : Heap T} {a : Nat} {x : Option (Node T)} (ha : h[a]? = some x) :
    a < h.length := by
  by_contra hlt
  rw [List.getElem?_eq_none (by omega)] at ha
  cases ha

theorem slot_set_self {h : Heap T} {a : Nat} {x : Option (Node T)} (y : Option (Node T))
    (ha : h[a]? = some x) : (h.set a y)[a]? = some y := by
  simp [List.getElem?_set, slot_lt ha]

theorem slot_set_ne (h : Heap T) {a b : Nat} (y : Option (Node T)) (hab : a ≠ b) :
    (h.set a y)[b]? = h[b]? := by
  simp [List.getElem?_set, hab]

theorem slot_append {h : Heap T} {a : Nat} {x : Option (Node T)} (y : Option (Node T))
    (ha : h[a]? = some x) : (h ++ [y])[a]? = some x := by
  rw [List.getElem?_append_left (slot_lt ha), ha]

theorem slot_fresh (h : Heap T) (y : Option (Node T)) : (h ++ [y])[h.length]? = some y := by
  simp

theorem Seg.append {h : Heap T} {p m q : Option Nat} {xs ys : List (Nat × T)}
    (h1 : Seg h p xs m) (h2 : Seg h m ys q) : Seg h p (xs ++ ys) q := by
  induction h1 with
  | nil p => simpa using h2
  | cons ha _ ih => exact Seg.cons ha (ih h2)

theorem Seg.split {h : Heap T} : ∀ {xs : List (Nat × T)} {p : Option Nat}
    {ys : List (Nat × T)} {q : Option Nat}, Seg h p (xs ++ ys) q →
    ∃ m, Seg h p xs m ∧ Seg h m ys q := by
  intro xs
  induction xs with
  | nil => intro p ys q hs; exact ⟨p, Seg.nil p, hs⟩
  | cons x xs ih =>
    intro p ys q hs
    cases hs with
    | cons ha ht =>
      obtain ⟨m, h1, h2⟩ := ih ht
      exact ⟨m, Seg.cons ha h1, h2⟩

theorem Seg.frame {h h2 : Heap T} {p q : Option Nat} {xs : List (Nat × T)}
    (hs : Seg h p xs q) (hf : ∀ a ∈ xs.map Prod.fst, h2[a]? = h[a]?) : Seg h2 p xs q := by
  induction hs with
  | nil p => exact Seg.nil p
  | cons ha _ ih =>
    refine Seg.cons ?_ (ih fun a hmem => hf a ?_)
    · rw [hf _ (by simp)]; exact ha
    · simp only [List.map_cons, List.mem_cons]; exact Or.inr hmem

theorem Seg.addr_lt {h : Heap T} {p q : Option Nat} {xs : List (Nat × T)}
    (hs : Seg h p xs q) : ∀ a ∈ xs.map Prod.fst, a < h.length := by
  induction hs with
  | nil p => simp
  | cons ha _ ih =>
    intro b hb
    simp only [List.map_cons, List.mem_cons] at hb
    rcases hb with rfl | hb
    · exact slot_lt ha
    · exact ih b hb

theorem Chain.nil (h : Heap T) : Chain h none [] := Seg.nil none

theorem Chain.none_inv {h : Heap T} {xs : List (Nat × T)} (hc : Chain h none xs) :
    xs = [] := by
  cases hc; rfl

theorem Chain.some_inv {h : Heap T} {a : Nat} {xs : List (Nat × T)}
    (hc : Chain h (some a) xs) :
    ∃ v nx rest, xs = (a, v) :: rest ∧ h[a]? = some (some ⟨v, nx⟩) ∧ Chain h nx rest := by
  cases hc with
  | cons ha ht => exact ⟨_, _, _, rfl, ha, ht⟩

theorem Chain.cons_inv {h : Heap T} {p : Option Nat} {a : Nat} {v : T}
    {xs : List (Nat × T)} (hc : Chain h p ((a, v) :: xs)) :
    p = some a ∧ ∃ nx, h[a]? = some (some ⟨v, nx⟩) ∧ Chain h nx xs := by
  cases hc with
  | cons ha ht => exact ⟨rfl, _, ha, ht⟩

theorem Chain.nil_inv {h : Heap T} {p : Option Nat} (hc : Chain h p []) : p = none := by
  cases hc; rfl

theorem Chain.functional {h : Heap T} : ∀ {xs ys : List (Nat × T)} {p : Option Nat},
    Chain h p xs → Chain h p ys → xs = ys := by
  intro xs
  induction xs with
  | nil =>
    intro ys p h1 h2
    rw [h1.nil_inv] at h2
    exact h2.none_inv.symm
  | cons x xs ih =>
    intro ys p h1 h2
    obtain ⟨a, v⟩ := x
    obtain ⟨rfl, nx, ha, ht⟩ := h1.cons_inv
    obtain ⟨v2, nx2, rest, rfl, ha2, ht2⟩ := h2.some_inv
    rw [ha] at ha2
    simp only [Option.some.injEq, Node.mk.injEq] at ha2
    obtain ⟨rfl, rfl⟩ := ha2
    rw [ih ht ht2]

theorem Chain.nodup {h : Heap T} : ∀ {xs : List (Nat × T)} {p : Option Nat},
    Chain h p xs → (xs.map Prod.fst).Nodup := by
  intro xs
  induction xs with
  | nil => intro p _; simp
  | cons x xs ih =>
    intro p hc
    obtain ⟨a, v⟩ := x
    obtain ⟨rfl, nx, ha, ht⟩ := hc.cons_inv
    simp only [List.map_cons, List.nodup_cons]
    refine ⟨fun hmem => ?_, ih ht⟩
    obtain ⟨⟨a2, v2⟩, hx, rfl⟩ := List.mem_map.1 hmem
    obtain ⟨l1, l2, rfl⟩ := List.append_of_mem hx
    obtain ⟨m, _, h2⟩ := Seg.split ht
    have h3 : Chain h m ((a2, v2) :: l2) := h2
    obtain ⟨rfl, _⟩ := h3.cons_inv
    have := Chain.functional hc h3
    have hl := congrArg List.length this
    simp at hl
    omega

theorem drop_succ_of_cons {α : Type} {xs : List α} {j : Nat} {x : α} {rest : List α}
    (hx : xs.drop j = x :: rest) : xs.drop (j + 1) = rest := by
  rw [← List.drop_drop, hx]; rfl

theorem lt_length_of_drop_cons {α : Type} {xs : List α} {j : Nat} {x : α} {rest : List α}
    (hx : xs.drop j = x :: rest) : j < xs.length := by
  by_contra hlt
  rw [List.drop_eq_nil_of_le (by omega)] at hx
  cases hx

/-- The split loop of `mergeSort` stops with `slow` on a node that has a
successor in the list. -/
theorem LinkedList.mergeSortLoop_spec (xs : List (Nat × T)) : ∀ (fuel : Nat) (h : Heap T)
    (i j : Nat) (slow fast : Option Nat), Chain h slow (xs.drop i) →
    Chain h fast (xs.drop j) → i + 1 < xs.length → j = 2 * i + 1 → j ≤ xs.length →
    xs.length < fuel + j →
    ∃ slow2 k, LinkedList.mergeSortLoop fuel h slow fast = .ok slow2 ∧
      Chain h slow2 (xs.drop k) ∧ k + 1 < xs.length := by
  intro fuel
  induction fuel with
  | zero => intro h i j slow fast _ _ _ _ hj hf; omega
  | succ fuel ih =>
    intro h i j slow fast hs hfa hi hij hj hf
    cases fast with
    | none => exact ⟨slow, i, by simp [LinkedList.mergeSortLoop], hs, hi⟩
    | some b =>
      obtain ⟨v, nx, rest, hd, hb, hrest⟩ := hfa.some_inv
      have hd1 := drop_succ_of_cons hd
      have hj1 := lt_length_of_drop_cons hd
      cases nx with
      | none =>
        exact ⟨slow, i, by simp [LinkedList.mergeSortLoop, getNext_node hb, bind_ok], hs, hi⟩
      | some c =>
        obtain ⟨v2, nx2, rest2, hd2, hc, hrest2⟩ := hrest.some_inv
        rw [← hd1] at hd2
        have hd3 := drop_succ_of_cons hd2
        have hj2 := lt_length_of_drop_cons hd2
        obtain ⟨⟨a, va⟩, hsd⟩ : ∃ x, xs.drop i = x :: xs.drop (i + 1) := by
          rw [List.drop_eq_getElem_cons (by omega)]; exact ⟨_, rfl⟩
        rw [hsd] at hs
        obtain ⟨rfl, sn, ha, hs2⟩ := hs.cons_inv
        obtain ⟨s3, k, hk, hck, hlt⟩ := ih h (i + 1) (j + 1 + 1) sn nx2 hs2
          (by rw [hd3]; exact hrest2) (by omega) (by omega) (by omega) (by omega)
        exact ⟨s3, k, by simp [LinkedList.mergeSortLoop, getNext_node hb, getNext_node ha,
          getNext_node hc, bind_ok, hk], hck, hlt⟩

end linked

section linked

variable {T : Type}

theorem Chain.ptr_eq {h : Heap T} {p q : Option Nat} {xs : List (Nat × T)}
    (hp : Chain h p xs) (hq : Chain h q xs) : p = q := by
  cases xs with
  | nil => rw [hp.nil_inv, hq.nil_inv]
  | cons x xs =>
    obtain ⟨a, v⟩ := x
    rw [hp.cons_inv.1, hq.cons_inv.1]

theorem Chain.head_none_iff {h : Heap T} {p : Option Nat} {xs : List (Nat × T)}
    (hc : Chain h p xs) : p = none ↔ xs = [] := by
  constructor
  · rintro rfl; exact hc.none_inv
  · rintro rfl; exact hc.nil_inv

theorem getLast?_snoc {α : Type} (l : List α) (x : α) : (l ++ [x]).getLast? = some x := by
  simp

theorem exists_snoc {α : Type} {l : List α} (hl : l ≠ []) :
    ∃ pre x, l = pre ++ [x] := by
  refine ⟨l.dropLast, l.getLast hl, ?_⟩
  exact (List.dropLast_append_getLast hl).symm

/-- The walk of `sort` to the end of the list stops on the last node. -/
theorem LinkedList.sortLoop_spec : ∀ (fuel : Nat) (h : Heap T) (temp : Option Nat)
    (xs : List (Nat × T)) (t : Nat × T), Chain h temp (xs ++ [t]) → xs.length < fuel →
    LinkedList.sortLoop fuel h temp = .ok (some t.1) := by
  intro fuel
  induction fuel with
  | zero => intro h temp xs t _ hf; omega
  | succ fuel ih =>
    intro h temp xs t hc hf
    cases xs with
    | nil =>
      obtain ⟨a, v⟩ := t
      obtain ⟨rfl, nx, ha, hn⟩ := Chain.cons_inv hc
      rw [hn.nil_inv] at ha
      simp [LinkedList.sortLoop, getNext_node ha, bind_ok]
    | cons x xs =>
      obtain ⟨a, v⟩ := x
      obtain ⟨rfl, nx, ha, hn⟩ := Chain.cons_inv hc
      have hne : nx ≠ none := by
        intro h0
        rw [h0] at hn
        have := hn.none_inv
        simp at this
      simp only [List.length_cons] at hf
      simp [LinkedList.sortLoop, getNext_node ha, bind_ok, hne, ih h nx xs t hn (by omega)]

/-- The method `print` writes the values of the nodes, in order. -/
theorem LinkedList.print_spec : ∀ (fuel : Nat) (h : Heap T) (p : Option Nat)
    (xs : List (Nat × T)), Chain h p xs → xs.length < fuel →
    LinkedList.print fuel h p = .ok (xs.map Prod.snd) := by
  intro fuel
  induction fuel with
  | zero => intro h p xs _ hf; omega
  | succ fuel ih =>
    intro h p xs hc hf
    cases xs with
    | nil => rw [hc.nil_inv]; simp [LinkedList.print]
    | cons x xs =>
      obtain ⟨a, v⟩ := x
      obtain ⟨rfl, nx, ha, hn⟩ := Chain.cons_inv hc
      simp only [List.length_cons] at hf
      simp [LinkedList.print, getVal_node ha, getNext_node ha, bind_ok,
        ih h nx xs hn (by omega)]

/-- The parts of a list that ends with the node `t`: the nodes before it lead
to `t`, whose `next` is null, and none of them is `t`. -/
theorem Chain.snoc_inv {h : Heap T} {p : Option Nat} {pre : List (Nat × T)} {t : Nat × T}
    (hc : Chain h p (pre ++ [t])) :
    Seg h p pre (some t.1) ∧ h[t.1]? = some (some ⟨t.2, none⟩) ∧ t.1 ∉ pre.map Prod.fst := by
  obtain ⟨a, v⟩ := t
  obtain ⟨m, h1, h2⟩ := Seg.split hc
  have h3 : Chain h m [(a, v)] := h2
  obtain ⟨rfl, nx, ha, hn⟩ := h3.cons_inv
  rw [hn.nil_inv] at ha
  refine ⟨h1, ha, fun hmem => ?_⟩
  have hnd := Chain.nodup hc
  simp only [List.map_append, List.map_cons, List.map_nil] at hnd
  exact (List.nodup_append.1 hnd).2.2 hmem (by simp)

/-- The method `LinkedList::push` appends a node that holds `val`. -/
theorem LinkedList.push_spec (s : LinkedList T) (xs : List (Nat × T)) (val : T)
    (hs : s.Holds xs) :
    ∃ s2, LinkedList.push s val = .ok s2 ∧ s2.Holds (xs ++ [(s.heap.length, val)]) := by
  obtain ⟨hc, ht⟩ := hs
  by_cases hx : xs = []
  · subst hx
    have hh := hc.nil_inv
    refine ⟨⟨s.heap ++ [some ⟨val, none⟩], some s.heap.length, some s.heap.length⟩,
      by simp [LinkedList.push, hh, newNode], ?_, by simp⟩
    exact Seg.cons (slot_fresh _ _) (Seg.nil none)
  · obtain ⟨pre, ⟨t, tv⟩, rfl⟩ := exists_snoc hx
    have hh : s.head ≠ none := fun h0 => hx ((hc.head_none_iff).1 h0)
    obtain ⟨hpre, hslot, hnot⟩ := hc.snoc_inv
    rw [getLast?_snoc, Option.map_some'] at ht
    have h1 := slot_append (some ⟨val, none⟩) hslot
    refine ⟨⟨(s.heap ++ [some (Node.mk val none)]).set t
      (some (Node.mk tv (some s.heap.length))), s.head, some s.heap.length⟩, ?_, ?_, ?_⟩
    · simp [LinkedList.push, hh, ht, newNode, setNext_node h1, bind_ok,
        getNext_node (slot_set_self _ h1)]
    · have hlt := slot_lt hslot
      refine Seg.append (Seg.append (Seg.frame hpre fun x hx2 => ?_)
        (Seg.cons (slot_set_self _ h1) (Seg.nil _))) (Seg.cons ?_ (Seg.nil none))
      · rw [slot_set_ne _ _ (fun htx => hnot (by simpa [htx] using hx2))]
        have := Seg.addr_lt hpre x hx2
        exact List.getElem?_append_left this
      · rw [slot_set_ne _ _ (by omega)]
        exact slot_fresh _ _
    · simp

/-- The search loop of `pop` stops on the node before `tail`. -/
theorem LinkedList.popLoop_spec : ∀ (fuel : Nat) (h : Heap T) (temp : Option Nat)
    (mid : List (Nat × T)) (p t : Nat × T), Chain h temp (mid ++ [p, t]) → mid.length < fuel →
    LinkedList.popLoop fuel h (some t.1) temp = .ok (some p.1) := by
  intro fuel
  induction fuel with
  | zero => intro h temp mid p t _ hf; omega
  | succ fuel ih =>
    intro h temp mid p t hc hf
    cases mid with
    | nil =>
      obtain ⟨a, v⟩ := p
      obtain ⟨rfl, nx, ha, hn⟩ := Chain.cons_inv hc
      obtain ⟨b, w⟩ := t
      obtain ⟨rfl, _⟩ := Chain.cons_inv hn
      simp [LinkedList.popLoop, getNext_node ha, bind_ok]
    | cons x mid =>
      obtain ⟨a, v⟩ := x
      have hnd := Chain.nodup hc
      obtain ⟨rfl, nx, ha, hn⟩ := Chain.cons_inv hc
      obtain ⟨t1, tw⟩ := t
      have hne : nx ≠ some t1 := by
        rintro rfl
        have hnd2 := Chain.nodup hn
        cases mid with
        | nil =>
          obtain ⟨b, w⟩ := p
          have hb := (Chain.cons_inv hn).1
          simp only [Option.some.injEq] at hb
          subst hb
          simp at hnd2
        | cons y mid =>
          obtain ⟨b, w⟩ := y
          have hb := (Chain.cons_inv hn).1
          simp only [Option.some.injEq] at hb
          subst hb
          simp at hnd2
      simp only [List.length_cons] at hf
      simp [LinkedList.popLoop, getNext_node ha, bind_ok, hne,
        ih h nx mid p (t1, tw) hn (by omega)]

/-- The method `LinkedList::pop` on a list that is not empty removes the last
node and returns its value. -/
theorem LinkedList.pop_spec (fuel : Nat) (s : LinkedList T) (pre : List (Nat × T))
    (t : Nat × T) (hs : s.Holds (pre ++ [t])) (hf : pre.length ≤ fuel) :
    ∃ s2, LinkedList.pop fuel s = .ok (t.2, s2) ∧ s2.Holds pre := by
  obtain ⟨hc, ht⟩ := hs
  rw [getLast?_snoc, Option.map_some'] at ht
  obtain ⟨hpre, hslot, hnot⟩ := hc.snoc_inv
  have hh : s.head ≠ none := fun h0 => by
    have := (hc.head_none_iff).1 h0
    simp at this
  by_cases hp : pre = []
  · subst hp
    have hhd : s.head = some t.1 := by
      obtain ⟨a, v⟩ := t
      exact (Chain.cons_inv hc).1
    refine ⟨⟨s.heap.set t.1 none, none, none⟩, ?_, Seg.nil none, by simp⟩
    simp [LinkedList.pop, hhd, ht, getVal_node hslot, deleteNode_node hslot, bind_ok]
  · obtain ⟨mid, ⟨p, pv⟩, rfl⟩ := exists_snoc hp
    have hc2 : Chain s.heap s.head (mid ++ [(p, pv), t]) := by simpa using hc
    have hne : s.head ≠ s.tail := by
      intro heq
      rw [ht] at heq
      cases mid with
      | nil => exact hnot (by rw [← Option.some.inj ((Chain.cons_inv hc2).1.symm.trans heq)]; simp)
      | cons y mid =>
        obtain ⟨a, v⟩ := y
        exact hnot (by rw [← Option.some.inj ((Chain.cons_inv hc2).1.symm.trans heq)]; simp)
    have hloop := LinkedList.popLoop_spec fuel s.heap s.head mid (p, pv) t hc2
      (by simp at hf; omega)
    obtain ⟨m, hmid, h2⟩ := Seg.split hpre
    have hpm : s.heap[p]? = some (some ⟨pv, some t.1⟩) ∧ m = some p := by
      cases h2 with
      | cons ha hn => cases hn; exact ⟨ha, rfl⟩
    obtain ⟨hpslot, rfl⟩ := hpm
    have hpnot : p ∉ mid.map Prod.fst := by
      have hnd := Chain.nodup hc
      simp only [List.map_append, List.map_cons, List.map_nil, List.append_assoc] at hnd
      intro hmem
      exact (List.nodup_append.1 hnd).2.2 hmem (by simp)
    have hpt : p ≠ t.1 := fun h0 => hnot (by rw [← h0]; simp)
    have hp1 : (s.heap.set t.1 none)[p]? = some (some ⟨pv, some t.1⟩) := by
      rw [slot_set_ne _ _ (Ne.symm hpt)]; exact hpslot
    refine ⟨⟨(s.heap.set t.1 none).set p (some ⟨pv, none⟩), s.head, some p⟩, ?_, ?_, by simp⟩
    · have hne2 : s.head ≠ some t.1 := ht ▸ hne
      simp [LinkedList.pop, hh, hne2, ht, hloop, getVal_node hslot, deleteNode_node hslot,
        bind_ok, setNext_node hp1]
    · refine Seg.append (Seg.frame hmid fun x hx => ?_)
        (Seg.cons (slot_set_self _ hp1) (Seg.nil none))
      rw [slot_set_ne _ _ (fun h0 => hpnot (by simpa [h0] using hx)),
        slot_set_ne _ _ (fun h0 => hnot (by rw [h0]; simp [hx]))]

/-- The method `back` on a list that is not empty returns the value of the last
node. -/
theorem LinkedList.back_spec (s : LinkedList T) (pre : List (Nat × T)) (t : Nat × T)
    (hs : s.Holds (pre ++ [t])) : LinkedList.back s = .ok t.2 := by
  obtain ⟨hc, ht⟩ := hs
  rw [getLast?_snoc, Option.map_some'] at ht
  obtain ⟨_, hslot, _⟩ := hc.snoc_inv
  simp [LinkedList.back, ht, getVal_node hslot]

/-- On the empty list, `pop` and `back` raise `std::underflow_error`. -/
theorem LinkedList.underflow_spec (fuel : Nat) (s : LinkedList T) (hs : s.Holds []) :
    LinkedList.pop fuel s = .error .underflow ∧ LinkedList.back s = .error .underflow := by
  obtain ⟨hc, ht⟩ := hs
  simp [LinkedList.pop, LinkedList.back, hc.nil_inv, ht]

end linked

section linked

variable {T : Type}

theorem LinkedList.popLoop_mono : ∀ (fuel : Nat) (h : Heap T) (tail temp r : Option Nat),
    LinkedList.popLoop fuel h tail temp = .ok r → ∀ k,
    LinkedList.popLoop (fuel + k) h tail temp = .ok r := by
  intro fuel
  induction fuel with
  | zero => intro h tail temp r hr; simp [LinkedList.popLoop] at hr
  | succ fuel ih =>
    intro h tail temp r hr k
    rw [show fuel + 1 + k = (fuel + k) + 1 by omega]
    unfold LinkedList.popLoop at hr ⊢
    cases hn : getNext h temp with
    | error e => simp [hn, Except.bind] at hr
    | ok n =>
      simp only [hn, bind_ok] at hr ⊢
      by_cases hnt : n ≠ tail
      · simp only [hnt, ne_eq, not_false_eq_true, if_true] at hr ⊢
        exact ih h tail n r hr k
      · simp only [hnt, if_false] at hr ⊢
        exact hr

theorem LinkedList.pop_mono (fuel : Nat) (s : LinkedList T) (r : T × LinkedList T)
    (hr : LinkedList.pop fuel s = .ok r) (k : Nat) : LinkedList.pop (fuel + k) s = .ok r := by
  unfold LinkedList.pop at hr ⊢
  by_cases h1 : s.head = none
  · simp [h1] at hr
  · by_cases h2 : s.head = s.tail
    · simpa [h1, h2] using hr
    · simp only [h1, h2, if_false] at hr ⊢
      cases hl : LinkedList.popLoop fuel s.heap s.tail s.head with
      | error e => simp [hl, Except.bind] at hr
      | ok t =>
        rw [LinkedList.popLoop_mono fuel _ _ _ _ hl k]
        rw [hl] at hr
        exact hr

end linked

namespace LinkedList

variable {T : Type} [LinearOrder T]

/-- The method `mergeLists` on two disjoint null-terminated lists returns
the head of a null-terminated list that consists of the same nodes, sorted if
both were; it changes no other slot of the free store. -/
theorem mergeLists_spec : ∀ (fuel : Nat) (h : Heap T) (l r : Option Nat)
    (ls rs : List (Nat × T)), Chain h l ls → Chain h r rs →
    (∀ a ∈ ls.map Prod.fst, a ∉ rs.map Prod.fst) → ls.length + rs.length < fuel →
    ∃ m h2 ms, mergeLists fuel h l r = .ok (m, h2) ∧ Chain h2 m ms ∧ ms.Perm (ls ++ rs) ∧
      ((ls.map Prod.snd).Sorted (· ≤ ·) → (rs.map Prod.snd).Sorted (· ≤ ·) →
        (ms.map Prod.snd).Sorted (· ≤ ·)) ∧
      h2.length = h.length ∧
      ∀ a, a ∉ ls.map Prod.fst → a ∉ rs.map Prod.fst → h2[a]? = h[a]? := by
  intro fuel
  induction fuel with
  | zero => intro h l r ls rs _ _ _ hf; omega
  | succ fuel ih =>
    intro h l r ls rs hl hr hd hf
    cases l with
    | none =>
      rw [hl.none_inv]
      exact ⟨r, h, rs, by simp [mergeLists], hr, by simp, fun _ hs => hs, rfl,
        fun _ _ _ => rfl⟩
    | some a =>
      cases r with
      | none =>
        rw [hr.none_inv]
        exact ⟨some a, h, ls, by simp [mergeLists], hl, by simp, fun hs _ => hs, rfl,
          fun _ _ _ => rfl⟩
      | some b =>
        obtain ⟨lv, ln, ls2, rfl, ha, hl2⟩ := hl.some_inv
        obtain ⟨rv, rn, rs2, rfl, hb, hr2⟩ := hr.some_inv
        have hnl := Chain.nodup hl
        have hnr := Chain.nodup hr
        simp only [List.map_cons, List.nodup_cons] at hnl hnr
        simp only [List.length_cons] at hf
        by_cases hle : lv ≤ rv
        · obtain ⟨m, h1, ms, hm, hc, hp, hs, hlen, hfr⟩ :=
            ih h ln (some b) ls2 ((b, rv) :: rs2) hl2 hr
              (fun x hx => hd x (by simp only [List.map_cons, List.mem_cons]; exact Or.inr hx))
              (by simp only [List.length_cons]; omega)
          have ha1 : h1[a]? = some (some ⟨lv, ln⟩) := by
            rw [hfr a hnl.1 (hd a (by simp))]; exact ha
          have hnm : a ∉ ms.map Prod.fst := by
            intro hmem
            have := (hp.map Prod.fst).subset hmem
            simp only [List.map_append, List.mem_append] at this
            rcases this with h3 | h3
            · exact hnl.1 h3
            · exact hd a (by simp) h3
          refine ⟨some a, h1.set a (some ⟨lv, m⟩), (a, lv) :: ms, ?_, ?_, ?_, ?_, ?_, ?_⟩
          · simp [mergeLists, getVal_node ha, getVal_node hb, hle, getNext_node ha, hm,
              bind_ok, setNext_node ha1]
          · refine Seg.cons (slot_set_self _ ha1) (Seg.frame hc fun x hx => ?_)
            exact slot_set_ne _ _ (fun hax => hnm (hax ▸ hx))
          · simpa using hp
          · intro hsl hsr
            simp only [List.map_cons, List.sorted_cons] at hsl hsr ⊢
            refine ⟨fun y hy => ?_, hs hsl.2 (by simp only [List.map_cons, List.sorted_cons]; exact hsr)⟩
            have := (hp.map Prod.snd).subset hy
            simp only [List.map_append, List.map_cons, List.mem_append, List.mem_cons] at this
            rcases this with h3 | rfl | h3
            · exact hsl.1 y h3
            · exact hle
            · exact le_trans hle (hsr.1 y h3)
          · simp [hlen]
          · intro x hxl hxr
            simp only [List.map_cons, List.mem_cons, not_or] at hxl hxr
            rw [slot_set_ne _ _ (Ne.symm hxl.1)]
            exact hfr x hxl.2 (by simp only [List.map_cons, List.mem_cons, not_or]; exact hxr)
        · obtain ⟨m, h1, ms, hm, hc, hp, hs, hlen, hfr⟩ :=
            ih h (some a) rn ((a, lv) :: ls2) rs2 hl hr2
              (fun x hx hx2 => hd x hx
                (by simp only [List.map_cons, List.mem_cons]; exact Or.inr hx2))
              (by simp only [List.length_cons]; omega)
          have hbl : b ∉ ((a, lv) :: ls2).map Prod.fst := fun hmem => hd b hmem (by simp)
          have hb1 : h1[b]? = some (some ⟨rv, rn⟩) := by
            rw [hfr b hbl hnr.1]; exact hb
          have hnm : b ∉ ms.map Prod.fst := by
            intro hmem
            have := (hp.map Prod.fst).subset hmem
            rw [List.map_append, List.mem_append] at this
            rcases this with h3 | h3
            · exact hbl h3
            · exact hnr.1 h3
          refine ⟨some b, h1.set b (some ⟨rv, m⟩), (b, rv) :: ms, ?_, ?_, ?_, ?_, ?_, ?_⟩
          · simp [mergeLists, getVal_node ha, getVal_node hb, hle, getNext_node hb, hm,
              bind_ok, setNext_node hb1]
          · refine Seg.cons (slot_set_self _ hb1) (Seg.frame hc fun x hx => ?_)
            exact slot_set_ne _ _ (fun hbx => hnm (hbx ▸ hx))
          · refine (List.Perm.cons _ hp).trans ?_
            exact (List.perm_middle).symm
          · intro hsl hsr
            have hlt : rv ≤ lv := le_of_lt (not_le.1 hle)
            simp only [List.map_cons, List.sorted_cons] at hsl hsr ⊢
            refine ⟨fun y hy => ?_, hs (by simp only [List.map_cons, List.sorted_cons]; exact hsl) hsr.2⟩
            have := (hp.map Prod.snd).subset hy
            simp only [List.map_append, List.map_cons, List.mem_append, List.mem_cons] at this
            rcases this with (rfl | h3) | h3
            · exact hlt
            · exact le_trans hlt (hsl.1 y h3)
            · exact hsr.1 y h3
          · simp [hlen]
          · intro x hxl hxr
            simp only [List.map_cons, List.mem_cons, not_or] at hxl hxr
            rw [slot_set_ne _ _ (Ne.symm hxr.1)]
            exact hfr x (by simp only [List.map_cons, List.mem_cons, not_or]; exact hxl) hxr.2

/-- The method `mergeSort` on a null-terminated list returns the head of a sorted
null-terminated list that consists of the same nodes; it changes no other
slot of the free store. -/
theorem mergeSort_spec : ∀ (fuel : Nat) (h : Heap T) (start : Option Nat)
    (xs : List (Nat × T)), Chain h start xs → xs.length + 1 < fuel →
    ∃ p h2 ys, mergeSort fuel h start = .ok (p, h2) ∧ Chain h2 p ys ∧ ys.Perm xs ∧
      (ys.map Prod.snd).Sorted (· ≤ ·) ∧ h2.length = h.length ∧
      ∀ a, a ∉ xs.map Prod.fst → h2[a]? = h[a]? := by
  intro fuel
  induction fuel with
  | zero => intro h start xs _ hf; omega
  | succ fuel ih =>
    intro h start xs hc hf
    cases start with
    | none =>
      refine ⟨none, h, xs, by simp [mergeSort], hc, List.Perm.refl _, ?_, rfl, fun _ _ => rfl⟩
      rw [hc.none_inv]; simp
    | some a =>
      obtain ⟨v, nx, rest, rfl, ha, hrest⟩ := hc.some_inv
      cases nx with
      | none =>
        refine ⟨some a, h, _, by simp [mergeSort, getNext_node ha, bind_ok], hc,
          List.Perm.refl _, ?_, rfl, fun _ _ => rfl⟩
        rw [hrest.none_inv]; simp
      | some b =>
        obtain ⟨v2, nx2, rest2, rfl, hb, hrest2⟩ := hrest.some_inv
        set xs := (a, v) :: (b, v2) :: rest2 with hxs
        have hlen : xs.length = rest2.length + 2 := by simp [hxs]
        obtain ⟨slow, k, hk, hck, hlt⟩ := mergeSortLoop_spec xs fuel h 0 1 (some a) (some b)
          (by simpa using hc) (by simpa [hxs] using hrest) (by omega) rfl (by omega) (by omega)
        obtain ⟨⟨c, vc⟩, hsd⟩ : ∃ x, xs.drop k = x :: xs.drop (k + 1) := by
          rw [List.drop_eq_getElem_cons (by omega)]; exact ⟨_, rfl⟩
        rw [hsd] at hck
        obtain ⟨rfl, sh, hcs, hsh⟩ := hck.cons_inv
        have hsplit : xs = xs.take k ++ (c, vc) :: xs.drop (k + 1) := by
          rw [← hsd, List.take_append_drop]
        have hnd := Chain.nodup hc
        rw [hsplit] at hc hnd
        obtain ⟨m, hpre, hm⟩ := Seg.split hc
        have hm2 : Chain h m ((c, vc) :: xs.drop (k + 1)) := hm
        obtain ⟨rfl, _⟩ := hm2.cons_inv
        simp only [List.map_append, List.map_cons] at hnd
        have hnd1 := List.nodup_append.1 hnd
        have hnd2 := List.nodup_cons.1 hnd1.2.1
        have hdisj := hnd1.2.2
        -- the free store after `slow->setNext(nullptr)`
        set h1 := h.set c (some ⟨vc, none⟩) with hh1
        have hfirst : Chain h1 (some a) (xs.take k ++ [(c, vc)]) := by
          refine Seg.append (Seg.frame hpre fun x hx => ?_)
            (Seg.cons (slot_set_self _ hcs) (Seg.nil none))
          exact slot_set_ne _ _ (fun hcx => hdisj hx (by rw [← hcx]; simp))
        have hsecond : Chain h1 sh (xs.drop (k + 1)) :=
          Seg.frame hsh fun x hx => slot_set_ne _ _ (fun hcx => hnd2.1 (hcx ▸ hx))
        have hlt1 : (xs.take k ++ [(c, vc)]).length = k + 1 := by
          simp [List.length_take]; omega
        have hlt2 : (xs.drop (k + 1)).length = xs.length - (k + 1) := by simp
        obtain ⟨l, h2, ys1, hl, hcl, hpl, hsl, hlen2, hfr2⟩ :=
          ih h1 (some a) _ hfirst (by omega)
        have hd12 : ∀ x ∈ (xs.take k ++ [(c, vc)]).map Prod.fst,
            x ∉ (xs.drop (k + 1)).map Prod.fst := by
          intro x hx hx2
          simp only [List.map_append, List.map_cons, List.map_nil, List.mem_append,
            List.mem_singleton] at hx
          rcases hx with hx | rfl
          · exact hdisj hx (List.mem_cons_of_mem _ hx2)
          · exact hnd2.1 hx2
        have hsecond2 : Chain h2 sh (xs.drop (k + 1)) :=
          Seg.frame hsecond fun x hx => hfr2 x fun hx2 => hd12 x hx2 hx
        obtain ⟨r, h3, ys2, hr, hcr, hpr, hsr, hlen3, hfr3⟩ :=
          ih h2 sh _ hsecond2 (by omega)
        have hd21 : ∀ x ∈ ys1.map Prod.fst, x ∉ ys2.map Prod.fst := by
          intro x hx hx2
          exact hd12 x ((hpl.map Prod.fst).subset hx) ((hpr.map Prod.fst).subset hx2)
        have hcl3 : Chain h3 l ys1 :=
          Seg.frame hcl fun x hx => hfr3 x fun hx2 =>
            hd12 x ((hpl.map Prod.fst).subset hx) hx2
        obtain ⟨p, h4, ms, hmm, hcm, hpm, hsm, hlen4, hfr4⟩ :=
          mergeLists_spec fuel h3 l r ys1 ys2 hcl3 hcr hd21
            (by rw [hpl.length_eq, hpr.length_eq]; omega)
        refine ⟨p, h4, ms, ?_, hcm, ?_, hsm hsl hsr, ?_, ?_⟩
        · simp [mergeSort, getNext_node ha, bind_ok, hk, getNext_node hcs,
            setNext_node hcs, ← hh1, hl, hr, hmm]
        · refine hpm.trans ((hpl.append hpr).trans ?_)
          rw [List.append_assoc]
          exact List.Perm.of_eq (by simpa using hsplit.symm)
        · rw [hlen4, hlen3, hlen2, hh1]; simp
        · intro x hx
          have hx1 : x ∉ (xs.take k ++ [(c, vc)]).map Prod.fst := by
            intro hmem; apply hx
            rw [hsplit]
            simp only [List.map_append, List.map_cons, List.map_nil, List.mem_append,
              List.mem_singleton, List.mem_cons] at hmem ⊢
            rcases hmem with h5 | h5 | h5
            · exact Or.inl h5
            · exact Or.inr (Or.inl h5)
            · cases h5
          have hx2 : x ∉ (xs.drop (k + 1)).map Prod.fst := by
            intro hmem; apply hx
            rw [hsplit]
            simp only [List.map_append, List.map_cons, List.mem_append, List.mem_cons]
            exact Or.inr (Or.inr hmem)
          rw [hfr4 x (fun h5 => hx1 ((hpl.map Prod.fst).subset h5))
            (fun h5 => hx2 ((hpr.map Prod.fst).subset h5)), hfr3 x hx2, hfr2 x hx1]
          refine slot_set_ne _ _ fun hcx => hx1 ?_
          rw [← hcx]; simp

end LinkedList

namespace LinkedList

variable {T : Type} [LinearOrder T]

/-- The list of `main` is what its constructor call builds. -/
theorem demoList_built : fromList ([] : Heap Int) [1, 2, 3, 5, 4] = .ok demoList := by rfl

/-- The nodes of the list of `main`. -/
theorem demoList_chain :
    Chain demoList.heap demoList.head [(0, 1), (1, 2), (2, 3), (3, 5), (4, 4)] :=
  Seg.cons rfl (Seg.cons rfl (Seg.cons rfl (Seg.cons rfl (Seg.cons rfl (Seg.nil none)))))

/-- The test of `main`: after `sort()` the list prints 1, 2, 3, 4, 5 and `tail` is
the node that holds 5. -/
theorem sort_demo :
    (sort 7 demoList).bind (fun s2 =>
      (print 7 s2.heap s2.head).bind fun vs => (getVal s2.heap s2.tail).bind fun v =>
        .ok (vs, v)) = .ok ([1, 2, 3, 4, 5], 5) := by rfl

end LinkedList

/-! ## Claims about the linked list -/

namespace LinkedList

variable {T : Type} [LinearOrder T]

/-- C17. For every list, that is every state of a `LinkedList` whose `head`
starts a null-terminated list of nodes `xs`, `sort()` returns (with fuel above
the size plus one); afterwards the list consists of the same nodes `ys`, a
permutation of `xs`, so the values printed after the call are a permutation
of the values printed before it and as many; they are sorted in
non-decreasing order, and `tail` designates the last node. -/
theorem sort_sorted (fuel : Nat) (s : LinkedList T) (xs : List (Nat × T))
    (hc : Chain s.heap s.head xs) (hf : xs.length + 1 < fuel) :
    ∃ s2 ys, sort fuel s = .ok s2 ∧ s2.Holds ys ∧ ys.Perm xs ∧
      print fuel s.heap s.head = .ok (xs.map Prod.snd) ∧
      print fuel s2.heap s2.head = .ok (ys.map Prod.snd) ∧
      (ys.map Prod.snd).Sorted (· ≤ ·) ∧ (ys.map Prod.snd).Perm (xs.map Prod.snd) ∧
      ys.length = xs.length := by
  obtain ⟨p, h2, ys, hm, hcy, hperm, hsort, _, _⟩ := mergeSort_spec fuel s.heap s.head xs hc hf
  have hlen := hperm.length_eq
  have hp1 := print_spec fuel s.heap s.head xs hc (by omega)
  have hp2 := print_spec fuel h2 p ys hcy (by omega)
  by_cases hy : ys = []
  · subst hy
    have hpn := hcy.nil_inv
    subst hpn
    refine ⟨⟨h2, none, none⟩, [], by simp [sort, hm, bind_ok], ⟨hcy, by simp⟩, hperm, hp1, hp2,
      hsort, hperm.map _, hlen⟩
  · obtain ⟨pre, t, rfl⟩ := exists_snoc hy
    have hpn : p ≠ none := fun h0 => hy ((hcy.head_none_iff).1 h0)
    have hloop := sortLoop_spec fuel h2 p pre t hcy (by simp at hlen; omega)
    refine ⟨⟨h2, p, some t.1⟩, pre ++ [t], by simp [sort, hm, bind_ok, hpn, hloop],
      ⟨hcy, by simp⟩, hperm, hp1, hp2, hsort, hperm.map _, hlen⟩

/-- The list {1, 2, 3, 5, 4} of `main` meets the hypotheses of `sort_sorted`. -/
theorem sort_sorted_witness :
    ∃ s2 ys, sort 7 demoList = .ok s2 ∧ s2.Holds ys ∧
      ys.Perm [(0, 1), (1, 2), (2, 3), (3, 5), (4, 4)] ∧
      print 7 demoList.heap demoList.head =
        .ok (([(0, 1), (1, 2), (2, 3), (3, 5), (4, 4)] : List (Nat × Int)).map Prod.snd) ∧
      print 7 s2.heap s2.head = .ok (ys.map Prod.snd) ∧
      (ys.map Prod.snd).Sorted (· ≤ ·) ∧
      (ys.map Prod.snd).Perm
        (([(0, 1), (1, 2), (2, 3), (3, 5), (4, 4)] : List (Nat × Int)).map Prod.snd) ∧
      ys.length = ([(0, 1), (1, 2), (2, 3), (3, 5), (4, 4)] : List (Nat × Int)).length :=
  sort_sorted 7 demoList [(0, 1), (1, 2), (2, 3), (3, 5), (4, 4)] demoList_chain (by decide)

end LinkedList

/-! ## The priority queue -/

namespace PriorityQueue

variable {T : Type} [LinearOrder T]

theorem pushLoop_mono (val : T) : ∀ (fuel : Nat) (h : Heap T) (temp prev : Option Nat)
    (r : Option Nat × Option Nat), pushLoop fuel h val temp prev = .ok r → ∀ k,
    pushLoop (fuel + k) h val temp prev = .ok r := by
  intro fuel
  induction fuel with
  | zero => intro h temp prev r hr; simp [pushLoop] at hr
  | succ fuel ih =>
    intro h temp prev r hr k
    rw [show fuel + 1 + k = (fuel + k) + 1 by omega]
    unfold pushLoop at hr ⊢
    by_cases ht : temp = none
    · simpa [ht] using hr
    · simp only [ht, if_false] at hr ⊢
      cases hv : getVal h temp with
      | error e => simp [hv, Except.bind] at hr
      | ok tv =>
        simp only [hv, bind_ok] at hr ⊢
        by_cases hlt : tv < val
        · simp only [hlt, if_true] at hr ⊢
          cases hn : getNext h temp with
          | error e => simp [hn, Except.bind] at hr
          | ok n =>
            simp only [hn, bind_ok] at hr ⊢
            exact ih h n temp r hr k
        · simpa [hlt] using hr

theorem push_mono (fuel : Nat) (s : PriorityQueue T) (val : T) (r : PriorityQueue T)
    (hr : push fuel s val = .ok r) (k : Nat) : push (fuel + k) s val = .ok r := by
  unfold push at hr ⊢
  by_cases h1 : LinkedList.empty s
  · simpa [h1] using hr
  · simp only [h1, Bool.false_eq_true, if_false] at hr ⊢
    cases hl : pushLoop fuel s.heap val s.head none with
    | error e => simp [hl, Except.bind] at hr
    | ok w =>
      rw [pushLoop_mono val fuel _ _ _ _ hl k]
      rw [hl] at hr
      exact hr

/-- The search loop of `push` stops on the first node whose value is not below
`val`, with `prev` on the node before it. -/
theorem pushLoop_spec (val : T) : ∀ (fuel : Nat) (h : Heap T) (pre suf : List (Nat × T))
    (temp : Option Nat), Chain h temp suf → (∀ x ∈ pre, x.2 < val) → suf.length < fuel →
    ∃ pre2 suf2 temp2, pushLoop fuel h val temp (pre.getLast?.map Prod.fst) =
        .ok (temp2, pre2.getLast?.map Prod.fst) ∧
      pre ++ suf = pre2 ++ suf2 ∧ Chain h temp2 suf2 ∧ (∀ x ∈ pre2, x.2 < val) ∧
      ∀ x ∈ suf2.head?, ¬ x.2 < val := by
  intro fuel
  induction fuel with
  | zero => intro h pre suf temp _ _ hf; omega
  | succ fuel ih =>
    intro h pre suf temp hc hpre hf
    cases suf with
    | nil =>
      have := hc.nil_inv
      subst this
      exact ⟨pre, [], none, by simp [pushLoop], rfl, hc, hpre, by simp⟩
    | cons x suf =>
      obtain ⟨a, v⟩ := x
      obtain ⟨rfl, nx, ha, hn⟩ := Chain.cons_inv hc
      simp only [List.length_cons] at hf
      by_cases hlt : v < val
      · obtain ⟨pre2, suf2, temp2, hl, happ, hc2, hp2, hs2⟩ :=
          ih h (pre ++ [(a, v)]) suf nx hn
            (fun x hx => by
              rcases List.mem_append.1 hx with h1 | h1
              · exact hpre x h1
              · rw [List.mem_singleton.1 h1]; exact hlt)
            (by omega)
        rw [getLast?_snoc, Option.map_some'] at hl
        refine ⟨pre2, suf2, temp2, ?_, ?_, hc2, hp2, hs2⟩
        · simp [pushLoop, getVal_node ha, getNext_node ha, bind_ok, hlt, hl]
        · rw [← happ]; simp
      · exact ⟨pre, (a, v) :: suf, some a, by simp [pushLoop, getVal_node ha, bind_ok, hlt],
          rfl, hc, hpre, by simpa using hlt⟩

theorem sorted_insert {pre suf : List (Nat × T)} (n : Nat) {val : T}
    (hs : ((pre ++ suf).map Prod.snd).Sorted (· ≤ ·)) (hpre : ∀ x ∈ pre, x.2 < val)
    (hsuf : ∀ x ∈ suf.head?, ¬ x.2 < val) :
    ((pre ++ (n, val) :: suf).map Prod.snd).Sorted (· ≤ ·) := by
  simp only [List.map_append, List.map_cons, List.Sorted, List.pairwise_append,
    List.pairwise_cons, List.mem_cons, List.mem_map] at hs ⊢
  obtain ⟨h1, h2, h3⟩ := hs
  have hval : ∀ y ∈ suf, val ≤ y.2 := by
    intro y hy
    cases suf with
    | nil => cases hy
    | cons x suf =>
      have hx : val ≤ x.2 := not_lt.1 (hsuf x (by simp))
      simp only [List.map_cons, List.pairwise_cons, List.mem_map] at h2
      rcases List.mem_cons.1 hy with rfl | hy
      · exact hx
      · exact le_trans hx (h2.1 _ ⟨y, hy, rfl⟩)
  refine ⟨h1, ⟨?_, h2⟩, ?_⟩
  · rintro b ⟨y, hy, rfl⟩
    exact hval y hy
  · rintro a ⟨x, hx, rfl⟩ b hb
    rcases hb with rfl | ⟨y, hy, rfl⟩
    · exact le_of_lt (hpre x hx)
    · exact h3 _ ⟨x, hx, rfl⟩ _ ⟨y, hy, rfl⟩

/-- The method `PriorityQueue::push` on a sorted list inserts a node that holds
`val` and keeps the list sorted. -/
theorem push_sorted (fuel : Nat) (s : PriorityQueue T) (xs : List (Nat × T)) (val : T)
    (hs : s.Holds xs) (hsort : (xs.map Prod.snd).Sorted (· ≤ ·)) (hf : xs.length < fuel) :
    ∃ s2 pre suf, xs = pre ++ suf ∧ push fuel s val = .ok s2 ∧
      s2.Holds (pre ++ (s.heap.length, val) :: suf) ∧
      ((pre ++ (s.heap.length, val) :: suf).map Prod.snd).Sorted (· ≤ ·) := by
  by_cases hx : xs = []
  · subst hx
    obtain ⟨s2, h1, h2⟩ := LinkedList.push_spec s [] val hs
    have hh := hs.1.nil_inv
    exact ⟨s2, [], [], rfl, by simp [push, LinkedList.empty, hh, h1], h2, by simp⟩
  · obtain ⟨hc, ht⟩ := hs
    have hh : s.head ≠ none := fun h0 => hx ((hc.head_none_iff).1 h0)
    obtain ⟨pre, suf, temp, hl, happ, hcs, hpre, hsuf⟩ :=
      pushLoop_spec val fuel s.heap [] xs s.head hc (by simp) hf
    simp only [List.getLast?_nil, Option.map_none', List.nil_append] at hl happ
    subst happ
    have hsorted := sorted_insert s.heap.length hsort hpre hsuf
    have hnd := Chain.nodup hc
    have hlt := Seg.addr_lt hc
    obtain ⟨q, t, hq⟩ := exists_snoc hx
    have htail : s.tail = some t.1 := by rw [ht, hq, getLast?_snoc]; rfl
    set len := s.heap.length with hlen
    set h1 := (s.heap ++ [some (Node.mk val none)]).set len (some (Node.mk val temp)) with hh1
    have hfr1 : ∀ x, x < len → h1[x]? = s.heap[x]? := by
      intro x hxl
      rw [hh1, slot_set_ne _ _ (by omega)]
      exact List.getElem?_append_left hxl
    have hnew : h1[len]? = some (some ⟨val, temp⟩) := slot_set_self _ (slot_fresh _ _)
    have hset : setNext (s.heap ++ [some (Node.mk val none)]) (some len) temp = .ok h1 :=
      setNext_node (slot_fresh _ _) _
    by_cases hp : pre = []
    · subst hp
      have htemp : temp = s.head := Chain.ptr_eq hcs (by simpa using hc)
      subst htemp
      refine ⟨⟨h1, some len, s.tail⟩, [], suf, rfl, ?_, ⟨?_, ?_⟩, hsorted⟩
      · simp [push, LinkedList.empty, hh, hl, bind_ok, newNode, ← hlen, hset, htail]
      · exact Seg.cons hnew (Seg.frame hcs fun x hx2 => hfr1 x (hlt x (by simpa using hx2)))
      · simp only [List.nil_append] at hq ⊢
        rw [htail, hq, ← List.cons_append, getLast?_snoc]
        rfl
    · obtain ⟨pre3, ⟨pa, pv⟩, rfl⟩ := exists_snoc hp
      rw [getLast?_snoc, Option.map_some'] at hl
      obtain ⟨m, hseg, hm⟩ := Seg.split hc
      obtain ⟨m2, hpre3, hpa⟩ := Seg.split hseg
      have hpm : s.heap[pa]? = some (some ⟨pv, m⟩) ∧ m2 = some pa := by
        cases hpa with
        | cons ha hn => cases hn; exact ⟨ha, rfl⟩
      obtain ⟨hpslot, rfl⟩ := hpm
      simp only [List.map_append, List.map_cons, List.map_nil, List.append_assoc] at hnd
      have hnd1 := List.nodup_append.1 hnd
      have hpalt : pa < len := slot_lt hpslot
      have hpa1 : h1[pa]? = some (some ⟨pv, m⟩) := by rw [hfr1 pa hpalt]; exact hpslot
      set h2 := h1.set pa (some (Node.mk pv (some len))) with hh2
      have hfr2 : ∀ x, x < len → x ≠ pa → h2[x]? = s.heap[x]? := by
        intro x hxl hxp
        rw [hh2, slot_set_ne _ _ (Ne.symm hxp)]
        exact hfr1 x hxl
      have hsuflt : ∀ x ∈ suf.map Prod.fst, x < len ∧ x ≠ pa := by
        intro x hx2
        refine ⟨hlt x (by simp only [List.map_append, List.mem_append]; exact Or.inr hx2), ?_⟩
        rintro rfl
        have := List.nodup_cons.1 ((List.nodup_append.1 hnd).2.1)
        exact this.1 hx2
      refine ⟨⟨h2, s.head, if temp = none then some len else s.tail⟩, pre3 ++ [(pa, pv)], suf,
        rfl, ?_, ⟨?_, ?_⟩, hsorted⟩
      · simp [push, LinkedList.empty, hh, hl, bind_ok, newNode, ← hlen, hset,
          setNext_node hpa1, ← hh2]
      · refine Seg.append (Seg.append (Seg.frame hpre3 fun x hx2 => ?_)
          (Seg.cons (slot_set_self _ hpa1) (Seg.nil _))) (Seg.cons ?_ (Seg.frame hcs ?_))
        · refine hfr2 x (hlt x ?_) ?_
          · simp only [List.map_append, List.mem_append]; exact Or.inl (Or.inl hx2)
          · rintro rfl
            exact hnd1.2.2 hx2 (by simp)
        · rw [hh2, slot_set_ne _ _ (by omega)]; exact hnew
        · intro x hx2
          exact hfr2 x (hsuflt x hx2).1 (hsuflt x hx2).2
      · by_cases hsn : suf = []
        · subst hsn
          have := hcs.nil_inv
          subst this
          simp
        · have htn : temp ≠ none := fun h0 => hsn ((hcs.head_none_iff).1 h0)
          obtain ⟨q2, t2, rfl⟩ := exists_snoc hsn
          rw [if_neg htn, ht]
          rw [show pre3 ++ [(pa, pv)] ++ (q2 ++ [t2]) = (pre3 ++ [(pa, pv)] ++ q2) ++ [t2] by simp,
            show pre3 ++ [(pa, pv)] ++ (len, val) :: (q2 ++ [t2]) =
              (pre3 ++ [(pa, pv)] ++ (len, val) :: q2) ++ [t2] by simp,
            getLast?_snoc, getLast?_snoc]

/-- Every state that a `PriorityQueue` goes through is a well-formed list whose
values are sorted in non-decreasing order. -/
theorem Reachable.sorted {s : PriorityQueue T} (hr : Reachable s) :
    ∃ xs, s.Holds xs ∧ (xs.map Prod.snd).Sorted (· ≤ ·) := by
  induction hr with
  | ctor h => exact ⟨[], ⟨Seg.nil none, rfl⟩, by simp⟩
  | push fuel val _ hp ih =>
    obtain ⟨xs, hs, hsort⟩ := ih
    obtain ⟨s3, pre, suf, _, h3, hh, hso⟩ :=
      push_sorted (fuel + (xs.length + 1)) _ xs val hs hsort (by omega)
    rw [push_mono fuel _ val _ hp (xs.length + 1)] at h3
    cases h3
    exact ⟨_, hh, hso⟩
  | pop fuel val _ hp ih =>
    obtain ⟨xs, hs, hsort⟩ := ih
    by_cases hx : xs = []
    · subst hx
      have hp2 : LinkedList.pop fuel _ = .ok (val, _) := hp
      rw [(LinkedList.underflow_spec fuel _ hs).1] at hp2
      cases hp2
    · obtain ⟨pre, t, rfl⟩ := exists_snoc hx
      obtain ⟨s3, h3, hh⟩ := LinkedList.pop_spec (fuel + pre.length) _ pre t hs (by omega)
      have hp2 : LinkedList.pop fuel _ = .ok (val, _) := hp
      rw [LinkedList.pop_mono fuel _ _ hp2 pre.length] at h3
      cases h3
      refine ⟨pre, hh, ?_⟩
      simp only [List.map_append, List.Sorted, List.pairwise_append] at hsort
      exact hsort.1

end PriorityQueue

/-! ## Claims about the priority queue -/

namespace PriorityQueue

variable {T : Type} [LinearOrder T]

/-- The test of `main`: the four `push` calls build the queue that prints
1, 3, 4, 5; `top()` is 5, and `pop()` returns 5 and leaves 1, 3, 4. -/
theorem queue_demo :
    ((((push 5 (ctor ([] : Heap Int)) 3).bind fun s => push 5 s 5).bind
        fun s => push 5 s 1).bind fun s => push 5 s 4) = .ok demoQueue ∧
      LinkedList.print 5 demoQueue.heap demoQueue.head = .ok [1, 3, 4, 5] ∧
      top demoQueue = .ok 5 ∧
      (pop 5 demoQueue).bind (fun r =>
        (LinkedList.print 5 r.2.heap r.2.head).bind fun vs => .ok (r.1, vs)) =
        .ok (5, [1, 3, 4]) := by
  refine ⟨?_, ?_, ?_, ?_⟩ <;> rfl

/-- The queue of `main` is a state that a `PriorityQueue` goes through. -/
theorem demoQueue_reachable : Reachable demoQueue := by
  have h0 : Reachable (ctor ([] : Heap Int)) := Reachable.ctor []
  have h1 : Reachable (⟨[some ⟨3, none⟩], some 0, some 0⟩ : PriorityQueue Int) :=
    Reachable.push 5 3 h0 (by rfl)
  have h2 : Reachable (⟨[some ⟨3, some 1⟩, some ⟨5, none⟩], some 0, some 1⟩ :
      PriorityQueue Int) := Reachable.push 5 5 h1 (by rfl)
  have h3 : Reachable (⟨[some ⟨3, some 1⟩, some ⟨5, none⟩, some ⟨1, some 0⟩], some 2, some 1⟩ :
      PriorityQueue Int) := Reachable.push 5 1 h2 (by rfl)
  exact Reachable.push 5 4 h3 (by rfl)

/-- C20. Every state `s` that a `PriorityQueue` goes through, from its
construction (empty) through any sequence of `push` and `pop` calls, is a
null-terminated list of nodes `xs` whose `tail` designates the last node and
whose values are sorted in non-decreasing order; `print` shows them.  On it
`push(val)` returns and adds `val` to the stored values.  When the queue is
empty `top()` and `pop()` raise `std::underflow_error`.  Otherwise `top()`
returns a stored value `m` that no stored value exceeds, and `pop()` returns
the same `m` and removes the last node, which holds it. -/
theorem order_kept (s : PriorityQueue T) (hr : Reachable s) :
    ∃ xs, s.Holds xs ∧ (xs.map Prod.snd).Sorted (· ≤ ·) ∧
      (∀ fuel, xs.length < fuel →
        LinkedList.print fuel s.heap s.head = .ok (xs.map Prod.snd)) ∧
      (∀ fuel val, xs.length < fuel → ∃ s2 ys, push fuel s val = .ok s2 ∧ s2.Holds ys ∧
        (ys.map Prod.snd).Perm (val :: xs.map Prod.snd)) ∧
      (xs = [] → top s = .error .underflow ∧ ∀ fuel, pop fuel s = .error .underflow) ∧
      (xs ≠ [] → ∃ m, top s = .ok m ∧ m ∈ xs.map Prod.snd ∧
        (∀ v ∈ xs.map Prod.snd, v ≤ m) ∧
        ∀ fuel, xs.length ≤ fuel → ∃ s2, pop fuel s = .ok (m, s2) ∧ s2.Holds xs.dropLast ∧
          (xs.map Prod.snd).Perm (m :: xs.dropLast.map Prod.snd)) := by
  obtain ⟨xs, hs, hsort⟩ := hr.sorted
  refine ⟨xs, hs, hsort, fun fuel hf => LinkedList.print_spec fuel _ _ xs hs.1 hf, ?_, ?_, ?_⟩
  · intro fuel val hf
    obtain ⟨s2, pre, suf, hx, hp, hh, _⟩ := push_sorted fuel s xs val hs hsort hf
    refine ⟨s2, _, hp, hh, ?_⟩
    rw [hx]
    simp only [List.map_append, List.map_cons]
    exact List.perm_middle
  · rintro rfl
    exact ⟨(LinkedList.underflow_spec 0 s hs).2, fun fuel =>
      (LinkedList.underflow_spec fuel s hs).1⟩
  · intro hx
    obtain ⟨pre, t, rfl⟩ := exists_snoc hx
    refine ⟨t.2, LinkedList.back_spec s pre t hs, by simp, ?_, ?_⟩
    · intro v hv
      simp only [List.map_append, List.map_cons, List.map_nil, List.Sorted,
        List.pairwise_append, List.mem_singleton] at hsort
      simp only [List.map_append, List.map_cons, List.map_nil, List.mem_append,
        List.mem_singleton] at hv
      rcases hv with hv | rfl
      · exact hsort.2.2 v hv _ rfl
      · exact le_refl _
    · intro fuel hf
      obtain ⟨s2, hp, hh⟩ := LinkedList.pop_spec fuel s pre t hs
        (by simp only [List.length_append, List.length_singleton] at hf; omega)
      refine ⟨s2, hp, by simpa using hh, ?_⟩
      simp only [List.dropLast_concat, List.map_append, List.map_cons, List.map_nil]
      exact (List.perm_append_singleton _ _)

/-- The queue of `main`, after its four `push` calls, meets the hypothesis of
`order_kept`. -/
theorem order_kept_witness :
    Reachable demoQueue ∧
    ∃ xs, demoQueue.Holds xs ∧ (xs.map Prod.snd).Sorted (· ≤ ·) ∧
      (∀ fuel, xs.length < fuel →
        LinkedList.print fuel demoQueue.heap demoQueue.head = .ok (xs.map Prod.snd)) ∧
      (∀ fuel val, xs.length < fuel → ∃ s2 ys, push fuel demoQueue val = .ok s2 ∧
        s2.Holds ys ∧ (ys.map Prod.snd).Perm (val :: xs.map Prod.snd)) ∧
      (xs = [] → top demoQueue = .error .underflow ∧
        ∀ fuel, pop fuel demoQueue = .error .underflow) ∧
      (xs ≠ [] → ∃ m, top demoQueue = .ok m ∧ m ∈ xs.map Prod.snd ∧
        (∀ v ∈ xs.map Prod.snd, v ≤ m) ∧
        ∀ fuel, xs.length ≤ fuel → ∃ s2, pop fuel demoQueue = .ok (m, s2) ∧
          s2.Holds xs.dropLast ∧ (xs.map Prod.snd).Perm (m :: xs.dropLast.map Prod.snd)) :=
  ⟨demoQueue_reachable, order_kept demoQueue demoQueue_reachable⟩

end PriorityQueue

/-! ## The calls of the recursions over the implicit tree -/

section calls

variable {R : Type} [CommRing R]

/-- Below a call on a non-empty part of `[0, n - 1]`, a recursion that only
goes on at nodes of more than one element makes calls on non-empty parts of
`[0, n - 1]`, all of them at nodes of the tree. -/
theorem Calls.ctx {n : Int} {go q : Int → Int → Int → Prop}
    (hgo : ∀ i l r, Ctx n i l r → go i l r → l < r ∧ q i l r)
    {idx left right j a b : Int} (h : Calls go idx left right j a b) :
    Ctx n idx left right → Ctx n j a b ∧ Calls q idx left right j a b := by
  induction h with
  | here i l r => intro hc; exact ⟨hc, Calls.here i l r⟩
  | @left idx left right j a b g _ ih =>
    intro hc
    obtain ⟨hlt, g2⟩ := hgo _ _ _ hc g
    have hcl := hc.left_child hlt
    rw [← hc.mid_eq] at hcl
    obtain ⟨c, k⟩ := ih hcl
    exact ⟨c, Calls.left g2 k⟩
  | @right idx left right j a b g _ ih =>
    intro hc
    obtain ⟨hlt, g2⟩ := hgo _ _ _ hc g
    have hcr := hc.right_child hlt
    rw [← hc.mid_eq] at hcr
    obtain ⟨c, k⟩ := ih hcr
    exact ⟨c, Calls.right g2 k⟩

theorem Calls.desc {go : Int → Int → Int → Prop} {idx left right j a b : Int}
    (h : Calls go idx left right j a b) : Desc idx j := by
  induction h with
  | here i l r => exact Desc.refl i
  | left _ _ ih => exact Desc.left ih
  | right _ _ ih => exact Desc.right ih

theorem rangeGoes_lt {n ql qr i l r : Int} (hc : Ctx n i l r) (h : rangeGoes ql qr i l r) :
    l < r := by
  obtain ⟨_, h1, _⟩ := hc
  unfold rangeGoes at h
  omega

theorem buildGoes_lt {n i l r : Int} (hc : Ctx n i l r) (h : buildGoes i l r) : l < r := by
  obtain ⟨_, h1, _⟩ := hc
  unfold buildGoes at h
  omega

/-- Every node of the tree over `[0, n - 1]` satisfies the bounds of `Ctx`. -/
theorem InTree.bounds {n j a b : Int} (hn : 1 ≤ n) (h : InTree n j a b) : Ctx n j a b :=
  (Calls.ctx (q := fun _ _ _ => True) (fun _ _ _ _ g => ⟨g, trivial⟩) h (Ctx.root hn)).1

/-- A subtree stands for the same values as the tree when no node on the way
down to it has a pending delta. -/
theorem Rep.at_call {S L : Int → R} {n : Int} {idx left right j a b : Int}
    (h : Calls (fun i l r => l < r ∧ L i = 0) idx left right j a b) :
    ∀ f : Int → R, Ctx n idx left right → Rep S L idx left right f → Rep S L j a b f := by
  induction h with
  | here i l r => intro f _ hr; exact hr
  | @left idx left right j a b g _ ih =>
    intro f hc hr
    obtain ⟨c1, _⟩ := hr.children g.1
    have hcl := hc.left_child g.1
    rw [← hc.mid_eq] at hcl c1
    exact ih f hcl (c1.ext _ fun i _ _ => by show f i - L idx = f i; rw [g.2]; ring)
  | @right idx left right j a b g _ ih =>
    intro f hc hr
    obtain ⟨_, c2⟩ := hr.children g.1
    have hcr := hc.right_child g.1
    rw [← hc.mid_eq] at hcr c2
    exact ih f hcr (c2.ext _ fun i _ _ => by show f i - L idx = f i; rw [g.2]; ring)

/-- Every subtree stands for some values. -/
theorem Rep.at_node {S L : Int → R} {n : Int} {idx left right j a b : Int}
    (h : Calls (fun _ l r => l < r) idx left right j a b) :
    ∀ f : Int → R, Ctx n idx left right → Rep S L idx left right f →
      ∃ g, Rep S L j a b g := by
  induction h with
  | here i l r => intro f _ hr; exact ⟨f, hr⟩
  | @left idx left right j a b g _ ih =>
    intro f hc hr
    obtain ⟨c1, _⟩ := hr.children g
    have hcl := hc.left_child g
    rw [← hc.mid_eq] at hcl c1
    exact ih _ hcl c1
  | @right idx left right j a b g _ ih =>
    intro f hc hr
    obtain ⟨_, c2⟩ := hr.children g
    have hcr := hc.right_child g
    rw [← hc.mid_eq] at hcr c2
    exact ih _ hcr c2

/-- The aggregate of a node of more than one element is the sum, over its two
children, of the aggregate of the child plus its pending delta on each of
its elements. -/
theorem Rep.local_eq {S L : Int → R} {idx left right : Int} {f : Int → R}
    (h : Rep S L idx left right f) (hlt : left < right) :
    S idx = (S (idx * 2) + (((left + right) / 2 - left + 1 : Int) : R) * L (idx * 2)) +
      (S (idx * 2 + 1) + ((right - (left + right) / 2 : Int) : R) * L (idx * 2 + 1)) := by
  have htop := h.top
  obtain ⟨c1, c2⟩ := h.children hlt
  have t1 := c1.top
  have t2 := c2.top
  rw [Finset.sum_sub_distrib, sum_Icc_const _ _ _ (by omega)] at t1 t2
  rw [sum_Icc_split f left ((left + right) / 2) right (by omega) (by omega)] at htop
  have e2 : right - ((left + right) / 2 + 1) + 1 = right - (left + right) / 2 := by ring
  rw [e2] at t2
  have e3 : ((right - left + 1 : Int) : R)
      = (((left + right) / 2 - left + 1 : Int) : R) + ((right - (left + right) / 2 : Int) : R) := by
    rw [← Int.cast_add]
    congr 1
    ring
  rw [e3] at htop
  linear_combination htop - t1 - t2

end calls

/-! ## The nodes of the segment tree after an operation -/

namespace SegmentTree

variable {R : Type} [CommRing R] [DecidableEq R]

omit [DecidableEq R] in
/-- Whatever the fuel, after the constructor and `build` no delta is pending. -/
theorem fromArray_lazy {fuel : Nat} {A : List R} (h1 : 1 ≤ A.length) {s : SegmentTree R}
    (e : fromArray fuel A = .ok s) : s.lazy = List.replicate (4 * A.length) 0 := by
  have hn : (1 : Int) ≤ (A.length : Int) := by omega
  have h2 : (A.length : Int) < 2 ^ 29 := by exact_mod_cast fromArray_bound e
  obtain ⟨t, e1, _, hl, _⟩ := buildRec_spec A rfl (max fuel A.length)
    { seg := List.replicate (4 * (A.length : Int)).toNat (0 : R)
      lazy := List.replicate (4 * (A.length : Int)).toNat (0 : R)
      n := (A.length : Int) } 1 0 ((A.length : Int) - 1) (Ctx.root hn)
    (by simp only [List.length_replicate]; omega)
    (fun j => cell_replicate _ j) (by omega)
  simp only [fromArray, ctor_ok _ (by omega) h2, bind_ok, build] at e
  have e3 := buildRec_mono A fuel (max fuel A.length) _ 1 0 _ s (le_max_left _ _) e
  have e4 := e1.symm.trans e3
  injection e4 with e4
  subst e4
  rw [hl]
  show List.replicate (4 * (A.length : Int)).toNat (0 : R) = _
  refine congrArg (fun m => List.replicate m (0 : R)) ?_
  omega

/-- The result of `query_inv`, with the fact that the root is left without a
pending delta. -/
theorem query_root {s : SegmentTree R} {f : Int → R} (h : Inv s f) (fuel : Nat)
    (hf : s.n ≤ fuel) (ql qr : Int) :
    ∃ t, query fuel s ql qr
        = .ok (∑ i in Finset.Icc 0 (s.n - 1), if ql ≤ i ∧ i ≤ qr then f i else 0, t) ∧
      Inv t f ∧ t.n = s.n ∧ cell t.lazy 1 = 0 := by
  obtain ⟨t, e, fr, z, rep⟩ := rangeQuery_spec ql qr fuel s 1 0 (s.n - 1) f
    (Ctx.root h.pos) h.seg_len h.lazy_len h.rep (by omega)
  refine ⟨t, e, ⟨?_, ?_, ?_, ?_⟩, fr.1, z⟩
  · rw [fr.1]; exact h.pos
  · rw [fr.1, fr.2.1]; exact h.seg_len
  · rw [fr.1, fr.2.2.1]; exact h.lazy_len
  · rw [fr.1]; exact rep

/-- The result of `update_inv`, with the fact that the root is left without a
pending delta. -/
theorem update_root {s : SegmentTree R} {f : Int → R} (h : Inv s f) (fuel : Nat)
    (hf : s.n ≤ fuel) (l r : Int) (val : R) :
    ∃ t, update fuel s l r val = .ok t ∧
      Inv t (fun i => f i + if l ≤ i ∧ i ≤ r then val else 0) ∧ t.n = s.n ∧
      cell t.lazy 1 = 0 := by
  obtain ⟨t, e, fr, z, rep⟩ := updateRange_spec l r val fuel s 1 0 (s.n - 1) f
    (Ctx.root h.pos) h.seg_len h.lazy_len h.rep (by omega)
  refine ⟨t, e, ⟨?_, ?_, ?_, ?_⟩, fr.1, z⟩
  · rw [fr.1]; exact h.pos
  · rw [fr.1, fr.2.1]; exact h.seg_len
  · rw [fr.1, fr.2.2.1]; exact h.lazy_len
  · rw [fr.1]; exact rep

/-- The result of `run_inv`, with the fact that the root stays without a
pending delta. -/
theorem run_root (fuel : Nat) :
    ∀ (ops : List (Op R)) (s : SegmentTree R) (f : Int → R), Inv s f → s.n ≤ fuel →
      cell s.lazy 1 = 0 →
      ∃ t, run fuel s ops = .ok t ∧
        Inv t (fun i => f i + (ops.map fun op => op.delta i).sum) ∧ t.n = s.n ∧
        cell t.lazy 1 = 0 := by
  intro ops
  induction ops with
  | nil =>
    intro s f h _ hz
    exact ⟨s, rfl, inv_ext h fun i => by simp, rfl, hz⟩
  | cons op ops ih =>
    intro s f h hf _
    cases op with
    | update l r val =>
      obtain ⟨t, e, inv, hn, z⟩ := update_root h fuel hf l r val
      obtain ⟨u, e2, inv2, hn2, z2⟩ := ih t _ inv (by rw [hn]; exact hf) z
      refine ⟨u, ?_, inv_ext inv2 fun i => ?_, hn2.trans hn, z2⟩
      · simp only [run, step, e, bind_ok]; exact e2
      · simp only [List.map_cons, List.sum_cons, Op.delta]; ring
    | query l r =>
      obtain ⟨t, e, inv, hn, z⟩ := query_root h fuel hf l r
      obtain ⟨u, e2, inv2, hn2, z2⟩ := ih t _ inv (by rw [hn]; exact hf) z
      refine ⟨u, ?_, inv_ext inv2 fun i => ?_, hn2.trans hn, z2⟩
      · simp only [run, step, e, bind_ok]; exact e2
      · simp only [List.map_cons, List.sum_cons, Op.delta]; ring

/-- Whatever the fuel, a tree that the constructor, `build(A)` and a sequence of
calls have returned has no pending delta at its root. -/
theorem built_root {k : Nat} {A : List R} {ops : List (Op R)} {s : SegmentTree R}
    (h1 : 1 ≤ A.length) (e : ((fromArray k A).bind fun s0 => run k s0 ops) = .ok s) :
    cell s.lazy 1 = 0 := by
  have e2 := built_mono (le_max_left k A.length) e
  obtain ⟨s0, e0, inv0, n0⟩ := fromArray_inv (max k A.length) A h1 (built_inv h1 e).2.2
    (le_max_right _ _)
  have z0 : cell s0.lazy 1 = 0 := by rw [fromArray_lazy h1 e0]; exact cell_replicate _ _
  have hle : s0.n ≤ ((max k A.length : Nat) : Int) := by
    rw [n0]; exact_mod_cast le_max_right k A.length
  obtain ⟨s2, e1, _, _, z1⟩ := run_root (max k A.length) ops s0 _ inv0 hle z0
  have e3 : ((fromArray (max k A.length) A).bind fun s0 => run (max k A.length) s0 ops)
      = .ok s2 := by rw [e0, bind_ok]; exact e1
  have e4 : (Except.ok s : Except Err (SegmentTree R)) = .ok s2 := e2.symm.trans e3
  have e5 : s = s2 := Except.ok.inj e4
  exact e5 ▸ z1

/-- After `updateRange`, no node at which a call was made has a pending
delta. -/
theorem updateRange_clears (ql qr : Int) (val : R) {n : Int} :
    ∀ (fuel : Nat) (s : SegmentTree R) (idx left right : Int) (f : Int → R),
      Ctx n idx left right → (s.seg.length : Int) = 4 * n →
      (s.lazy.length : Int) = 4 * n →
      Rep (cell s.seg) (cell s.lazy) idx left right f →
      right - left + 1 ≤ fuel →
      ∀ t, updateRange fuel s idx left right ql qr val = .ok t →
      ∀ j a b, Calls (rangeGoes ql qr) idx left right j a b → cell t.lazy j = 0 := by
  intro fuel
  induction fuel with
  | zero =>
    intro s idx left right f hc _ _ _ hfuel
    obtain ⟨_, h1, _⟩ := hc
    omega
  | succ fuel ih =>
    intro s idx left right f hc hseg hlazy hrep hfuel t et j a b hcall
    obtain ⟨t3, e3, _, z3, _⟩ := updateRange_spec ql qr val (fuel + 1) s idx left right f
      hc hseg hlazy hrep hfuel
    have ht : t3 = t := by
      rw [et] at e3
      injection e3 with e3
      exact e3.symm
    subst ht
    have hgo : ∀ g : rangeGoes ql qr idx left right,
        ∃ t0 t1 t2 : SegmentTree R, left < right ∧
          updateRange fuel t0 (idx * 2) left ((left + right) / 2) ql qr val = .ok t1 ∧
          updateRange fuel t1 (idx * 2 + 1) ((left + right) / 2 + 1) right ql qr val
            = .ok t2 ∧
          (t0.seg.length : Int) = 4 * n ∧ (t0.lazy.length : Int) = 4 * n ∧
          Rep (cell t0.seg) (cell t0.lazy) (idx * 2) left ((left + right) / 2) f ∧
          (t1.seg.length : Int) = 4 * n ∧ (t1.lazy.length : Int) = 4 * n ∧
          Rep (cell t1.seg) (cell t1.lazy) (idx * 2 + 1) ((left + right) / 2 + 1) right f ∧
          Frame t1 t2 (idx * 2 + 1) ∧ t3.lazy = t2.lazy := by
      intro g
      obtain ⟨t0, e0, fr0, z0, rep0⟩ := propagate_rep s hc hseg hlazy hrep
      have hidx := hc.idx_pos
      have hi := hc.idx_lt
      have hseg0 : (t0.seg.length : Int) = 4 * n := by rw [fr0.2.1]; exact hseg
      have hlazy0 : (t0.lazy.length : Int) = 4 * n := by rw [fr0.2.2.1]; exact hlazy
      have hlt := rangeGoes_lt hc g
      obtain ⟨c1, c2⟩ := rep0.children hlt
      have c1r : Rep (cell t0.seg) (cell t0.lazy) (idx * 2) left ((left + right) / 2) f :=
        c1.ext _ fun i _ _ => by show f i - cell t0.lazy idx = f i; rw [z0]; ring
      have c2r : Rep (cell t0.seg) (cell t0.lazy) (idx * 2 + 1)
          ((left + right) / 2 + 1) right f :=
        c2.ext _ fun i _ _ => by show f i - cell t0.lazy idx = f i; rw [z0]; ring
      obtain ⟨t1, e1, fr1, _, _⟩ := updateRange_spec ql qr val fuel t0 (idx * 2) left
        ((left + right) / 2) f (hc.left_child hlt) hseg0 hlazy0 c1r (by omega)
      have hseg1 : (t1.seg.length : Int) = 4 * n := by rw [fr1.2.1]; exact hseg0
      have hlazy1 : (t1.lazy.length : Int) = 4 * n := by rw [fr1.2.2.1]; exact hlazy0
      have c2s := c2r.frame_left hidx fr1
      obtain ⟨t2, e2, fr2, _, _⟩ := updateRange_spec ql qr val fuel t1 (idx * 2 + 1)
        ((left + right) / 2 + 1) right f (hc.right_child hlt) hseg1 hlazy1 c2s (by omega)
      have hseg2 : (t2.seg.length : Int) = 4 * n := by rw [fr2.2.1]; exact hseg1
      have hch := hc.child_lt hlt
      refine ⟨t0, t1, t2, hlt, e1, e2, hseg0, hlazy0, c1r, hseg1, hlazy1, c2s, fr2, ?_⟩
      simp only [updateRange, e0, bind_ok, g.1, g.2, if_false, hc.mid_eq, e1, e2,
        rd_ok t2.seg (idx * 2) (by omega) (by omega),
        rd_ok t2.seg (idx * 2 + 1) (by omega) (by omega),
        wr_ok t2.seg idx _ (by omega) (by omega)] at et
      injection et with et
      rw [← et]
    cases hcall with
    | here => exact z3
    | left g hsub =>
      obtain ⟨t0, t1, t2, hlt, e1, e2, hseg0, hlazy0, c1r, _, _, _, fr2, hl⟩ := hgo g
      rw [hc.mid_eq] at hsub
      have hj := ih t0 (idx * 2) left ((left + right) / 2) f (hc.left_child hlt) hseg0
        hlazy0 c1r (by omega) t1 e1 j a b hsub
      rw [hl, (fr2.2.2.2 j fun hd2 => Desc.disjoint hc.idx_pos hsub.desc hd2).2]
      exact hj
    | right g hsub =>
      obtain ⟨t0, t1, t2, hlt, e1, e2, _, _, _, hseg1, hlazy1, c2s, _, hl⟩ := hgo g
      rw [hc.mid_eq] at hsub
      have hj := ih t1 (idx * 2 + 1) ((left + right) / 2 + 1) right f
        (hc.right_child hlt) hseg1 hlazy1 c2s (by omega) t2 e2 j a b hsub
      rw [hl]
      exact hj

end SegmentTree

section calls

variable {R : Type} [CommRing R]

/-- When no node at which a call was made has a pending delta, every call was
made at a node without a pending delta above it. -/
theorem Calls.settled {n : Int} {L : Int → R} {go : Int → Int → Int → Prop}
    (hgo : ∀ i l r, Ctx n i l r → go i l r → l < r)
    {idx left right j a b : Int} (h : Calls go idx left right j a b) :
    Ctx n idx left right → (∀ j2 a2 b2, Calls go idx left right j2 a2 b2 → L j2 = 0) →
    Calls (fun i l r => l < r ∧ L i = 0) idx left right j a b := by
  induction h with
  | here i l r => intro _ _; exact Calls.here i l r
  | @left idx left right j a b g _ ih =>
    intro hc hz
    have hlt := hgo _ _ _ hc g
    have hcl := hc.left_child hlt
    rw [← hc.mid_eq] at hcl
    exact Calls.left ⟨hlt, hz _ _ _ (Calls.here _ _ _)⟩
      (ih hcl fun j2 a2 b2 h2 => hz j2 a2 b2 (Calls.left g h2))
  | @right idx left right j a b g _ ih =>
    intro hc hz
    have hlt := hgo _ _ _ hc g
    have hcr := hc.right_child hlt
    rw [← hc.mid_eq] at hcr
    exact Calls.right ⟨hlt, hz _ _ _ (Calls.here _ _ _)⟩
      (ih hcr fun j2 a2 b2 h2 => hz j2 a2 b2 (Calls.right g h2))

end calls

/-! ## Claims about the nodes of the segment tree -/

namespace SegmentTree

variable {R : Type} [CommRing R] [DecidableEq R]

/-- The tree of the counterexample to C24 is what `build` and `update` make. -/
theorem pendingTree_built :
    ((fromArray 2 [1, 2]).bind fun s0 => run 2 s0 [Op.update 0 1 (5 : Int)])
      = .ok pendingTree := by rfl

/-- C23. Structural invariant: in every reachable state, at every node `j` of
the implicit tree that covers a range `[a, b]` of more than one element, with
`mid = (a + b) / 2`, the aggregate `seg[j]` is the sum over the two children
of the aggregate of the child plus its pending delta times the length of its
range: `(seg[2j] + (mid - a + 1) * lazy[2j]) + (seg[2j+1] + (b - mid) *
lazy[2j+1])`. -/
theorem node_invariant (s : SegmentTree R) (hs : Reachable s) (j a b : Int)
    (hn : InTree s.n j a b) (hlt : a < b) :
    cell s.seg j
      = (cell s.seg (j * 2)
          + ((Int.tdiv (a + b) 2 - a + 1 : Int) : R) * cell s.lazy (j * 2)) +
        (cell s.seg (j * 2 + 1)
          + ((b - Int.tdiv (a + b) 2 : Int) : R) * cell s.lazy (j * 2 + 1)) := by
  obtain ⟨f, inv⟩ := hs.inv
  have hc := InTree.bounds inv.pos hn
  obtain ⟨g, rep⟩ := Rep.at_node hn f (Ctx.root inv.pos) inv.rep
  rw [hc.mid_eq]
  exact rep.local_eq hlt

/-- C23 on the tree of `main`, at node 2, which covers `[0, 2]`. -/
theorem node_invariant_witness :
    cell demoTree.seg 2
      = (cell demoTree.seg (2 * 2)
          + ((Int.tdiv (0 + 2) 2 - 0 + 1 : Int) : Int) * cell demoTree.lazy (2 * 2)) +
        (cell demoTree.seg (2 * 2 + 1)
          + ((2 - Int.tdiv (0 + 2) 2 : Int) : Int) * cell demoTree.lazy (2 * 2 + 1)) :=
  node_invariant demoTree demoTree_reachable 2 0 2
    (Calls.left (by decide) (Calls.here 2 0 2)) (by decide)

/-- C24, as stated, fails: in the tree built from `{1, 2}` after
`update(0, 1, 5)`, node 2 covers `[0, 0]`, its pending delta is 5, the root above
it has none, and its aggregate is still 1 while the element it covers is 6. -/
theorem lazy_pending_counterexample :
    ((fromArray 2 [1, 2]).bind fun s0 => run 2 s0 [Op.update 0 1 (5 : Int)])
        = .ok pendingTree ∧
      Settled (cell pendingTree.lazy) 2 2 0 0 ∧ cell pendingTree.lazy 2 = 5 ∧
      cell pendingTree.seg 2 = 1 ∧
      ∑ i in Finset.Icc (0 : Int) 0, current [1, 2] [Op.update 0 1 (5 : Int)] i = 6 ∧
      cell pendingTree.seg 2
        ≠ ∑ i in Finset.Icc (0 : Int) 0, current [1, 2] [Op.update 0 1 (5 : Int)] i := by
  have h6 : ∑ i in Finset.Icc (0 : Int) 0, current [1, 2] [Op.update 0 1 (5 : Int)] i = 6 := by
    rw [Finset.Icc_self, Finset.sum_singleton]
    rfl
  refine ⟨by rfl, Calls.left ⟨by decide, by rfl⟩ (Calls.here 2 0 0), by rfl, by rfl, h6, ?_⟩
  rw [h6]
  decide

/-- C24, amended: for an array `A` of `N ≥ 1` elements, after `build(A)` and any
sequence of updates and queries with `0 ≤ l ≤ r < N`, at every node `j` of the
implicit tree, covering `[a, b]`, such that no strict ancestor of `j` has a
pending delta, the aggregate `seg[j]` plus the pending delta `lazy[j]` on each
of the `b - a + 1` elements is the sum of the current values of the elements
of `[a, b]`: a pending delta is not yet part of the aggregate of its own
node.  This holds of every tree that the constructor, `build(A)` and the
calls have returned, whatever the fuel; for `N < 2 ^ 29`, where the `int`
product `4*n` of the constructor is `4 * N`, they return with fuel `N`. -/
theorem lazy_pending (A : List R) (ops : List (Op R)) (fuel : Nat)
    (hN : 1 ≤ A.length) (_hops : ∀ op ∈ ops, op.valid (A.length : Int))
    (hfuel : A.length ≤ fuel) :
    (A.length < 2 ^ 29 →
      ∃ s, ((fromArray fuel A).bind fun s0 => run fuel s0 ops) = .ok s) ∧
    ∀ (k : Nat) (s : SegmentTree R),
      ((fromArray k A).bind fun s0 => run k s0 ops) = .ok s →
      ∀ j a b, Settled (cell s.lazy) (A.length : Int) j a b →
        cell s.seg j + ((b - a + 1 : Int) : R) * cell s.lazy j
          = ∑ i in Finset.Icc a b, current A ops i := by
  refine ⟨fun h2 => built_returns A ops fuel hN h2 hfuel, fun k s e j a b hset => ?_⟩
  obtain ⟨inv1, hsn, -⟩ := built_inv hN e
  have hrep := inv1.rep
  rw [hsn] at hrep
  have hpos : (1 : Int) ≤ (A.length : Int) := by omega
  exact (Rep.at_call hset _ (Ctx.root hpos) hrep).top

/-- C24, amended, on `{1, 2}` after `update(0, 1, 5)`. -/
theorem lazy_pending_witness :
    (([1, 2] : List Int).length < 2 ^ 29 →
      ∃ s, ((fromArray 2 [1, 2]).bind fun s0 => run 2 s0 [Op.update 0 1 (5 : Int)])
        = .ok s) ∧
    ∀ (k : Nat) (s : SegmentTree Int),
      ((fromArray k [1, 2]).bind fun s0 => run k s0 [Op.update 0 1 (5 : Int)]) = .ok s →
      ∀ j a b, Settled (cell s.lazy) (([1, 2] : List Int).length : Int) j a b →
        cell s.seg j + ((b - a + 1 : Int) : Int) * cell s.lazy j
          = ∑ i in Finset.Icc a b, current [1, 2] [Op.update 0 1 (5 : Int)] i :=
  lazy_pending [1, 2] [Op.update 0 1 (5 : Int)] 2 (by decide)
    (by intro op h
        simp only [List.mem_singleton] at h
        subst h
        simp [Op.valid])
    (by decide)

/-- C25. For an array `A` of `N ≥ 1` elements, after `build(A)` and any sequence
of updates and queries with `0 ≤ l ≤ r < N` (the empty sequence included), the
root has no pending delta and `seg[1]` is the sum of the `N` current values.
A further `update(l, r, val)` with `0 ≤ l ≤ r < N` returns, and afterwards
every node at which `updateRange` made a call, so in particular every node
at which the recursion stopped by full containment, has no pending delta and
an aggregate equal to the sum of the current values, the update included,
over its range `[a, b]`.  This holds of every tree that the constructor,
`build(A)` and the calls have returned, whatever the fuel; for `N < 2 ^ 29`,
where the `int` product `4*n` of the constructor is `4 * N`, they return with
fuel `N`, which is enough for every call. -/
theorem update_visible (A : List R) (ops : List (Op R)) (fuel : Nat)
    (hN : 1 ≤ A.length) (_hops : ∀ op ∈ ops, op.valid (A.length : Int))
    (hfuel : A.length ≤ fuel) :
    (A.length < 2 ^ 29 →
      ∃ s, ((fromArray fuel A).bind fun s0 => run fuel s0 ops) = .ok s) ∧
    ∀ (k : Nat) (s : SegmentTree R),
      ((fromArray k A).bind fun s0 => run k s0 ops) = .ok s →
      cell s.lazy 1 = 0 ∧
      cell s.seg 1 = ∑ i in Finset.Icc 0 ((A.length : Int) - 1), current A ops i ∧
      ∀ (l r : Int) (val : R), 0 ≤ l → l ≤ r → r < (A.length : Int) →
        ∃ t, update fuel s l r val = .ok t ∧
          ∀ j a b, Calls (rangeGoes l r) 1 0 ((A.length : Int) - 1) j a b →
            cell t.lazy j = 0 ∧
            cell t.seg j
              = ∑ i in Finset.Icc a b, current A (ops ++ [Op.update l r val]) i := by
  refine ⟨fun h2 => built_returns A ops fuel hN h2 hfuel, fun k s e => ?_⟩
  have hpos : (1 : Int) ≤ (A.length : Int) := by omega
  obtain ⟨inv1, hsn, -⟩ := built_inv hN e
  have z1 : cell s.lazy 1 = 0 := built_root hN e
  refine ⟨z1, ?_, ?_⟩
  · have top := inv1.rep.top
    rw [z1, mul_zero, add_zero, hsn] at top
    exact top
  · intro l r val _ _ _
    obtain ⟨t, e2, inv2, n2, _⟩ := update_root inv1 fuel (by rw [hsn]; omega) l r val
    refine ⟨t, e2, fun j a b hcall => ?_⟩
    have hz : ∀ j2 a2 b2, Calls (rangeGoes l r) 1 0 ((A.length : Int) - 1) j2 a2 b2 →
        cell t.lazy j2 = 0 := by
      intro j2 a2 b2 h2
      have e3 : updateRange fuel s 1 0 ((A.length : Int) - 1) l r val = .ok t := by
        rw [← hsn]; exact e2
      exact updateRange_clears l r val fuel s 1 0 ((A.length : Int) - 1) _ (Ctx.root hpos)
        (by rw [← hsn]; exact inv1.seg_len) (by rw [← hsn]; exact inv1.lazy_len)
        (by rw [← hsn]; exact inv1.rep) (by omega) t e3 j2 a2 b2 h2
    have hset := Calls.settled (fun _ _ _ hc g => rangeGoes_lt hc g) hcall (Ctx.root hpos) hz
    have hrep := inv2.rep
    rw [n2, hsn] at hrep
    have top := (Rep.at_call hset _ (Ctx.root hpos) hrep).top
    rw [hz j a b hcall, mul_zero, add_zero] at top
    refine ⟨hz j a b hcall, top.trans (Finset.sum_congr rfl fun i _ => ?_)⟩
    simp only [current, List.map_append, List.sum_append, List.map_cons, List.map_nil,
      List.sum_cons, List.sum_nil, Op.delta]
    ring

/-- C25 on the array of `main` after a query and `update(1, 3, 1)`. -/
theorem update_visible_witness :
    (([1, 2, 3, 4, 5] : List Int).length < 2 ^ 29 →
      ∃ s, ((fromArray 5 [1, 2, 3, 4, 5]).bind fun s0 =>
        run 5 s0 [Op.query 0 4, Op.update 1 3 (1 : Int)]) = .ok s) ∧
    ∀ (k : Nat) (s : SegmentTree Int),
      ((fromArray k [1, 2, 3, 4, 5]).bind fun s0 =>
        run k s0 [Op.query 0 4, Op.update 1 3 (1 : Int)]) = .ok s →
      cell s.lazy 1 = 0 ∧
      cell s.seg 1 = ∑ i in Finset.Icc 0 ((([1, 2, 3, 4, 5] : List Int).length : Int) - 1),
        current [1, 2, 3, 4, 5] [Op.query 0 4, Op.update 1 3 (1 : Int)] i ∧
      ∀ (l r : Int) (val : Int), 0 ≤ l → l ≤ r →
        r < (([1, 2, 3, 4, 5] : List Int).length : Int) →
        ∃ t, update 5 s l r val = .ok t ∧
          ∀ j a b, Calls (rangeGoes l r) 1 0
              ((([1, 2, 3, 4, 5] : List Int).length : Int) - 1) j a b →
            cell t.lazy j = 0 ∧
            cell t.seg j = ∑ i in Finset.Icc a b, current [1, 2, 3, 4, 5]
              ([Op.query 0 4, Op.update 1 3 (1 : Int)] ++ [Op.update l r val]) i :=
  update_visible [1, 2, 3, 4, 5] [Op.query 0 4, Op.update 1 3 (1 : Int)] 5 (by decide)
    (by intro op h
        simp only [List.mem_cons, List.mem_singleton, List.not_mem_nil, or_false] at h
        rcases h with rfl | rfl <;> simp [Op.valid])
    (by decide)

omit [DecidableEq R] in
/-- C26. Build postcondition: for an array `A` of `N ≥ 1` elements, after the
constructor and `build(A)` have returned, whatever the fuel, every entry of
`lazy` is 0 and every node `j` of the implicit tree, covering `[a, b]`, stores
`seg[j] = A[a] + ... + A[b]`; a leaf (`a = b`) stores its input value `A[a]`.
For `N < 2 ^ 29`, where the `int` product `4*n` of the constructor is `4 * N`,
the constructor and `build(A)` return with fuel `N`. -/
theorem build_nodes (A : List R) (fuel : Nat) (hN : 1 ≤ A.length)
    (hfuel : A.length ≤ fuel) :
    (A.length < 2 ^ 29 → ∃ s, fromArray fuel A = .ok s) ∧
    ∀ (k : Nat) (s : SegmentTree R), fromArray k A = .ok s →
      s.lazy = List.replicate (4 * A.length) 0 ∧
      ∀ j a b, InTree (A.length : Int) j a b →
        cell s.seg j = ∑ i in Finset.Icc a b, cell A i ∧
        (a = b → cell s.seg j = cell A a) := by
  have hpos : (1 : Int) ≤ (A.length : Int) := by omega
  refine ⟨fun h2 => ?_, fun k s e0 => ?_⟩
  · obtain ⟨s, e0, _, _⟩ := fromArray_inv fuel A hN h2 hfuel
    exact ⟨s, e0⟩
  obtain ⟨inv0, n0⟩ := fromArray_result hN e0
  have hl := fromArray_lazy hN e0
  have hz : ∀ j, cell s.lazy j = 0 := fun j => by rw [hl]; exact cell_replicate _ _
  have hnode : ∀ j a b, InTree (A.length : Int) j a b →
      cell s.seg j = ∑ i in Finset.Icc a b, cell A i := by
    intro j a b hn
    have hset := (Calls.ctx (q := fun i l r => l < r ∧ cell s.lazy i = 0)
      (fun i _ _ _ g => ⟨g, g, hz i⟩) hn (Ctx.root hpos)).2
    have hrep := inv0.rep
    rw [n0] at hrep
    have top := (Rep.at_call hset _ (Ctx.root hpos) hrep).top
    rw [hz j, mul_zero, add_zero] at top
    exact top
  refine ⟨hl, fun j a b hn => ⟨hnode j a b hn, fun hab => ?_⟩⟩
  rw [hnode j a b hn, hab, Finset.Icc_self, Finset.sum_singleton]

/-- C26 on the array of `main`. -/
theorem build_nodes_witness :
    (([1, 2, 3, 4, (5 : Int)] : List Int).length < 2 ^ 29 →
      ∃ s, fromArray 5 [1, 2, 3, 4, (5 : Int)] = .ok s) ∧
    ∀ (k : Nat) (s : SegmentTree Int), fromArray k [1, 2, 3, 4, (5 : Int)] = .ok s →
      s.lazy = List.replicate (4 * ([1, 2, 3, 4, (5 : Int)] : List Int).length) 0 ∧
      ∀ j a b, InTree (([1, 2, 3, 4, (5 : Int)] : List Int).length : Int) j a b →
        cell s.seg j = ∑ i in Finset.Icc a b, cell [1, 2, 3, 4, (5 : Int)] i ∧
        (a = b → cell s.seg j = cell [1, 2, 3, 4, (5 : Int)] a) :=
  build_nodes [1, 2, 3, 4, (5 : Int)] 5 (by decide) (by decide)

/-- C29. Query preserves logical content: on a reachable tree, for
`0 ≤ l ≤ r < N`, the call `query(l, r)` returns, and every `query(l2, r2)` with
`0 ≤ l2 ≤ r2 < N` returns the same value on the state that the call left as
on the state before the call.  Fuel `N` is enough. -/
theorem query_keeps (s : SegmentTree R) (hs : Reachable s) (fuel : Nat)
    (hfuel : s.n ≤ fuel) (l r : Int) (hl : 0 ≤ l) (hlr : l ≤ r) (hr : r < s.n) :
    ∃ v t, query fuel s l r = .ok (v, t) ∧
      ∀ l2 r2 : Int, 0 ≤ l2 → l2 ≤ r2 → r2 < s.n →
        ∃ w t1 t2, query fuel s l2 r2 = .ok (w, t1) ∧ query fuel t l2 r2 = .ok (w, t2) := by
  have _ := hlr
  obtain ⟨f, inv⟩ := hs.inv
  obtain ⟨t, e1, inv1, n1⟩ := query_range inv fuel hfuel l r hl hr
  refine ⟨_, t, e1, fun l2 r2 h0 _ h2 => ?_⟩
  obtain ⟨t1, e2, _, _⟩ := query_range inv fuel hfuel l2 r2 h0 h2
  obtain ⟨t2, e3, _, _⟩ := query_range inv1 fuel (by rw [n1]; exact hfuel) l2 r2 h0
    (by rw [n1]; exact h2)
  exact ⟨_, t1, t2, e2, e3⟩

/-- C29 on the tree of `main` with `query(1, 3)`. -/
theorem query_keeps_witness :
    ∃ v t, query 5 demoTree 1 3 = .ok (v, t) ∧
      ∀ l2 r2 : Int, 0 ≤ l2 → l2 ≤ r2 → r2 < demoTree.n →
        ∃ w t1 t2, query 5 demoTree l2 r2 = .ok (w, t1) ∧ query 5 t l2 r2 = .ok (w, t2) :=
  query_keeps demoTree demoTree_reachable 5 (by decide) 1 3 (by decide) (by decide)
    (by decide)

/-- C30. Exact-match update: on a reachable tree with `N ≥ 2`, the call
`update(0, N - 1, d)` returns with fuel 1, that is without a recursive call.
With `p` the pending delta of the root before the call, afterwards `seg[1]`
is increased by `N * (p + d)`, `lazy[1]` is 0, `lazy[2]` and `lazy[3]` are each
increased by `p + d`, and every other entry of `seg` and `lazy` is as before. -/
theorem update_whole (s : SegmentTree R) (hs : Reachable s) (hn : 2 ≤ s.n) (d : R) :
    ∃ t, update 1 s 0 (s.n - 1) d = .ok t ∧
      cell t.seg 1 = cell s.seg 1 + ((s.n : Int) : R) * (cell s.lazy 1 + d) ∧
      cell t.lazy 1 = 0 ∧
      cell t.lazy 2 = cell s.lazy 2 + (cell s.lazy 1 + d) ∧
      cell t.lazy 3 = cell s.lazy 3 + (cell s.lazy 1 + d) ∧
      (∀ j, j ≠ 1 → cell t.seg j = cell s.seg j) ∧
      (∀ j, j ≠ 1 → j ≠ 2 → j ≠ 3 → cell t.lazy j = cell s.lazy j) ∧
      t.seg.length = s.seg.length ∧ t.lazy.length = s.lazy.length ∧ t.n = s.n := by
  obtain ⟨f, inv⟩ := hs.inv
  have hc := Ctx.root inv.pos
  have hlt : (0 : Int) < s.n - 1 := by omega
  obtain ⟨t0, e0, hn0, hls0, hll0, hS0, hS, hL0, hLc, hL⟩ :=
    propagate_spec s hc inv.seg_len inv.lazy_len
  have hseg0 : (t0.seg.length : Int) = 4 * s.n := by rw [hls0]; exact inv.seg_len
  have hlazy0 : (t0.lazy.length : Int) = 4 * s.n := by rw [hll0]; exact inv.lazy_len
  have i0 : (0 : Int) ≤ 1 := by omega
  have iL : (1 : Int) < t0.lazy.length := by omega
  obtain ⟨t1, e1, hn1, hls1, hll1, hT0, hT, hM0, hMc, hM⟩ := propagate_spec
    { t0 with lazy := t0.lazy.set (1 : Int).toNat (cell t0.lazy 1 + d) } hc hseg0
    (by show ((t0.lazy.set _ _).length : Int) = 4 * s.n
        rw [List.length_set]; exact hlazy0)
  have hset : ∀ j : Int, cell (t0.lazy.set (1 : Int).toNat (cell t0.lazy 1 + d)) j
      = if j = 1 then cell t0.lazy 1 + d else cell t0.lazy j :=
    fun j => cell_set _ _ _ _ i0 iL
  have hout : ¬ (s.n - 1 < 0 ∨ (0 : Int) > s.n - 1) := by omega
  have hlen : ((s.n - 1 - 0 + 1 : Int) : R) = ((s.n : Int) : R) := by
    congr 1
    omega
  obtain ⟨c2, c3⟩ := hLc hlt
  obtain ⟨d2, d3⟩ := hMc hlt
  simp only [hset] at hT0 hM d2 d3
  norm_num at c2 c3 d2 d3
  refine ⟨t1, ?_, ?_, hM0, ?_, ?_, fun j hj => ?_, fun j h1 h2 h3 => ?_, ?_, ?_, ?_⟩
  · simp only [update, updateRange, e0, bind_ok, hout, if_false, le_refl, and_self, if_true,
      rd_ok t0.lazy 1 i0 iL, wr_ok t0.lazy 1 _ i0 iL, e1]
  · rw [hT0, if_true]
    show cell t0.seg 1 + _ = _
    rw [hS0, hL0, hlen]
    ring
  · rw [d2, c2, hL0]; ring
  · rw [d3, c3, hL0]; ring
  · rw [hT j hj]
    exact hS j hj
  · rw [hM j h1 (fun _ => ⟨by omega, by omega⟩), if_neg h1]
    exact hL j h1 (fun _ => ⟨by omega, by omega⟩)
  · rw [hls1]; exact hls0
  · rw [hll1]
    show (t0.lazy.set _ _).length = _
    rw [List.length_set]; exact hll0
  · rw [hn1]; exact hn0

/-- C30 on the tree of `main` with `d = 3`. -/
theorem update_whole_witness :
    ∃ t, update 1 demoTree 0 (demoTree.n - 1) 3 = .ok t ∧
      cell t.seg 1 = cell demoTree.seg 1
        + ((demoTree.n : Int) : Int) * (cell demoTree.lazy 1 + 3) ∧
      cell t.lazy 1 = 0 ∧
      cell t.lazy 2 = cell demoTree.lazy 2 + (cell demoTree.lazy 1 + 3) ∧
      cell t.lazy 3 = cell demoTree.lazy 3 + (cell demoTree.lazy 1 + 3) ∧
      (∀ j, j ≠ 1 → cell t.seg j = cell demoTree.seg j) ∧
      (∀ j, j ≠ 1 → j ≠ 2 → j ≠ 3 → cell t.lazy j = cell demoTree.lazy j) ∧
      t.seg.length = demoTree.seg.length ∧ t.lazy.length = demoTree.lazy.length ∧
      t.n = demoTree.n :=
  update_whole demoTree demoTree_reachable (by decide) 3

end SegmentTree

/-! ## Fuel and the failures of the segment tree operations -/

namespace SegmentTree

variable {R : Type} [CommRing R] [DecidableEq R]

/-- More fuel changes no outcome of `rangeQuery` other than running out of
fuel: a failed access stays a failed access. -/
theorem rangeQuery_stable (ql qr : Int) :
    ∀ (fuel fuel2 : Nat) (s : SegmentTree R) (idx left right : Int)
      (x : Except Err (R × SegmentTree R)),
      fuel ≤ fuel2 → rangeQuery fuel s idx left right ql qr = x → x ≠ .error .outOfFuel →
      rangeQuery fuel2 s idx left right ql qr = x := by
  intro fuel
  induction fuel with
  | zero => intro fuel2 s idx left right x _ h hx; exact absurd h.symm hx
  | succ fuel ih =>
    intro fuel2 s idx left right x hle h hx
    obtain ⟨k, rfl⟩ : ∃ k, fuel2 = k + 1 := ⟨fuel2 - 1, by omega⟩
    subst h
    simp only [rangeQuery] at hx ⊢
    cases e0 : propagate s idx left right with
    | error e => rfl
    | ok t0 =>
      rw [e0] at hx
      simp only [bind_ok] at hx ⊢
      split
      · rfl
      · split
        · rfl
        · rename_i hc hd
          rw [if_neg hc, if_neg hd] at hx
          cases e1 : rangeQuery fuel t0 (idx * 2) left (Int.tdiv (left + right) 2) ql qr with
          | error e =>
            rw [e1] at hx
            rw [ih k t0 _ _ _ _ (by omega) e1 hx]
            rfl
          | ok p =>
            rw [e1] at hx
            rw [ih k t0 _ _ _ _ (by omega) e1 (by simp)]
            simp only [bind_ok] at hx ⊢
            cases e2 : rangeQuery fuel p.2 (idx * 2 + 1) (Int.tdiv (left + right) 2 + 1)
                right ql qr with
            | error e =>
              rw [e2] at hx
              rw [ih k p.2 _ _ _ _ (by omega) e2 hx]
            | ok q =>
              rw [ih k p.2 _ _ _ _ (by omega) e2 (by simp)]

/-- More fuel changes no outcome of `updateRange` other than running out of
fuel. -/
theorem updateRange_stable (ql qr : Int) (val : R) :
    ∀ (fuel fuel2 : Nat) (s : SegmentTree R) (idx left right : Int)
      (x : Except Err (SegmentTree R)),
      fuel ≤ fuel2 → updateRange fuel s idx left right ql qr val = x →
      x ≠ .error .outOfFuel → updateRange fuel2 s idx left right ql qr val = x := by
  intro fuel
  induction fuel with
  | zero => intro fuel2 s idx left right x _ h hx; exact absurd h.symm hx
  | succ fuel ih =>
    intro fuel2 s idx left right x hle h hx
    obtain ⟨k, rfl⟩ : ∃ k, fuel2 = k + 1 := ⟨fuel2 - 1, by omega⟩
    subst h
    simp only [updateRange] at hx ⊢
    cases e0 : propagate s idx left right with
    | error e => rfl
    | ok t0 =>
      rw [e0] at hx
      simp only [bind_ok] at hx ⊢
      split
      · rfl
      · split
        · rfl
        · rename_i hc hd
          rw [if_neg hc, if_neg hd] at hx
          cases e1 : updateRange fuel t0 (idx * 2) left (Int.tdiv (left + right) 2) ql qr
              val with
          | error e =>
            rw [e1] at hx
            rw [ih k t0 _ _ _ _ (by omega) e1 hx]
            rfl
          | ok p =>
            rw [e1] at hx
            rw [ih k t0 _ _ _ _ (by omega) e1 (by simp)]
            simp only [bind_ok] at hx ⊢
            cases e2 : updateRange fuel p (idx * 2 + 1) (Int.tdiv (left + right) 2 + 1)
                right ql qr val with
            | error e =>
              rw [e2] at hx
              rw [ih k p _ _ _ _ (by omega) e2 hx]
            | ok q =>
              rw [ih k p _ _ _ _ (by omega) e2 (by simp)]

omit [DecidableEq R] in
/-- More fuel changes no outcome of the recursive `build` other than running
out of fuel. -/
theorem buildRec_stable (arr : List R) :
    ∀ (fuel fuel2 : Nat) (s : SegmentTree R) (idx left right : Int)
      (x : Except Err (SegmentTree R)),
      fuel ≤ fuel2 → buildRec fuel arr s idx left right = x →
      x ≠ .error .outOfFuel → buildRec fuel2 arr s idx left right = x := by
  intro fuel
  induction fuel with
  | zero => intro fuel2 s idx left right x _ h hx; exact absurd h.symm hx
  | succ fuel ih =>
    intro fuel2 s idx left right x hle h hx
    obtain ⟨k, rfl⟩ : ∃ k, fuel2 = k + 1 := ⟨fuel2 - 1, by omega⟩
    subst h
    simp only [buildRec] at hx ⊢
    split
    · rfl
    · rename_i hc
      rw [if_neg hc] at hx
      cases e1 : buildRec fuel arr s (idx * 2) left (Int.tdiv (left + right) 2) with
      | error e =>
        rw [e1] at hx
        rw [ih k s _ _ _ _ (by omega) e1 hx]
        rfl
      | ok p =>
        rw [e1] at hx
        rw [ih k s _ _ _ _ (by omega) e1 (by simp)]
        simp only [bind_ok] at hx ⊢
        cases e2 : buildRec fuel arr p (idx * 2 + 1) (Int.tdiv (left + right) 2 + 1)
            right with
        | error e =>
          rw [e2] at hx
          rw [ih k p _ _ _ _ (by omega) e2 hx]
        | ok q =>
          rw [ih k p _ _ _ _ (by omega) e2 (by simp)]

/-- Whatever the fuel, `query` on a tree that stands for some values fails
only by running out of fuel. -/
theorem query_safe {s : SegmentTree R} {f : Int → R} (h : Inv s f) (fuel : Nat)
    (ql qr : Int) (e : Err) (he : query fuel s ql qr = .error e) : e = .outOfFuel := by
  by_contra hne
  have h2 := rangeQuery_stable ql qr fuel (max fuel s.n.toNat) s 1 0 (s.n - 1) _
    (le_max_left _ _) he (fun h3 => hne (by injection h3))
  obtain ⟨t, e3, _⟩ := query_inv h (max fuel s.n.toNat) (by omega) ql qr
  rw [query, h2] at e3
  cases e3

/-- Whatever the fuel, `update` on a tree that stands for some values fails
only by running out of fuel. -/
theorem update_safe {s : SegmentTree R} {f : Int → R} (h : Inv s f) (fuel : Nat)
    (l r : Int) (val : R) (e : Err) (he : update fuel s l r val = .error e) :
    e = .outOfFuel := by
  by_contra hne
  have h2 := updateRange_stable l r val fuel (max fuel s.n.toNat) s 1 0 (s.n - 1) _
    (le_max_left _ _) he (fun h3 => hne (by injection h3))
  obtain ⟨t, e3, _⟩ := update_inv h (max fuel s.n.toNat) (by omega) l r val
  rw [update, h2] at e3
  cases e3

omit [DecidableEq R] in
/-- Whatever the fuel, the constructor and `build` on an array of
`1 ≤ N < 2 ^ 29` elements fail only by running out of fuel. -/
theorem fromArray_safe (fuel : Nat) (A : List R) (h1 : 1 ≤ A.length)
    (h2 : A.length < 2 ^ 29) (e : Err)
    (he : fromArray fuel A = .error e) : e = .outOfFuel := by
  by_contra hne
  obtain ⟨s, e3, _⟩ := fromArray_inv (max fuel A.length) A h1 h2 (le_max_right _ _)
  have h3 : (A.length : Int) < 2 ^ 29 := by exact_mod_cast h2
  have hc : (ctor (A.length : Int) : Except Err (SegmentTree R)) = _ :=
    ctor_ok (A.length : Int) (by omega) h3
  simp only [fromArray, hc, bind_ok, build] at he e3
  have h4 := buildRec_stable A fuel (max fuel A.length) _ 1 0 _ _ (le_max_left _ _) he
    (fun h5 => hne (by injection h5))
  rw [h4] at e3
  cases e3

/-! ### The logs of the calls -/

theorem map_eq_ok {α β : Type} {x : Except Err α} {f : α → β} {b : β}
    (h : x.map f = .ok b) : ∃ a, x = .ok a ∧ f a = b := by
  cases x with
  | error e => cases h
  | ok a =>
    injection h with h
    exact ⟨a, rfl, h⟩

omit [DecidableEq R] in
/-- Dropping the log of `buildRecLog` gives `buildRec`. -/
theorem buildRecLog_erase (arr : List R) :
    ∀ (fuel : Nat) (s : SegmentTree R) (idx left right : Int),
      (buildRecLog fuel arr s idx left right).map Prod.fst
        = buildRec fuel arr s idx left right := by
  intro fuel
  induction fuel with
  | zero => intro s idx left right; rfl
  | succ fuel ih =>
    intro s idx left right
    simp only [buildRecLog, buildRec]
    split
    · cases rd arr left with
      | error e => rfl
      | ok v =>
        simp only [bind_ok]
        cases wr s.seg idx v with
        | error e => rfl
        | ok seg => rfl
    · rw [← ih s (idx * 2) left (Int.tdiv (left + right) 2)]
      cases buildRecLog fuel arr s (idx * 2) left (Int.tdiv (left + right) 2) with
      | error e => rfl
      | ok p =>
        simp only [bind_ok, Except.map]
        rw [← ih p.1 (idx * 2 + 1) (Int.tdiv (left + right) 2 + 1) right]
        cases buildRecLog fuel arr p.1 (idx * 2 + 1) (Int.tdiv (left + right) 2 + 1) right with
        | error e => rfl
        | ok q =>
          simp only [bind_ok, Except.map]
          cases rd q.1.seg (idx * 2) with
          | error e => rfl
          | ok a =>
            simp only [bind_ok]
            cases rd q.1.seg (idx * 2 + 1) with
            | error e => rfl
            | ok b =>
              simp only [bind_ok]
              cases wr q.1.seg idx (a + b) with
              | error e => rfl
              | ok seg => rfl

/-- Dropping the log of `rangeQueryLog` gives `rangeQuery`. -/
theorem rangeQueryLog_erase (ql qr : Int) :
    ∀ (fuel : Nat) (s : SegmentTree R) (idx left right : Int),
      (rangeQueryLog fuel s idx left right ql qr).map Prod.fst
        = rangeQuery fuel s idx left right ql qr := by
  intro fuel
  induction fuel with
  | zero => intro s idx left right; rfl
  | succ fuel ih =>
    intro s idx left right
    simp only [rangeQueryLog, rangeQuery]
    cases propagate s idx left right with
    | error e => rfl
    | ok s1 =>
      simp only [bind_ok]
      split
      · rfl
      · split
        · cases rd s1.seg idx with
          | error e => rfl
          | ok v => rfl
        · rw [← ih s1 (idx * 2) left (Int.tdiv (left + right) 2)]
          cases rangeQueryLog fuel s1 (idx * 2) left (Int.tdiv (left + right) 2) ql qr with
          | error e => rfl
          | ok p =>
            simp only [bind_ok, Except.map]
            rw [← ih p.1.2 (idx * 2 + 1) (Int.tdiv (left + right) 2 + 1) right]
            cases rangeQueryLog fuel p.1.2 (idx * 2 + 1) (Int.tdiv (left + right) 2 + 1)
                right ql qr with
            | error e => rfl
            | ok q => rfl

/-- Dropping the log of `updateRangeLog` gives `updateRange`. -/
theorem updateRangeLog_erase (ql qr : Int) (val : R) :
    ∀ (fuel : Nat) (s : SegmentTree R) (idx left right : Int),
      (updateRangeLog fuel s idx left right ql qr val).map Prod.fst
        = updateRange fuel s idx left right ql qr val := by
  intro fuel
  induction fuel with
  | zero => intro s idx left right; rfl
  | succ fuel ih =>
    intro s idx left right
    simp only [updateRangeLog, updateRange]
    cases propagate s idx left right with
    | error e => rfl
    | ok s1 =>
      simp only [bind_ok]
      split
      · rfl
      · split
        · cases rd s1.lazy idx with
          | error e => rfl
          | ok lz =>
            simp only [bind_ok]
            cases wr s1.lazy idx (lz + val) with
            | error e => rfl
            | ok lazy1 =>
              simp only [bind_ok]
              cases propagate { s1 with lazy := lazy1 } idx left right with
              | error e => rfl
              | ok s2 => rfl
        · rw [← ih s1 (idx * 2) left (Int.tdiv (left + right) 2)]
          cases updateRangeLog fuel s1 (idx * 2) left (Int.tdiv (left + right) 2) ql qr
              val with
          | error e => rfl
          | ok p =>
            simp only [bind_ok, Except.map]
            rw [← ih p.1 (idx * 2 + 1) (Int.tdiv (left + right) 2 + 1) right]
            cases updateRangeLog fuel p.1 (idx * 2 + 1) (Int.tdiv (left + right) 2 + 1)
                right ql qr val with
            | error e => rfl
            | ok q =>
              simp only [bind_ok, Except.map]
              cases rd q.1.seg (idx * 2) with
              | error e => rfl
              | ok a =>
                simp only [bind_ok]
                cases rd q.1.seg (idx * 2 + 1) with
                | error e => rfl
                | ok b =>
                  simp only [bind_ok]
                  cases wr q.1.seg idx (a + b) with
                  | error e => rfl
                  | ok seg => rfl

omit [DecidableEq R] in
/-- When `buildRec` returns, `buildRecLog` returns the same tree with a log. -/
theorem buildRecLog_of_ok {arr : List R} {fuel : Nat} {s t : SegmentTree R}
    {idx left right : Int} (h : buildRec fuel arr s idx left right = .ok t) :
    ∃ log, buildRecLog fuel arr s idx left right = .ok (t, log) := by
  rw [← buildRecLog_erase] at h
  obtain ⟨p, e, rfl⟩ := map_eq_ok h
  exact ⟨p.2, e⟩

/-- When `rangeQuery` returns, `rangeQueryLog` returns the same with a log. -/
theorem rangeQueryLog_of_ok {fuel : Nat} {s : SegmentTree R} {x : R × SegmentTree R}
    {idx left right ql qr : Int} (h : rangeQuery fuel s idx left right ql qr = .ok x) :
    ∃ log, rangeQueryLog fuel s idx left right ql qr = .ok (x, log) := by
  rw [← rangeQueryLog_erase] at h
  obtain ⟨p, e, rfl⟩ := map_eq_ok h
  exact ⟨p.2, e⟩

/-- When `updateRange` returns, `updateRangeLog` returns the same tree with a
log. -/
theorem updateRangeLog_of_ok {fuel : Nat} {s t : SegmentTree R} {val : R}
    {idx left right ql qr : Int}
    (h : updateRange fuel s idx left right ql qr val = .ok t) :
    ∃ log, updateRangeLog fuel s idx left right ql qr val = .ok (t, log) := by
  rw [← updateRangeLog_erase] at h
  obtain ⟨p, e, rfl⟩ := map_eq_ok h
  exact ⟨p.2, e⟩

theorem calls_stop {go : Int → Int → Int → Prop} {idx left right j a b : Int}
    (hgo : ¬ go idx left right) :
    (j, a, b) ∈ [(idx, left, right)] ↔ Calls go idx left right j a b := by
  constructor
  · intro h
    rw [List.mem_singleton] at h
    injection h with h1 h2
    injection h2 with h2 h3
    subst h1 h2 h3
    exact Calls.here _ _ _
  · intro h
    cases h with
    | here => exact List.mem_singleton.mpr rfl
    | left g _ => exact absurd g hgo
    | right g _ => exact absurd g hgo

theorem calls_go {go : Int → Int → Int → Prop} {idx left right j a b : Int}
    {l1 l2 : List (Int × Int × Int)} (hgo : go idx left right)
    (h1 : (j, a, b) ∈ l1 ↔ Calls go (idx * 2) left (Int.tdiv (left + right) 2) j a b)
    (h2 : (j, a, b) ∈ l2 ↔
      Calls go (idx * 2 + 1) (Int.tdiv (left + right) 2 + 1) right j a b) :
    (j, a, b) ∈ (idx, left, right) :: (l1 ++ l2) ↔ Calls go idx left right j a b := by
  constructor
  · intro h
    rw [List.mem_cons, List.mem_append] at h
    rcases h with h | h | h
    · injection h with h3 h4
      injection h4 with h4 h5
      subst h3 h4 h5
      exact Calls.here _ _ _
    · exact Calls.left hgo (h1.mp h)
    · exact Calls.right hgo (h2.mp h)
  · intro h
    rw [List.mem_cons, List.mem_append]
    cases h with
    | here => exact Or.inl rfl
    | left _ hs => exact Or.inr (Or.inl (h1.mpr hs))
    | right _ hs => exact Or.inr (Or.inr (h2.mpr hs))

omit [DecidableEq R] in
/-- The log of a `build` that returned holds exactly the calls of the recursion
that goes on unless `left == right`. -/
theorem buildRecLog_calls (arr : List R) :
    ∀ (fuel : Nat) (s : SegmentTree R) (idx left right : Int)
      (p : SegmentTree R × List (Int × Int × Int)),
      buildRecLog fuel arr s idx left right = .ok p →
      ∀ j a b, (j, a, b) ∈ p.2 ↔ Calls buildGoes idx left right j a b := by
  intro fuel
  induction fuel with
  | zero => intro s idx left right p e; cases e
  | succ fuel ih =>
    intro s idx left right p e j a b
    simp only [buildRecLog] at e
    by_cases hlr : left = right
    · rw [if_pos hlr] at e
      obtain ⟨v, _, e⟩ := bind_eq_ok e
      obtain ⟨seg, _, e⟩ := bind_eq_ok e
      injection e with e
      rw [← e]
      exact calls_stop (fun g => g hlr)
    · rw [if_neg hlr] at e
      obtain ⟨p1, e1, e⟩ := bind_eq_ok e
      obtain ⟨p2, e2, e⟩ := bind_eq_ok e
      obtain ⟨x, _, e⟩ := bind_eq_ok e
      obtain ⟨y, _, e⟩ := bind_eq_ok e
      obtain ⟨seg, _, e⟩ := bind_eq_ok e
      injection e with e
      rw [← e]
      exact calls_go hlr (ih _ _ _ _ _ e1 j a b) (ih _ _ _ _ _ e2 j a b)

/-- The log of a `rangeQuery` that returned holds exactly the calls of the
recursion that goes on unless the range of the node lies outside `[ql, qr]` or
inside it. -/
theorem rangeQueryLog_calls (ql qr : Int) :
    ∀ (fuel : Nat) (s : SegmentTree R) (idx left right : Int)
      (p : (R × SegmentTree R) × List (Int × Int × Int)),
      rangeQueryLog fuel s idx left right ql qr = .ok p →
      ∀ j a b, (j, a, b) ∈ p.2 ↔ Calls (rangeGoes ql qr) idx left right j a b := by
  intro fuel
  induction fuel with
  | zero => intro s idx left right p e; cases e
  | succ fuel ih =>
    intro s idx left right p e j a b
    simp only [rangeQueryLog] at e
    obtain ⟨s1, _, e⟩ := bind_eq_ok e
    by_cases h1 : right < ql ∨ left > qr
    · rw [if_pos h1] at e
      injection e with e
      rw [← e]
      exact calls_stop (fun g => g.1 h1)
    · rw [if_neg h1] at e
      by_cases h2 : ql ≤ left ∧ right ≤ qr
      · rw [if_pos h2] at e
        obtain ⟨v, _, e⟩ := bind_eq_ok e
        injection e with e
        rw [← e]
        exact calls_stop (fun g => g.2 h2)
      · rw [if_neg h2] at e
        obtain ⟨p1, e1, e⟩ := bind_eq_ok e
        obtain ⟨p2, e2, e⟩ := bind_eq_ok e
        injection e with e
        rw [← e]
        exact calls_go ⟨h1, h2⟩ (ih _ _ _ _ _ e1 j a b) (ih _ _ _ _ _ e2 j a b)

/-- The log of an `updateRange` that returned holds exactly the calls of the
recursion that goes on unless the range of the node lies outside `[ql, qr]` or
inside it. -/
theorem updateRangeLog_calls (ql qr : Int) (val : R) :
    ∀ (fuel : Nat) (s : SegmentTree R) (idx left right : Int)
      (p : SegmentTree R × List (Int × Int × Int)),
      updateRangeLog fuel s idx left right ql qr val = .ok p →
      ∀ j a b, (j, a, b) ∈ p.2 ↔ Calls (rangeGoes ql qr) idx left right j a b := by
  intro fuel
  induction fuel with
  | zero => intro s idx left right p e; cases e
  | succ fuel ih =>
    intro s idx left right p e j a b
    simp only [updateRangeLog] at e
    obtain ⟨s1, _, e⟩ := bind_eq_ok e
    by_cases h1 : right < ql ∨ left > qr
    · rw [if_pos h1] at e
      injection e with e
      rw [← e]
      exact calls_stop (fun g => g.1 h1)
    · rw [if_neg h1] at e
      by_cases h2 : ql ≤ left ∧ right ≤ qr
      · rw [if_pos h2] at e
        obtain ⟨lz, _, e⟩ := bind_eq_ok e
        obtain ⟨lazy1, _, e⟩ := bind_eq_ok e
        obtain ⟨s2, _, e⟩ := bind_eq_ok e
        injection e with e
        rw [← e]
        exact calls_stop (fun g => g.2 h2)
      · rw [if_neg h2] at e
        obtain ⟨p1, e1, e⟩ := bind_eq_ok e
        obtain ⟨p2, e2, e⟩ := bind_eq_ok e
        obtain ⟨x, _, e⟩ := bind_eq_ok e
        obtain ⟨y, _, e⟩ := bind_eq_ok e
        obtain ⟨seg, _, e⟩ := bind_eq_ok e
        injection e with e
        rw [← e]
        exact calls_go ⟨h1, h2⟩ (ih _ _ _ _ _ e1 j a b) (ih _ _ _ _ _ e2 j a b)

/-- A call of a recursion from `(1, 0, n - 1)` that goes on only on ranges of
more than one element is on a non-empty part of `[0, n - 1]`, at a node
inside the `4 * n` slots, and when it goes on, its two recursive calls are on
non-empty shorter ranges at nodes inside the `4 * n` slots. -/
theorem Calls.valid {n : Int} (hn : 1 ≤ n) {go : Int → Int → Int → Prop}
    (hgo : ∀ i l r, Ctx n i l r → go i l r → l < r) {j a b : Int}
    (hcall : Calls go 1 0 (n - 1) j a b) :
    0 ≤ a ∧ a ≤ b ∧ b ≤ n - 1 ∧ 1 ≤ j ∧ j ≤ 4 * n - 1 ∧
      (a < b → 1 ≤ j * 2 ∧ j * 2 + 1 ≤ 4 * n - 1) ∧
      (go j a b → a ≤ Int.tdiv (a + b) 2 ∧ Int.tdiv (a + b) 2 + 1 ≤ b ∧
        Int.tdiv (a + b) 2 - a < b - a ∧ b - (Int.tdiv (a + b) 2 + 1) < b - a) := by
  have hc := (Calls.ctx (q := fun _ _ _ => True) (fun i l r c g => ⟨hgo i l r c g, trivial⟩)
    hcall (Ctx.root hn)).1
  have hmid := hc.mid_eq
  have h3 := hc.idx_pos
  have h4 := hc.idx_lt
  obtain ⟨h0, h1, h2, _⟩ := id hc
  refine ⟨h0, h1, by omega, h3, by omega, fun hlt => ?_, fun g => ?_⟩
  · have h5 := hc.child_lt hlt
    omega
  · have hlt := hgo j a b hc g
    rw [hmid]
    omega

end SegmentTree

/-! ## Claims about the recursion of the segment tree -/

namespace SegmentTree

variable {R : Type} [CommRing R] [DecidableEq R]

/-- A call made below a call made below a third call is made below the third
call. -/
theorem Calls.below {go : Int → Int → Int → Prop} {i l r j a b j2 a2 b2 : Int}
    (h1 : Calls go i l r j a b) (h2 : Calls go j a b j2 a2 b2) :
    Calls go i l r j2 a2 b2 := by
  induction h1 with
  | here i l r => exact h2
  | left g _ ih => exact Calls.left g (ih h2)
  | right g _ ih => exact Calls.right g (ih h2)

/-- What the bounds of `Calls.valid` say of a log that holds exactly the calls
of a recursion from `(1, 0, n - 1)`: the two recursive calls of a call that goes
on are in the log as well. -/
theorem log_valid {n : Int} (hn : 1 ≤ n) {go : Int → Int → Int → Prop}
    (hgo : ∀ i l r, Ctx n i l r → go i l r → l < r) {log : List (Int × Int × Int)}
    (hlog : ∀ j a b, (j, a, b) ∈ log ↔ Calls go 1 0 (n - 1) j a b) (j a b : Int)
    (h : (j, a, b) ∈ log) :
    (0 ≤ a ∧ a ≤ b ∧ b ≤ n - 1 ∧
      (go j a b →
        (j * 2, a, Int.tdiv (a + b) 2) ∈ log ∧
        (j * 2 + 1, Int.tdiv (a + b) 2 + 1, b) ∈ log ∧
        a ≤ Int.tdiv (a + b) 2 ∧ Int.tdiv (a + b) 2 + 1 ≤ b ∧
        Int.tdiv (a + b) 2 - a < b - a ∧ b - (Int.tdiv (a + b) 2 + 1) < b - a)) ∧
    (1 ≤ j ∧ j ≤ 4 * n - 1 ∧ (a < b → 1 ≤ j * 2 ∧ j * 2 + 1 ≤ 4 * n - 1)) := by
  have hcall := (hlog j a b).mp h
  obtain ⟨h0, h1, h2, h3, h4, h5, h6⟩ := Calls.valid hn hgo hcall
  refine ⟨⟨h0, h1, h2, fun g => ?_⟩, h3, h4, h5⟩
  obtain ⟨g1, g2, g3, g4⟩ := h6 g
  refine ⟨(hlog _ _ _).mpr ?_, (hlog _ _ _).mpr ?_, g1, g2, g3, g4⟩
  · exact Calls.below hcall (Calls.left g (Calls.here _ _ _))
  · exact Calls.below hcall (Calls.right g (Calls.here _ _ _))

/-- C28, as stated, fails at `N = 1073741825`: the `int` product `4*n` of the
constructor is 4, so `seg` and `lazy` have 4 slots.  On the constructed tree
`query(0, 0)` and `update(0, 0, d)` call `rangeQuery` and `updateRange` at
`(1, 0, 1073741824)`, then at `(2, 0, 536870912)`, then at `(4, 0, 268435456)`,
where `propagate` reads `lazy[4]`, outside the 4 slots: with fuel for these
three calls, both stop at that read.  And `build` does not return on an array
of this many elements, whatever the fuel. -/
theorem storage_suffices_counterexample :
    (ctor 1073741825 : Except Err (SegmentTree Int)) = .ok shortTree ∧
      shortTree.seg.length = 4 ∧ shortTree.lazy.length = 4 ∧
      rd shortTree.lazy 4 = .error .outOfBounds ∧
      propagate shortTree 4 0 268435456 = .error .outOfBounds ∧
      (∀ fuel : Nat, query (fuel + 3) shortTree 0 0 = .error .outOfBounds) ∧
      (∀ (fuel : Nat) (d : Int), update (fuel + 3) shortTree 0 0 d = .error .outOfBounds) ∧
      ∀ (fuel : Nat) (A : List Int) (t : SegmentTree Int), A.length = 1073741825 →
        fromArray fuel A ≠ .ok t := by
  refine ⟨by rfl, by rfl, by rfl, by rfl, by rfl, fun fuel => by rfl, fun fuel d => by rfl,
    fun fuel A t hA e => ?_⟩
  have h := fromArray_bound e
  omega

/-- C28, amended: the `4N` slots suffice for `1 ≤ N < 2 ^ 29`, where the `int`
product `4*n` of the constructor is `4 * N`.  The constructor returns vectors
`seg` and `lazy` of `4N` slots.  With `buildRecLog`, `rangeQueryLog` and
`updateRangeLog`, which are `build`, `rangeQuery` and `updateRange` with a
log of the calls `(j, a, b)` they make (`buildRecLog_erase`,
`rangeQueryLog_erase`, `updateRangeLog_erase`), for any integers `ql` and
`qr`, an array `A` of `N` elements and a reachable tree `s` of `N` elements:
every call in the log of `build(A)` on the constructed tree, and of
`rangeQuery` and `updateRange` from `(1, 0, N - 1)` on `s`, has
`1 ≤ j ≤ 4N - 1`, and when the node has more than one element its child slots
`2j` and `2j + 1`, which `propagate` writes, lie in `[1, 4N - 1]` too.  Every
access of the embedding is checked, and no check fails: whatever the fuel, the
constructor with `build(A)`, and `query(ql, qr)` and `update(ql, qr, val)` on
`s`, fail only by running out of fuel, and with fuel `N` they return. -/
theorem storage_suffices (n : Int) (hn : 1 ≤ n) (hn2 : n < 2 ^ 29) (ql qr : Int) :
    (ctor n : Except Err (SegmentTree R)) = .ok
      { seg := List.replicate (4 * n).toNat 0, lazy := List.replicate (4 * n).toNat 0,
        n := n } ∧
    (∀ (A : List R) (fuel : Nat), (A.length : Int) = n →
      (∀ e, fromArray fuel A = .error e → e = .outOfFuel) ∧
      (A.length ≤ fuel → ∃ s0 p, (ctor n : Except Err (SegmentTree R)) = .ok s0 ∧
        buildRecLog fuel A s0 1 0 (n - 1) = .ok p) ∧
      ∀ (s0 : SegmentTree R) (p : SegmentTree R × List (Int × Int × Int)),
        ctor n = .ok s0 → buildRecLog fuel A s0 1 0 (n - 1) = .ok p →
        ∀ j a b, (j, a, b) ∈ p.2 →
          1 ≤ j ∧ j ≤ 4 * n - 1 ∧ (a < b → 1 ≤ j * 2 ∧ j * 2 + 1 ≤ 4 * n - 1)) ∧
    (∀ (s : SegmentTree R) (fuel : Nat), Reachable s → s.n = n →
      (s.seg.length : Int) = 4 * n ∧ (s.lazy.length : Int) = 4 * n ∧
      (∀ e, query fuel s ql qr = .error e → e = .outOfFuel) ∧
      (∀ val e, update fuel s ql qr val = .error e → e = .outOfFuel) ∧
      (n ≤ fuel → (∃ p, rangeQueryLog fuel s 1 0 (n - 1) ql qr = .ok p) ∧
        ∀ val : R, ∃ p, updateRangeLog fuel s 1 0 (n - 1) ql qr val = .ok p) ∧
      (∀ p : (R × SegmentTree R) × List (Int × Int × Int),
        rangeQueryLog fuel s 1 0 (n - 1) ql qr = .ok p →
        ∀ j a b, (j, a, b) ∈ p.2 →
          1 ≤ j ∧ j ≤ 4 * n - 1 ∧ (a < b → 1 ≤ j * 2 ∧ j * 2 + 1 ≤ 4 * n - 1)) ∧
      ∀ (val : R) (p : SegmentTree R × List (Int × Int × Int)),
        updateRangeLog fuel s 1 0 (n - 1) ql qr val = .ok p →
        ∀ j a b, (j, a, b) ∈ p.2 →
          1 ≤ j ∧ j ≤ 4 * n - 1 ∧ (a < b → 1 ≤ j * 2 ∧ j * 2 + 1 ≤ 4 * n - 1)) := by
  refine ⟨ctor_ok n (by omega) hn2, fun A fuel hA => ⟨fun e he => ?_, fun hf => ?_,
    fun s0 p _ e j a b h => ?_⟩, fun s fuel hs hsn => ?_⟩
  · have hA2 : A.length < 2 ^ 29 := by
      have h3 : (A.length : Int) < 2 ^ 29 := by rw [hA]; exact hn2
      exact_mod_cast h3
    exact fromArray_safe fuel A (by omega) hA2 e he
  · have hA2 : A.length < 2 ^ 29 := by
      have h3 : (A.length : Int) < 2 ^ 29 := by rw [hA]; exact hn2
      exact_mod_cast h3
    obtain ⟨s, e, _⟩ := fromArray_inv fuel A (by omega) hA2 hf
    simp only [fromArray] at e
    obtain ⟨s0, e0, e1⟩ := bind_eq_ok e
    have hs0 := (ctor_eq_ok e0).1
    rw [build, hs0, hA] at e1
    rw [hA] at e0
    obtain ⟨log, e2⟩ := buildRecLog_of_ok e1
    exact ⟨s0, (s, log), e0, e2⟩
  · exact (log_valid hn (fun _ _ _ c g => buildGoes_lt c g)
      (buildRecLog_calls A fuel s0 1 0 (n - 1) p e) j a b h).2
  · obtain ⟨f, inv⟩ := hs.inv
    refine ⟨by rw [← hsn]; exact inv.seg_len, by rw [← hsn]; exact inv.lazy_len,
      fun e he => query_safe inv fuel ql qr e he,
      fun val e he => update_safe inv fuel ql qr val e he, fun hf => ?_,
      fun p e j a b h => ?_, fun val p e j a b h => ?_⟩
    · have hfuel : s.n ≤ (fuel : Int) := by omega
      constructor
      · obtain ⟨t, e, _⟩ := query_inv inv fuel hfuel ql qr
        rw [query, hsn] at e
        obtain ⟨log, e2⟩ := rangeQueryLog_of_ok e
        exact ⟨_, e2⟩
      · intro val
        obtain ⟨t, e, _⟩ := update_inv inv fuel hfuel ql qr val
        rw [update, hsn] at e
        obtain ⟨log, e2⟩ := updateRangeLog_of_ok e
        exact ⟨_, e2⟩
    · exact (log_valid hn (fun _ _ _ c g => rangeGoes_lt c g)
        (rangeQueryLog_calls ql qr fuel s 1 0 (n - 1) p e) j a b h).2
    · exact (log_valid hn (fun _ _ _ c g => rangeGoes_lt c g)
        (updateRangeLog_calls ql qr val fuel s 1 0 (n - 1) p e) j a b h).2

/-- C28, amended, for `N = 5` and the range `[1, 3]`. -/
theorem storage_suffices_witness :
    (ctor 5 : Except Err (SegmentTree Int)) = .ok
      { seg := List.replicate (4 * (5 : Int)).toNat 0,
        lazy := List.replicate (4 * (5 : Int)).toNat 0, n := 5 } ∧
    (∀ (A : List Int) (fuel : Nat), (A.length : Int) = 5 →
      (∀ e, fromArray fuel A = .error e → e = .outOfFuel) ∧
      (A.length ≤ fuel → ∃ s0 p, (ctor 5 : Except Err (SegmentTree Int)) = .ok s0 ∧
        buildRecLog fuel A s0 1 0 (5 - 1) = .ok p) ∧
      ∀ (s0 : SegmentTree Int) (p : SegmentTree Int × List (Int × Int × Int)),
        ctor 5 = .ok s0 → buildRecLog fuel A s0 1 0 (5 - 1) = .ok p →
        ∀ j a b, (j, a, b) ∈ p.2 →
          1 ≤ j ∧ j ≤ 4 * 5 - 1 ∧ (a < b → 1 ≤ j * 2 ∧ j * 2 + 1 ≤ 4 * 5 - 1)) ∧
    (∀ (s : SegmentTree Int) (fuel : Nat), Reachable s → s.n = 5 →
      (s.seg.length : Int) = 4 * 5 ∧ (s.lazy.length : Int) = 4 * 5 ∧
      (∀ e, query fuel s 1 3 = .error e → e = .outOfFuel) ∧
      (∀ val e, update fuel s 1 3 val = .error e → e = .outOfFuel) ∧
      ((5 : Int) ≤ fuel → (∃ p, rangeQueryLog fuel s 1 0 (5 - 1) 1 3 = .ok p) ∧
        ∀ val : Int, ∃ p, updateRangeLog fuel s 1 0 (5 - 1) 1 3 val = .ok p) ∧
      (∀ p : (Int × SegmentTree Int) × List (Int × Int × Int),
        rangeQueryLog fuel s 1 0 (5 - 1) 1 3 = .ok p →
        ∀ j a b, (j, a, b) ∈ p.2 →
          1 ≤ j ∧ j ≤ 4 * 5 - 1 ∧ (a < b → 1 ≤ j * 2 ∧ j * 2 + 1 ≤ 4 * 5 - 1)) ∧
      ∀ (val : Int) (p : SegmentTree Int × List (Int × Int × Int)),
        updateRangeLog fuel s 1 0 (5 - 1) 1 3 val = .ok p →
        ∀ j a b, (j, a, b) ∈ p.2 →
          1 ≤ j ∧ j ≤ 4 * 5 - 1 ∧ (a < b → 1 ≤ j * 2 ∧ j * 2 + 1 ≤ 4 * 5 - 1)) :=
  storage_suffices 5 (by decide) (by decide) 1 3

end SegmentTree

/-! ## The dynamic array -/

section dynamic

variable {T : Type}

theorem readSlot_some {data : List (Option T)} {i : Nat} {x : T}
    (h : data[i]? = some (some x)) : readSlot data i = .ok x := by
  simp [readSlot, h]

theorem writeSlot_lt {data : List (Option T)} {i : Nat} (x : T) (h : i < data.length) :
    writeSlot data i x = .ok (data.set i (some x)) := by
  simp [writeSlot, h]

theorem getElem?_mid (l1 : List T) (x : T) (l2 : List T) :
    (l1 ++ x :: l2)[l1.length]? = some x := by
  rw [List.getElem?_append_right (le_refl _)]
  simp

theorem set_mid (l1 : List T) (x z : T) (l2 : List T) :
    (l1 ++ x :: l2).set l1.length z = l1 ++ z :: l2 := by
  induction l1 with
  | nil => rfl
  | cons a l1 ih => simp [ih]

theorem Vector.Holds.slot {v : Vector T} {xs : List T} (h : v.Holds xs) {i : Nat} {x : T}
    (hx : xs[i]? = some x) : v.data[i]? = some (some x) := by
  have hi : i < xs.length := by
    by_contra hlt
    rw [List.getElem?_eq_none (by omega)] at hx
    cases hx
  rw [h.2.2.2.2 i hi, hx]

/-- Reading `v[i]` gives the value at position `i`. -/
theorem Vector.get_spec {v : Vector T} {xs : List T} (h : v.Holds xs) {i : Nat} {x : T}
    (hx : xs[i]? = some x) : v.get i = .ok x := by
  have hi : i < xs.length := by
    by_contra hlt
    rw [List.getElem?_eq_none (by omega)] at hx
    cases hx
  have hl : ¬ i ≥ v.length := by rw [h.2.2.1]; omega
  simp [Vector.get, hl, readSlot_some (h.slot hx)]

/-- An index from `size()` on raises `std::out_of_range`. -/
theorem Vector.get_range {v : Vector T} {i : Nat} (hi : v.length ≤ i) :
    v.get i = .error .outOfRange := by
  simp [Vector.get, hi]

/-- The assignment `v[i] = x` replaces the value at position `i`. -/
theorem Vector.assign_spec {v : Vector T} {xs : List T} (h : v.Holds xs) {i : Nat}
    (hi : i < xs.length) (x : T) :
    ∃ v2, v.assign i x = .ok v2 ∧ v2.Holds (xs.set i x) ∧ v2.capacity = v.capacity := by
  obtain ⟨h1, h2, h3, h4, h5⟩ := h
  have hl : ¬ i ≥ v.length := by rw [h3]; omega
  have hd : i < v.data.length := by omega
  refine ⟨{ v with data := v.data.set i (some x) }, ?_, ⟨?_, h2, ?_, ?_, fun k hk => ?_⟩, rfl⟩
  · simp [Vector.assign, hl, writeSlot_lt x hd, bind_ok]
  · simp [h1]
  · simp [h3]
  · simpa using h4
  · simp only [List.length_set] at hk
    simp only [List.getElem?_set]
    by_cases hik : i = k
    · subst hik
      simp [hd, hi]
    · simp [hik, h5 k hk]

/-- The copy loop of `reallocate` copies the first `length` slots. -/
theorem Vector.reallocateLoop_spec (data : List (Option T)) (length : Nat)
    (hdata : ∀ k, k < length → ∃ x, data[k]? = some (some x)) :
    ∀ (fuel : Nat) (newData : List (Option T)) (i : Nat), length ≤ newData.length →
      (∀ k, k < i → newData[k]? = data[k]?) → i ≤ length → length - i < fuel →
      ∃ nd, Vector.reallocateLoop fuel data newData length i = .ok nd ∧
        nd.length = newData.length ∧ (∀ k, k < length → nd[k]? = data[k]?) ∧
        ∀ k, length ≤ k → nd[k]? = newData[k]? := by
  intro fuel
  induction fuel with
  | zero => intro newData i _ _ _ hf; omega
  | succ fuel ih =>
    intro newData i hlen hcopy hi hf
    by_cases hlt : i < length
    · obtain ⟨x, hx⟩ := hdata i hlt
      obtain ⟨nd, e, hl, hc, hr⟩ := ih (newData.set i (some x)) (i + 1)
        (by simpa using hlen)
        (fun k hk => by
          simp only [List.getElem?_set]
          by_cases hik : i = k
          · subst hik
            simp [hx, show i < newData.length by omega]
          · simp [hik, hcopy k (by omega)])
        (by omega) (by omega)
      refine ⟨nd, ?_, by simpa using hl, hc, fun k hk => ?_⟩
      · simp [Vector.reallocateLoop, hlt, readSlot_some hx,
          writeSlot_lt x (show i < newData.length by omega), bind_ok, e]
      · rw [hr k hk, List.getElem?_set]
        simp [show i ≠ k by omega]
    · have hil : i = length := by omega
      subst hil
      exact ⟨newData, by simp [Vector.reallocateLoop], rfl, hcopy, fun _ _ => rfl⟩

/-- The method `push_back` appends a value, with fuel above the size. -/
theorem Vector.push_back_holds {v : Vector T} {xs : List T} (h : v.Holds xs) (fuel : Nat)
    (hf : xs.length < fuel) (x : T) :
    ∃ v2, v.push_back fuel x = .ok v2 ∧ v2.Holds (xs ++ [x]) := by
  obtain ⟨h1, h2, h3, h4, h5⟩ := h
  have hgrow : ∃ v1 : Vector T,
      (if v.length = v.capacity then Vector.reallocate fuel v else .ok v) = .ok v1 ∧
      v1.data.length = v1.capacity ∧ 1 ≤ v1.capacity ∧ v1.length = xs.length ∧
      xs.length < v1.capacity ∧ ∀ i, i < xs.length → v1.data[i]? = some xs[i]? := by
    by_cases hfull : v.length = v.capacity
    · obtain ⟨nd, e, hl, hc, _⟩ := Vector.reallocateLoop_spec v.data v.length
        (fun k hk => by
          rw [h3] at hk
          rw [h5 k hk]
          exact ⟨xs[k], by simp [List.getElem?_eq_getElem hk]⟩)
        fuel (List.replicate (v.capacity * 2) none) 0
        (by simp only [List.length_replicate]; omega) (fun k hk => by omega) (by omega)
        (by omega)
      simp only [List.length_replicate] at hl
      refine ⟨⟨nd, v.capacity * 2, v.length⟩, ?_, hl, by show 1 ≤ v.capacity * 2; omega, h3,
        by show xs.length < v.capacity * 2; omega, fun i hi => ?_⟩
      · rw [if_pos hfull]
        simp only [Vector.reallocate, e, bind_ok]
      · show nd[i]? = _
        rw [hc i (by omega), h5 i hi]
    · exact ⟨v, by simp [hfull], h1, h2, h3, by omega, h5⟩
  obtain ⟨v1, e1, g1, g2, g3, g4, g5⟩ := hgrow
  have hd : v1.length < v1.data.length := by omega
  refine ⟨⟨v1.data.set v1.length (some x), v1.capacity, v1.length + 1⟩, ?_,
    ⟨by simp [g1], g2, by simp [g3],
      by simp only [List.length_append, List.length_singleton]; omega, fun i hi => ?_⟩⟩
  · rw [Vector.push_back, e1, bind_ok, writeSlot_lt x hd, bind_ok]
  · simp only [List.length_append, List.length_singleton] at hi
    show (v1.data.set v1.length (some x))[i]? = _
    rw [List.getElem?_set]
    by_cases hik : v1.length = i
    · simp [hik, show i < v1.data.length by omega, ← g3]
    · have hi2 : i < xs.length := by omega
      simp [hik, g5 i hi2, List.getElem?_append_left hi2]

/-- The method `print` writes the values held, in order. -/
theorem Vector.print_holds {v : Vector T} {xs : List T} (h : v.Holds xs) :
    ∀ (fuel i : Nat), xs.length - i < fuel → Vector.print fuel v i = .ok (xs.drop i) := by
  intro fuel
  induction fuel with
  | zero => intro i hf; omega
  | succ fuel ih =>
    intro i hf
    by_cases hi : i < xs.length
    · have hl : i < v.length := by rw [h.2.2.1]; exact hi
      have hx : xs[i]? = some xs[i] := List.getElem?_eq_getElem hi
      simp only [Vector.print, hl, if_true, readSlot_some (h.slot hx), bind_ok,
        ih (i + 1) (by omega)]
      rw [List.drop_eq_getElem_cons hi]
    · have hl : ¬ i < v.length := by rw [h.2.2.1]; exact hi
      simp only [Vector.print, hl, if_false]
      rw [List.drop_eq_nil_of_le (show xs.length ≤ i by omega)]

theorem Vector.ctor_empty (cap : Nat) (hcap : 1 ≤ cap) : (Vector.ctor cap : Vector T).Holds [] :=
  ⟨by simp [Vector.ctor], hcap, rfl, by simp, fun i hi => by simp at hi⟩

end dynamic

/-! ## The flat set -/

namespace FlatSet

variable {T : Type} [LinearOrder T]

omit [LinearOrder T] in
/-- The swap loop of `insert` moves the value at position `j` down to position
`i` and shifts the values between them up by one. -/
theorem bubbleLoop_spec (val : T) : ∀ (fuel : Nat) (v : Vector T) (a b c : List T),
    v.Holds (a ++ b ++ val :: c) → b.length < fuel →
    ∃ v2, bubbleLoop fuel v a.length (a.length + b.length) = .ok v2 ∧
      v2.Holds (a ++ val :: b ++ c) := by
  intro fuel
  induction fuel with
  | zero => intro v a b c _ hf; omega
  | succ fuel ih =>
    intro v a b c h hf
    by_cases hb : b = []
    · subst hb
      refine ⟨v, by simp [bubbleLoop], ?_⟩
      simpa using h
    · obtain ⟨b2, y, rfl⟩ := exists_snoc hb
      have hlist : a ++ (b2 ++ [y]) ++ val :: c = (a ++ b2 ++ [y]) ++ val :: c := by simp
      have hlist2 : a ++ (b2 ++ [y]) ++ val :: c = (a ++ b2) ++ y :: val :: c := by simp
      have hj : a.length + (b2 ++ [y]).length = (a ++ b2 ++ [y]).length := by simp
      have hj1 : a.length + (b2 ++ [y]).length - 1 = (a ++ b2).length := by simp
      have hgt : a.length + (b2 ++ [y]).length > a.length := by simp
      have g1 : (a ++ (b2 ++ [y]) ++ val :: c)[a.length + (b2 ++ [y]).length]? = some val := by
        rw [hlist, hj]; exact getElem?_mid _ _ _
      have g2 : (a ++ (b2 ++ [y]) ++ val :: c)[a.length + (b2 ++ [y]).length - 1]? = some y := by
        rw [hlist2, hj1]; exact getElem?_mid _ _ _
      obtain ⟨v1, e1, h1, _⟩ := Vector.assign_spec h
        (show a.length + (b2 ++ [y]).length < (a ++ (b2 ++ [y]) ++ val :: c).length by
          simp) y
      have hs1 : (a ++ (b2 ++ [y]) ++ val :: c).set (a.length + (b2 ++ [y]).length) y
          = (a ++ b2) ++ y :: y :: c := by
        rw [hlist, hj, set_mid]; simp
      rw [hs1] at h1
      obtain ⟨v2, e2, h2, _⟩ := Vector.assign_spec h1
        (show a.length + (b2 ++ [y]).length - 1 < ((a ++ b2) ++ y :: y :: c).length by
          simp) val
      have hs2 : ((a ++ b2) ++ y :: y :: c).set (a.length + (b2 ++ [y]).length - 1) val
          = a ++ b2 ++ val :: (y :: c) := by
        rw [hj1, set_mid]
      rw [hs2] at h2
      obtain ⟨v3, e3, h3⟩ := ih v2 a b2 (y :: c) h2
        (by simp only [List.length_append, List.length_singleton] at hf; omega)
      have hidx : a.length + (b2 ++ [y]).length - 1 = a.length + b2.length := by simp
      refine ⟨v3, ?_, by simpa using h3⟩
      rw [bubbleLoop, if_pos hgt, Vector.get_spec h g1, bind_ok, Vector.get_spec h g2, bind_ok,
        e1, bind_ok, e2, bind_ok, hidx, e3]

/-- Inserting between a part below `val` and a part above `val` keeps a list
strictly increasing. -/
theorem sorted_between {a c : List T} {val : T} (hs : (a ++ c).Sorted (· < ·))
    (ha : ∀ x ∈ a, x < val) (hc : ∀ x ∈ c, val < x) : (a ++ val :: c).Sorted (· < ·) := by
  simp only [List.Sorted, List.pairwise_append, List.pairwise_cons, List.mem_cons] at hs ⊢
  refine ⟨hs.1, ⟨hc, hs.2.1⟩, fun x hx y hy => ?_⟩
  rcases hy with rfl | hy
  · exact ha x hx
  · exact hs.2.2 x hx y hy

/-- The method `insert`, from position `i` of its search loop on: a value that
is present leaves the vector as it is; a value that is absent is put between
the values below it and the values above it. -/
theorem insertLoop_spec (val : T) : ∀ (fuel : Nat) (v : Vector T) (xs : List T) (i : Nat),
    v.Holds xs → xs.Sorted (· < ·) → i ≤ xs.length → (∀ x ∈ xs.take i, x < val) →
    (xs.length - i) + xs.length + 2 ≤ fuel →
    ∃ v2, insertLoop fuel v val i = .ok v2 ∧
      ((val ∈ xs ∧ v2 = v) ∨
        (val ∉ xs ∧ ∃ a c, xs = a ++ c ∧ (∀ x ∈ a, x < val) ∧ (∀ x ∈ c, val < x) ∧
          v2.Holds (a ++ val :: c))) := by
  intro fuel
  induction fuel with
  | zero => intro v xs i _ _ _ _ hf; omega
  | succ fuel ih =>
    intro v xs i h hs hi hlow hf
    have hsize : v.size = xs.length := h.2.2.1
    by_cases hlt : i < xs.length
    · have hx : xs[i]? = some xs[i] := List.getElem?_eq_getElem hlt
      have hlt2 : i < v.size := by rw [hsize]; exact hlt
      by_cases hxv : xs[i] = val
      · refine ⟨v, ?_, Or.inl ⟨hxv ▸ List.getElem_mem _, rfl⟩⟩
        rw [insertLoop, if_pos hlt2, Vector.get_spec h hx, bind_ok, if_pos hxv]
      · by_cases hgt : xs[i] > val
        · obtain ⟨v1, e1, h1⟩ := Vector.push_back_holds h fuel (by omega) val
          have hsize1 : v1.size - 1 = (xs.take i).length + (xs.drop i).length := by
            have : v1.size = (xs ++ [val]).length := h1.2.2.1
            rw [this]; simp; omega
          have hti : (xs.take i).length = i := by simp; omega
          have h1b : v1.Holds (xs.take i ++ xs.drop i ++ val :: []) := by
            rw [List.take_append_drop]; exact h1
          obtain ⟨v2, e2, h2⟩ := bubbleLoop_spec val fuel v1 (xs.take i) (xs.drop i) [] h1b
            (by simp; omega)
          have hc : ∀ x ∈ xs.drop i, val < x := by
            intro x hxm
            rw [List.drop_eq_getElem_cons hlt] at hxm
            rcases List.mem_cons.1 hxm with rfl | hxm
            · exact hgt
            · have hs2 : (xs.drop i).Sorted (· < ·) := hs.sublist (List.drop_sublist _ _)
              rw [List.drop_eq_getElem_cons hlt] at hs2
              exact lt_trans hgt ((List.sorted_cons.1 hs2).1 x hxm)
          have hnot : val ∉ xs := by
            intro hm
            rw [← List.take_append_drop i xs] at hm
            rcases List.mem_append.1 hm with hm | hm
            · exact lt_irrefl _ (hlow _ hm)
            · exact lt_irrefl _ (hc _ hm)
          refine ⟨v2, ?_, Or.inr ⟨hnot, xs.take i, xs.drop i, (List.take_append_drop i xs).symm,
            hlow, hc, by simpa using h2⟩⟩
          rw [insertLoop, if_pos hlt2, Vector.get_spec h hx, bind_ok, if_neg hxv,
            bind_ok, if_pos hgt, e1, bind_ok, hsize1]
          rw [hti] at e2 ⊢
          exact e2
        · have hlt3 : xs[i] < val := lt_of_le_of_ne (not_lt.1 hgt) hxv
          obtain ⟨v2, e2, h2⟩ := ih v xs (i + 1) h hs (by omega)
            (fun x hxm => by
              rw [List.take_succ, List.mem_append] at hxm
              rcases hxm with hxm | hxm
              · exact hlow x hxm
              · rw [hx] at hxm
                simp only [Option.toList_some, List.mem_singleton] at hxm
                rw [hxm]; exact hlt3)
            (by omega)
          refine ⟨v2, ?_, h2⟩
          rw [insertLoop, if_pos hlt2, Vector.get_spec h hx, bind_ok, if_neg hxv,
            bind_ok, if_neg hgt, e2]
    · have hil : i = xs.length := by omega
      subst hil
      have hlt2 : ¬ xs.length < v.size := by rw [hsize]; omega
      rw [List.take_length] at hlow
      obtain ⟨v1, e1, h1⟩ := Vector.push_back_holds h fuel (by omega) val
      refine ⟨v1, ?_, Or.inr ⟨fun hm => lt_irrefl _ (hlow _ hm), xs, [], by simp, hlow,
        by simp, h1⟩⟩
      rw [insertLoop, if_neg hlt2, e1]

/-- The method `contains` on a strictly increasing vector, from position `i` of
its loop on, when the values before `i` are below `val`. -/
theorem containsLoop_spec (val : T) : ∀ (fuel : Nat) (v : Vector T) (xs : List T) (i : Nat),
    v.Holds xs → xs.Sorted (· < ·) → i ≤ xs.length → (∀ x ∈ xs.take i, x < val) →
    xs.length - i < fuel →
    containsLoop fuel v val i = .ok (decide (val ∈ xs)) := by
  intro fuel
  induction fuel with
  | zero => intro v xs i _ _ _ _ hf; omega
  | succ fuel ih =>
    intro v xs i h hs hi hlow hf
    have hsize : v.size = xs.length := h.2.2.1
    by_cases hlt : i < xs.length
    · have hx : xs[i]? = some xs[i] := List.getElem?_eq_getElem hlt
      have hlt2 : i < v.size := by rw [hsize]; exact hlt
      by_cases hxv : xs[i] = val
      · have hm : val ∈ xs := hxv ▸ List.getElem_mem _
        rw [containsLoop, if_pos hlt2, Vector.get_spec h hx, bind_ok, if_pos hxv]
        simp [hm]
      · by_cases hgt : xs[i] > val
        · have hc : ∀ x ∈ xs.drop i, val < x := by
            intro x hxm
            rw [List.drop_eq_getElem_cons hlt] at hxm
            rcases List.mem_cons.1 hxm with rfl | hxm
            · exact hgt
            · have hs2 : (xs.drop i).Sorted (· < ·) := hs.sublist (List.drop_sublist _ _)
              rw [List.drop_eq_getElem_cons hlt] at hs2
              exact lt_trans hgt ((List.sorted_cons.1 hs2).1 x hxm)
          have hnot : val ∉ xs := by
            intro hm
            rw [← List.take_append_drop i xs] at hm
            rcases List.mem_append.1 hm with hm | hm
            · exact lt_irrefl _ (hlow _ hm)
            · exact lt_irrefl _ (hc _ hm)
          rw [containsLoop, if_pos hlt2, Vector.get_spec h hx, bind_ok, if_neg hxv,
            bind_ok, if_pos hgt]
          simp [hnot]
        · have hlt3 : xs[i] < val := lt_of_le_of_ne (not_lt.1 hgt) hxv
          have e2 := ih v xs (i + 1) h hs (by omega)
            (fun x hxm => by
              rw [List.take_succ, List.mem_append] at hxm
              rcases hxm with hxm | hxm
              · exact hlow x hxm
              · rw [hx] at hxm
                simp only [Option.toList_some, List.mem_singleton] at hxm
                rw [hxm]; exact hlt3)
            (by omega)
          rw [containsLoop, if_pos hlt2, Vector.get_spec h hx, bind_ok, if_neg hxv,
            bind_ok, if_neg hgt, e2]
    · have hil : i = xs.length := by omega
      subst hil
      have hlt2 : ¬ xs.length < v.size := by rw [hsize]; omega
      rw [List.take_length] at hlow
      have hnot : val ∉ xs := fun hm => lt_irrefl _ (hlow _ hm)
      rw [containsLoop, if_neg hlt2]
      simp [hnot]

/-- A sequence of `insert` calls on a strictly increasing vector returns, and
leaves a strictly increasing vector of the old values and the values
inserted. -/
theorem runInserts_spec (fuel : Nat) : ∀ (vals : List T) (s : FlatSet T) (xs : List T),
    s.vec.Holds xs → xs.Sorted (· < ·) → 2 * (xs.length + vals.length) + 2 ≤ fuel →
    ∃ s2 ys, runInserts fuel s vals = .ok s2 ∧ s2.vec.Holds ys ∧ ys.Sorted (· < ·) ∧
      (∀ x, x ∈ ys ↔ x ∈ xs ∨ x ∈ vals) ∧ ys.length ≤ xs.length + vals.length := by
  intro vals
  induction vals with
  | nil =>
    intro s xs h hs _
    exact ⟨s, xs, rfl, h, hs, fun x => by simp, by simp⟩
  | cons val vals ih =>
    intro s xs h hs hf
    simp only [List.length_cons] at hf
    obtain ⟨v2, e, hcase⟩ := insertLoop_spec val fuel s.vec xs 0 h hs (by omega)
      (by simp) (by omega)
    rcases hcase with ⟨hm, rfl⟩ | ⟨hm, a, c, rfl, ha, hc, h2⟩
    · obtain ⟨s2, ys, e2, h3, hs3, hmem, hlen⟩ := ih ⟨s.vec⟩ xs h hs (by omega)
      refine ⟨s2, ys, ?_, h3, hs3, fun x => ?_, by simp only [List.length_cons]; omega⟩
      · rw [runInserts, insert, e, bind_ok, bind_ok]; exact e2
      · rw [hmem x, List.mem_cons]
        constructor
        · rintro (h4 | h4)
          · exact Or.inl h4
          · exact Or.inr (Or.inr h4)
        · rintro (h4 | h4 | h4)
          · exact Or.inl h4
          · exact Or.inl (h4 ▸ hm)
          · exact Or.inr h4
    · obtain ⟨s2, ys, e2, h3, hs3, hmem, hlen⟩ := ih ⟨v2⟩ (a ++ val :: c) h2
        (sorted_between hs ha hc)
        (by simp only [List.length_append, List.length_cons] at hf ⊢; omega)
      refine ⟨s2, ys, ?_, h3, hs3, fun x => ?_, ?_⟩
      · rw [runInserts, insert, e, bind_ok, bind_ok]; exact e2
      · rw [hmem x]
        simp only [List.mem_append, List.mem_cons]
        constructor
        · rintro ((h4 | h4 | h4) | h4)
          · exact Or.inl (Or.inl h4)
          · exact Or.inr (Or.inl h4)
          · exact Or.inl (Or.inr h4)
          · exact Or.inr (Or.inr h4)
        · rintro ((h4 | h4) | h4 | h4)
          · exact Or.inl (Or.inl h4)
          · exact Or.inl (Or.inr (Or.inr h4))
          · exact Or.inl (Or.inr (Or.inl h4))
          · exact Or.inr h4
      · simp only [List.length_append, List.length_cons] at hlen ⊢; omega

/-- The test of `main`: `insert` of 10, 5, 7 and 5 again gives 5, 7, 10. -/
theorem flatSet_demo :
    (runInserts 10 (ctor : FlatSet Int) [10, 5, 7, 5]).bind (fun s =>
      (Vector.print 10 s.vec 0).bind fun xs =>
      (contains 10 s 7).bind fun p => (contains 10 s 6).bind fun q => .ok (xs, p, q))
      = .ok ([5, 7, 10], true, false) := by rfl

end FlatSet

/-! ## Claims about the flat set -/

namespace FlatSet

variable {T : Type} [LinearOrder T]

/-- C21. Sorted-unique invariant of `FlatSet`: every sequence `vals` of `insert`
calls on an empty `FlatSet` returns (with fuel from twice the number of calls
plus two on); afterwards the backing vector holds a strictly increasing list
`xs`, which `print` shows, whose values are exactly the values inserted;
`contains(x)` returns true if and only if `x` was inserted; and inserting a
value that is present returns the same state. -/
theorem insert_sorted (vals : List T) (fuel : Nat) (hf : 2 * vals.length + 2 ≤ fuel) :
    ∃ s xs, runInserts fuel ctor vals = .ok s ∧ s.vec.Holds xs ∧
      Vector.print fuel s.vec 0 = .ok xs ∧ xs.Sorted (· < ·) ∧
      (∀ x, x ∈ xs ↔ x ∈ vals) ∧
      (∀ x, contains fuel s x = .ok (decide (x ∈ vals))) ∧
      ∀ x ∈ vals, insert fuel s x = .ok s := by
  obtain ⟨s, xs, e, h, hs, hmem, hlen⟩ := runInserts_spec fuel vals (ctor : FlatSet T) []
    (Vector.ctor_empty 4 (by omega)) (by simp) (by simpa using hf)
  simp only [List.length_nil, zero_add] at hlen
  have hmem2 : ∀ x, x ∈ xs ↔ x ∈ vals := fun x => by simp [hmem x]
  refine ⟨s, xs, e, h, ?_, hs, hmem2, fun x => ?_, fun x hx => ?_⟩
  · rw [Vector.print_holds h fuel 0 (by omega)]; rfl
  · rw [contains, containsLoop_spec x fuel s.vec xs 0 h hs (by omega) (by simp) (by omega)]
    congr 1
    exact decide_eq_decide.2 (hmem2 x)
  · obtain ⟨v2, e2, hcase⟩ := insertLoop_spec x fuel s.vec xs 0 h hs (by omega) (by simp)
      (by omega)
    rcases hcase with ⟨_, rfl⟩ | ⟨hn, _⟩
    · rw [insert, e2, bind_ok]
    · exact absurd ((hmem2 x).2 hx) hn

/-- C21 on the calls of `main`: `insert` of 10, 5, 7 and 5. -/
theorem insert_sorted_witness :
    ∃ s xs, runInserts 10 (ctor : FlatSet Int) [10, 5, 7, 5] = .ok s ∧ s.vec.Holds xs ∧
      Vector.print 10 s.vec 0 = .ok xs ∧ xs.Sorted (· < ·) ∧
      (∀ x, x ∈ xs ↔ x ∈ [10, 5, 7, 5]) ∧
      (∀ x, contains 10 s x = .ok (decide (x ∈ [10, 5, 7, 5]))) ∧
      ∀ x ∈ [10, 5, 7, 5], insert 10 s x = .ok s :=
  insert_sorted [10, 5, 7, 5] 10 (by decide)

end FlatSet

/-! ## The deque -/

section ring

theorem mod_wrap {a c : Nat} (h : a < 2 * c) : a % c = if a < c then a else a - c := by
  split
  · rename_i h1; exact Nat.mod_eq_of_lt h1
  · rename_i h1
    rw [Nat.mod_eq_sub_mod (by omega), Nat.mod_eq_of_lt (by omega)]

theorem mod_slot_inj {f i j c : Nat} (hf : f < c) (hi : i < c) (hj : j < c)
    (h : (f + i) % c = (f + j) % c) : i = j := by
  rw [mod_wrap (show f + i < 2 * c by omega), mod_wrap (show f + j < 2 * c by omega)] at h
  split_ifs at h <;> omega

theorem front_step {f k c : Nat} (hf : f < c) :
    ((if f = 0 then c - 1 else f - 1) + (k + 1)) % c = (f + k) % c := by
  by_cases h0 : f = 0
  · subst h0
    rw [if_pos rfl, show c - 1 + (k + 1) = k + c by omega, Nat.add_mod_right, Nat.zero_add]
  · rw [if_neg h0, show f - 1 + (k + 1) = f + k by omega]

theorem front_lt {f c : Nat} (hf : f < c) : (if f = 0 then c - 1 else f - 1) < c := by
  split <;> omega

theorem back_step {f n c : Nat} (hf : f < c) (hn : 1 ≤ n) (hnc : n ≤ c) :
    (if (f + n) % c = 0 then c - 1 else (f + n) % c - 1) = (f + (n - 1)) % c := by
  rw [mod_wrap (show f + n < 2 * c by omega), mod_wrap (show f + (n - 1) < 2 * c by omega)]
  split_ifs <;> omega

end ring

namespace Deque

variable {T : Type}

theorem ctor_holds (c : Nat) (hc : 1 ≤ c) : (ctor c : Deque T).Holds c [] :=
  ⟨rfl, by simp [ctor], hc, by simp [ctor], rfl, by simp, fun i hi => by simp at hi⟩

/-- The method `push_back` when the deque is full. -/
theorem push_back_full {d : Deque T} {c : Nat} {xs : List T} (h : d.Holds c xs)
    (hfull : xs.length = c) (val : T) : d.push_back val = (.error .overflow, d) := by
  obtain ⟨h1, _, _, _, h5, _⟩ := h
  simp [push_back, h1, h5, hfull]

/-- The method `push_back` when the deque is not full. -/
theorem push_back_room {d : Deque T} {c : Nat} {xs : List T} (h : d.Holds c xs)
    (hroom : xs.length ≠ c) (val : T) :
    (d.push_back val).1 = .ok () ∧ (d.push_back val).2.Holds c (xs ++ [val]) := by
  obtain ⟨h1, h2, h3, h4, h5, h6, h7⟩ := h
  have hc : 0 < c := by omega
  have hb : d.backIdx < d.data.length := by rw [h4, h2]; exact Nat.mod_lt _ hc
  have hne : d.count ≠ d.capacity := by rw [h1, h5]; exact hroom
  have e : d.push_back val = (.ok (), ⟨d.data.set d.backIdx (some val), d.capacity,
      d.frontIdx, (d.backIdx + 1) % d.capacity, d.count + 1⟩) := by
    simp [push_back, hne, writeSlot_lt val hb]
  rw [e]
  refine ⟨rfl, h1, by simp [h2], h3, ?_, by simp [h5], ?_, fun i hi => ?_⟩
  · show (d.backIdx + 1) % d.capacity = (d.frontIdx + (d.count + 1)) % c
    rw [h1, h4, Nat.mod_add_mod, Nat.add_assoc]
  · simp only [List.length_append, List.length_singleton]; omega
  · simp only [List.length_append, List.length_singleton] at hi
    show (d.data.set d.backIdx (some val))[(d.frontIdx + i) % c]? = _
    rw [List.getElem?_set]
    by_cases hin : i = xs.length
    · subst hin
      have : d.backIdx = (d.frontIdx + xs.length) % c := by rw [h4, h5]
      simp [this, h2, Nat.mod_lt _ hc]
    · have hi2 : i < xs.length := by omega
      have hne2 : d.backIdx ≠ (d.frontIdx + i) % c := by
        rw [h4, h5]
        intro heq
        have := mod_slot_inj h3 (show xs.length < c by omega) (show i < c by omega) heq
        omega
      simp [hne2, h7 i hi2, List.getElem?_append_left hi2]

/-- The method `push_front` when the deque is full. -/
theorem push_front_full {d : Deque T} {c : Nat} {xs : List T} (h : d.Holds c xs)
    (hfull : xs.length = c) (val : T) : d.push_front val = (.error .overflow, d) := by
  obtain ⟨h1, _, _, _, h5, _⟩ := h
  simp [push_front, h1, h5, hfull]

/-- The method `push_front` when the deque is not full. -/
theorem push_front_room {d : Deque T} {c : Nat} {xs : List T} (h : d.Holds c xs)
    (hroom : xs.length ≠ c) (val : T) :
    (d.push_front val).1 = .ok () ∧ (d.push_front val).2.Holds c (val :: xs) := by
  obtain ⟨h1, h2, h3, h4, h5, h6, h7⟩ := h
  have hc : 0 < c := by omega
  have hfl : (if d.frontIdx = 0 then c - 1 else d.frontIdx - 1) < c := front_lt h3
  have hne : d.count ≠ d.capacity := by rw [h1, h5]; exact hroom
  have e : d.push_front val = (.ok (),
      ⟨d.data.set (if d.frontIdx = 0 then c - 1 else d.frontIdx - 1) (some val), d.capacity,
        if d.frontIdx = 0 then c - 1 else d.frontIdx - 1, d.backIdx, d.count + 1⟩) := by
    rw [push_front, if_neg hne, h1, writeSlot_lt val (by rw [h2]; exact hfl)]
  rw [e]
  refine ⟨rfl, h1, by simp [h2], hfl, ?_, by simp [h5], ?_, fun i hi => ?_⟩
  · show d.backIdx = ((if d.frontIdx = 0 then c - 1 else d.frontIdx - 1) + (d.count + 1)) % c
    rw [front_step h3, h4]
  · simp only [List.length_cons]; omega
  · simp only [List.length_cons] at hi
    show (d.data.set (if d.frontIdx = 0 then c - 1 else d.frontIdx - 1) (some val))[
      ((if d.frontIdx = 0 then c - 1 else d.frontIdx - 1) + i) % c]? = _
    rw [List.getElem?_set]
    cases i with
    | zero =>
      simp [Nat.mod_eq_of_lt hfl, h2, hfl]
    | succ k =>
      have hk : k < xs.length := by omega
      rw [front_step h3]
      have hne2 : (if d.frontIdx = 0 then c - 1 else d.frontIdx - 1) ≠ (d.frontIdx + k) % c := by
        intro heq
        have h8 : ((if d.frontIdx = 0 then c - 1 else d.frontIdx - 1) + 0) % c
            = (d.frontIdx + k) % c := by rw [Nat.add_zero, Nat.mod_eq_of_lt hfl]; exact heq
        have h9 : (d.frontIdx + (c - 1)) % c = (d.frontIdx + k) % c := by
          rw [← h8, mod_wrap (show d.frontIdx + (c - 1) < 2 * c by omega),
            Nat.add_zero, Nat.mod_eq_of_lt hfl]
          split_ifs <;> omega
        have := mod_slot_inj h3 (show c - 1 < c by omega) (show k < c by omega) h9
        omega
      simp [hne2, h7 k hk]

/-- The methods `pop_front` and `pop_back` when the deque is empty. -/
theorem pop_empty {d : Deque T} {c : Nat} (h : d.Holds c []) :
    d.pop_front = (.error .underflow, d) ∧ d.pop_back = (.error .underflow, d) := by
  obtain ⟨_, _, _, _, h5, _⟩ := h
  simp only [List.length_nil] at h5
  simp [pop_front, pop_back, empty, h5]

/-- The method `pop_front` when the deque is not empty. -/
theorem pop_front_spec {d : Deque T} {c : Nat} {x : T} {xs : List T}
    (h : d.Holds c (x :: xs)) :
    d.pop_front.1 = .ok x ∧ d.pop_front.2.Holds c xs := by
  obtain ⟨h1, h2, h3, h4, h5, h6, h7⟩ := h
  simp only [List.length_cons] at h5 h6
  have hc : 0 < c := by omega
  have hne : d.empty = false := by simp [empty, h5]
  have hr : readSlot d.data d.frontIdx = .ok x := by
    have := h7 0 (by simp)
    rw [Nat.add_zero, Nat.mod_eq_of_lt h3] at this
    exact readSlot_some (by simpa using this)
  have e : d.pop_front = (.ok x, ⟨d.data, d.capacity, (d.frontIdx + 1) % d.capacity,
      d.backIdx, d.count - 1⟩) := by
    simp [pop_front, hne, hr]
  rw [e]
  refine ⟨rfl, h1, h2, ?_, ?_, ?_, by omega, fun i hi => ?_⟩
  · show (d.frontIdx + 1) % d.capacity < c
    rw [h1]; exact Nat.mod_lt _ hc
  · show d.backIdx = ((d.frontIdx + 1) % d.capacity + (d.count - 1)) % c
    rw [h1, Nat.mod_add_mod, h4]
    congr 1
    omega
  · show d.count - 1 = xs.length
    omega
  · show d.data[((d.frontIdx + 1) % d.capacity + i) % c]? = _
    rw [h1, Nat.mod_add_mod, show d.frontIdx + 1 + i = d.frontIdx + (i + 1) by omega,
      h7 (i + 1) (by simp only [List.length_cons]; omega)]
    simp

/-- The method `pop_back` when the deque is not empty. -/
theorem pop_back_spec {d : Deque T} {c : Nat} {x : T} {xs : List T}
    (h : d.Holds c (xs ++ [x])) :
    d.pop_back.1 = .ok x ∧ d.pop_back.2.Holds c xs := by
  obtain ⟨h1, h2, h3, h4, h5, h6, h7⟩ := h
  simp only [List.length_append, List.length_singleton] at h5 h6
  have hc : 0 < c := by omega
  have hne : d.empty = false := by simp [empty, h5]
  have hb : (if d.backIdx = 0 then d.capacity - 1 else d.backIdx - 1)
      = (d.frontIdx + xs.length) % c := by
    rw [h1, h4, back_step h3 (by omega) (by omega), h5]
    simp
  have hr : readSlot d.data ((d.frontIdx + xs.length) % c) = .ok x := by
    have := h7 xs.length (by simp)
    exact readSlot_some (by simpa using this)
  have e : d.pop_back = (.ok x, ⟨d.data, d.capacity, d.frontIdx,
      (d.frontIdx + xs.length) % c, d.count - 1⟩) := by
    simp [pop_back, hne, hb, hr]
  rw [e]
  refine ⟨rfl, h1, h2, h3, ?_, ?_, by omega, fun i hi => ?_⟩
  · show (d.frontIdx + xs.length) % c = (d.frontIdx + (d.count - 1)) % c
    rw [h5]; simp
  · show d.count - 1 = xs.length
    omega
  · show d.data[(d.frontIdx + i) % c]? = _
    rw [h7 i (by simp only [List.length_append, List.length_singleton]; omega),
      List.getElem?_append_left hi]

/-- One call on the ring buffer does what the call does on the sequence that
the buffer holds, and a call that raises leaves the buffer as it is. -/
theorem step_spec {d : Deque T} {c : Nat} {xs : List T} (h : d.Holds c xs) (op : Op T) :
    (d.step op).1 = (boundedStep c xs op).1 ∧ (d.step op).2.Holds c (boundedStep c xs op).2 ∧
      ∀ e, (d.step op).1 = .error e → (d.step op).2 = d := by
  cases op with
  | push_front val =>
    by_cases hfull : xs.length = c
    · simp [step, boundedStep, push_front_full h hfull, hfull, Except.map, h]
    · obtain ⟨e1, e2⟩ := push_front_room h hfull val
      refine ⟨by simp [step, boundedStep, hfull, e1, Except.map], ?_, fun e he => ?_⟩
      · simpa [step, boundedStep, hfull] using e2
      · simp [step, e1, Except.map] at he
  | push_back val =>
    by_cases hfull : xs.length = c
    · simp [step, boundedStep, push_back_full h hfull, hfull, Except.map, h]
    · obtain ⟨e1, e2⟩ := push_back_room h hfull val
      refine ⟨by simp [step, boundedStep, hfull, e1, Except.map], ?_, fun e he => ?_⟩
      · simpa [step, boundedStep, hfull] using e2
      · simp [step, e1, Except.map] at he
  | pop_front =>
    cases xs with
    | nil => simp [step, boundedStep, (pop_empty h).1, Except.map, h]
    | cons x xs =>
      obtain ⟨e1, e2⟩ := pop_front_spec h
      refine ⟨by simp [step, boundedStep, e1, Except.map], ?_, fun e he => ?_⟩
      · simpa [step, boundedStep] using e2
      · simp [step, e1, Except.map] at he
  | pop_back =>
    by_cases hx : xs = []
    · subst hx
      simp [step, boundedStep, (pop_empty h).2, Except.map, h]
    · obtain ⟨pre, x, rfl⟩ := exists_snoc hx
      obtain ⟨e1, e2⟩ := pop_back_spec h
      refine ⟨by simp [step, boundedStep, e1, Except.map], ?_, fun e he => ?_⟩
      · simpa [step, boundedStep] using e2
      · simp [step, e1, Except.map] at he

/-- A sequence of calls on the ring buffer has the outcomes that it has on the
sequence that the buffer holds, and leaves a buffer that holds the final
sequence. -/
theorem run_spec {c : Nat} : ∀ (ops : List (Op T)) (d : Deque T) (xs : List T),
    d.Holds c xs →
    (d.run ops).1 = (boundedRun c xs ops).1 ∧ (d.run ops).2.Holds c (boundedRun c xs ops).2 := by
  intro ops
  induction ops with
  | nil => intro d xs h; exact ⟨rfl, h⟩
  | cons op ops ih =>
    intro d xs h
    obtain ⟨e1, e2, _⟩ := step_spec h op
    obtain ⟨e3, e4⟩ := ih _ _ e2
    exact ⟨by simp only [run, boundedRun, e1, e3], e4⟩

/-- The method `print` writes the sequence that the buffer holds. -/
theorem print_reads {d : Deque T} {c : Nat} {xs : List T} (h : d.Holds c xs) :
    ∀ (fuel i : Nat), xs.length - i < fuel → print fuel d i = .ok (xs.drop i) := by
  intro fuel
  induction fuel with
  | zero => intro i hf; omega
  | succ fuel ih =>
    intro i hf
    obtain ⟨h1, _, _, _, h5, _, h7⟩ := h
    by_cases hi : i < xs.length
    · have hl : i < d.count := by rw [h5]; exact hi
      have hx : d.data[(d.frontIdx + i) % d.capacity]? = some (some xs[i]) := by
        rw [h1, h7 i hi, List.getElem?_eq_getElem hi]
      simp only [print, hl, if_true, readSlot_some hx, bind_ok, ih (i + 1) (by omega)]
      rw [List.drop_eq_getElem_cons hi]
    · have hl : ¬ i < d.count := by rw [h5]; exact hi
      simp only [print, hl, if_false]
      rw [List.drop_eq_nil_of_le (show xs.length ≤ i by omega)]

/-- The test of `main` on `Deque<int> d(5)`: `push_front(1)`, `push_back(2)`,
`push_back(3)` print 1, 2, 3; `pop_front()` returns 1 and leaves 2, 3. -/
theorem deque_demo :
    print 6 ((ctor 5 : Deque Int).run [.push_front 1, .push_back 2, .push_back 3]).2 0
        = .ok [1, 2, 3] ∧
      ((ctor 5 : Deque Int).run [.push_front 1, .push_back 2, .push_back 3, .pop_front]).1
        = [.ok none, .ok none, .ok none, .ok (some 1)] ∧
      print 6 ((ctor 5 : Deque Int).run
        [.push_front 1, .push_back 2, .push_back 3, .pop_front]).2 0 = .ok [2, 3] := by
  refine ⟨?_, ?_, ?_⟩ <;> rfl

end Deque

/-! ## Claims about the deque -/

namespace Deque

variable {T : Type}

/-- C22. The ring buffer refines the bounded double-ended sequence: for every
capacity `c ≥ 1` and every sequence `ops` of `push_front`, `push_back`,
`pop_front` and `pop_back` calls on a fresh `Deque(c)`, the outcomes of the
calls (values returned, `std::overflow_error`, `std::underflow_error`) are the
outcomes on the bounded sequence of `boundedStep`, where a push fails exactly
at `c` elements, a pop fails exactly on the empty sequence, and a pop returns
the element at its end; the contents that `print` reads from `frontIdx`, for
`count` slots modulo `c`, are the final sequence, and `size()` is its length;
and a further call that raises leaves the state as it is. -/
theorem deque_refines (c : Nat) (hc : 1 ≤ c) (ops : List (Op T)) (fuel : Nat)
    (hf : c < fuel) :
    ((ctor c : Deque T).run ops).1 = (boundedRun c [] ops).1 ∧
      print fuel ((ctor c : Deque T).run ops).2 0 = .ok (boundedRun c [] ops).2 ∧
      size ((ctor c : Deque T).run ops).2 = (boundedRun c [] ops).2.length ∧
      ∀ op e, (((ctor c : Deque T).run ops).2.step op).1 = .error e →
        (((ctor c : Deque T).run ops).2.step op).2 = ((ctor c : Deque T).run ops).2 := by
  obtain ⟨e1, h⟩ := run_spec ops (ctor c : Deque T) [] (ctor_holds c hc)
  refine ⟨e1, ?_, h.2.2.2.2.1, fun op e he => (step_spec h op).2.2 e he⟩
  rw [print_reads h fuel 0 (by have := h.2.2.2.2.2.1; omega)]
  rfl

/-- C22 on the calls of `main`: a `Deque(5)`, `push_front(1)`, `push_back(2)`,
`push_back(3)`, `pop_front()`. -/
theorem deque_refines_witness :
    ((ctor 5 : Deque Int).run [.push_front 1, .push_back 2, .push_back 3, .pop_front]).1
        = (boundedRun 5 [] [.push_front 1, .push_back 2, .push_back 3, .pop_front]).1 ∧
      print 6 ((ctor 5 : Deque Int).run
          [.push_front 1, .push_back 2, .push_back 3, .pop_front]).2 0
        = .ok (boundedRun 5 [] [.push_front 1, .push_back 2, .push_back 3, .pop_front]).2 ∧
      size ((ctor 5 : Deque Int).run
          [.push_front 1, .push_back 2, .push_back 3, .pop_front]).2
        = (boundedRun 5 [] [.push_front (1 : Int), .push_back 2, .push_back 3,
            .pop_front]).2.length ∧
      ∀ op e, (((ctor 5 : Deque Int).run
          [.push_front 1, .push_back 2, .push_back 3, .pop_front]).2.step op).1 = .error e →
        (((ctor 5 : Deque Int).run
          [.push_front 1, .push_back 2, .push_back 3, .pop_front]).2.step op).2
          = ((ctor 5 : Deque Int).run
              [.push_front 1, .push_back 2, .push_back 3, .pop_front]).2 :=
  deque_refines 5 (by decide) [.push_front 1, .push_back 2, .push_back 3, .pop_front] 6
    (by decide)

end Deque

/-! ## The lowest set bit as a power of two -/

theorem lowbitNat_dvd (u : Nat) : lowbitNat u ∣ u := by
  induction u using Nat.strong_induction_on with
  | _ u ih =>
    by_cases h0 : u = 0
    · subst h0; exact dvd_zero _
    · rcases Nat.even_or_odd' u with ⟨a, rfl | rfl⟩
      · rw [lowbitNat_double a (by omega)]
        exact Nat.mul_dvd_mul_left 2 (ih a (by omega))
      · rw [lowbitNat_odd]; exact one_dvd _

/-- The lowest set bit of a positive `u` is `2 ^ k` for the least `k` at which
`u` has a bit set, and taking it away from `u` clears bit `k` and no other. -/
theorem lowbitNat_bit (u : Nat) : 0 < u →
    ∃ k, lowbitNat u = 2 ^ k ∧ u.testBit k = true ∧ (∀ j, j < k → u.testBit j = false) ∧
      ∀ j, (u - lowbitNat u).testBit j = (decide (j ≠ k) && u.testBit j) := by
  induction u using Nat.strong_induction_on with
  | _ u ih =>
    intro hu
    rcases Nat.even_or_odd' u with ⟨a, rfl | rfl⟩
    · have ha : 0 < a := by omega
      obtain ⟨k, e1, e2, e3, e4⟩ := ih a (by omega) ha
      have hdiv : 2 * a / 2 = a := by omega
      refine ⟨k + 1, ?_, ?_, fun j hj => ?_, fun j => ?_⟩
      · rw [lowbitNat_double a ha, e1, pow_succ]; ring
      · rw [Nat.testBit_succ, hdiv]; exact e2
      · cases j with
        | zero => simp
        | succ j => rw [Nat.testBit_succ, hdiv]; exact e3 j (by omega)
      · have e5 : 2 * a - lowbitNat (2 * a) = 2 * (a - lowbitNat a) := by
          rw [lowbitNat_double a ha]; omega
        have hdiv2 : 2 * (a - lowbitNat a) / 2 = a - lowbitNat a := by omega
        rw [e5]
        cases j with
        | zero => simp
        | succ j =>
          rw [Nat.testBit_succ, Nat.testBit_succ, hdiv, hdiv2, e4 j]
          simp
    · refine ⟨0, ?_, ?_, fun j hj => by omega, fun j => ?_⟩
      · rw [lowbitNat_odd]; rfl
      · simp [Nat.add_mod]
      · have e5 : 2 * a + 1 - lowbitNat (2 * a + 1) = 2 * a := by
          rw [lowbitNat_odd]; omega
        rw [e5]
        cases j with
        | zero => simp
        | succ j =>
          rw [Nat.testBit_succ, Nat.testBit_succ]
          have h1 : 2 * a / 2 = a := by omega
          have h2 : (2 * a + 1) / 2 = a := by omega
          rw [h1, h2]
          simp

/-! ## Claims about the lowest set bit -/

/-- C34. Low-bit isolation: for an `int` `i` with `1 ≤ i ≤ 2 ^ 31 - 1`, the
expression `i & -i` is `2 ^ k`, where bit `k` of `i` is set and no lower bit of
`i` is; it divides `i`, lies between 1 and `i`, and `i - (i & -i)` has the bits
of `i` except bit `k`. -/
theorem lowbit_isolates (i : Int) (h0 : 1 ≤ i) (h1 : i ≤ 2 ^ 31 - 1) :
    ∃ k : Nat, lowbit i = 2 ^ k ∧ i.toNat.testBit k = true ∧
      (∀ j, j < k → i.toNat.testBit j = false) ∧
      lowbit i ∣ i ∧ 1 ≤ lowbit i ∧ lowbit i ≤ i ∧
      ∀ j, (i - lowbit i).toNat.testBit j = (decide (j ≠ k) && i.toNat.testBit j) := by
  have hlow : lowbit i = (lowbitNat i.toNat : Int) := lowbit_eq i (by omega) (by omega)
  obtain ⟨k, e1, e2, e3, e4⟩ := lowbitNat_bit i.toNat (by omega)
  have lb := lowbitNat_bounds i h0
  refine ⟨k, ?_, e2, e3, ?_, ?_, ?_, fun j => ?_⟩
  · rw [hlow, e1]; norm_cast
  · rw [hlow]
    have hd := lowbitNat_dvd i.toNat
    have hi : ((i.toNat : Nat) : Int) = i := Int.toNat_of_nonneg (by omega)
    rw [← hi]
    exact Int.natCast_dvd_natCast.mpr (by rw [Int.toNat_natCast]; exact hd)
  · rw [hlow]; exact lb.1
  · rw [hlow]; exact lb.2
  · rw [hlow, ← e4 j]
    congr 1
    omega

/-- C34 at `i = 12`, where `i & -i` is 4. -/
theorem lowbit_isolates_witness :
    ∃ k : Nat, lowbit 12 = 2 ^ k ∧ (12 : Int).toNat.testBit k = true ∧
      (∀ j, j < k → (12 : Int).toNat.testBit j = false) ∧
      lowbit 12 ∣ 12 ∧ 1 ≤ lowbit 12 ∧ lowbit 12 ≤ 12 ∧
      ∀ j, ((12 : Int) - lowbit 12).toNat.testBit j
        = (decide (j ≠ k) && (12 : Int).toNat.testBit j) :=
  lowbit_isolates 12 (by decide) (by decide)

/-! ## The Fenwick tree on arbitrary contents -/

namespace FenwickTree

variable {R : Type} [CommRing R]

/-- On any vector of `n + 1` slots, with fuel above `j`, the loop of
`prefixSum(j)` adds to its accumulator a value that depends on the slots and on
`j` only; after `update(i, val)` that value is larger by `val` when `i ≤ j` and
the same when `j < i`. -/
theorem prefixSumLoop_step {t t2 : FenwickTree R} {i : Int} {val : R}
    (hsmall : t.n < 2 ^ 31) (hlen : (t.fenw.length : Int) = t.n + 1) (hi : 1 ≤ i)
    (hn : t2.n = t.n) (hlen2 : t2.fenw.length = t.fenw.length)
    (cells : ∀ k : Int, 1 ≤ k → k ≤ t.n →
      cell t2.fenw k = cell t.fenw k +
        if k - (lowbitNat k.toNat : Int) < i ∧ i ≤ k then val else 0) :
    ∀ (fuel : Nat) (j : Int), 0 ≤ j → j ≤ t.n → j < fuel →
      ∃ v, ∀ res : R, prefixSumLoop fuel t j res = .ok (res + v) ∧
        prefixSumLoop fuel t2 j res = .ok (res + (v + if i ≤ j then val else 0)) := by
  intro fuel
  induction fuel with
  | zero => intro j h0 _ hf; omega
  | succ fuel ih =>
    intro j h0 h1 hf
    by_cases hj : j > 0
    · have lb := lowbitNat_bounds j (by omega)
      have hlow : lowbit j = (lowbitNat j.toNat : Int) := lowbit_eq j (by omega) (by omega)
      have jL : j < t.fenw.length := by omega
      have jL2 : j < t2.fenw.length := by rw [hlen2]; exact jL
      obtain ⟨v, hv⟩ := ih (j - (lowbitNat j.toNat : Int)) (by omega) (by omega) (by omega)
      refine ⟨cell t.fenw j + v, fun res => ⟨?_, ?_⟩⟩
      · simp only [prefixSumLoop, hj, if_true, rd_ok t.fenw j h0 jL, bind_ok, hlow]
        rw [(hv _).1, add_assoc]
      · simp only [prefixSumLoop, hj, if_true, rd_ok t2.fenw j h0 jL2, bind_ok, hlow]
        rw [(hv _).2, cells j (by omega) h1]
        congr 1
        by_cases c1 : i ≤ j - (lowbitNat j.toNat : Int)
        · have c2 : ¬ (j - (lowbitNat j.toNat : Int) < i ∧ i ≤ j) := by omega
          rw [if_pos c1, if_neg c2, if_pos (show i ≤ j by omega)]
          ring
        · by_cases c3 : i ≤ j
          · rw [if_neg c1, if_pos (show j - (lowbitNat j.toNat : Int) < i ∧ i ≤ j by omega),
              if_pos c3]
            ring
          · have c2 : ¬ (j - (lowbitNat j.toNat : Int) < i ∧ i ≤ j) := by omega
            rw [if_neg c1, if_neg c2, if_neg c3]
            ring
    · refine ⟨0, fun res => ⟨?_, ?_⟩⟩
      · simp only [prefixSumLoop, hj, if_false, add_zero]
      · have : ¬ (i ≤ j) := by omega
        simp only [prefixSumLoop, hj, if_false, this, add_zero]

/-- One turn of the loop of `update` at index 0 adds `val` to slot 0 and leaves
the index at 0. -/
theorem update_zero_turn (t : FenwickTree R) (h0 : 0 ≤ t.n)
    (hlen : (t.fenw.length : Int) = t.n + 1) (val : R) (fuel : Nat) :
    update (fuel + 1) t 0 val
      = update fuel { t with fenw := t.fenw.set 0 (cell t.fenw 0 + val) } 0 val := by
  have hl : wrap32 (0 + lowbit 0) = 0 := by decide
  have e1 := rd_ok t.fenw 0 (le_refl 0) (by omega)
  have e2 := wr_ok t.fenw 0 (cell t.fenw 0 + val) (le_refl 0) (by omega)
  simp only [Int.toNat_zero] at e2
  simp only [update, h0, if_true, e1, bind_ok, e2, hl]

end FenwickTree

/-! ## Claims about the slots and the walks of the Fenwick tree -/

namespace FenwickTree

variable {R : Type} [CommRing R]

/-- C31. Fenwick slot invariant: for an `int` `N ≥ 0`, in every state that a
fresh `FenwickTree(N)` and any sequence of calls `update(i, delta)` with
`1 ≤ i ≤ N` have returned, whatever the fuel, for every slot `1 ≤ i ≤ N`,
`fenw[i]` is the sum of the logical elements at the positions
`i - (i & -i) + 1 .. i`.  With fuel above `N` the constructor and the updates
return when `N < 2 ^ 30`, that is when the sum in `i+=(i & -i)` is an `int`. -/
theorem slot_invariant (N : Int) (ups : List (Int × R)) (fuel : Nat)
    (hN0 : 0 ≤ N) (hN1 : N < 2 ^ 31) (hups : ∀ u ∈ ups, 1 ≤ u.1 ∧ u.1 ≤ N)
    (hfuel : N < fuel) :
    (N < 2 ^ 30 → ∃ t, ((ctor N).bind fun t0 => runUpdates fuel t0 ups) = .ok t) ∧
    ∀ (k : Nat) (t : FenwickTree R),
      ((ctor N).bind fun t0 => runUpdates k t0 ups) = .ok t →
      ∀ i : Int, 1 ≤ i → i ≤ N →
        rd t.fenw i = .ok (∑ p in Finset.Icc (i - lowbit i + 1) i, element ups p) := by
  refine ⟨fun h30 => loaded_returns N ups fuel hN0 h30 hups hfuel, fun k t e i h0 h1 => ?_⟩
  obtain ⟨inv2, hn, -⟩ := loaded_inv hN0 hN1 (fun u hu => (hups u hu).1) e
  have hlen := inv2.len
  rw [rd_ok t.fenw i (by omega) (by omega), inv2.slot i h0 (by rw [hn]; exact h1),
    lowbit_eq i (by omega) (by omega)]

/-- C31 on the updates of `main`. -/
theorem slot_invariant_witness :
    ((5 : Int) < 2 ^ 30 →
      ∃ t, ((ctor 5).bind fun t0 => runUpdates 6 t0 [(1, 1), (2, 2), (3, (3 : Int))]) = .ok t) ∧
    ∀ (k : Nat) (t : FenwickTree Int),
      ((ctor 5).bind fun t0 => runUpdates k t0 [(1, 1), (2, 2), (3, (3 : Int))]) = .ok t →
      ∀ i : Int, 1 ≤ i → i ≤ 5 →
        rd t.fenw i = .ok (∑ p in Finset.Icc (i - lowbit i + 1) i,
          element [(1, 1), (2, 2), (3, (3 : Int))] p) :=
  slot_invariant 5 [(1, 1), (2, 2), (3, (3 : Int))] 6 (by decide) (by decide)
    (by intro u hu
        simp only [List.mem_cons, List.mem_singleton, List.not_mem_nil, or_false] at hu
        rcases hu with rfl | rfl | rfl <;> decide)
    (by decide)

/-- C32. Point update on arbitrary contents: for a tree of an `int` size
`N ≥ 1` with any values in its `N + 1` slots, `1 ≤ i ≤ N` and a delta `d`, after
`update(i, d)` has returned, whatever the fuel, `prefixSum(j)` returns `d` more
than before for every `i ≤ j ≤ N` and the same as before for every
`0 ≤ j < i`.  Fuel above `N` is enough for `prefixSum`, and with it `update(i, d)`
returns when `N < 2 ^ 30`, that is when the sum in `i+=(i & -i)` is an `int`. -/
theorem update_step (t : FenwickTree R) (fuel : Nat) (i : Int) (d : R)
    (hN : 1 ≤ t.n) (hsmall : t.n < 2 ^ 31) (hlen : (t.fenw.length : Int) = t.n + 1)
    (hfuel : t.n < fuel) (hi0 : 1 ≤ i) (hi1 : i ≤ t.n) :
    (t.n < 2 ^ 30 → ∃ t2, update fuel t i d = .ok t2) ∧
    ∀ (k : Nat) (t2 : FenwickTree R), update k t i d = .ok t2 →
      (∀ j, i ≤ j → j ≤ t.n →
        ∃ v, prefixSum fuel t j = .ok v ∧ prefixSum fuel t2 j = .ok (v + d)) ∧
      ∀ j, 0 ≤ j → j < i →
        ∃ v, prefixSum fuel t j = .ok v ∧ prefixSum fuel t2 j = .ok v := by
  have _ := hN
  have _ := hi1
  refine ⟨fun h30 => update_returns d fuel t i hi0 h30 hlen (by omega) (by omega),
    fun k t2 e => ?_⟩
  obtain ⟨n2, len2, cells⟩ := update_cells_of_ok d k t t2 i hi0 hsmall hlen e
  refine ⟨fun j h0 h1 => ?_, fun j h0 h1 => ?_⟩
  · obtain ⟨v, hv⟩ := prefixSumLoop_step hsmall hlen hi0 n2 len2 cells fuel j (by omega) h1
      (by omega)
    refine ⟨v, ?_, ?_⟩
    · rw [prefixSum, (hv 0).1, zero_add]
    · rw [prefixSum, (hv 0).2, zero_add, if_pos h0]
  · obtain ⟨v, hv⟩ := prefixSumLoop_step hsmall hlen hi0 n2 len2 cells fuel j h0 (by omega)
      (by omega)
    refine ⟨v, ?_, ?_⟩
    · rw [prefixSum, (hv 0).1, zero_add]
    · rw [prefixSum, (hv 0).2, zero_add, if_neg (by omega), add_zero]

/-- C32 on a tree of five slots with arbitrary content and `update(2, 10)`. -/
theorem update_step_witness :
    (sampleTree.n < 2 ^ 30 → ∃ t2, update 6 sampleTree 2 10 = .ok t2) ∧
    ∀ (k : Nat) (t2 : FenwickTree Int), update k sampleTree 2 10 = .ok t2 →
      (∀ j, 2 ≤ j → j ≤ sampleTree.n →
        ∃ v, prefixSum 6 sampleTree j = .ok v ∧
          prefixSum 6 t2 j = .ok (v + 10)) ∧
      ∀ j, 0 ≤ j → j < 2 →
        ∃ v, prefixSum 6 sampleTree j = .ok v ∧
          prefixSum 6 t2 j = .ok v :=
  update_step sampleTree 6 2 10
    (by decide) (by decide) (by decide) (by decide) (by decide) (by decide)

/-- The call `update(2, 10)` on a tree of five slots with arbitrary content:
`prefixSum(1)` stays 7, `prefixSum(3)` goes from 7 to 17. -/
theorem update_step_demo :
    ((update 6 sampleTree 2 10).bind fun t2 =>
      (prefixSum 6 sampleTree 1).bind fun a =>
      (prefixSum 6 t2 1).bind fun b =>
      (prefixSum 6 sampleTree 3).bind fun c =>
      (prefixSum 6 t2 3).bind fun e => .ok (a, b, c, e)) = .ok (7, 7, 7, 17) := by rfl

/-- C36. The call `update(0, delta)` does not return: on a tree of size
`N ≥ 0` with its `N + 1` slots, `0 & -0` is 0, so a turn of the loop adds
`delta` to slot 0 and leaves the index at 0, where the test `i <= n` holds
again; whatever the number of turns allowed, the loop has not ended after
them. -/
theorem update_zero_diverges (t : FenwickTree R) (h0 : 0 ≤ t.n)
    (hlen : (t.fenw.length : Int) = t.n + 1) (delta : R) :
    lowbit 0 = 0 ∧
      (∀ fuel, update (fuel + 1) t 0 delta
        = update fuel { t with fenw := t.fenw.set 0 (cell t.fenw 0 + delta) } 0 delta) ∧
      ∀ fuel, update fuel t 0 delta = .error .outOfFuel := by
  refine ⟨by decide, fun fuel => update_zero_turn t h0 hlen delta fuel, fun fuel => ?_⟩
  induction fuel generalizing t with
  | zero => rfl
  | succ fuel ih =>
    rw [update_zero_turn t h0 hlen delta fuel]
    exact ih _ h0 (by
      show ((t.fenw.set 0 (cell t.fenw 0 + delta)).length : Int) = t.n + 1
      rw [List.length_set]; exact hlen)

/-- C36 on a fresh `FenwickTree(5)` with `update(0, 1)`. -/
theorem update_zero_diverges_witness :
    lowbit 0 = 0 ∧
      (∀ fuel, update (fuel + 1) ({ fenw := [0, 0, 0, 0, 0, 0], n := 5 } : FenwickTree Int) 0 1
        = update fuel { ({ fenw := [0, 0, 0, 0, 0, 0], n := 5 } : FenwickTree Int) with
            fenw := ({ fenw := [0, 0, 0, 0, 0, 0], n := 5 } : FenwickTree Int).fenw.set 0
              (cell ({ fenw := [0, 0, 0, 0, 0, 0], n := 5 } : FenwickTree Int).fenw 0 + 1) }
            0 1) ∧
      ∀ fuel, update fuel ({ fenw := [0, 0, 0, 0, 0, 0], n := 5 } : FenwickTree Int) 0 1
        = .error .outOfFuel :=
  update_zero_diverges ({ fenw := [0, 0, 0, 0, 0, 0], n := 5 } : FenwickTree Int)
    (by decide) (by decide) 1

end FenwickTree

/-! ## The walks of the Fenwick tree -/

namespace FenwickTree

variable {R : Type} [CommRing R]

/-- The walks of `main`'s tree of size 5: `update(1, val)` writes the slots 1, 2,
4 and `prefixSum(5)` reads the slots 5, 4; `update(3, val)` writes the slots 3,
4. -/
theorem walks_demo :
    updateWalk 6 5 1 = .ok [1, 2, 4] ∧ prefixWalk 6 5 = .ok [5, 4] ∧
      updateWalk 6 5 3 = .ok [3, 4] := by
  refine ⟨?_, ?_, ?_⟩ <;> rfl

end FenwickTree

/-! ## Claims about the walks of the Fenwick tree -/

namespace FenwickTree

variable {R : Type} [CommRing R]

end FenwickTree

/-! ## Claims about the segment tree with any integer bounds -/

namespace SegmentTree

variable {R : Type} [CommRing R] [DecidableEq R]

/-- The calls `update(-1, 5, 1)`, `query(-3, 1)`, `query(3, 9)`, `query(7, 2)` and
`query(6, 8)` on the tree of `main` raise nothing: the queries return 5 (the
elements 0 and 1), 11 (the elements 3 and 4), 0 and 0. -/
theorem any_bounds_demo :
    ((update 5 demoTree (-1) 5 1).bind fun t =>
      (query 5 t (-3) 1).bind fun a =>
      (query 5 a.2 3 9).bind fun b =>
      (query 5 b.2 7 2).bind fun c =>
      (query 5 c.2 6 8).bind fun e => .ok (a.1, b.1, c.1, e.1)) = .ok (5, 11, 0, 0) := by
  rfl

/-- C35. Any integer bounds: for an array `A` of `N ≥ 1` elements and any
sequence `ops` of updates and queries after `build(A)`, whatever their bounds,
on every state `s` that they have returned, whatever the fuel, for all
integers `l` and `r` (negative, `≥ N` or `l > r` included): `query(l, r)` returns
the sum of the current values of the elements whose index lies in both
`[l, r]` and `[0, N - 1]`, which is 0 when there is none; `update(l, r, d)`
returns, and after it every element `i` of `[0, N - 1]` reads `d` more than its
current value when `l ≤ i ≤ r` and its current value otherwise; and with any
fuel neither call fails in another way than by running out of fuel.  Fuel `N`
is enough for every call, and with it the constructor, `build(A)` and `ops`
return when `N < 2 ^ 29`, that is when the product `4*n` of the constructor is
an `int`. -/
theorem any_bounds (A : List R) (ops : List (Op R)) (fuel : Nat) (hN : 1 ≤ A.length)
    (hfuel : A.length ≤ fuel) :
    (A.length < 2 ^ 29 →
      ∃ s, ((fromArray fuel A).bind fun s0 => run fuel s0 ops) = .ok s) ∧
    ∀ (k : Nat) (s : SegmentTree R),
      ((fromArray k A).bind fun s0 => run k s0 ops) = .ok s →
      s.n = (A.length : Int) ∧
      (∀ l r : Int, ∃ t, query fuel s l r
        = .ok (∑ i in Finset.Icc (max l 0) (min r (s.n - 1)), current A ops i, t)) ∧
      (∀ l r : Int, min r (s.n - 1) < max l 0 → ∃ t, query fuel s l r = .ok (0, t)) ∧
      (∀ (l r : Int) (d : R), ∃ t, update fuel s l r d = .ok t ∧
        ∀ i, 0 ≤ i → i < s.n →
          ∃ u, query fuel t i i
            = .ok (current A ops i + if l ≤ i ∧ i ≤ r then d else 0, u)) ∧
      ∀ (k2 : Nat) (l r : Int) (d : R) (e : Err),
        query k2 s l r = .error e ∨ update k2 s l r d = .error e → e = .outOfFuel := by
  refine ⟨fun h2 => built_returns A ops fuel hN h2 hfuel, fun k s e0 => ?_⟩
  obtain ⟨inv, hn, -⟩ := built_inv hN e0
  have hf : s.n ≤ fuel := by rw [hn]; omega
  have hq : ∀ l r : Int, ∃ t, query fuel s l r
      = .ok (∑ i in Finset.Icc (max l 0) (min r (s.n - 1)), current A ops i, t) := by
    intro l r
    obtain ⟨t, e, _, _⟩ := query_inv inv fuel hf l r
    rw [sum_clip_any] at e
    exact ⟨t, e⟩
  refine ⟨hn, hq, fun l r hlr => ?_, fun l r d => ?_, fun k2 l r d e he => ?_⟩
  · obtain ⟨t, e⟩ := hq l r
    rw [Finset.Icc_eq_empty (by omega), Finset.sum_empty] at e
    exact ⟨t, e⟩
  · obtain ⟨t, e, invt, nt⟩ := update_inv inv fuel hf l r d
    refine ⟨t, e, fun i h0 h1 => ?_⟩
    obtain ⟨u, eu, _, _⟩ := query_point invt fuel (by rw [nt]; exact hf) i h0
      (by rw [nt]; exact h1)
    exact ⟨u, eu⟩
  · rcases he with he | he
    · exact query_safe inv k2 l r e he
    · exact update_safe inv k2 l r d e he

/-- C35 on the array of `main` after `update(-1, 5, 1)` and `query(7, 2)`. -/
theorem any_bounds_witness :
    (([1, 2, 3, 4, (5 : Int)] : List Int).length < 2 ^ 29 →
      ∃ s, ((fromArray 5 [1, 2, 3, 4, (5 : Int)]).bind fun s0 =>
        run 5 s0 [.update (-1) 5 1, .query 7 2]) = .ok s) ∧
    ∀ (k : Nat) (s : SegmentTree Int),
      ((fromArray k [1, 2, 3, 4, (5 : Int)]).bind fun s0 =>
        run k s0 [.update (-1) 5 1, .query 7 2]) = .ok s →
      s.n = (([1, 2, 3, 4, (5 : Int)] : List Int).length : Int) ∧
      (∀ l r : Int, ∃ t, query 5 s l r
        = .ok (∑ i in Finset.Icc (max l 0) (min r (s.n - 1)),
            current [1, 2, 3, 4, (5 : Int)] [.update (-1) 5 1, .query 7 2] i, t)) ∧
      (∀ l r : Int, min r (s.n - 1) < max l 0 → ∃ t, query 5 s l r = .ok (0, t)) ∧
      (∀ (l r : Int) (d : Int), ∃ t, update 5 s l r d = .ok t ∧
        ∀ i, 0 ≤ i → i < s.n →
          ∃ u, query 5 t i i
            = .ok (current [1, 2, 3, 4, (5 : Int)] [.update (-1) 5 1, .query 7 2] i
                + if l ≤ i ∧ i ≤ r then d else 0, u)) ∧
      ∀ (k2 : Nat) (l r : Int) (d : Int) (e : Err),
        query k2 s l r = .error e ∨ update k2 s l r d = .error e → e = .outOfFuel :=
  any_bounds [1, 2, 3, 4, (5 : Int)] [.update (-1) 5 1, .query 7 2] 5 (by decide) (by decide)

end SegmentTree

/-! ## Access to a linked list by index -/

namespace LinkedList

variable {T : Type}

/-- The loop of `nodeAtIndex(n)` on a list of the nodes `xs`, with `k = n - i`
turns to go: it returns node `k` for `k < |xs|`, the null pointer for
`k = |xs|`, and raises `std::out_of_range` for `k > |xs|`. -/
theorem nodeAtIndexLoop_spec (h : Heap T) (n : Nat) :
    ∀ (fuel i : Nat) (temp : Option Nat) (xs : List (Nat × T)), Chain h temp xs →
      i ≤ n → n - i < fuel →
      nodeAtIndexLoop fuel h n i temp
        = if n - i ≤ xs.length then .ok (xs[n - i]?.map Prod.fst) else .error .outOfRange := by
  intro fuel
  induction fuel with
  | zero => intro i temp xs _ _ hf; omega
  | succ fuel ih =>
    intro i temp xs hc hi hf
    by_cases hlt : i < n
    · cases temp with
      | none =>
        have hx := hc.none_inv
        subst hx
        have : ¬ (n - i ≤ ([] : List (Nat × T)).length) := by
          simp only [List.length_nil]; omega
        simp only [nodeAtIndexLoop, hlt, if_true, this, if_false]
      | some a =>
        obtain ⟨v, nx, rest, rfl, ha, hn⟩ := hc.some_inv
        have e1 : n - i = (n - (i + 1)) + 1 := by omega
        simp only [nodeAtIndexLoop, hlt, if_true, getNext_node ha, bind_ok,
          ih (i + 1) nx rest hn (by omega) (by omega), List.length_cons]
        rw [if_neg (by simp)]
        by_cases hk : n - (i + 1) ≤ rest.length
        · rw [if_pos hk, if_pos (by omega), e1, List.getElem?_cons_succ]
        · rw [if_neg hk, if_neg (by omega)]
    · have e : n - i = 0 := by omega
      simp only [nodeAtIndexLoop, hlt, if_false, e, Nat.zero_le, if_true]
      cases xs with
      | nil => rw [hc.nil_inv]; rfl
      | cons x xs =>
        obtain ⟨a, v⟩ := x
        obtain ⟨rfl, _⟩ := Chain.cons_inv hc
        simp

/-- On a list of `s` nodes, with fuel above `n`, `nodeAtIndex(n)` returns node `n`
for `n < s`, the null pointer for `n = s`, and raises `std::out_of_range` for
`n > s`. -/
theorem nodeAtIndex_spec {s : LinkedList T} {xs : List (Nat × T)} (h : s.Holds xs)
    (fuel n : Nat) (hf : n < fuel) :
    nodeAtIndex fuel s n
      = if n ≤ xs.length then .ok (xs[n]?.map Prod.fst) else .error .outOfRange := by
  have := nodeAtIndexLoop_spec s.heap n fuel 0 s.head xs h.1 (Nat.zero_le _) (by omega)
  simpa [nodeAtIndex] using this

/-- On a list of `s` nodes, `valAtIndex(n)` returns value `n` for `n < s`, follows
the null pointer for `n = s`, and raises `std::out_of_range` for `n > s`. -/
theorem valAtIndex_spec {s : LinkedList T} {xs : List (Nat × T)} (h : s.Holds xs)
    (fuel n : Nat) (hf : n < fuel) :
    valAtIndex fuel s n
      = if hn : n < xs.length then .ok xs[n].2
        else if n = xs.length then .error .nullDeref else .error .outOfRange := by
  rw [valAtIndex, nodeAtIndex_spec h fuel n hf]
  by_cases hn : n < xs.length
  · obtain ⟨pre, suf, hpre, hsuf⟩ : ∃ pre suf, xs = pre ++ xs[n] :: suf ∧ pre.length = n :=
      ⟨xs.take n, xs.drop (n + 1), by
        rw [← List.drop_eq_getElem_cons hn, List.take_append_drop], by
        rw [List.length_take]; omega⟩
    have hall : Seg s.heap s.head (pre ++ xs[n] :: suf) none := by
      rw [← hpre]; exact h.1
    obtain ⟨m, _, hm⟩ := Seg.split hall
    have hm2 : Chain s.heap m ((xs[n].1, xs[n].2) :: suf) := hm
    obtain ⟨rfl, nx, ha, _⟩ := Chain.cons_inv hm2
    rw [if_pos (by omega), dif_pos hn, List.getElem?_eq_getElem hn]
    simp only [Option.map_some', bind_ok]
    exact getVal_node ha
  · rw [dif_neg hn]
    by_cases he : n = xs.length
    · subst he
      rw [if_pos (le_refl _), if_pos rfl, List.getElem?_eq_none (le_refl _)]
      rfl
    · rw [if_neg (by omega), if_neg he]
      rfl

end LinkedList

/-! ## Claims about access to a linked list by index -/

namespace LinkedList

/-- C37 fails on the code at `n = s`.  On the list `{1, 2, 3, 5, 4}` of `main`
(`s = 5`): `nodeAtIndex(4)` returns the last node, `nodeAtIndex(5)` and
`operator[](5)` raise nothing and return the null pointer, `valAtIndex(5)`
follows that null pointer, and `nodeAtIndex(6)` raises `std::out_of_range`. -/
theorem index_unchecked :
    nodeAtIndex 7 demoList 4 = .ok (some 4) ∧
      nodeAtIndex 7 demoList 5 = .ok none ∧
      subscript 7 demoList 5 = .ok none ∧
      valAtIndex 7 demoList 5 = .error .nullDeref ∧
      nodeAtIndex 7 demoList 6 = .error .outOfRange := by
  refine ⟨?_, ?_, ?_, ?_, ?_⟩ <;> rfl

end LinkedList

end DSA
